import Mathlib

/-!
# The grid/place-cell navigation model

A shallow embedding of `src/graph.cc` (`PlaceCell`, `PlaceGraph::update`) together with
the parts of `numerical.cc` (`Vector`) and `model.h` (`Model`) that the place graph reads
and writes, followed by `Periodic::modulo` (`numerical.h`), the update rules of the
networks (`network.cc`, `motor.cc`, `mec.cc`, `mecdiff.cc`), the motor decision of
`Model::simulate_timestep` (`model.cc`) and the agent (`agent.cc`), and then by the grid
sheets with their shifted-mask input and bump tracker (`mec.cc`), `Model::settle`
(`model.cc`) and the simulation loop (`simulation.cc`, `arena.cc`).

Conventions of the embedding.

* Heap cells are never freed and `PlaceGraph::cells` only grows by `push_back`, so a
  `PlaceCell *` is modelled by the position of the cell in `cells`; `nullptr` is `none`.
* `double`/`real` values are elements of an arbitrary linearly ordered commutative ring `α`
  (exact arithmetic, no rounding). Instantiating `α := ℤ` makes every definition evaluate.
* `PlaceCell::distance` takes a square root. The code only ever compares distances, so the
  embedding keeps the squared distance and compares squares (`sqrt_lt`, `sqrt_gt`,
  `sqrt_le`); the lemmas `sqrt_lt_iff_real`, `sqrt_gt_iff_real` and `sqrt_le_iff_real`
  relate the three tests to `Real.sqrt`.
* A failed `assert`, a null dereference and an out-of-range vector access make the
  operation return `none`.
* Edge strengths are `int`s that start at `PLACE_CONNECTION_STRENGTH` and are only ever
  decremented down to zero, so no wrap-around can occur and they are modelled in `Int`.
* The networks and the agent divide, so their values are elements of an arbitrary
  linearly ordered field; the functions of `<cmath>` are a parameter `Libm`, which the
  closed examples instantiate with the real functions.
* The grid modules are not part of the model state: what they hand to the place graph and
  to the motor decision in a timestep is an argument of `simulate_timestep`, and the random
  numbers drawn by a hook are arguments of the hook. The sheets of a module are embedded
  on their own (`MecNetwork`, `GridModule`), for the bump tracker and for `Model::settle`.
* A loop without a bound (`while (true)`, `while (this->step())`) takes fuel and returns a
  `LoopResult`, which tells a result from a fault and from running out of fuel.
* The geometry library behind `Arena` is a parameter: an `Arena` is given by the
  intersections of a beam and by the test whether a segment meets it.
-/

set_option linter.unusedSectionVars false

namespace GridPlaceNav

/-! ## Constants and enumerations (`main.h`, `graph.h`) -/

/-- The constant `PLACE_CONNECTION_STRENGTH` of `main.h`. -/
def PLACE_CONNECTION_STRENGTH : Int := 2

/-- The enumeration `ReplayMode` of `graph.h`. -/
inductive ReplayMode where
  | maintain_current_node
  | goal_node
  | agent_node
deriving DecidableEq

/-! ## `Vector` (`numerical.cc`) -/

/-- A `Vector`: the list of its `values`; its `size` is the length of the list. -/
abbrev Vector (α : Type) := List α

/-- The constructor `Vector::Vector(int size, real initial_value)`. -/
def Vector.mk {α : Type} (size : Nat) (initial_value : α) : Vector α :=
  List.replicate size initial_value

/-- The method `Vector::copy_from`: asserts equal sizes, then copies `other->values[x]`
into `this->values[x]` for `x = 0, ..., size - 1`. -/
def Vector.copy_from {α : Type} (this other : Vector α) : Option (Vector α) :=
  if this.length ≠ other.length then none
  else (List.range this.length).foldlM
    (fun (v : Vector α) (x : Nat) => (other[x]?).map (fun o => v.set x o)) this

/-! ## Data model (`graph.h`, `model.h`) -/

/-- The class `PlaceCell`. Pointers to cells are positions in `PlaceGraph.cells`. -/
structure PlaceCell (α : Type) where
  index : Nat
  x : α
  y : α
  neighbors : List (Nat × Int)
  bfs_predecessor : Option Nat
  replay_source : Option Nat
  grid_state : List (Vector α)
deriving DecidableEq

/-- The part of `Model` used by the place graph: `conf.module_count` and the
`neurons[current_activity]` vectors of `mec_moving_convolved[i]` and
`mec_fixed_convolved[i]`. -/
structure Model (α : Type) where
  module_count : Nat
  mec_moving_convolved : List (Vector α)
  mec_fixed_convolved : List (Vector α)
deriving DecidableEq

/-- The member `PlaceGraph::input`. -/
structure GraphInput (α : Type) where
  x : α
  y : α
  reward_id : Int
  save_reward : Bool
  form_place_cells : Bool
  weaken_synapse : Bool
  reset_replay_to : ReplayMode
  propagate_replay_towards : ReplayMode
deriving DecidableEq

/-- The member `PlaceGraph::output`. `subgoal_direction` holds the two arguments
`(dy, dx)` that the code hands to `atan2`; `none` stands for the literal `0.0`. -/
structure GraphOutput (α : Type) where
  at_goal : Bool
  subgoal_visible : Bool
  subgoal_direction : Option (α × α)
  at_subgoal : Bool
  replay_terminated : Bool
deriving DecidableEq

/-- The class `PlaceGraph`. `reward_locations` is the `std::map` as an association list
in which the first entry for a key is the current one. -/
structure PlaceGraph (α : Type) where
  input : GraphInput α
  output : GraphOutput α
  cells : List (PlaceCell α)
  reward_locations : List (Int × Nat)
  agent_cell : Option Nat
  reward_cell : Option Nat
  replay_cell : Option Nat
  place_cell_radius : α
deriving DecidableEq

section Ops

variable {α : Type} [LinearOrderedCommRing α]

/-- The default member initialisers of `PlaceGraph::input` (`x`, `y` are uninitialised
in the source and are written before every update). -/
def GraphInput.default : GraphInput α :=
  { x := 0, y := 0, reward_id := 0, save_reward := false, form_place_cells := true,
    weaken_synapse := false, reset_replay_to := ReplayMode.maintain_current_node,
    propagate_replay_towards := ReplayMode.maintain_current_node }

/-- The constructor `PlaceGraph::PlaceGraph(place_cell_radius)` with the default member
initialisers of `graph.h`: no cells, no reward locations, all three pointers null. -/
def PlaceGraph.init (place_cell_radius : α) : PlaceGraph α :=
  { input := GraphInput.default,
    output := { at_goal := false, subgoal_visible := false, subgoal_direction := none,
                at_subgoal := false, replay_terminated := false },
    cells := [], reward_locations := [], agent_cell := none, reward_cell := none,
    replay_cell := none, place_cell_radius := place_cell_radius }

/-! ## Distances -/

/-- The radicand of `PlaceCell::distance(x, y)`, that is
`pow(x - this->x, 2) + pow(y - this->y, 2)`. -/
def PlaceCell.distance_sq (c : PlaceCell α) (x y : α) : α :=
  (x - c.x) ^ 2 + (y - c.y) ^ 2

/-- The arguments `(this->y - y, this->x - x)` of `atan2` in `PlaceCell::direction`. -/
def PlaceCell.direction (c : PlaceCell α) (x y : α) : α × α :=
  (c.y - y, c.x - x)

/-- The test `sqrt a < sqrt b` on radicands. -/
def sqrt_lt (a b : α) : Bool := decide (a < b)

/-- The test `sqrt a > r` on a radicand `a` and a bound `r`. -/
def sqrt_gt (a r : α) : Bool := decide (r < 0) || decide (r ^ 2 < a)

/-- The test `sqrt a <= r` on a radicand `a` and a bound `r`. -/
def sqrt_le (a r : α) : Bool := decide (0 ≤ r) && decide (a ≤ r ^ 2)

/-! ## `PlaceCell` methods -/

/-- The method `PlaceCell::capture_grid_state_from_model`, as the list of vectors that it
pushes onto `grid_state`: for each module a fresh `Vector` of the size of the moving
convolved sheet, filled by `copy_from`. -/
def capture_grid_state_from_model (model : Model α) : Option (List (Vector α)) :=
  (List.range model.module_count).mapM (fun i => do
    let src ← model.mec_moving_convolved[i]?
    Vector.copy_from (Vector.mk src.length (0 : α)) src)

/-- The method `PlaceCell::transfer_grid_state_to_decoder`: asserts that there is one
snapshot per module and copies snapshot `i` into the fixed convolved sheet `i`. -/
def transfer_grid_state_to_decoder (grid_state : List (Vector α)) (model : Model α) :
    Option (Model α) :=
  if grid_state.length ≠ model.module_count then none
  else (List.range model.module_count).foldlM (fun (m : Model α) (i : Nat) => do
    let src ← grid_state[i]?
    let dst ← m.mec_fixed_convolved[i]?
    let dst' ← Vector.copy_from dst src
    some { m with mec_fixed_convolved := m.mec_fixed_convolved.set i dst' }) model

/-- The method `PlaceCell::weaken_neighbor` on the neighbour list: every entry for
`neighbor` met by the iteration is decremented; the first one that drops to zero or
below is erased and the iteration stops. -/
def weaken_neighbor : List (Nat × Int) → Nat → List (Nat × Int)
  | [], _ => []
  | (n, s) :: rest, neighbor =>
    if n = neighbor then
      if s - 1 ≤ 0 then rest
      else (n, s - 1) :: weaken_neighbor rest neighbor
    else (n, s) :: weaken_neighbor rest neighbor

/-! ## `PlaceGraph::update`, phase by phase -/

/-- The search loop of lines 70-78: `acc` is `(closest_cell, closest_dist)`, `none` while
`closest_cell` is null (the initial `HUGE_VAL` is never compared, because the null test
short-circuits); `i` is the pointer of the head of the remaining cells. -/
def find_closest (x y : α) : List (PlaceCell α) → Nat → Option (Nat × α) → Option (Nat × α)
  | [], _, acc => acc
  | c :: cs, i, acc =>
    let current_dist := c.distance_sq x y
    match acc with
    | none => find_closest x y cs (i + 1) (some (i, current_dist))
    | some (closest_cell, closest_dist) =>
      if sqrt_lt current_dist closest_dist then
        find_closest x y cs (i + 1) (some (i, current_dist))
      else find_closest x y cs (i + 1) (some (closest_cell, closest_dist))

/-- The condition of line 79-81 for forming a new place cell. -/
def should_form (g : PlaceGraph α) (closest : Option (Nat × α)) : Bool :=
  g.input.form_place_cells &&
    (match closest with
     | none => true
     | some (_, closest_dist) => sqrt_gt closest_dist (2 * g.place_cell_radius))

/-- Lines 70-86: find the closest cell and form a new one if it is too far away.
Returns the graph and the local `closest_cell`. -/
def PlaceGraph.form_cell (g : PlaceGraph α) (model : Model α) :
    Option (PlaceGraph α × Option Nat) :=
  let closest := find_closest g.input.x g.input.y g.cells 0 none
  if should_form g closest then do
    let snap ← capture_grid_state_from_model model
    let new_cell : PlaceCell α :=
      { index := g.cells.length, x := g.input.x, y := g.input.y, neighbors := [],
        bfs_predecessor := none, replay_source := none, grid_state := snap }
    some ({ g with cells := g.cells ++ [new_cell] }, some g.cells.length)
  else some (g, closest.map Prod.fst)

/-- Lines 91-107: connect the previous agent cell with `closest_cell` unless they are
the same or already connected, then make `closest_cell` the agent cell. -/
def PlaceGraph.connect (g : PlaceGraph α) (closest_cell : Option Nat) :
    Option (PlaceGraph α) :=
  match g.agent_cell with
  | none => some { g with agent_cell := closest_cell }
  | some a =>
    if some a = closest_cell then some { g with agent_cell := closest_cell }
    else do
      let c ← closest_cell
      let cc ← g.cells[c]?
      let already_connected := cc.neighbors.any (fun p => p.1 = a)
      if already_connected then some { g with agent_cell := closest_cell }
      else
        let cells1 := g.cells.set c
          { cc with neighbors := cc.neighbors ++ [(a, PLACE_CONNECTION_STRENGTH)] }
        let ac ← cells1[a]?
        let cells2 := cells1.set a
          { ac with neighbors := ac.neighbors ++ [(c, PLACE_CONNECTION_STRENGTH)] }
        some { g with cells := cells2, agent_cell := closest_cell }

/-- The assignment `reward_locations[key] = value` on the association list. -/
def map_set (m : List (Int × Nat)) (key : Int) (value : Nat) : List (Int × Nat) :=
  (key, value) :: m.filter (fun p => p.1 ≠ key)

/-- The lookup `reward_locations[key]` after `count(key) != 0` has been asserted. -/
def map_get (m : List (Int × Nat)) (key : Int) : Option Nat :=
  (m.find? (fun p => p.1 = key)).map Prod.snd

/-- Lines 112-116: store the agent cell as the location of the current reward. -/
def PlaceGraph.save_reward (g : PlaceGraph α) : Option (PlaceGraph α) :=
  if g.input.save_reward then
    if 0 < g.input.reward_id then
      match g.agent_cell with
      | none => none
      | some a => some { g with reward_locations := map_set g.reward_locations g.input.reward_id a }
    else none
  else some g

/-- Lines 120-125: weaken the synapse last crossed by the replay, on both endpoints. -/
def PlaceGraph.weaken (g : PlaceGraph α) : Option (PlaceGraph α) :=
  if g.input.weaken_synapse then
    match g.replay_cell with
    | none => some g
    | some r => do
      let rc ← g.cells[r]?
      match rc.replay_source with
      | none => some g
      | some s =>
        let cells1 := g.cells.set r { rc with neighbors := weaken_neighbor rc.neighbors s }
        let sc ← cells1[s]?
        let cells2 := cells1.set s { sc with neighbors := weaken_neighbor sc.neighbors r }
        some { g with cells := cells2 }
  else some g

/-- Lines 169-172: clear the transient fields of every cell. -/
def bfs_clear (cells : List (PlaceCell α)) : List (PlaceCell α) :=
  cells.map (fun c => { c with bfs_predecessor := none, replay_source := none })

/-- The inner loop of lines 179-185 over the neighbour list of `current_bfs_cell`. -/
def bfs_scan (current_bfs_cell : Nat) :
    List (Nat × Int) → List (PlaceCell α) → List Nat → Option (List (PlaceCell α) × List Nat)
  | [], cells, fifo => some (cells, fifo)
  | (neighbor, _) :: rest, cells, fifo => do
    let nc ← cells[neighbor]?
    if nc.bfs_predecessor = none then
      bfs_scan current_bfs_cell rest
        (cells.set neighbor { nc with bfs_predecessor := some current_bfs_cell })
        (fifo ++ [neighbor])
    else bfs_scan current_bfs_cell rest cells fifo

/-- The loop `while (fifo.size() > 0)` of lines 176-186. Each unit of `fuel` pays for one
`pop_front`; the result is `none` when the fuel runs out with a non-empty queue. -/
def bfs_loop : Nat → List (PlaceCell α) → List Nat → Option (List (PlaceCell α))
  | _, cells, [] => some cells
  | 0, _, _ :: _ => none
  | fuel + 1, cells, current_bfs_cell :: fifo => do
    let cc ← cells[current_bfs_cell]?
    let (cells', fifo') ← bfs_scan current_bfs_cell cc.neighbors cells fifo
    bfs_loop fuel cells' fifo'

/-- Lines 167-186 with an explicit amount of fuel for the `while` loop. -/
def bfs_with_fuel (fuel : Nat) (cells : List (PlaceCell α)) (bfs_start : Nat) :
    Option (List (PlaceCell α)) := do
  let cells0 := bfs_clear cells
  let sc ← cells0[bfs_start]?
  let cells1 := cells0.set bfs_start { sc with bfs_predecessor := some bfs_start }
  bfs_loop fuel cells1 [bfs_start]

/-- Lines 167-186: the breadth-first search from `bfs_start`. Every cell enters the queue
at most once, so `cells.length` units of fuel are enough, and more fuel gives the same
result. -/
def bfs (cells : List (PlaceCell α)) (bfs_start : Nat) : Option (List (PlaceCell α)) :=
  bfs_with_fuel cells.length cells bfs_start

/-- The node named by a `ReplayMode` other than `maintain_current_node`:
`goal_node` is `reward_cell`, otherwise `agent_cell`. -/
def PlaceGraph.select_node (g : PlaceGraph α) (mode : ReplayMode) : Option Nat :=
  if mode = ReplayMode.goal_node then g.reward_cell else g.agent_cell

/-- Lines 158-205: propagate the replay one step towards `propagate_replay_towards`. -/
def PlaceGraph.propagate (g : PlaceGraph α) : Option (PlaceGraph α) := do
  let bfs_start ← g.select_node g.input.propagate_replay_towards
  let cells ← bfs g.cells bfs_start
  let r ← g.replay_cell
  let rc ← cells[r]?
  match rc.bfs_predecessor with
  | some p => do
    let pc ← cells[p]?
    let cells' := cells.set p { pc with replay_source := some r }
    let pc' ← cells'[p]?
    some { g with
      cells := cells',
      replay_cell := some p,
      output := { g.output with replay_terminated := decide (some p = pc'.bfs_predecessor) } }
  | none =>
    some { g with cells := cells, output := { g.output with replay_terminated := true } }

/-- Lines 148-152: reset the replay cell if requested. -/
def PlaceGraph.reset_replay (g : PlaceGraph α) : PlaceGraph α :=
  if g.input.reset_replay_to ≠ ReplayMode.maintain_current_node then
    { g with replay_cell := g.select_node g.input.reset_replay_to }
  else g

/-- The guard of line 158 around the propagation. -/
def PlaceGraph.propagate_if_requested (g : PlaceGraph α) : Option (PlaceGraph α) :=
  if g.input.propagate_replay_towards ≠ ReplayMode.maintain_current_node then g.propagate
  else some g

/-- Lines 130-209: clear `replay_terminated`, then perform the replay update if one was
requested: fetch the reward cell, reset and/or propagate the replay cell, and transfer the
grid state of the replay cell to the decoder. -/
def PlaceGraph.replay (g : PlaceGraph α) (model : Model α) :
    Option (PlaceGraph α × Model α) :=
  let g0 := { g with output := { g.output with replay_terminated := false } }
  let perform_replay_update :=
    g0.input.reset_replay_to ≠ ReplayMode.maintain_current_node ∨
    g0.input.propagate_replay_towards ≠ ReplayMode.maintain_current_node
  if perform_replay_update then
    if 0 < g0.input.reward_id then do
      let rw ← map_get g0.reward_locations g0.input.reward_id
      let g3 ← PlaceGraph.propagate_if_requested
        (PlaceGraph.reset_replay { g0 with reward_cell := some rw })
      let r ← g3.replay_cell
      let rc ← g3.cells[r]?
      let model' ← transfer_grid_state_to_decoder rc.grid_state model
      some (g3, model')
    else none
  else some (g0, model)

/-- The test `(cell != nullptr) && (cell->distance(x, y) <= bound)` of lines 214-219. -/
def cell_within (cells : List (PlaceCell α)) (cell : Option Nat) (x y bound : α) :
    Option Bool :=
  match cell with
  | none => some false
  | some w => (cells[w]?).map (fun wc => sqrt_le (wc.distance_sq x y) bound)

/-- The value of line 220-221: `0.0` when the subgoal is not visible, otherwise the
direction from `(x, y)` to the replay cell. -/
def subgoal_direction_of (cells : List (PlaceCell α)) (replay_cell : Option Nat)
    (subgoal_visible : Bool) (x y : α) : Option (Option (α × α)) :=
  if subgoal_visible then
    match replay_cell with
    | none => none
    | some r => (cells[r]?).map (fun rc => some (rc.direction x y))
  else some none

/-- Lines 214-221: the output flags for goal and subgoal. -/
def PlaceGraph.set_outputs (g : PlaceGraph α) : Option (PlaceGraph α) := do
  let at_goal ← cell_within g.cells g.reward_cell g.input.x g.input.y g.place_cell_radius
  let at_subgoal ← cell_within g.cells g.replay_cell g.input.x g.input.y g.place_cell_radius
  let subgoal_visible ←
    cell_within g.cells g.replay_cell g.input.x g.input.y (3 * g.place_cell_radius)
  let subgoal_direction ←
    subgoal_direction_of g.cells g.replay_cell subgoal_visible g.input.x g.input.y
  some { g with output := { g.output with
    at_goal := at_goal, at_subgoal := at_subgoal, subgoal_visible := subgoal_visible,
    subgoal_direction := subgoal_direction } }

/-- The state after lines 70-125, that is, just before the replay update. -/
def PlaceGraph.pre_replay (g : PlaceGraph α) (model : Model α) : Option (PlaceGraph α) := do
  let (g1, closest_cell) ← g.form_cell model
  let g2 ← g1.connect closest_cell
  let g3 ← g2.save_reward
  g3.weaken

/-- The method `PlaceGraph::update(model)`: returns the new graph and the model with its
fixed convolved sheets possibly overwritten. -/
def PlaceGraph.update (g : PlaceGraph α) (model : Model α) :
    Option (PlaceGraph α × Model α) := do
  let g4 ← g.pre_replay model
  let (g5, model') ← g4.replay model
  let g6 ← g5.set_outputs
  some (g6, model')

/-- One call of `update` after the caller has written the input variables. -/
def PlaceGraph.step (g : PlaceGraph α) (inp : GraphInput α) (model : Model α) :
    Option (PlaceGraph α × Model α) :=
  PlaceGraph.update { g with input := inp } model

/-- The graphs that arise from the empty graph when the caller writes the input variables
and calls `update`, any number of times, with arbitrary inputs and arbitrary model states
in between; only successful calls count. -/
inductive Reachable : PlaceGraph α → Prop
  | init (place_cell_radius : α) : Reachable (PlaceGraph.init place_cell_radius)
  | write_input (g : PlaceGraph α) (inp : GraphInput α) :
      Reachable g → Reachable { g with input := inp }
  | update (g g' : PlaceGraph α) (model model' : Model α) :
      Reachable g → g.update model = some (g', model') → Reachable g'

/-! ## Vocabulary of the specification -/

/-- The neighbour list of the cell that pointer `i` refers to (empty for a dangling `i`). -/
def nbrs (cells : List (PlaceCell α)) (i : Nat) : List (Nat × Int) :=
  match cells[i]? with
  | some c => c.neighbors
  | none => []

/-- The `bfs_predecessor` of the cell at `i` (null for a dangling `i`). -/
def pred_of (cells : List (PlaceCell α)) (i : Nat) : Option Nat :=
  match cells[i]? with
  | some c => c.bfs_predecessor
  | none => none

/-- The `replay_source` of the cell at `i` (null for a dangling `i`). -/
def source_of (cells : List (PlaceCell α)) (i : Nat) : Option Nat :=
  match cells[i]? with
  | some c => c.replay_source
  | none => none

/-- The edge invariant of the place graph, on the map `N` from cell pointers to neighbour
lists: edges are symmetric with equal strengths, a cell has at most one entry per
neighbour and none for itself, and strengths lie in `1 ..= PLACE_CONNECTION_STRENGTH`. -/
structure EdgeInv (N : Nat → List (Nat × Int)) : Prop where
  sym : ∀ a b s, (b, s) ∈ N a → (a, s) ∈ N b
  nodup : ∀ a, ((N a).map Prod.fst).Nodup
  irrefl : ∀ a s, (a, s) ∉ N a
  pos : ∀ a b s, (b, s) ∈ N a → 0 < s
  le_max : ∀ a b s, (b, s) ∈ N a → s ≤ PLACE_CONNECTION_STRENGTH

/-- The neighbour map after a new edge between `a` and `c` has been pushed on both
lists. -/
def add_edge (N : Nat → List (Nat × Int)) (a c : Nat) : Nat → List (Nat × Int) :=
  fun j =>
    if j = a then N a ++ [(c, PLACE_CONNECTION_STRENGTH)]
    else if j = c then N c ++ [(a, PLACE_CONNECTION_STRENGTH)]
    else N j

/-- The neighbour map after `r` has weakened `s` and then `s` has weakened `r`. -/
def weaken_edge (N : Nat → List (Nat × Int)) (r s : Nat) : Nat → List (Nat × Int) :=
  fun j =>
    let N1 : Nat → List (Nat × Int) := fun k => if k = r then weaken_neighbor (N r) s else N k
    if j = s then weaken_neighbor (N1 s) r else N1 j

/-- The neighbour map after lines 91-107, for the previous agent cell `agent` and the
local `closest_cell`. -/
def connect_nbrs (N : Nat → List (Nat × Int)) (agent closest_cell : Option Nat) :
    Nat → List (Nat × Int) :=
  match agent, closest_cell with
  | some a, some c =>
    if a ≠ c ∧ (N c).any (fun p => p.1 = a) = false then add_edge N a c else N
  | _, _ => N

/-- The neighbour map after lines 120-125, for the replay cell and its `replay_source`. -/
def weaken_nbrs (N : Nat → List (Nat × Int)) (weaken_synapse : Bool)
    (replay_cell replay_source : Option Nat) : Nat → List (Nat × Int) :=
  match weaken_synapse, replay_cell, replay_source with
  | true, some r, some s => weaken_edge N r s
  | _, _, _ => N

/-- A walk of `n` hops from `a` to `b` along neighbour lists: each hop goes from a cell
to a cell listed in its `neighbors`. -/
inductive Walk (N : Nat → List (Nat × Int)) (a : Nat) : Nat → Nat → Prop
  | nil : Walk N a a 0
  | snoc (b c n : Nat) (s : Int) : Walk N a b n → (c, s) ∈ N b → Walk N a c (n + 1)

/-- Cell `b` is reachable from cell `a` through neighbour lists. -/
def Reach (N : Nat → List (Nat × Int)) (a b : Nat) : Prop := ∃ n, Walk N a b n

/-- The hop distance from `a` to `b` is `d`: there is a walk of `d` hops and none
shorter. -/
def HopDist (N : Nat → List (Nat × Int)) (a b d : Nat) : Prop :=
  Walk N a b d ∧ ∀ n, Walk N a b n → d ≤ n

/-- Every pointer stored in a neighbour list refers to an existing cell. -/
def ValidNbrs (cells : List (PlaceCell α)) : Prop :=
  ∀ i, ∀ p ∈ nbrs cells i, p.1 < cells.length

/-- The number of cells whose `bfs_predecessor` is null. -/
def unmarked (cells : List (PlaceCell α)) : Nat :=
  cells.countP (fun c => c.bfs_predecessor = none)

/-- The loop invariant of the breadth-first search at the head of the `while` loop, for
the predecessor map `P`, the queue `fifo` and the hop distances `D` of the marked cells. -/
structure BfsInv (N : Nat → List (Nat × Int)) (root : Nat) (D : Nat → Nat)
    (P : Nat → Option Nat) (fifo : List Nat) : Prop where
  root_pred : P root = some root
  dist : ∀ v, P v ≠ none → HopDist N root v (D v)
  tree : ∀ v p, P v = some p → v ≠ root →
    P p ≠ none ∧ (∃ s, (v, s) ∈ N p) ∧ D v = D p + 1
  queued : ∀ x ∈ fifo, P x ≠ none
  sorted : fifo.Pairwise (fun x y => D x ≤ D y)
  narrow : ∀ x ∈ fifo, ∀ y ∈ fifo, D y ≤ D x + 1
  closed : ∀ v, P v ≠ none → v ∉ fifo → ∀ w s, (w, s) ∈ N v → P w ≠ none

/-- The invariant of the inner `for` loop while the neighbours of `cur` are scanned;
`done` is the part of the neighbour list already handled. -/
structure ScanInv (N : Nat → List (Nat × Int)) (root : Nat) (D : Nat → Nat)
    (P : Nat → Option Nat) (fifo : List Nat) (cur : Nat) (done : List (Nat × Int)) :
    Prop where
  root_pred : P root = some root
  dist : ∀ v, P v ≠ none → HopDist N root v (D v)
  tree : ∀ v p, P v = some p → v ≠ root →
    P p ≠ none ∧ (∃ s, (v, s) ∈ N p) ∧ D v = D p + 1
  queued : ∀ x ∈ fifo, P x ≠ none
  sorted : fifo.Pairwise (fun x y => D x ≤ D y)
  cur_marked : P cur ≠ none
  band : ∀ x ∈ fifo, D cur ≤ D x ∧ D x ≤ D cur + 1
  closed : ∀ v, P v ≠ none → v ∉ fifo → v ≠ cur → ∀ w s, (w, s) ∈ N v → P w ≠ none
  done_marked : ∀ p ∈ done, P p.1 ≠ none
  low : ∀ v n, Walk N root v n → n ≤ D cur → P v ≠ none

/-- The fields of a cell that are written only when the cell is constructed. -/
def PlaceCell.ident (c : PlaceCell α) : Nat × α × α × List (Vector α) :=
  (c.index, c.x, c.y, c.grid_state)

/-- Cell `a` is the unique cell of `cells` at minimal distance from `(x, y)`: every other
cell is strictly farther away. -/
def IsUniqueNearest (cells : List (PlaceCell α)) (x y : α) (a : Nat) : Prop :=
  ∃ A : PlaceCell α, cells[a]? = some A ∧
    ∀ (j : Nat) (c : PlaceCell α), cells[j]? = some c → j ≠ a →
      A.distance_sq x y < c.distance_sq x y

/-- Cell `a` is the first cell of `cells` at minimal distance from `(x, y)`: no cell is
nearer and every cell created before it is strictly farther away. -/
def IsFirstNearest (cells : List (PlaceCell α)) (x y : α) (a : Nat) : Prop :=
  ∃ A : PlaceCell α, cells[a]? = some A ∧
    (∀ (j : Nat) (c : PlaceCell α), cells[j]? = some c →
      A.distance_sq x y ≤ c.distance_sq x y) ∧
    (∀ (j : Nat) (c : PlaceCell α), cells[j]? = some c → j < a →
      A.distance_sq x y < c.distance_sq x y)

/-- The formation condition in the words of the specification: formation is enabled and
either no cell exists or the distance to a nearest cell exceeds `2 * place_cell_radius`. -/
def FormCond (g : PlaceGraph α) : Prop :=
  g.input.form_place_cells = true ∧
    (g.cells = [] ∨
      ∃ c ∈ g.cells,
        (∀ c' ∈ g.cells,
          c.distance_sq g.input.x g.input.y ≤ c'.distance_sq g.input.x g.input.y) ∧
        sqrt_gt (c.distance_sq g.input.x g.input.y) (2 * g.place_cell_radius) = true)

/-- The entries for neighbour `b` in a neighbour list. -/
def entries_for (L : List (Nat × Int)) (b : Nat) : List (Nat × Int) :=
  L.filter (fun p => p.1 = b)

/-- The pair `(i, j)` is the pair of the previous and the new agent cell, in either
order. -/
def IsAgentEdge (g g' : PlaceGraph α) (i j : Nat) : Prop :=
  (g.agent_cell = some i ∧ g'.agent_cell = some j) ∨
  (g.agent_cell = some j ∧ g'.agent_cell = some i)

/-- The update of `g` weakens the edge between `a` and `c`: `weaken_synapse` is set and
the replay cell and its `replay_source` are `a` and `c`, in either order. -/
def WeakensEdge (g : PlaceGraph α) (a c : Nat) : Prop :=
  g.input.weaken_synapse = true ∧
    ∃ r s, g.replay_cell = some r ∧ source_of g.cells r = some s ∧
      ((r = a ∧ s = c) ∨ (r = c ∧ s = a))

/-- The replay cell at the start of the propagation of an update from `g` to `g'`, that
is, after the reset of lines 148-152: the node named by `reset_replay_to` if a reset was
requested, otherwise the replay cell before the update. -/
def old_replay_cell (g g' : PlaceGraph α) : Option Nat :=
  if g.input.reset_replay_to ≠ ReplayMode.maintain_current_node then
    g'.select_node g.input.reset_replay_to
  else g.replay_cell

/-- The root of the search of an update from `g` to `g'`: the node named by
`propagate_replay_towards`. -/
def bfs_root (g g' : PlaceGraph α) : Option Nat :=
  g'.select_node g.input.propagate_replay_towards

/-- The graphs built from the empty graph, together with the record `S` of what the
moving convolved sheets of the model were when each cell was formed: entry `i` of `S`
is the list of the first `module_count` moving convolved sheets of the model that was
passed to the update which created cell `i`. -/
inductive Formed : PlaceGraph α → List (List (Vector α)) → Prop
  | init (place_cell_radius : α) : Formed (PlaceGraph.init place_cell_radius) []
  | write_input (g : PlaceGraph α) (S : List (List (Vector α))) (inp : GraphInput α) :
      Formed g S → Formed { g with input := inp } S
  | update_formed (g g' : PlaceGraph α) (model model' : Model α)
      (S : List (List (Vector α))) :
      Formed g S → g.update model = some (g', model') →
      g'.cells.length = g.cells.length + 1 →
      Formed g' (S ++ [model.mec_moving_convolved.take model.module_count])
  | update_kept (g g' : PlaceGraph α) (model model' : Model α)
      (S : List (List (Vector α))) :
      Formed g S → g.update model = some (g', model') →
      g'.cells.length = g.cells.length → Formed g' S

end Ops

/-! ## Test scenario -/

section Scenario

/-- A one-module model with two-neuron sheets. -/
def scen_model : Model ℤ :=
  { module_count := 1, mec_moving_convolved := [[3, 4]], mec_fixed_convolved := [[0, 0]] }

/-- The model `scen_model` after a replay update has written the snapshot `[3, 4]` of a
cell into the fixed convolved sheet. -/
def scen_model_replayed : Model ℤ :=
  { module_count := 1, mec_moving_convolved := [[3, 4]], mec_fixed_convolved := [[3, 4]] }

/-- The input of a plain visit of `(x, y)` with formation enabled. -/
def scen_visit (x y : ℤ) : GraphInput ℤ :=
  { x := x, y := y, reward_id := 0, save_reward := false, form_place_cells := true,
    weaken_synapse := false, reset_replay_to := ReplayMode.maintain_current_node,
    propagate_replay_towards := ReplayMode.maintain_current_node }

/-- Runs a list of inputs from a graph, with the same model state before each update. -/
def run_inputs (model : Model ℤ) : PlaceGraph ℤ → List (GraphInput ℤ) → Option (PlaceGraph ℤ)
  | g, [] => some g
  | g, inp :: rest =>
    match g.step inp model with
    | some (g', _) => run_inputs model g' rest
    | none => none

/-- The graph obtained from the empty graph of radius `radius` by the given inputs (the
empty graph itself if some update fails). -/
def scen_graph (radius : ℤ) (inputs : List (GraphInput ℤ)) : PlaceGraph ℤ :=
  (run_inputs scen_model (PlaceGraph.init radius) inputs).getD (PlaceGraph.init radius)

/-- A walk `A = (0,0)`, `B = (20,0)`, `C = (40,0)` and back to `A`, with the reward
stored at `C`: the chain `A - B - C` with fresh edges. -/
def scen_chain_walk : List (GraphInput ℤ) :=
  [scen_visit 0 0, scen_visit 20 0,
   { scen_visit 40 0 with save_reward := true, reward_id := 1 },
   scen_visit 20 0, scen_visit 0 0]

/-- A resting update at `A` that resets the replay to the goal `C` and propagates it one
step towards the agent. -/
def scen_reset_and_propagate : GraphInput ℤ :=
  { scen_visit 0 0 with reward_id := 1, reset_replay_to := ReplayMode.goal_node,
                        propagate_replay_towards := ReplayMode.agent_node }

/-- A resting update at `A` that propagates the replay one step towards the agent. -/
def scen_propagate : GraphInput ℤ :=
  { scen_visit 0 0 with reward_id := 1, propagate_replay_towards := ReplayMode.agent_node }

/-- Two propagation steps from the goal: the replay reaches `A` with source `B`. -/
def scen_replay_to_agent : List (GraphInput ℤ) :=
  [scen_reset_and_propagate, scen_propagate]

/-- A resting update at `A` with `weaken_synapse` set. -/
def scen_weaken : GraphInput ℤ := { scen_visit 0 0 with weaken_synapse := true }

/-- The chain `A - B - C` with fresh edges, the agent back at `A`. -/
def scen_chain : PlaceGraph ℤ := scen_graph 7 scen_chain_walk

/-- The chain after the replay has reached `A` with `replay_source` `B`. -/
def scen_replayed : PlaceGraph ℤ := scen_graph 7 (scen_chain_walk ++ scen_replay_to_agent)

/-- The chain after the replay has reached `A` and the edge `A - B` was weakened once. -/
def scen_weakened_once : PlaceGraph ℤ :=
  scen_graph 7 (scen_chain_walk ++ scen_replay_to_agent ++ [scen_weaken])

/-- The chain after the replay has reached `A` and the edge `A - B` was weakened twice. -/
def scen_weakened_twice : PlaceGraph ℤ :=
  scen_graph 7 (scen_chain_walk ++ scen_replay_to_agent ++ [scen_weaken, scen_weaken])

/-- Two cells `(0,0)` and `(30,0)` in a graph of radius 8. -/
def scen_two_far : PlaceGraph ℤ := scen_graph 8 [scen_visit 0 0, scen_visit 30 0]

/-- The graph `scen_two_far` after a visit of the midpoint `(15,0)`. -/
def scen_tie : PlaceGraph ℤ :=
  scen_graph 8 [scen_visit 0 0, scen_visit 30 0, scen_visit 15 0]

/-- The graph `scen_weakened_once` after the agent has walked from `A` to `B`. -/
def scen_recrossed : PlaceGraph ℤ :=
  scen_graph 7 (scen_chain_walk ++ scen_replay_to_agent ++ [scen_weaken, scen_visit 20 0])

/-- An update with `weaken_synapse` set for an agent that was moved from `A` to `C`. -/
def scen_weaken_at_C : GraphInput ℤ := { scen_visit 40 0 with weaken_synapse := true }

/-- The graph `scen_replayed` after the update `scen_weaken_at_C`. -/
def scen_weakened_at_C : PlaceGraph ℤ :=
  scen_graph 7 (scen_chain_walk ++ scen_replay_to_agent ++ [scen_weaken_at_C])

/-- The chain after the first propagation step: the replay is at `B` with source `C`. -/
def scen_first_hop : PlaceGraph ℤ :=
  scen_graph 7 (scen_chain_walk ++ [scen_reset_and_propagate])

end Scenario

end GridPlaceNav

namespace GridPlaceNav

/-! ## Periodic arithmetic (`numerical.h`) -/

/-- The value of a 32-bit `int` after an arithmetic operation whose mathematical result is
`z`: the representative of `z` modulo `2 ^ 32` in `[-2 ^ 31, 2 ^ 31)`. -/
def wrap_int32 (z : Int) : Int := (z + 2147483648) % 4294967296 - 2147483648

/-- The predicate that `z` is the value of a 32-bit `int`. -/
def is_int32 (z : Int) : Prop := -2147483648 ≤ z ∧ z < 2147483648

instance (z : Int) : Decidable (is_int32 z) := by
  unfold is_int32
  infer_instance

/-- The expression `floor(1.0 * value / period)` of `Periodic::modulo`. The two `int`s
convert to `double` exactly; the quotient is taken in the rationals. (For 32-bit operands
the rounding of the `double` division cannot move the quotient across an integer, because
a non-integral quotient is at least `1 / period` away from the nearest integer.) -/
def Periodic.floor_quotient (value period : Int) : Int := ⌊(value : ℚ) / (period : ℚ)⌋

/-- The product `period * (int)floor(1.0 * value / period)` of `Periodic::modulo`, before
it is stored in an `int`. -/
def Periodic.product (value period : Int) : Int :=
  period * wrap_int32 (Periodic.floor_quotient value period)

/-- The function `Periodic::modulo` of `numerical.h`:
`value - period * (int)floor(1.0 * value / period)` in 32-bit `int` arithmetic. -/
def Periodic.modulo (value period : Int) : Int :=
  wrap_int32 (value - wrap_int32 (Periodic.product value period))

end GridPlaceNav

namespace GridPlaceNav

/-! ## Networks (`network.cc`, `motor.cc`, `mec.cc`, `mecdiff.cc`)

The networks compute in `real`/`double`; here their values are elements of an arbitrary
linearly ordered field `α` (exact arithmetic, no rounding). A read `values[i]` of a
vector is `getD i 0`: every vector of a network is allocated by the constructor with as
many entries as the loops run over, and nothing resizes it. -/

/-- The functions of `<cmath>` that the model calls and the constant `M_PI`. They are
parameters of the embedding. -/
structure Libm (α : Type) where
  cos : α → α
  sin : α → α
  atan2 : α → α → α
  exp : α → α
  sqrt : α → α
  pi : α

/-- The reading of a library over the reals: its functions are the real functions that
`<cmath>` approximates, `atan2(y, x)` being the argument of `x + y i`. -/
def IsReal (L : Libm ℝ) : Prop :=
  L.cos = Real.cos ∧ L.sin = Real.sin ∧ (∀ y x : ℝ, L.atan2 y x = Complex.arg ⟨x, y⟩) ∧
  L.exp = Real.exp ∧ L.sqrt = Real.sqrt ∧ L.pi = Real.pi

/-- The enumeration `MotorMode` of `model.h`. -/
inductive MotorMode where
  | halt_mode
  | forced_mode
  | grid_decoder_mode
  | last_heading_mode
deriving DecidableEq

/-- The class `Network`: `current` and `next` are `neurons[current_activity]` and
`neurons[next_activity]`. The list of `Input` objects is fixed by the constructors of the
model and is unfolded at each use. -/
structure Network (α : Type) where
  size : Nat
  current : Vector α
  next : Vector α
  neuron_inputs : Vector α
deriving DecidableEq

/-- The class `MotorNetwork`. -/
structure MotorNetwork (α : Type) extends Network α where
  direction_samples : Nat
  scaling_factor : α
  normalize : Bool
  normalization_spread : α
  normalization_peak : α
  override_active : Bool
  override_direction : α
  override_strength : α
  direction : α
  strength : α
deriving DecidableEq

/-- The constant `MEC_SIZE` of `main.h`. -/
def MEC_SIZE : Nat := 40

/-- The method `NeuralSheetNetwork::coords_to_neuron_index`. -/
def coords_to_neuron_index (x y : Nat) : Nat := y * MEC_SIZE + x

section Networks

variable {α : Type} [LinearOrderedField α]

/-- The macro `MAX` of `main.h`. -/
def MAX (a b : α) : α := if a > b then a else b

/-- The constant `FIXED_SPEED` of `main.h`. -/
def FIXED_SPEED : α := 20

/-- The method `Vector::clear`. -/
def Vector.clear (v : Vector α) : Vector α := v.map (fun _ => 0)

/-- The method `Network::commit`: swaps the current and the next activity. -/
def Network.commit (n : Network α) : Network α :=
  { n with current := n.next, next := n.current }

/-! ### `MotorNetwork` -/

/-- The angle `i * 2 * M_PI / direction_samples` of neuron `i`. -/
def MotorNetwork.angle (L : Libm α) (n : MotorNetwork α) (i : Nat) : α :=
  ((i * 2 : Nat) : α) * L.pi / (n.direction_samples : α)

/-- The sums `x` and `y` of the loop of `calculate_direction_and_strength`. -/
def MotorNetwork.vector_sum (L : Libm α) (n : MotorNetwork α) (values : Vector α) : α × α :=
  (List.range n.direction_samples).foldl
    (fun (acc : α × α) (i : Nat) =>
      let value := values.getD i 0
      let angle := n.angle L i
      (acc.1 + value * L.cos angle, acc.2 + value * L.sin angle)) (0, 0)

/-- The method `MotorNetwork::calculate_direction_and_strength` on the given activity
vector: the pair `(direction, strength)`. -/
def MotorNetwork.calculate_direction_and_strength (L : Libm α) (n : MotorNetwork α)
    (values : Vector α) : α × α :=
  let xy := n.vector_sum L values
  (L.atan2 xy.2 xy.1, L.sqrt (xy.1 ^ 2 + xy.2 ^ 2))

/-- The first loop of `MotorNetwork::update_neuron_values`: the rectified inputs. -/
def MotorNetwork.rectified_inputs (n : MotorNetwork α) : Vector α :=
  (List.range n.direction_samples).map (fun i =>
    let v := n.neuron_inputs.getD i 0
    if v < 0 then 0 else v)

/-- The values written by the second loop of `MotorNetwork::update_neuron_values`: a
bump around `final_direction`. -/
def MotorNetwork.bump (L : Libm α) (n : MotorNetwork α) (final_direction final_strength : α) :
    Vector α :=
  (List.range n.direction_samples).map (fun i =>
    let direction := n.angle L i
    let direction_difference := L.atan2
      (L.sin (direction - final_direction)) (L.cos (direction - final_direction))
    final_strength * L.exp (-(direction_difference ^ 2) / (2 * n.normalization_spread ^ 2)))

/-- The method `MotorNetwork::update_neuron_values`. -/
def MotorNetwork.update_neuron_values (L : Libm α) (n : MotorNetwork α) : MotorNetwork α :=
  let next := n.rectified_inputs
  if n.normalize then
    let ds := n.calculate_direction_and_strength L next
    let final_direction := if n.override_active then n.override_direction else ds.1
    let final_strength := if n.override_active then n.override_strength else ds.2
    let final_strength : α := if final_strength > 0 then 1 else 0
    let values := n.bump L final_direction final_strength
    let peak_activation := values.foldl MAX 0
    let rescaling := if peak_activation > 0 then n.normalization_peak / peak_activation else 0
    { n with next := values.map (fun v => v * rescaling) }
  else { n with next := next }

/-- The strength that the normalization of a ring is based on: the override strength if
the override is active, else the strength of the rectified inputs. -/
def MotorNetwork.chosen_strength (L : Libm α) (n : MotorNetwork α) : α :=
  if n.override_active then n.override_strength
  else (n.calculate_direction_and_strength L n.rectified_inputs).2

/-- The direction that the normalization of a ring is based on. -/
def MotorNetwork.chosen_direction (L : Libm α) (n : MotorNetwork α) : α :=
  if n.override_active then n.override_direction
  else (n.calculate_direction_and_strength L n.rectified_inputs).1

/-- The activity of neuron `i` in the bump of strength 1 around the direction 0. -/
def MotorNetwork.unit_bump (L : Libm α) (n : MotorNetwork α) (i : Nat) : α :=
  (n.bump L 0 1).getD i 0

/-- The unit bump with the neuron opposite to its peak silenced. -/
def MotorNetwork.inhibited_bump (L : Libm α) (n : MotorNetwork α) : Vector α :=
  (List.range n.direction_samples).map
    (fun i => if i = n.direction_samples / 2 then 0 else n.unit_bump L i)

/-- The horizontal component of the vector sum of the unit bump. -/
def MotorNetwork.unit_bump_sum (L : Libm α) (n : MotorNetwork α) : α :=
  ∑ i in Finset.range n.direction_samples, n.unit_bump L i * L.cos (n.angle L i)

/-- The method `MotorNetwork::commit`. -/
def MotorNetwork.commit (L : Libm α) (n : MotorNetwork α) : MotorNetwork α :=
  let ds := n.calculate_direction_and_strength L n.next
  { n with current := n.next, next := n.current, direction := ds.1, strength := ds.2 }

/-- The method `MotorMotorInput::add_inputs`. -/
def MotorMotorInput.add_inputs (efferent afferent : MotorNetwork α) : MotorNetwork α :=
  let neuron_inputs := (List.range efferent.direction_samples).foldl
    (fun (inputs : Vector α) (direction : Nat) =>
      inputs.set direction
        (inputs.getD direction 0
          + afferent.current.getD direction 0 * afferent.scaling_factor))
    efferent.neuron_inputs
  { efferent with neuron_inputs := neuron_inputs }

/-- The method `BorderMotorInput::add_inputs`. -/
def BorderMotorInput.add_inputs (efferent : MotorNetwork α) (border_sensors : Vector α) :
    MotorNetwork α :=
  let neuron_inputs := (List.range efferent.direction_samples).foldl
    (fun (inputs : Vector α) (direction : Nat) =>
      inputs.set direction (inputs.getD direction 0 - border_sensors.getD direction 0))
    efferent.neuron_inputs
  { efferent with neuron_inputs := neuron_inputs }

/-- The start of `Network::update_neuron_inputs`: `neuron_inputs->clear()`. -/
def MotorNetwork.clear_inputs (n : MotorNetwork α) : MotorNetwork α :=
  { n with neuron_inputs := Vector.clear n.neuron_inputs }

/-! ### The sheets and the difference layer -/

/-- The method `MecNetwork::update_neuron_values`; `neurons_enabled` is the array that
`MecNetwork::update` has just filled (with random draws in the Poisson gain mode). -/
def MecNetwork.update_neuron_values (neurons_enabled : List Bool) (n : Network α) :
    Network α :=
  let next := (List.range n.size).map (fun i =>
    let current := n.current.getD i 0
    if neurons_enabled.getD i false then
      let input := 1 + n.neuron_inputs.getD i 0
      let input := if input < 0 then 0 else input
      let output_change := input - current
      let output_change := output_change * (1 / 10)
      current + output_change
    else current)
  { n with next := next }

/-- The method `ConvolvedMecNetwork::update_neuron_values`. -/
def ConvolvedMecNetwork.update_neuron_values (n : Network α) : Network α :=
  { n with next := (List.range n.size).map (fun i => n.neuron_inputs.getD i 0) }

/-- The method `MecConvolveInput::add_inputs`: every afferent neuron adds a quarter of its
activity to itself and to its right, lower and lower-right neighbour on the torus. -/
def MecConvolveInput.add_inputs (efferent afferent : Network α) : Network α :=
  let neuron_inputs :=
    (List.range MEC_SIZE).foldl (fun (inputs : Vector α) (y : Nat) =>
      (List.range MEC_SIZE).foldl (fun (inputs : Vector α) (x : Nat) =>
        let afferent_value := afferent.current.getD (coords_to_neuron_index x y) 0
        (List.range 2).foldl (fun (inputs : Vector α) (dy : Nat) =>
          (List.range 2).foldl (fun (inputs : Vector α) (dx : Nat) =>
            let efferent_index :=
              coords_to_neuron_index ((x + dx) % MEC_SIZE) ((y + dy) % MEC_SIZE)
            inputs.set efferent_index
              (inputs.getD efferent_index 0 + 1 / 4 * afferent_value))
            inputs) inputs) inputs) efferent.neuron_inputs
  { efferent with neuron_inputs := neuron_inputs }

/-- The method `Network::update` of a `ConvolvedMecNetwork`, whose only input is the
`MecConvolveInput` from its afferent sheet. -/
def ConvolvedMecNetwork.update (n afferent : Network α) : Network α :=
  ConvolvedMecNetwork.update_neuron_values
    (MecConvolveInput.add_inputs { n with neuron_inputs := Vector.clear n.neuron_inputs }
      afferent)

/-- The method `MecDiffNetwork::update_neuron_values`. -/
def MecDiffNetwork.update_neuron_values (simplified : Bool) (n : Network α) : Network α :=
  let next := (List.range n.size).map (fun i =>
    let input := n.neuron_inputs.getD i 0
    let input := if simplified then input - 3 / 5 else input
    if input < 0 then 0 else input)
  { n with next := next }

end Networks

end GridPlaceNav

namespace GridPlaceNav

/-! ## The model (`model.cc`) -/

/-- The member `Model::input`. -/
structure ModelInput (α : Type) where
  heading : α
  speed : α
  motor_mode : MotorMode
  motor_tuning : α
  motor_offset : α
  confidence_threshold : α
deriving DecidableEq

/-- The member `Model::output`. -/
structure ModelOutput (α : Type) where
  heading : α
  speed : α
  halted : Bool
deriving DecidableEq

/-- The class `Model` as seen by `simulate_timestep` from the place-graph update on: the
configured `internal_motor_tuning`, the inputs and outputs, the place graph, the border
sensors, the convolved sheets that the place graph reads and writes (`sheets`), the final
motor ring of the grid decoder, the four motor rings of the obstacle-avoidance chain, the
`active` flags of the two `BorderMotorInput`s and the confidence. -/
structure ModelState (α : Type) where
  internal_motor_tuning : α
  input : ModelInput α
  output : ModelOutput α
  place_graph : PlaceGraph α
  border_sensors : Vector α
  sheets : Model α
  final_motor : MotorNetwork α
  first_normalized_motor : MotorNetwork α
  first_inhibited_motor : MotorNetwork α
  second_normalized_motor : MotorNetwork α
  second_inhibited_motor : MotorNetwork α
  first_border_motor_input : Bool
  second_border_motor_input : Bool
  confidence : α
deriving DecidableEq

section ModelOps

variable {α : Type} [LinearOrderedField α]

/-- The constructor `MotorNetwork::MotorNetwork`: `Network::Network` fills the current
activity with small random numbers (`initial`) and zeroes the rest; the constructor then
commits, which swaps the two activities and computes direction and strength. -/
def MotorNetwork.new (L : Libm α) (direction_samples : Nat) (scaling_factor : α)
    (normalize : Bool) (initial : Vector α) : MotorNetwork α :=
  MotorNetwork.commit L
    { size := direction_samples, current := initial,
      next := Vector.mk direction_samples 0, neuron_inputs := Vector.mk direction_samples 0,
      direction_samples := direction_samples, scaling_factor := scaling_factor,
      normalize := normalize, normalization_spread := 2 * L.pi, normalization_peak := 1,
      override_active := false, override_direction := 0, override_strength := 0,
      direction := 0, strength := 0 }

/-- The value of the `double` `PlaceGraph::output.subgoal_direction`. -/
def GraphOutput.subgoal_direction_value (L : Libm α) (o : GraphOutput α) : α :=
  match o.subgoal_direction with
  | none => 0
  | some (dy, dx) => L.atan2 dy dx

/-- Lines 139-153 of `simulate_timestep`: the override direction and strength chosen for
the first normalized ring (in `halt_mode`, which never reaches these lines, they stay). -/
def ModelState.override_source (L : Libm α) (m : ModelState α) : α × α :=
  match m.input.motor_mode with
  | MotorMode.grid_decoder_mode =>
    if m.place_graph.output.subgoal_visible then
      (m.place_graph.output.subgoal_direction_value L, 1)
    else (m.final_motor.direction, m.final_motor.strength)
  | MotorMode.last_heading_mode => (m.input.heading, 1)
  | MotorMode.forced_mode => (0, 1)
  | MotorMode.halt_mode =>
    (m.first_normalized_motor.override_direction, m.first_normalized_motor.override_strength)

/-- Lines 139-161 of `simulate_timestep`: write the override (plus the motor offset), the
activity of the border inputs and the two normalization spreads. -/
def ModelState.configure_motors (L : Libm α) (m : ModelState α) : ModelState α :=
  let source := m.override_source L
  let border_cells_active := decide (m.input.motor_mode ≠ MotorMode.forced_mode)
  let first : MotorNetwork α :=
    { m.first_normalized_motor with
      override_direction := source.1 + m.input.motor_offset,
      override_strength := source.2,
      normalization_spread := m.input.motor_tuning }
  let second : MotorNetwork α :=
    { m.second_normalized_motor with normalization_spread := m.internal_motor_tuning }
  { m with first_normalized_motor := first, second_normalized_motor := second,
           first_border_motor_input := border_cells_active,
           second_border_motor_input := border_cells_active }

/-- The call `update_and_commit` of a ring without inputs (the first normalized ring). -/
def MotorNetwork.update_and_commit (L : Libm α) (n : MotorNetwork α) : MotorNetwork α :=
  (n.clear_inputs.update_neuron_values L).commit L

/-- The call `update_and_commit` of a ring whose input is a `MotorMotorInput` from
`afferent` (the second normalized ring). -/
def MotorNetwork.update_and_commit_from (L : Libm α) (n afferent : MotorNetwork α) :
    MotorNetwork α :=
  ((MotorMotorInput.add_inputs n.clear_inputs afferent).update_neuron_values L).commit L

/-- The inputs of an inhibited ring: the `MotorMotorInput` from `afferent` and, if
active, the `BorderMotorInput`. -/
def MotorNetwork.inhibited_inputs (n afferent : MotorNetwork α) (border_active : Bool)
    (border_sensors : Vector α) : MotorNetwork α :=
  let e := MotorMotorInput.add_inputs n.clear_inputs afferent
  if border_active then BorderMotorInput.add_inputs e border_sensors else e

/-- The call `update_and_commit` of an inhibited ring. -/
def MotorNetwork.update_and_commit_inhibited (L : Libm α) (n afferent : MotorNetwork α)
    (border_active : Bool) (border_sensors : Vector α) : MotorNetwork α :=
  ((n.inhibited_inputs afferent border_active border_sensors).update_neuron_values L).commit L

/-- Lines 163-166 of `simulate_timestep`: the four rings update in order. -/
def ModelState.update_motors (L : Libm α) (m : ModelState α) : ModelState α :=
  let first_normalized := m.first_normalized_motor.update_and_commit L
  let first_inhibited := m.first_inhibited_motor.update_and_commit_inhibited L
    first_normalized m.first_border_motor_input m.border_sensors
  let second_normalized := m.second_normalized_motor.update_and_commit_from L first_inhibited
  let second_inhibited := m.second_inhibited_motor.update_and_commit_inhibited L
    second_normalized m.second_border_motor_input m.border_sensors
  { m with first_normalized_motor := first_normalized,
           first_inhibited_motor := first_inhibited,
           second_normalized_motor := second_normalized,
           second_inhibited_motor := second_inhibited }

/-- Lines 168-177 of `simulate_timestep`: the confidence. -/
def ModelState.compute_confidence (L : Libm α) (m : ModelState α) : α :=
  if m.first_normalized_motor.strength > 0 ∧ m.second_normalized_motor.strength > 0 then
    L.sqrt (m.first_inhibited_motor.strength / m.first_normalized_motor.strength
      * m.second_inhibited_motor.strength / m.second_normalized_motor.strength)
  else 0

/-- Lines 179-182 of `simulate_timestep`. -/
def ModelState.set_halted_and_heading (m : ModelState α) : ModelState α :=
  let halted := decide (m.confidence < m.input.confidence_threshold)
  let heading :=
    if m.second_inhibited_motor.strength > 0 then m.second_inhibited_motor.direction
    else m.output.heading
  { m with output := { m.output with halted := halted, heading := heading } }

/-- Lines 139-182 of `simulate_timestep`, the body of `if (motor_mode != halt_mode)`. -/
def ModelState.navigate (L : Libm α) (m : ModelState α) : ModelState α :=
  let m1 := (m.configure_motors L).update_motors L
  let m2 := { m1 with confidence := m1.compute_confidence L }
  m2.set_halted_and_heading

/-- Lines 136-186 of `simulate_timestep`: the motor decision. -/
def ModelState.steer (L : Libm α) (m : ModelState α) : ModelState α :=
  let m1 := { m with output := { m.output with halted := true, heading := m.input.heading } }
  let m2 := if m1.input.motor_mode ≠ MotorMode.halt_mode then m1.navigate L else m1
  { m2 with output := { m2.output with speed := if m2.output.halted then 0 else FIXED_SPEED } }

/-- Lines 128-134 of `simulate_timestep`: in `grid_decoder_mode` the difference layers and
the module motor rings update and `final_motor` becomes `decoded`. -/
def ModelState.decode (decoded : MotorNetwork α) (m : ModelState α) : ModelState α :=
  if m.input.motor_mode = MotorMode.grid_decoder_mode then { m with final_motor := decoded }
  else m

/-- The method `Model::simulate_timestep`. The grid modules are not part of the state:
`moving_convolved` are the current activities of the moving convolved sheets after
lines 117-124 and `decoded` is `final_motor` after lines 129-133, whatever they are. -/
def ModelState.simulate_timestep (L : Libm α) (moving_convolved : List (Vector α))
    (decoded : MotorNetwork α) (m : ModelState α) : Option (ModelState α) :=
  (m.place_graph.update { m.sheets with mec_moving_convolved := moving_convolved }).map
    (fun r => ModelState.steer L
      (ModelState.decode decoded { m with place_graph := r.1, sheets := r.2 }))

/-- The constructor `Model::Model` for `sensor_count` border sensors and
`direction_samples` decoder directions; `sheets` are the convolved sheets of the grid
modules, `input` and `output` the (uninitialised) members, and `initial` the random
initial activity of a ring. -/
def ModelState.new (L : Libm α) (direction_samples sensor_count : Nat)
    (place_cell_radius internal_motor_tuning : α) (sheets : Model α)
    (input : ModelInput α) (output : ModelOutput α) (confidence : α)
    (initial : Nat → Vector α) : ModelState α :=
  { internal_motor_tuning := internal_motor_tuning, input := input, output := output,
    place_graph := PlaceGraph.init place_cell_radius,
    border_sensors := Vector.mk sensor_count 0, sheets := sheets,
    final_motor := MotorNetwork.new L direction_samples 1 false (initial 0),
    first_normalized_motor := MotorNetwork.new L sensor_count 1 true (initial 1),
    first_inhibited_motor := MotorNetwork.new L sensor_count 1 false (initial 2),
    second_normalized_motor := MotorNetwork.new L sensor_count 1 true (initial 3),
    second_inhibited_motor := MotorNetwork.new L sensor_count 1 false (initial 4),
    first_border_motor_input := true, second_border_motor_input := true,
    confidence := confidence }

/-- Lines 105-112 of `Model::settle`: the override of the first normalized ring is
switched on with strength zero and the four rings update once. -/
def ModelState.settle_motors (L : Libm α) (m : ModelState α) : ModelState α :=
  let first : MotorNetwork α :=
    { m.first_normalized_motor with
      override_active := true, override_direction := 0, override_strength := 0 }
  ModelState.update_motors L { m with first_normalized_motor := first }

/-- The shape that `Model::Model` and `Model::settle` give to the four rings of the
obstacle-avoidance chain, for `n` border sensors: each ring has `n` neurons and `n`
inputs, scaling factor 1 and normalization peak 1; the first and the third ring
normalize, and only the first is overridden. -/
def ModelState.ChainShape (m : ModelState α) (n : Nat) : Prop :=
  (m.first_normalized_motor.direction_samples = n ∧
    m.first_normalized_motor.neuron_inputs.length = n ∧
    m.first_normalized_motor.scaling_factor = 1 ∧
    m.first_normalized_motor.normalization_peak = 1 ∧
    m.first_normalized_motor.normalize = true ∧
    m.first_normalized_motor.override_active = true) ∧
  (m.first_inhibited_motor.direction_samples = n ∧
    m.first_inhibited_motor.neuron_inputs.length = n ∧
    m.first_inhibited_motor.scaling_factor = 1 ∧
    m.first_inhibited_motor.normalize = false) ∧
  (m.second_normalized_motor.direction_samples = n ∧
    m.second_normalized_motor.neuron_inputs.length = n ∧
    m.second_normalized_motor.scaling_factor = 1 ∧
    m.second_normalized_motor.normalization_peak = 1 ∧
    m.second_normalized_motor.normalize = true ∧
    m.second_normalized_motor.override_active = false) ∧
  (m.second_inhibited_motor.direction_samples = n ∧
    m.second_inhibited_motor.neuron_inputs.length = n ∧
    m.second_inhibited_motor.scaling_factor = 1 ∧
    m.second_inhibited_motor.normalize = false)

end ModelOps

end GridPlaceNav

namespace GridPlaceNav

/-! ## The agent (`agent.h`, `agent.cc`) -/

/-- The enumeration `State` of `agent.h` (without the counter `STATE_COUNT`). -/
inductive State where
  | no_state
  | forced_move_state
  | receive_reward_state
  | initiate_navigation_state
  | approach_subgoal_state
  | topological_step_state
  | replay_episode_state
  | exploration_state
deriving DecidableEq

/-- The subclasses of `StateImplementation`; a `StateImplementation *` is an
`Option StateImplementation` and `nullptr` is `none`. -/
inductive StateImplementation where
  | ForcedMoveState
  | ReceiveRewardState
  | InitiateNavigationState
  | ApproachSubgoalState
  | NoResumeApproachSubgoalState
  | NoTopoApproachSubgoalState
  | TopologicalStepState
  | ReplayEpisodeState
  | ExplorationState
deriving DecidableEq

/-- The member `Agent::input`. -/
structure AgentInput (α : Type) where
  x : α
  y : α
  heading : α
  speed : α
  goto_x : α
  goto_y : α
  reward_id : Int
deriving DecidableEq

/-- The member `Agent::output`. -/
structure AgentOutput (α : Type) where
  heading : α
  speed : α
  halted : Bool
deriving DecidableEq

/-- The class `Agent` (without its label). The array `state_impl` is a function of the
state. -/
structure Agent (α : Type) where
  input : AgentInput α
  output : AgentOutput α
  approach_motor_tuning : α
  replay_motor_tuning : α
  exploration_motor_tuning : α
  approach_confidence_threshold : α
  replay_confidence_threshold : α
  form_place_cells : Bool
  perform_topological_navigation : Bool
  exploration_end_probability : α
  topological_reset_probability : α
  model : ModelState α
  active_state : State
  next_state : State
  previous_state : State
  next_previous_state : State
  state_impl : State → Option StateImplementation

section AgentOps

variable {α : Type} [LinearOrderedField α]

/-- The constant `DISTANCE_PER_TIMESTEP` of `main.h`, with `STEPS_PER_SECOND = 1000`. -/
def DISTANCE_PER_TIMESTEP : α := FIXED_SPEED / 1000

/-- An assignment to members of `agent->model->input`. -/
def Agent.set_model_input (agent : Agent α) (input : ModelInput α) : Agent α :=
  { agent with model := { agent.model with input := input } }

/-- An assignment to members of `agent->model->place_graph->input`. -/
def Agent.set_graph_input (agent : Agent α) (input : GraphInput α) : Agent α :=
  { agent with model :=
      { agent.model with place_graph := { agent.model.place_graph with input := input } } }

/-- The method `ForcedMoveState::hook`. -/
def ForcedMoveState.hook (L : Libm α) (agent : Agent α) : Agent α :=
  let agent := agent.set_model_input
    { agent.model.input with
      motor_mode := MotorMode.forced_mode,
      motor_tuning := 1 / 10,
      motor_offset := L.atan2 (agent.input.goto_y - agent.input.y)
        (agent.input.goto_x - agent.input.x) }
  let goto_distance := L.sqrt
    ((agent.input.goto_x - agent.input.x) ^ 2 + (agent.input.goto_y - agent.input.y) ^ 2)
  if goto_distance < 2 * DISTANCE_PER_TIMESTEP then
    { agent with next_state := State.no_state }
  else agent

/-- The method `ReceiveRewardState::hook`. -/
def ReceiveRewardState.hook (agent : Agent α) : Agent α :=
  let agent := agent.set_model_input
    { agent.model.input with motor_mode := MotorMode.halt_mode }
  let agent := agent.set_graph_input
    { agent.model.place_graph.input with form_place_cells := true, save_reward := true }
  { agent with next_state := State.no_state }

/-- The method `InitiateNavigationState::hook`. -/
def InitiateNavigationState.hook (agent : Agent α) : Agent α :=
  let agent :=
    if ¬ agent.perform_topological_navigation then
      agent.set_graph_input
        { agent.model.place_graph.input with reset_replay_to := ReplayMode.goal_node }
    else
      agent.set_graph_input
        { agent.model.place_graph.input with
          reset_replay_to := ReplayMode.agent_node,
          propagate_replay_towards := ReplayMode.goal_node }
  { agent with next_state := State.approach_subgoal_state }

/-- The method `ApproachSubgoalState::hook`. -/
def ApproachSubgoalState.hook (agent : Agent α) : Agent α :=
  if agent.model.place_graph.output.at_subgoal then
    { agent with next_state := State.topological_step_state }
  else if agent.model.output.halted then
    let agent := agent.set_model_input
      { agent.model.input with confidence_threshold := agent.replay_confidence_threshold }
    { agent with next_state := State.replay_episode_state }
  else
    { agent with next_state := State.approach_subgoal_state }

/-- The method `NoResumeApproachSubgoalState::hook`. -/
def NoResumeApproachSubgoalState.hook (agent : Agent α) : Agent α :=
  if agent.model.place_graph.output.at_subgoal then
    { agent with next_state := State.topological_step_state }
  else if agent.model.output.halted then
    let agent := agent.set_graph_input
      { agent.model.place_graph.input with reset_replay_to := ReplayMode.goal_node }
    let agent := agent.set_model_input
      { agent.model.input with
        motor_tuning := agent.replay_motor_tuning,
        confidence_threshold := agent.replay_confidence_threshold }
    { agent with next_state := State.replay_episode_state }
  else
    { agent with next_state := State.approach_subgoal_state }

/-- The method `NoTopoApproachSubgoalState::hook`. -/
def NoTopoApproachSubgoalState.hook (agent : Agent α) : Agent α :=
  if agent.model.place_graph.output.at_subgoal then
    { agent with next_state := State.initiate_navigation_state }
  else if agent.model.output.halted then
    let agent := agent.set_model_input
      { agent.model.input with confidence_threshold := agent.replay_confidence_threshold }
    { agent with next_state := State.replay_episode_state }
  else
    { agent with next_state := State.approach_subgoal_state }

/-- The method `TopologicalStepState::hook`; `uniform` is the value that
`Random::uniform()` returns. -/
def TopologicalStepState.hook (uniform : α) (agent : Agent α) : Agent α :=
  let agent := agent.set_graph_input
    { agent.model.place_graph.input with
      reset_replay_to := ReplayMode.agent_node,
      propagate_replay_towards := ReplayMode.goal_node }
  if uniform < agent.topological_reset_probability then
    { agent with next_state := State.initiate_navigation_state }
  else
    { agent with next_state := State.approach_subgoal_state }

/-- The method `ReplayEpisodeState::hook`. -/
def ReplayEpisodeState.hook (L : Libm α) (agent : Agent α) : Agent α :=
  if ¬ agent.model.output.halted then
    { agent with next_state := State.approach_subgoal_state }
  else if agent.model.place_graph.output.replay_terminated then
    let agent := agent.set_graph_input
      { agent.model.place_graph.input with weaken_synapse := true }
    let agent := agent.set_model_input
      { agent.model.input with
        motor_mode := MotorMode.last_heading_mode,
        motor_offset := L.pi }
    { agent with next_state := State.exploration_state }
  else
    let agent := agent.set_model_input
      { agent.model.input with
        motor_tuning := agent.replay_motor_tuning,
        confidence_threshold := agent.replay_confidence_threshold }
    let agent := agent.set_graph_input
      { agent.model.place_graph.input with
        propagate_replay_towards := ReplayMode.agent_node }
    { agent with next_state := State.replay_episode_state }

/-- The method `ExplorationState::hook`; `normal` and `uniform` are the values that
`Random::normal()` and `Random::uniform()` return. -/
def ExplorationState.hook (uniform normal : α) (agent : Agent α) : Agent α :=
  let agent := agent.set_model_input
    { agent.model.input with
      motor_mode := MotorMode.last_heading_mode,
      motor_tuning := agent.exploration_motor_tuning,
      motor_offset := 1 / 50 * normal }
  if uniform < agent.exploration_end_probability then
    { agent with next_state := State.initiate_navigation_state }
  else
    { agent with next_state := State.exploration_state }

/-- The virtual call `current_state_impl->hook(this)`. -/
def StateImplementation.hook (L : Libm α) (uniform normal : α) :
    StateImplementation → Agent α → Agent α
  | StateImplementation.ForcedMoveState => ForcedMoveState.hook L
  | StateImplementation.ReceiveRewardState => ReceiveRewardState.hook
  | StateImplementation.InitiateNavigationState => InitiateNavigationState.hook
  | StateImplementation.ApproachSubgoalState => ApproachSubgoalState.hook
  | StateImplementation.NoResumeApproachSubgoalState => NoResumeApproachSubgoalState.hook
  | StateImplementation.NoTopoApproachSubgoalState => NoTopoApproachSubgoalState.hook
  | StateImplementation.TopologicalStepState => TopologicalStepState.hook uniform
  | StateImplementation.ReplayEpisodeState => ReplayEpisodeState.hook L
  | StateImplementation.ExplorationState => ExplorationState.hook uniform normal

/-- Lines 166-182 of `Agent::execute`: the defaults written before the hook is called. -/
def Agent.prepare (agent : Agent α) : Agent α :=
  let agent := agent.set_model_input
    { heading := agent.input.heading,
      speed := agent.input.speed,
      motor_mode := MotorMode.grid_decoder_mode,
      motor_tuning := agent.approach_motor_tuning,
      motor_offset := 0,
      confidence_threshold := agent.approach_confidence_threshold }
  let agent := agent.set_graph_input
    { x := agent.input.x,
      y := agent.input.y,
      reward_id := agent.input.reward_id,
      save_reward := false,
      form_place_cells := agent.form_place_cells,
      weaken_synapse := false,
      reset_replay_to := ReplayMode.maintain_current_node,
      propagate_replay_towards := ReplayMode.maintain_current_node }
  { agent with next_state := agent.active_state }

/-- Lines 189-199 of `Agent::execute`: copy the outputs, shift the states and collapse a
state without handler to `no_state`. -/
def Agent.finish (agent : Agent α) : Agent α :=
  let output : AgentOutput α :=
    { heading := agent.model.output.heading,
      speed := agent.model.output.speed,
      halted := agent.model.output.halted }
  let active_state :=
    if agent.state_impl agent.next_state = none then State.no_state else agent.next_state
  { agent with output := output,
               next_previous_state := agent.previous_state,
               previous_state := agent.active_state,
               active_state := active_state }

/-- The method `Agent::execute`. The assertion `assert(current_state_impl)` fails, and
the result is `none`, when the active state has no handler; the result is also `none`
when the place-graph update inside `simulate_timestep` fails. The arguments `uniform`
and `normal` are the random numbers drawn by the hook, `moving_convolved` and `decoded`
the results of the grid modules (see `simulate_timestep`). -/
def Agent.execute (L : Libm α) (uniform normal : α) (moving_convolved : List (Vector α))
    (decoded : MotorNetwork α) (agent : Agent α) : Option (Agent α) :=
  let agent := agent.prepare
  match agent.state_impl agent.active_state with
  | none => none
  | some current_state_impl =>
    let agent := current_state_impl.hook L uniform normal agent
    (agent.model.simulate_timestep L moving_convolved decoded).map
      (fun model => Agent.finish { agent with model := model })

/-- The constructor `Agent::Agent`; `input` and `output` are the uninitialised members. -/
def Agent.new (model : ModelState α) (input : AgentInput α) (output : AgentOutput α)
    (initiate_navigation_state_impl approach_subgoal_state_impl
      topological_step_state_impl replay_episode_state_impl
      exploration_state_impl : Option StateImplementation) : Agent α :=
  { input := input, output := output,
    approach_motor_tuning := 3 / 4,
    replay_motor_tuning := 1 / 10,
    exploration_motor_tuning := 1 / 10,
    approach_confidence_threshold := 1 / 20,
    replay_confidence_threshold := 1 / 5,
    form_place_cells := true,
    perform_topological_navigation := false,
    exploration_end_probability := 3 / 1000,
    topological_reset_probability := 1 / 20,
    model := model,
    active_state := State.no_state, next_state := State.no_state,
    previous_state := State.no_state, next_previous_state := State.no_state,
    state_impl := fun s =>
      match s with
      | State.no_state => none
      | State.forced_move_state => some StateImplementation.ForcedMoveState
      | State.receive_reward_state => some StateImplementation.ReceiveRewardState
      | State.initiate_navigation_state => initiate_navigation_state_impl
      | State.approach_subgoal_state => approach_subgoal_state_impl
      | State.topological_step_state => topological_step_state_impl
      | State.replay_episode_state => replay_episode_state_impl
      | State.exploration_state => exploration_state_impl }

/-- The constructor `VectorAgent::VectorAgent`. -/
def VectorAgent (model : ModelState α) (input : AgentInput α) (output : AgentOutput α) :
    Agent α :=
  { Agent.new model input output
      (some StateImplementation.InitiateNavigationState)
      (some StateImplementation.ApproachSubgoalState) none none none with
    approach_motor_tuning := 1 / 10 }

/-- The constructor `NoResumeCombinedStrictAgent::NoResumeCombinedStrictAgent`. -/
def NoResumeCombinedStrictAgent (model : ModelState α) (input : AgentInput α)
    (output : AgentOutput α) : Agent α :=
  { Agent.new model input output
      (some StateImplementation.InitiateNavigationState)
      (some StateImplementation.NoResumeApproachSubgoalState)
      (some StateImplementation.TopologicalStepState)
      (some StateImplementation.ReplayEpisodeState)
      (some StateImplementation.ExplorationState) with
    replay_confidence_threshold := 9 / 10 }

/-- The constructor `NoTopoCombinedStrictAgent::NoTopoCombinedStrictAgent`. -/
def NoTopoCombinedStrictAgent (model : ModelState α) (input : AgentInput α)
    (output : AgentOutput α) : Agent α :=
  { Agent.new model input output
      (some StateImplementation.InitiateNavigationState)
      (some StateImplementation.NoTopoApproachSubgoalState)
      (some StateImplementation.TopologicalStepState)
      (some StateImplementation.ReplayEpisodeState)
      (some StateImplementation.ExplorationState) with
    replay_confidence_threshold := 9 / 10 }

/-- The constructor `UnifiedAgent::UnifiedAgent`. -/
def UnifiedAgent (model : ModelState α) (input : AgentInput α) (output : AgentOutput α) :
    Agent α :=
  Agent.new model input output
    (some StateImplementation.InitiateNavigationState)
    (some StateImplementation.ApproachSubgoalState)
    (some StateImplementation.TopologicalStepState)
    (some StateImplementation.ReplayEpisodeState)
    (some StateImplementation.ExplorationState)

/-- The constructor `DeflectAgent::DeflectAgent`. -/
def DeflectAgent (model : ModelState α) (input : AgentInput α) (output : AgentOutput α) :
    Agent α :=
  { UnifiedAgent model input output with form_place_cells := false }

/-- The constructor `PlaceAgent::PlaceAgent`. -/
def PlaceAgent (model : ModelState α) (input : AgentInput α) (output : AgentOutput α) :
    Agent α :=
  { UnifiedAgent model input output with perform_topological_navigation := true }

/-- The constructor `CombinedAgent::CombinedAgent`. -/
def CombinedAgent (model : ModelState α) (input : AgentInput α) (output : AgentOutput α) :
    Agent α :=
  UnifiedAgent model input output

/-- The constructor `CombinedNarrowAgent::CombinedNarrowAgent`. -/
def CombinedNarrowAgent (model : ModelState α) (input : AgentInput α)
    (output : AgentOutput α) : Agent α :=
  { UnifiedAgent model input output with
    approach_motor_tuning := 1 / 10, exploration_end_probability := 1 / 2000 }

/-- The constructor `CombinedStrictAgent::CombinedStrictAgent`. -/
def CombinedStrictAgent (model : ModelState α) (input : AgentInput α)
    (output : AgentOutput α) : Agent α :=
  { UnifiedAgent model input output with
    replay_confidence_threshold := 9 / 10, topological_reset_probability := 1 / 4 }

/-- The agents that `main` can construct (`--agent=`), with any model and any contents of
the uninitialised members. -/
inductive IsPreset : Agent α → Prop where
  | vector (model input output) : IsPreset (VectorAgent model input output)
  | deflect (model input output) : IsPreset (DeflectAgent model input output)
  | combined (model input output) : IsPreset (CombinedAgent model input output)
  | narrow (model input output) : IsPreset (CombinedNarrowAgent model input output)
  | strict (model input output) : IsPreset (CombinedStrictAgent model input output)
  | noresume (model input output) : IsPreset (NoResumeCombinedStrictAgent model input output)
  | notopo (model input output) : IsPreset (NoTopoCombinedStrictAgent model input output)
  | place (model input output) : IsPreset (PlaceAgent model input output)

end AgentOps

end GridPlaceNav

namespace GridPlaceNav

/-! ## Scenarios for the model and the agent -/

section ModelScenario

variable {α : Type} [LinearOrderedField α]

/-- One grid module whose convolved sheets have two neurons. -/
def scen_sheets : Model α :=
  { module_count := 1, mec_moving_convolved := [[3, 4]], mec_fixed_convolved := [[0, 0]] }

/-- A model input before its first write. -/
def scen_model_input : ModelInput α :=
  { heading := 0, speed := 0, motor_mode := MotorMode.halt_mode, motor_tuning := 0,
    motor_offset := 0, confidence_threshold := 0 }

/-- A motor ring of `n` neurons at rest, as it is after construction and `settle`: all
activities are zero, and so are the direction `atan2(0, 0)` and the strength `sqrt(0)`.
The normalization spread is the given one; `simulate_timestep` overwrites it in the two
normalizing rings before it is read, and the other rings never read it. -/
def ring_at_rest (n : Nat) (normalize override_active : Bool) (spread : α) :
    MotorNetwork α :=
  { size := n, current := Vector.mk n 0, next := Vector.mk n 0,
    neuron_inputs := Vector.mk n 0, direction_samples := n, scaling_factor := 1,
    normalize := normalize, normalization_spread := spread, normalization_peak := 1,
    override_active := override_active, override_direction := 0, override_strength := 0,
    direction := 0, strength := 0 }

/-- A model at rest, as it is after construction and `settle`, with 28 decoder directions,
`sensor_count` border sensors that sense nothing, an empty place graph and the override
of the first normalized ring switched on. -/
def model_at_rest (sensor_count : Nat) (place_cell_radius internal_motor_tuning : α) :
    ModelState α :=
  { internal_motor_tuning := internal_motor_tuning,
    input := scen_model_input,
    output := { heading := 0, speed := 0, halted := false },
    place_graph := PlaceGraph.init place_cell_radius,
    border_sensors := Vector.mk sensor_count 0,
    sheets := scen_sheets,
    final_motor := ring_at_rest 28 false false 1,
    first_normalized_motor := ring_at_rest sensor_count true true 1,
    first_inhibited_motor := ring_at_rest sensor_count false false 1,
    second_normalized_motor := ring_at_rest sensor_count true false 1,
    second_inhibited_motor := ring_at_rest sensor_count false false 1,
    first_border_motor_input := true,
    second_border_motor_input := true,
    confidence := 0 }

/-- The model of `main`: 72 border sensors, place fields of radius 7 and internal motor
tuning 0.1. -/
def scen_main_model : ModelState α := model_at_rest 72 7 (1 / 10)

/-- Border sensors of a ring of `n` directions that sense an obstacle straight behind
(in direction `n / 2`) only, with the reading 1. -/
def scen_wall_behind (n : Nat) : Vector α :=
  (List.range n).map (fun i => if i = n / 2 then 1 else 0)

/-- The model of `main` in `last_heading_mode` with the last heading 0 (east), no motor
offset, the approach tuning 0.75 and the approach threshold 0.05, while an obstacle is
sensed straight behind. -/
def scen_wall_model : ModelState α :=
  { (scen_main_model : ModelState α) with
    border_sensors := scen_wall_behind 72,
    input := { heading := 0, speed := 20, motor_mode := MotorMode.last_heading_mode,
               motor_tuning := 3 / 4, motor_offset := 0, confidence_threshold := 1 / 20 } }

/-- The model of `main` in decoder mode with confidence threshold 0, last heading 1,
before any reward or subgoal is known. -/
def scen_zero_threshold_model : ModelState α :=
  { (scen_main_model : ModelState α) with
    input := { heading := 1, speed := 20, motor_mode := MotorMode.grid_decoder_mode,
               motor_tuning := 3 / 4, motor_offset := 0, confidence_threshold := 0 } }

/-- The agent input at the origin with the given reward id. -/
def scen_agent_input (reward_id : Int) : AgentInput α :=
  { x := 0, y := 0, heading := 0, speed := 0, goto_x := 0, goto_y := 0,
    reward_id := reward_id }

/-- The combined agent on the model of `main`, before its first tick. -/
def scen_combined_agent : Agent α :=
  CombinedAgent scen_main_model (scen_agent_input 0)
    { heading := 0, speed := 0, halted := false }

/-- The vector agent on the model of `main`, put into `receive_reward_state` by the
command `trigger-reward` for the reward with id 1. -/
def scen_vector_agent : Agent α :=
  let agent : Agent α := VectorAgent scen_main_model (scen_agent_input 1)
    { heading := 0, speed := 0, halted := false }
  { agent with active_state := State.receive_reward_state }

end ModelScenario

end GridPlaceNav

namespace GridPlaceNav

/-! ## Further vocabulary and scenarios for the place graph -/

section PointerVocabulary

variable {α : Type} [LinearOrderedCommRing α]

/-- Every pointer member of the graph (`agent_cell`, `reward_cell`, `replay_cell`) is null
or refers to an existing cell. -/
def PlaceGraph.PtrInv (g : PlaceGraph α) : Prop :=
  (∀ a, g.agent_cell = some a → a < g.cells.length) ∧
  (∀ w, g.reward_cell = some w → w < g.cells.length) ∧
  (∀ r, g.replay_cell = some r → r < g.cells.length)

end PointerVocabulary

/-- A resting update at `A` that resets the replay to the goal `C` without propagating
it. -/
def scen_reset : GraphInput ℤ :=
  { scen_visit 0 0 with reward_id := 1, reset_replay_to := ReplayMode.goal_node }

/-- The chain `A - B - C` after the replay has been reset to the goal `C` and then
propagated `k` times towards the agent at `A`. -/
def scen_episode (k : Nat) : PlaceGraph ℤ :=
  scen_graph 7 (scen_chain_walk ++ [scen_reset] ++ List.replicate k scen_propagate)

end GridPlaceNav

namespace GridPlaceNav

/-! ## Motor scaling factors of the grid modules (`Model::Model`) -/

section MotorScaling

variable {α : Type} [LinearOrderedField α]

/-- Lines 37-51 of `Model::Model`: the motor scaling factor of module `i`. The call
`pow(gain_ratio, k)` with an `int` exponent is the power `gain_ratio ^ k`; the counter
`n = module_count - 1 - i` is not negative inside the loop `i < module_count`. -/
def Model.motor_scaling_factor (alternative_motor_scaling : Bool) (gain_ratio : α)
    (module_count i : Nat) : α :=
  let n := module_count - 1 - i
  if alternative_motor_scaling then
    let denominator := (List.range (n + 1)).foldl
      (fun (denominator : α) (l : Nat) => denominator + gain_ratio ^ (2 * l)) 0
    gain_ratio ^ n / denominator
  else 1 / gain_ratio ^ n

/-- The scaling factors of the rings `mec_motor[0], ..., mec_motor[module_count - 1]` that
the loop of `Model::Model` constructs. -/
def Model.motor_scaling_factors (alternative_motor_scaling : Bool) (gain_ratio : α)
    (module_count : Nat) : List α :=
  (List.range module_count).map
    (Model.motor_scaling_factor alternative_motor_scaling gain_ratio module_count)

end MotorScaling

/-! ## Reward ids (`Simulation::get_reward_id`) -/

/-- The method `count` of the `std::map<std::string, int>` `reward_ids`, kept as an
association list with one entry per key. -/
def reward_ids_count (reward_ids : List (String × Int)) (reward_name : String) : Nat :=
  if reward_ids.any (fun p => p.1 = reward_name) then 1 else 0

/-- The assignment `reward_ids[reward_name] = reward_id`: the entry of an existing key is
overwritten, a new key gets a new entry. -/
def reward_ids_assign (reward_ids : List (String × Int)) (reward_name : String)
    (reward_id : Int) : List (String × Int) :=
  if reward_ids.any (fun p => p.1 = reward_name) then
    reward_ids.map (fun p => if p.1 = reward_name then (p.1, reward_id) else p)
  else reward_ids ++ [(reward_name, reward_id)]

/-- The read `reward_ids[reward_name]`: a missing key is inserted with the value 0. -/
def reward_ids_read (reward_ids : List (String × Int)) (reward_name : String) :
    List (String × Int) × Int :=
  match reward_ids.find? (fun p => p.1 = reward_name) with
  | some p => (reward_ids, p.2)
  | none => (reward_ids ++ [(reward_name, 0)], 0)

/-- The method `Simulation::get_reward_id`: returns the table and the id. The sum
`size() + 1` is stored in an `int`. -/
def Simulation.get_reward_id (reward_ids : List (String × Int)) (reward_name : String) :
    List (String × Int) × Int :=
  let reward_ids :=
    if reward_ids_count reward_ids reward_name = 0 then
      let reward_id := wrap_int32 ((reward_ids.length : Int) + 1)
      reward_ids_assign reward_ids reward_name reward_id
    else reward_ids
  reward_ids_read reward_ids reward_name

/-- The calls `get_reward_id(name)` for the given names in order, starting from the given
table: the final table and the list of returned ids. -/
def Simulation.get_reward_ids :
    List (String × Int) → List String → List (String × Int) × List Int
  | reward_ids, [] => (reward_ids, [])
  | reward_ids, reward_name :: rest =>
    let r := Simulation.get_reward_id reward_ids reward_name
    let rs := Simulation.get_reward_ids r.1 rest
    (rs.1, r.2 :: rs.2)

end GridPlaceNav

namespace GridPlaceNav

/-! ## Neural sheets: the bump tracker (`mec.cc`)

The coordinates and displacement counters of the bump tracker are `int`s; they are
integers here. Overflow of a counter is undefined behaviour in the source and is not
modelled. The conversion of a quotient by a zero mass to `int` is undefined as well: it is
the outcome `fault` of the loop. -/

/-- The outcome of a loop that is run with a bound on the number of its iterations: the
state when the loop has ended, `fault` when an operation without defined result was
reached, `out_of_fuel` when the bound was hit before the loop ended. -/
inductive LoopResult (σ : Type) where
  | done (s : σ)
  | fault
  | out_of_fuel

/-- The class `NeuralSheetNetwork`. -/
structure NeuralSheetNetwork (α : Type) extends Network α where
  gain : α
  lambda : α
  beta : α
  gamma : α
  bump_x : Int
  bump_y : Int
  bump_total_dx : Int
  bump_total_dy : Int
  bump_tracker_initialized : Bool

/-- The constant `BUMP_TRACKER_RADIUS` of `main.h`. -/
def BUMP_TRACKER_RADIUS : Nat := 5

section BumpTracker

variable {α : Type} [LinearOrderedField α] [FloorRing α]

/-- The call `round(v)` of `<cmath>` (halfway cases away from zero), converted to `int`. -/
def c_round (v : α) : Int := if 0 ≤ v then ⌊v + 1 / 2⌋ else -⌊-v + 1 / 2⌋

/-- The two loops of `calculate_disc_mass`: the sums `mass`, `weighted_dx` and
`weighted_dy` over the disc around `(center_x, center_y)`. The loop counters `j` and `i`
are `dy + BUMP_TRACKER_RADIUS` and `dx + BUMP_TRACKER_RADIUS`. -/
def NeuralSheetNetwork.disc_sums (n : NeuralSheetNetwork α) (center_x center_y : Int) :
    α × α × α :=
  (List.range (2 * BUMP_TRACKER_RADIUS + 1)).foldl (fun (acc : α × α × α) (j : Nat) =>
    (List.range (2 * BUMP_TRACKER_RADIUS + 1)).foldl (fun (acc : α × α × α) (i : Nat) =>
      let dy : Int := (j : Int) - BUMP_TRACKER_RADIUS
      let dx : Int := (i : Int) - BUMP_TRACKER_RADIUS
      if dx * dx + dy * dy > BUMP_TRACKER_RADIUS * BUMP_TRACKER_RADIUS then acc
      else
        let x := Periodic.modulo (center_x + dx) MEC_SIZE
        let y := Periodic.modulo (center_y + dy) MEC_SIZE
        let neuron_index := coords_to_neuron_index x.toNat y.toNat
        let activation := n.current.getD neuron_index 0
        (acc.1 + activation, acc.2.1 + (dx : α) * activation, acc.2.2 + (dy : α) * activation))
      acc) (0, 0, 0)

/-- The method `NeuralSheetNetwork::calculate_disc_mass`: the mass under the disc and the
rounded displacement to the centre of mass; `none` when the mass is zero, because the
conversion of the quotient to `int` has no defined result then. -/
def NeuralSheetNetwork.calculate_disc_mass (n : NeuralSheetNetwork α)
    (center_x center_y : Int) : Option (α × Int × Int) :=
  let sums := n.disc_sums center_x center_y
  if sums.1 = 0 then none
  else some (sums.1, c_round (sums.2.1 / sums.1), c_round (sums.2.2 / sums.1))

/-- The loop `while (true)` of `update_bump_tracker`; each unit of `fuel` pays for one
iteration. -/
def NeuralSheetNetwork.bump_tracker_loop :
    Nat → NeuralSheetNetwork α → LoopResult (NeuralSheetNetwork α)
  | 0, _ => LoopResult.out_of_fuel
  | fuel + 1, n =>
    match n.calculate_disc_mass n.bump_x n.bump_y with
    | none => LoopResult.fault
    | some (current_mass, center_of_mass_dx, center_of_mass_dy) =>
      let center_of_mass_x := Periodic.modulo (n.bump_x + center_of_mass_dx) MEC_SIZE
      let center_of_mass_y := Periodic.modulo (n.bump_y + center_of_mass_dy) MEC_SIZE
      match n.calculate_disc_mass center_of_mass_x center_of_mass_y with
      | none => LoopResult.fault
      | some (new_mass, _, _) =>
        if new_mass > current_mass then
          NeuralSheetNetwork.bump_tracker_loop fuel
            { n with bump_x := center_of_mass_x, bump_y := center_of_mass_y,
                     bump_total_dx := n.bump_total_dx + center_of_mass_dx,
                     bump_total_dy := n.bump_total_dy + center_of_mass_dy }
        else LoopResult.done n

/-- The method `NeuralSheetNetwork::update_bump_tracker` with an explicit bound on the
iterations of its loop. -/
def NeuralSheetNetwork.update_bump_tracker_with_fuel (fuel : Nat)
    (n : NeuralSheetNetwork α) : LoopResult (NeuralSheetNetwork α) :=
  if ¬ n.bump_tracker_initialized then LoopResult.done n
  else n.bump_tracker_loop fuel

/-- The method `NeuralSheetNetwork::update_bump_tracker`. Every iteration but the last
moves the tracked position to a position of larger mass, so `MEC_SIZE * MEC_SIZE`
iterations are enough, and a larger bound gives the same result. -/
def NeuralSheetNetwork.update_bump_tracker (n : NeuralSheetNetwork α) :
    LoopResult (NeuralSheetNetwork α) :=
  n.update_bump_tracker_with_fuel (MEC_SIZE * MEC_SIZE)

/-- The search of `initialize_bump_tracker` for the maximally activated neuron: the state
is `(max_activation, bump_x, bump_y)`. -/
def NeuralSheetNetwork.find_max_activation (n : NeuralSheetNetwork α) : α × Int × Int :=
  (List.range MEC_SIZE).foldl (fun (acc : α × Int × Int) (y : Nat) =>
    (List.range MEC_SIZE).foldl (fun (acc : α × Int × Int) (x : Nat) =>
      let neuron_index := coords_to_neuron_index x y
      let activation := n.current.getD neuron_index 0
      if activation > acc.1 then (activation, (x : Int), (y : Int)) else acc)
    acc) (-1, n.bump_x, n.bump_y)

/-- The method `NeuralSheetNetwork::initialize_bump_tracker`. -/
def NeuralSheetNetwork.initialize_bump_tracker (n : NeuralSheetNetwork α) :
    LoopResult (NeuralSheetNetwork α) :=
  let found := n.find_max_activation
  let n := { n with bump_x := found.2.1, bump_y := found.2.2,
                    bump_tracker_initialized := true }
  match n.update_bump_tracker with
  | LoopResult.done n => LoopResult.done { n with bump_total_dx := 0, bump_total_dy := 0 }
  | LoopResult.fault => LoopResult.fault
  | LoopResult.out_of_fuel => LoopResult.out_of_fuel

/-- The mass under the disc around `(x, y)`, the first component of the result of
`calculate_disc_mass`. -/
def NeuralSheetNetwork.disc_mass (n : NeuralSheetNetwork α) (x y : Int) : α :=
  (n.disc_sums x y).1

/-- The number of positions of the sheet whose disc mass exceeds the disc mass at
`(x, y)`. -/
def NeuralSheetNetwork.heavier_positions (n : NeuralSheetNetwork α) (x y : Int) : Nat :=
  ((Finset.range MEC_SIZE ×ˢ Finset.range MEC_SIZE).filter
    (fun p => n.disc_mass x y < n.disc_mass (p.1 : Int) (p.2 : Int))).card

end BumpTracker

end GridPlaceNav

namespace GridPlaceNav

/-! ## Shifted-mask inputs and the grid sheets (`mec.cc`, `model.cc`) -/

/-- The enumeration `MecGainMode` of `main.h` (without the counter `GAIN_MODE_COUNT`). -/
inductive MecGainMode where
  | gain_mode_velocity
  | gain_mode_poisson_neuron
deriving DecidableEq

/-- The enumeration `MecDirectionality` of `mec.h`. -/
inductive MecDirectionality where
  | west
  | north
  | south
  | east
deriving DecidableEq

/-- The class `Matrix` of `numerical.h`: `values[y][x]` is `raw_values[y * width + x]`. -/
structure Matrix (α : Type) where
  width : Nat
  height : Nat
  raw_values : List α

/-- The class `MecShiftedMaskInput`: the doubled weight matrix, the shift of each efferent
neuron, and the cache `cached_sums[MEC_SIZE][MEC_SIZE]` with its validity flags, both
row-major. -/
structure MecShiftedMaskInput (α : Type) where
  weights : Matrix α
  shifts : List (Int × Int)
  cached_sums : List α
  cached_sum_valid : List Bool

/-- The class `VelocityInput`. -/
structure VelocityInput (α : Type) where
  velocity_x : α
  velocity_y : α

/-- The class `MecNetwork`. Its inputs are the `MecRecurrentInput` added by the
constructor and, for the moving sheets, the `VelocityInput` added by `Model::Model`. -/
structure MecNetwork (α : Type) extends NeuralSheetNetwork α where
  gain_mode : MecGainMode
  activation_probability : α
  neurons_enabled : List Bool
  recurrent_input : MecShiftedMaskInput α
  velocity_input : Option (VelocityInput α)

/-- The sheets of one grid module that `Model::settle` touches: `mec_moving[i]`,
`mec_moving_convolved[i]` and `mec_fixed_convolved[i]`. -/
structure GridModule (α : Type) where
  mec_moving : MecNetwork α
  mec_moving_convolved : NeuralSheetNetwork α
  mec_fixed_convolved : NeuralSheetNetwork α

/-- The constant `SETTLE_STEPS` of `main.h`. -/
def SETTLE_STEPS : Nat := 1000

/-- The method `MecNetwork::directionality`. -/
def MecNetwork.directionality (x y : Nat) : MecDirectionality :=
  match 2 * (y % 2) + (x % 2) with
  | 0 => MecDirectionality.west
  | 1 => MecDirectionality.north
  | 2 => MecDirectionality.south
  | _ => MecDirectionality.east

/-- The method `MecRecurrentInput::get_shift`. -/
def MecRecurrentInput.get_shift (neuron_index : Nat) : Int × Int :=
  let x : Int := (neuron_index % MEC_SIZE : Nat)
  let y : Int := (neuron_index / MEC_SIZE : Nat)
  let xy : Int × Int :=
    match MecNetwork.directionality (neuron_index % MEC_SIZE) (neuron_index / MEC_SIZE) with
    | MecDirectionality.north => (x, y - 1)
    | MecDirectionality.south => (x, y + 1)
    | MecDirectionality.east => (x - 1, y)
    | MecDirectionality.west => (x + 1, y)
  (Periodic.modulo xy.1 MEC_SIZE, Periodic.modulo xy.2 MEC_SIZE)

/-- The index of `a[y][x]` in an array `a[MEC_SIZE][MEC_SIZE]`; `none` when a subscript is
out of range. -/
def cache_index (y x : Int) : Option Nat :=
  if 0 ≤ y ∧ y < MEC_SIZE ∧ 0 ≤ x ∧ x < MEC_SIZE then some (y.toNat * MEC_SIZE + x.toNat)
  else none

section ShiftedMask

variable {α : Type} [LinearOrderedField α]

/-- The constant `MAX_MEC_GAIN` of `main.h`, with `MAX_MEC_SPEED = 120`. -/
def MAX_MEC_GAIN : α := 120 / FIXED_SPEED * (1 / 100)

/-- The constructor `Matrix::Matrix(width, height)`: all entries zero. -/
def Matrix.new (width height : Nat) : Matrix α :=
  { width := width, height := height, raw_values := List.replicate (width * height) 0 }

/-- The assignment `values[y][x] = v`; `none` when a subscript is out of range. -/
def Matrix.write (m : Matrix α) (y x : Nat) (v : α) : Option (Matrix α) :=
  if y < m.height ∧ x < m.width then
    some { m with raw_values := m.raw_values.set (y * m.width + x) v }
  else none

/-- The first loop of `MecShiftedMaskInput::initialize`: the weight matrix of size
`2 * MEC_SIZE` by `2 * MEC_SIZE` that holds four copies of the weights. -/
def MecShiftedMaskInput.initialize_weights (get_weight : Int → Int → α) :
    Option (Matrix α) :=
  let w := MEC_SIZE
  let h := MEC_SIZE
  (List.range MEC_SIZE).foldlM (fun (m : Matrix α) (y : Nat) =>
    (List.range MEC_SIZE).foldlM (fun (m : Matrix α) (x : Nat) => do
      let weight := get_weight x y
      let m ← m.write (y + 0) (x + 0) weight
      let m ← m.write (y + 0) (x + w) weight
      let m ← m.write (y + h) (x + 0) weight
      m.write (y + h) (x + w) weight) m) (Matrix.new (2 * w) (2 * h))

/-- The method `MecShiftedMaskInput::initialize`; `cached_sums` and `cached_sum_valid` are
the contents of the two uninitialised arrays. -/
def MecShiftedMaskInput.initialize (get_weight : Int → Int → α) (get_shift : Nat → Int × Int)
    (efferent_size : Nat) (cached_sums : List α) (cached_sum_valid : List Bool) :
    Option (MecShiftedMaskInput α) :=
  (MecShiftedMaskInput.initialize_weights get_weight).map (fun weights =>
    { weights := weights, shifts := (List.range efferent_size).map get_shift,
      cached_sums := cached_sums, cached_sum_valid := cached_sum_valid })

/-- The two inner loops of `MecShiftedMaskInput::add_inputs`: the pointer `neurons` runs
over the afferent activities and the pointer `weights`, which starts at
`&values[shift_y][shift_x]`, over the raw values of the weight matrix, `2 * MEC_SIZE`
further for each row. A read out of range gives `none`. -/
def MecShiftedMaskInput.weighted_sum (weights : Matrix α) (afferent : Vector α)
    (shift_x shift_y : Int) : Option α :=
  if 0 ≤ shift_y ∧ shift_y < weights.height ∧ 0 ≤ shift_x ∧ shift_x < weights.width then
    (List.range MEC_SIZE).foldlM (fun (sum : α) (y : Nat) =>
      (List.range MEC_SIZE).foldlM (fun (sum : α) (x : Nat) => do
        let neuron ← afferent[y * MEC_SIZE + x]?
        let weight ← weights.raw_values[
          shift_y.toNat * weights.width + shift_x.toNat + y * (MEC_SIZE * 2) + x]?
        some (sum + neuron * weight)) sum) 0
  else none

/-- The first loop of `MecShiftedMaskInput::add_inputs`: every validity flag of the cache
is cleared. -/
def MecShiftedMaskInput.invalidate (cached_sum_valid : List Bool) : List Bool :=
  (List.range MEC_SIZE).foldl (fun (valid : List Bool) (y : Nat) =>
    (List.range MEC_SIZE).foldl (fun (valid : List Bool) (x : Nat) =>
      valid.set (y * MEC_SIZE + x) false) valid) cached_sum_valid

/-- The body of the second loop of `MecShiftedMaskInput::add_inputs` for one efferent
neuron; the state is the input object and the vector `neuron_inputs` of the efferent
network. -/
def MecShiftedMaskInput.add_input (should_update_neuron : Nat → Bool) (afferent : Vector α)
    (st : MecShiftedMaskInput α × Vector α) (efferent_neuron : Nat) :
    Option (MecShiftedMaskInput α × Vector α) :=
  if ¬ should_update_neuron efferent_neuron then some st
  else do
    let shift ← st.1.shifts[efferent_neuron]?
    let c ← cache_index shift.2 shift.1
    let valid ← st.1.cached_sum_valid[c]?
    let old ← st.2[efferent_neuron]?
    if valid then do
      let cached ← st.1.cached_sums[c]?
      some (st.1, st.2.set efferent_neuron (old + cached))
    else do
      let shift_x : Int := MEC_SIZE - shift.1
      let shift_y : Int := MEC_SIZE - shift.2
      let sum ← MecShiftedMaskInput.weighted_sum st.1.weights afferent shift_x shift_y
      some ({ st.1 with cached_sums := st.1.cached_sums.set c sum,
                        cached_sum_valid := st.1.cached_sum_valid.set c true },
        st.2.set efferent_neuron (old + sum))

/-- The method `MecShiftedMaskInput::add_inputs` for an efferent network of
`efferent_size` neurons with the inputs `neuron_inputs`, and the current activities
`afferent` of the afferent sheet. -/
def MecShiftedMaskInput.add_inputs (inp : MecShiftedMaskInput α)
    (should_update_neuron : Nat → Bool) (afferent : Vector α) (efferent_size : Nat)
    (neuron_inputs : Vector α) : Option (MecShiftedMaskInput α × Vector α) :=
  (List.range efferent_size).foldlM
    (MecShiftedMaskInput.add_input should_update_neuron afferent)
    ({ inp with cached_sum_valid := MecShiftedMaskInput.invalidate inp.cached_sum_valid },
      neuron_inputs)

/-- The direct toroidal sum of the specification: the sum over all `(x, y)` of the sheet
of `afferent[x, y] * w((x - sx) mod N, (y - sy) mod N)` with `N = MEC_SIZE`. -/
def direct_toroidal_sum (w : Int → Int → α) (afferent : Vector α) (sx sy : Int) : α :=
  ∑ y in Finset.range MEC_SIZE, ∑ x in Finset.range MEC_SIZE,
    afferent.getD (coords_to_neuron_index x y) 0
      * w (((x : Int) - sx) % (MEC_SIZE : Int)) (((y : Int) - sy) % (MEC_SIZE : Int))

/-- The method `MecRecurrentInput::get_weight` for an afferent sheet with the parameters
`beta` and `gamma`. -/
def MecRecurrentInput.get_weight (L : Libm α) (beta gamma : α) (x y : Int) : α :=
  let x := if x > (MEC_SIZE : Int) / 2 then (MEC_SIZE : Int) - x else x
  let y := if y > (MEC_SIZE : Int) / 2 then (MEC_SIZE : Int) - y else y
  let distance_squared : α := ((x * x + y * y : Int) : α)
  L.exp (-gamma * distance_squared) - L.exp (-beta * distance_squared)

/-- The constructor `NeuralSheetNetwork::NeuralSheetNetwork`; `initial` is the random
initial activity that `Network::Network` draws, and `bump_x`, `bump_y` are the contents of
the two uninitialised members. -/
def NeuralSheetNetwork.new (gain : α) (initial : Vector α) (bump_x bump_y : Int) :
    NeuralSheetNetwork α :=
  let lambda : α := (MEC_SIZE : α) * 15 / 40
  let beta : α := 3 / (lambda * lambda)
  { size := MEC_SIZE * MEC_SIZE, current := initial,
    next := Vector.mk (MEC_SIZE * MEC_SIZE) 0,
    neuron_inputs := Vector.mk (MEC_SIZE * MEC_SIZE) 0,
    gain := gain, lambda := lambda, beta := beta, gamma := 105 / 100 * beta,
    bump_x := bump_x, bump_y := bump_y, bump_total_dx := 0, bump_total_dy := 0,
    bump_tracker_initialized := false }

/-- The constructor `MecNetwork::MecNetwork`, followed by the `add_input` of a
`VelocityInput` if the sheet is a moving sheet; the lists are the contents of the
uninitialised arrays. -/
def MecNetwork.new (L : Libm α) (gain : α) (gain_mode : MecGainMode) (moving : Bool)
    (initial : Vector α) (bump_x bump_y : Int) (neurons_enabled : List Bool)
    (cached_sums : List α) (cached_sum_valid : List Bool) : Option (MecNetwork α) :=
  let sheet := NeuralSheetNetwork.new gain initial bump_x bump_y
  ( MecShiftedMaskInput.initialize (MecRecurrentInput.get_weight L sheet.beta sheet.gamma)
    MecRecurrentInput.get_shift sheet.size cached_sums cached_sum_valid).map
    (fun recurrent_input =>
      { sheet with
        gain_mode := gain_mode, activation_probability := gain / MAX_MEC_GAIN,
        neurons_enabled := neurons_enabled, recurrent_input := recurrent_input,
        velocity_input :=
          if moving then some { velocity_x := 0, velocity_y := 0 } else none })

/-- The method `VelocityInput::add_inputs` on the vector `neuron_inputs` of the efferent
sheet. -/
def VelocityInput.add_inputs (v : VelocityInput α) (gain_mode : MecGainMode) (gain : α)
    (neuron_inputs : Vector α) : Vector α :=
  (List.range MEC_SIZE).foldl (fun (inputs : Vector α) (y : Nat) =>
    (List.range MEC_SIZE).foldl (fun (inputs : Vector α) (x : Nat) =>
      let contribution : α :=
        match MecNetwork.directionality x y with
        | MecDirectionality.north => v.velocity_y
        | MecDirectionality.south => -v.velocity_y
        | MecDirectionality.east => v.velocity_x
        | MecDirectionality.west => -v.velocity_x
      let contribution :=
        if gain_mode = MecGainMode.gain_mode_velocity then contribution * gain
        else contribution * MAX_MEC_GAIN
      let contribution := contribution * (10315 / 100000)
      let neuron_index := coords_to_neuron_index x y
      inputs.set neuron_index (inputs.getD neuron_index 0 + contribution)) inputs)
    neuron_inputs

/-- The method `MecNetwork::update`; `uniform i` is the number that `Random::uniform()`
returns for neuron `i` in the Poisson gain mode. The result is `none` when an index of
the recurrent input leaves its range. -/
def MecNetwork.update (uniform : Nat → α) (n : MecNetwork α) : Option (MecNetwork α) :=
  let neurons_enabled := (List.range n.size).map (fun i =>
    match n.gain_mode with
    | MecGainMode.gain_mode_velocity => true
    | MecGainMode.gain_mode_poisson_neuron => decide (uniform i < n.activation_probability))
  (n.recurrent_input.add_inputs (fun i => neurons_enabled.getD i false) n.current n.size
    (Vector.clear n.neuron_inputs)).map (fun r =>
    let neuron_inputs :=
      match n.velocity_input with
      | some v => v.add_inputs n.gain_mode n.gain r.2
      | none => r.2
    let net := MecNetwork.update_neuron_values neurons_enabled
      { n.toNetwork with neuron_inputs := neuron_inputs }
    { n with toNetwork := net, neurons_enabled := neurons_enabled, recurrent_input := r.1 })

/-- The method `Network::commit` on a `MecNetwork`. -/
def MecNetwork.commit (n : MecNetwork α) : MecNetwork α :=
  { n with toNetwork := Network.commit n.toNetwork }

end ShiftedMask

section Settle

variable {α : Type} [LinearOrderedField α] [FloorRing α]

/-- The result of a loop as an `Option`: a fault and running out of fuel are `none`. -/
def LoopResult.toOption {σ : Type} : LoopResult σ → Option σ
  | LoopResult.done s => some s
  | LoopResult.fault => none
  | LoopResult.out_of_fuel => none

/-- The body of the first loop of `Model::settle` for one module: the moving sheet runs
`SETTLE_STEPS` updates in the velocity gain mode, then the moving convolved sheet updates
and its bump tracker is initialized. The number `uniform t i` is the random number for
neuron `i` in step `t` (never drawn in the velocity gain mode). -/
def GridModule.settle_sheets (uniform : Nat → Nat → α) (g : GridModule α) :
    Option (GridModule α) := do
  let previous_gain_mode := g.mec_moving.gain_mode
  let moving : MecNetwork α :=
    { g.mec_moving with gain_mode := MecGainMode.gain_mode_velocity }
  let moving ← (List.range SETTLE_STEPS).foldlM
    (fun (m : MecNetwork α) (t : Nat) => (m.update (uniform t)).map MecNetwork.commit) moving
  let moving : MecNetwork α := { moving with gain_mode := previous_gain_mode }
  let convolved : NeuralSheetNetwork α :=
    { g.mec_moving_convolved with
      toNetwork := Network.commit
        (ConvolvedMecNetwork.update g.mec_moving_convolved.toNetwork moving.toNetwork) }
  let convolved ← convolved.initialize_bump_tracker.toOption
  some { g with mec_moving := moving, mec_moving_convolved := convolved }

/-- The body of the second loop of `Model::settle` for one module: the fixed convolved
sheet takes the activity of the moving convolved sheet, whose bump tracker is initialized
again. -/
def GridModule.settle_copy (g : GridModule α) : Option (GridModule α) := do
  let current ← Vector.copy_from g.mec_fixed_convolved.current g.mec_moving_convolved.current
  let fixed : NeuralSheetNetwork α :=
    { g.mec_fixed_convolved with
      toNetwork := { g.mec_fixed_convolved.toNetwork with current := current } }
  let convolved ← g.mec_moving_convolved.initialize_bump_tracker.toOption
  some { g with mec_fixed_convolved := fixed, mec_moving_convolved := convolved }

/-- The two loops of `Model::settle` over the modules (lines 86-103); the update of the
motor rings that follows them is `ModelState.settle_motors`. -/
def Model.settle_modules (uniform : Nat → Nat → Nat → α) (modules : List (GridModule α)) :
    Option (List (GridModule α)) := do
  let modules ← (List.range modules.length).mapM (fun i => do
    let g ← modules[i]?
    g.settle_sheets (uniform i))
  modules.mapM GridModule.settle_copy

end Settle

end GridPlaceNav

namespace GridPlaceNav

/-! ## Vocabulary and scenarios for the grid sheets -/

section SheetVocabulary

variable {α : Type} [LinearOrderedField α]

/-- The shape that the constructors give to a `MecNetwork` and that no update changes:
`MEC_SIZE * MEC_SIZE` neurons and inputs, the doubled weight matrix of the recurrent
input filled with `get_weight`, its shifts filled with `get_shift`, and cache arrays of
`MEC_SIZE * MEC_SIZE` entries. -/
def MecNetwork.WellFormed (L : Libm α) (n : MecNetwork α) : Prop :=
  n.size = MEC_SIZE * MEC_SIZE ∧ n.current.length = MEC_SIZE * MEC_SIZE ∧
  n.neuron_inputs.length = MEC_SIZE * MEC_SIZE ∧
  n.recurrent_input.weights.width = 2 * MEC_SIZE ∧
  n.recurrent_input.weights.height = 2 * MEC_SIZE ∧
  (∀ Y X, Y < 2 * MEC_SIZE → X < 2 * MEC_SIZE →
    n.recurrent_input.weights.raw_values[Y * (2 * MEC_SIZE) + X]?
      = some (MecRecurrentInput.get_weight L n.beta n.gamma
          ((X % MEC_SIZE : Nat) : Int) ((Y % MEC_SIZE : Nat) : Int))) ∧
  n.recurrent_input.shifts = (List.range (MEC_SIZE * MEC_SIZE)).map MecRecurrentInput.get_shift ∧
  n.recurrent_input.cached_sums.length = MEC_SIZE * MEC_SIZE ∧
  n.recurrent_input.cached_sum_valid.length = MEC_SIZE * MEC_SIZE

/-- The sum of all recurrent weights of a sheet, that is, the recurrent input of a neuron
when every neuron of the sheet has activity 1. -/
def MecRecurrentInput.total_weight (L : Libm α) (beta gamma : α) : α :=
  ∑ y in Finset.range MEC_SIZE, ∑ x in Finset.range MEC_SIZE,
    MecRecurrentInput.get_weight L beta gamma (x : Int) (y : Int)

/-- A sheet in which every neuron has the activity `c`, with an initialized bump tracker
at the origin. -/
def scen_uniform_sheet (c : α) : NeuralSheetNetwork α :=
  { NeuralSheetNetwork.new 1 (Vector.mk (MEC_SIZE * MEC_SIZE) c) 0 0 with
    bump_tracker_initialized := true }

/-- A grid module as `Model::Model` constructs it (gain 1, velocity gain mode, velocity
zero), in the state in which every neuron of its three sheets has the activity `c`; the
uninitialised members are zero. -/
def scen_grid_module (L : Libm α) (c : α) : Option (GridModule α) :=
  (MecNetwork.new L 1 MecGainMode.gain_mode_velocity true (Vector.mk (MEC_SIZE * MEC_SIZE) c)
    0 0 (List.replicate (MEC_SIZE * MEC_SIZE) false) (List.replicate (MEC_SIZE * MEC_SIZE) 0)
    (List.replicate (MEC_SIZE * MEC_SIZE) false)).map (fun moving =>
    { mec_moving := moving,
      mec_moving_convolved :=
        NeuralSheetNetwork.new 1 (Vector.mk (MEC_SIZE * MEC_SIZE) c) 0 0,
      mec_fixed_convolved :=
        NeuralSheetNetwork.new 1 (Vector.mk (MEC_SIZE * MEC_SIZE) c) 0 0 })

/-- The deflect agent on the model of `main`, put into `receive_reward_state` by the
command `trigger-reward` for the reward with id 1. -/
def scen_deflect_agent : Agent α :=
  let agent : Agent α := DeflectAgent scen_main_model (scen_agent_input 1)
    { heading := 0, speed := 0, halted := false }
  { agent with active_state := State.receive_reward_state }

end SheetVocabulary

end GridPlaceNav

namespace GridPlaceNav

/-! ## Vocabulary for the settlement of the grid modules -/

section SettleVocabulary

variable {α : Type} [LinearOrderedField α]

/-- The activity that one update of `MecNetwork::update_neuron_values` gives to a neuron
of activity `c` whose recurrent input is `c * W`: the case of a sheet of uniform activity
`c` whose recurrent weights sum to `W`. -/
def uniform_update (W c : α) : α :=
  c + ((if 1 + c * W < 0 then 0 else 1 + c * W) - c) * (1 / 10)

/-- The shape that `Model::Model` gives to the sheets of a module and that `Model::settle`
keeps: a well-formed moving sheet whose velocity is zero, convolved sheets of
`MEC_SIZE * MEC_SIZE` neurons, and a tracked position inside the sheet. -/
def GridModule.WellFormed (L : Libm α) (g : GridModule α) : Prop :=
  g.mec_moving.WellFormed L ∧
  g.mec_moving.velocity_input = some { velocity_x := 0, velocity_y := 0 } ∧
  g.mec_moving_convolved.size = MEC_SIZE * MEC_SIZE ∧
  g.mec_moving_convolved.neuron_inputs.length = MEC_SIZE * MEC_SIZE ∧
  g.mec_fixed_convolved.current.length = MEC_SIZE * MEC_SIZE ∧
  0 ≤ g.mec_moving_convolved.bump_x ∧ g.mec_moving_convolved.bump_x < MEC_SIZE ∧
  0 ≤ g.mec_moving_convolved.bump_y ∧ g.mec_moving_convolved.bump_y < MEC_SIZE

end SettleVocabulary

end GridPlaceNav

namespace GridPlaceNav

/-! ## The simulation (`arena.cc`, `simulation.cc`) -/

/-- The class `Arena`. The geometry behind `BoostGeometryArena` is a parameter:
`intersections x y ex ey` are the distances from `(x, y)` of the points in which the beam
from `(x, y)` to `(ex, ey)` meets the polygons (`bg::intersection`, `bg::distance`), and
`line_intersects` is `bg::intersects` for a segment. -/
structure Arena (α : Type) where
  intersections : α → α → α → α → List α
  line_intersects : α → α → α → α → Bool

/-- The values that one call of `Simulation::step` takes from outside the embedded state:
the random numbers of the agent hook, the activities of the moving convolved sheets and
the final motor ring of the grid decoder (see `ModelState.simulate_timestep`). -/
structure Tick (α : Type) where
  uniform : α
  normal : α
  moving_convolved : List (Vector α)
  decoded : MotorNetwork α

/-- The class `Simulation` (without the plot and the script); `sensor_range` is the member
`conf.sensor_range` of the model of the agent. -/
structure Simulation (α : Type) where
  agent : Agent α
  sensor_range : α
  arena : Arena α
  fences : List (String × Arena α)
  global_timestep : Int
  x : α
  y : α
  heading : α
  speed : α
  reward_id : Int
  goto_x : α
  goto_y : α
  reward_ids : List (String × Int)
  path_length_in_current_trial_phase : α

section SimulationOps

variable {α : Type} [LinearOrderedField α]

/-- The arena `MULTIPOLYGON()` that the constructor of `Simulation` loads: it has no
polygon, so no beam and no segment meets it. -/
def Arena.empty : Arena α :=
  { intersections := fun _ _ _ _ => [], line_intersects := fun _ _ _ _ => false }

/-- The loop of `update_sensors` over the intersection points of one beam: the distance
of the closest one, `none` when there is none (`got_intersection` is false). -/
def Arena.closest_distance (distances : List α) : Option α :=
  distances.foldl (fun (closest : Option α) (intersection_distance : α) =>
    match closest with
    | none => some intersection_distance
    | some closest_distance =>
      if intersection_distance < closest_distance then some intersection_distance
      else some closest_distance) none

/-- The method `BoostGeometryArena::update_sensors`: the new contents of the array
`sensors` of `sensor_count` entries. -/
def Arena.update_sensors (L : Libm α) (arena : Arena α) (x y range : α)
    (sensor_count : Nat) : Vector α :=
  (List.range sensor_count).map (fun sensor =>
    let sensor_direction : α := (sensor : α) * (2 * L.pi / (sensor_count : α))
    match Arena.closest_distance (arena.intersections x y
      (x + range * L.cos sensor_direction) (y + range * L.sin sensor_direction)) with
    | none => 0
    | some closest_distance => 2 * L.exp (-5 * (closest_distance / range)))

end SimulationOps

section SimulationLoop

variable {α : Type} [LinearOrderedField α] [FloorRing α]

/-- The function `Periodic::double_modulo` of `numerical.h`:
`value - period * (int)floor(1.0 * value / period)`. -/
def Periodic.double_modulo (value period : α) : α :=
  value - period * ((wrap_int32 ⌊value / period⌋ : Int) : α)

/-- The method `Simulation::step` (without the plot). The result is `none` when the
assertion of `Agent::execute` or the place-graph update fails and when the agent hits the
arena (`exit(1)`); else it is the new state and the returned flag `continue_loop`. -/
def Simulation.step (L : Libm α) (tick : Tick α) (s : Simulation α) :
    Option (Simulation α × Bool) :=
  let sensors := s.arena.update_sensors L s.x s.y s.sensor_range
    s.agent.model.border_sensors.length
  let agent : Agent α :=
    { s.agent with
      model := { s.agent.model with border_sensors := sensors },
      input := { x := s.x, y := s.y, heading := s.heading, speed := s.speed,
                 goto_x := s.goto_x, goto_y := s.goto_y, reward_id := s.reward_id } }
  match agent.execute L tick.uniform tick.normal tick.moving_convolved tick.decoded with
  | none => none
  | some agent =>
    let heading := Periodic.double_modulo agent.output.heading (2 * L.pi)
    let speed := agent.output.speed
    let path_length := s.path_length_in_current_trial_phase + speed / 1000
    let ax := s.x
    let ay := s.y
    let bx := s.x + speed * L.cos heading / 1000
    let by_ := s.y + speed * L.sin heading / 1000
    let continue_loop := decide (agent.active_state ≠ State.no_state)
    let continue_loop := s.fences.foldl (fun (continue_loop : Bool) fence =>
      if fence.2.line_intersects ax ay bx by_ then false else continue_loop) continue_loop
    if s.arena.line_intersects ax ay bx by_ then none
    else
      some ({ s with agent := agent, heading := heading, speed := speed,
                     path_length_in_current_trial_phase := path_length,
                     x := bx, y := by_,
                     global_timestep := wrap_int32 (s.global_timestep + 1) },
        continue_loop)

/-- The loop `while (this->step());`: each unit of `fuel` pays for one step, `ticks k` are
the outside values of step `k`, and `steps` counts the steps taken. The result is the
final state with the number of steps. -/
def Simulation.run_steps (L : Libm α) (ticks : Nat → Tick α) :
    Nat → Nat → Simulation α → LoopResult (Simulation α × Nat)
  | 0, _, _ => LoopResult.out_of_fuel
  | fuel + 1, steps, s =>
    match s.step L (ticks steps) with
    | none => LoopResult.fault
    | some (s', true) => Simulation.run_steps L ticks fuel (steps + 1) s'
    | some (s', false) => LoopResult.done (s', steps + 1)

/-- The script command `goto x y` of `Simulation::run`. -/
def Simulation.goto (L : Libm α) (ticks : Nat → Tick α) (fuel : Nat) (goto_x goto_y : α)
    (s : Simulation α) : LoopResult (Simulation α × Nat) :=
  let s := { s with goto_x := goto_x, goto_y := goto_y }
  let goto_distance := L.sqrt ((s.goto_x - s.x) ^ 2 + (s.goto_y - s.y) ^ 2)
  if goto_distance ≥ DISTANCE_PER_TIMESTEP then
    Simulation.run_steps L ticks fuel 0
      { s with agent := { s.agent with active_state := State.forced_move_state } }
  else LoopResult.done (s, 0)

/-- The simulation as `Simulation::run` starts it, at the origin with heading and speed
zero, for the deflect agent on the model of `main` in the empty arena, without fences. -/
def scen_simulation : Simulation α :=
  { agent := DeflectAgent scen_main_model (scen_agent_input 0)
      { heading := 0, speed := 0, halted := false },
    sensor_range := 25, arena := Arena.empty, fences := [], global_timestep := 0,
    x := 0, y := 0, heading := 0, speed := 0, reward_id := 0, goto_x := 0, goto_y := 0,
    reward_ids := [], path_length_in_current_trial_phase := 0 }

/-- Outside values for a step: no randomness, one moving convolved sheet of two neurons
and a silent decoder. -/
def scen_tick : Tick α :=
  { uniform := 0, normal := 0, moving_convolved := [[3, 4]],
    decoded := ring_at_rest 28 false false 1 }

end SimulationLoop

end GridPlaceNav

namespace GridPlaceNav

/-! ## Vocabulary for the forced move -/

section ForcedVocabulary

variable {α : Type} [LinearOrderedField α]

/-- What a forced move needs of the simulation, and what every step keeps: the handlers of
`Agent::Agent` for `forced_move_state` and `no_state`, an approach confidence threshold
of at most 1, a positive internal motor tuning, rings of `2 * k` neurons in the shape that
`Model::Model` gives them, a place graph built from the empty graph, and an arena and
fences that no segment meets. -/
def Simulation.ForcedReady (s : Simulation α) (k : Nat) : Prop :=
  s.agent.state_impl State.forced_move_state = some StateImplementation.ForcedMoveState ∧
  s.agent.state_impl State.no_state = none ∧
  s.agent.approach_confidence_threshold ≤ 1 ∧
  0 < s.agent.model.internal_motor_tuning ∧
  s.agent.model.ChainShape (k + k) ∧
  Reachable s.agent.model.place_graph ∧
  (∀ ax ay bx by_, s.arena.line_intersects ax ay bx by_ = false) ∧
  (∀ fence ∈ s.fences, ∀ ax ay bx by_, fence.2.line_intersects ax ay bx by_ = false)

end ForcedVocabulary

section ForcedTrace

variable {α : Type} [LinearOrderedField α] [FloorRing α]

/-- The state after `n` calls of `Simulation::step`, whatever flags they return; `none`
when one of the calls does not return. -/
def Simulation.after_steps (L : Libm α) (ticks : Nat → Tick α) :
    Nat → Simulation α → Option (Simulation α)
  | 0, s => some s
  | n + 1, s =>
    (Simulation.after_steps L ticks n s).bind
      (fun s' => (s'.step L (ticks n)).map Prod.fst)

end ForcedTrace

end GridPlaceNav

namespace GridPlaceNav

/-! ## Basic facts about `Vector` and the list views -/

section Basic

variable {α : Type}

theorem copy_from_fold (other : List α) :
    ∀ (k : Nat) (this : List α), this.length = other.length → k ≤ other.length →
      (List.range k).foldlM
        (fun (v : Vector α) (x : Nat) => (other[x]?).map (fun o => v.set x o)) this
        = some (other.take k ++ this.drop k) := by
  intro k
  induction k with
  | zero => intro this _ _; simp
  | succ k ih =>
    intro this hlen hk
    have hk' : k < other.length := hk
    rw [List.range_succ, List.foldlM_append, ih this hlen (Nat.le_of_lt hk')]
    simp only [Option.bind_eq_bind, Option.some_bind, List.foldlM_cons, List.foldlM_nil,
      List.getElem?_eq_getElem hk', Option.map_some', Option.pure_def, Option.bind_some]
    congr 1
    apply List.ext_getElem?
    intro n
    have hlt : (List.take k other).length = k := by simp [Nat.min_eq_left (Nat.le_of_lt hk')]
    rw [List.getElem?_set]
    by_cases hn : k = n
    · subst hn
      simp [hlen, hk', List.getElem?_append, List.getElem?_take]
      omega
    · simp only [hn, if_false, List.getElem?_append, List.length_take, List.getElem?_take,
        List.getElem?_drop]
      rcases Nat.lt_or_gt_of_ne hn with h | h
      · have h1 : ¬ n < min k other.length := by omega
        have h2 : ¬ n < min (k+1) other.length := by omega
        simp only [h1, h2, if_false]
        congr 1
        omega
      · have h1 : n < min k other.length := by omega
        have h2 : n < min (k+1) other.length := by omega
        have h3 : n < k := h
        have h4 : n < k + 1 := by omega
        simp [h1, h2, h3, h4]

/-- With equal sizes, `copy_from` makes the values of `this` those of `other`. -/
theorem copy_from_eq (this other : Vector α) (h : this.length = other.length) :
    Vector.copy_from this other = some other := by
  unfold Vector.copy_from
  simp only [ne_eq, h, not_true_eq_false, if_false]
  have h2 := copy_from_fold other other.length this h (Nat.le_refl _)
  have h3 : List.drop other.length this = [] := by
    apply List.drop_eq_nil_of_le; omega
  rw [h3] at h2
  simpa using h2

theorem copy_from_some (this other r : Vector α) (h : Vector.copy_from this other = some r) :
    r = other ∧ this.length = other.length := by
  by_cases hl : this.length = other.length
  · rw [copy_from_eq this other hl] at h
    exact ⟨(Option.some.inj h).symm, hl⟩
  · simp [Vector.copy_from, hl] at h

end Basic

end GridPlaceNav

namespace GridPlaceNav

/-! ## Neighbour lists under the elementary graph operations -/

section Edges

variable {α : Type}

theorem nbrs_set (cells : List (PlaceCell α)) (i j : Nat) (c c' : PlaceCell α)
    (h : cells[i]? = some c) :
    nbrs (cells.set i c') j = if j = i then c'.neighbors else nbrs cells j := by
  have hi : i < cells.length := by
    rcases List.getElem?_eq_some.mp h with ⟨hi, _⟩
    exact hi
  unfold nbrs
  rw [List.getElem?_set]
  by_cases hji : j = i
  · subst hji
    simp [hi]
  · have : ¬ i = j := fun e => hji e.symm
    simp [hji, this]

theorem nbrs_append_new (cells : List (PlaceCell α)) (c : PlaceCell α)
    (hc : c.neighbors = []) (j : Nat) : nbrs (cells ++ [c]) j = nbrs cells j := by
  unfold nbrs
  rw [List.getElem?_append]
  by_cases hj : j < cells.length
  · simp [hj]
  · have h1 : cells[j]? = none := List.getElem?_eq_none (Nat.le_of_not_lt hj)
    simp only [hj, if_false, h1]
    cases h2 : [c][j - cells.length]? with
    | none => rfl
    | some d =>
      have : d ∈ [c] := List.mem_iff_getElem?.mpr ⟨_, h2⟩
      simp at this
      subst this
      simpa using hc

theorem nbrs_of_getElem (cells : List (PlaceCell α)) (i : Nat) (c : PlaceCell α)
    (h : cells[i]? = some c) : nbrs cells i = c.neighbors := by
  simp [nbrs, h]

theorem nbrs_ne_nil_lt (cells : List (PlaceCell α)) (i : Nat) (p : Nat × Int)
    (h : p ∈ nbrs cells i) : i < cells.length := by
  by_contra hlt
  have h1 : cells[i]? = none := List.getElem?_eq_none (Nat.le_of_not_lt hlt)
  simp [nbrs, h1] at h

theorem weaken_neighbor_absent (L : List (Nat × Int)) (n : Nat)
    (h : ∀ p ∈ L, p.1 ≠ n) : weaken_neighbor L n = L := by
  induction L with
  | nil => rfl
  | cons p rest ih =>
    obtain ⟨m, s⟩ := p
    have hm : m ≠ n := h (m, s) (List.mem_cons_self _ _)
    have hr : ∀ p ∈ rest, p.1 ≠ n := fun p hp => h p (List.mem_cons_of_mem _ hp)
    simp [weaken_neighbor, hm, ih hr]

theorem weaken_neighbor_keys_sublist (L : List (Nat × Int)) (n : Nat) :
    ((weaken_neighbor L n).map Prod.fst).Sublist (L.map Prod.fst) := by
  induction L with
  | nil => simp [weaken_neighbor]
  | cons p rest ih =>
    obtain ⟨m, s⟩ := p
    unfold weaken_neighbor
    by_cases hm : m = n
    · by_cases hs : s - 1 ≤ 0
      · simp only [hm, if_true, hs, List.map_cons]
        exact List.sublist_cons_self _ _
      · simp only [hm, if_true, hs, if_false, List.map_cons]
        exact List.Sublist.cons₂ _ ih
    · simp only [hm, if_false, List.map_cons]
      exact List.Sublist.cons₂ _ ih

/-- Membership in a weakened neighbour list that has at most one entry per neighbour. -/
theorem mem_weaken_neighbor (L : List (Nat × Int)) (n : Nat)
    (hnd : (L.map Prod.fst).Nodup) (b : Nat) (t : Int) :
    (b, t) ∈ weaken_neighbor L n ↔
      (b ≠ n ∧ (b, t) ∈ L) ∨ (b = n ∧ (n, t + 1) ∈ L ∧ 0 < t) := by
  induction L with
  | nil => simp [weaken_neighbor]
  | cons p rest ih =>
    obtain ⟨m, s⟩ := p
    rw [List.map_cons, List.nodup_cons] at hnd
    obtain ⟨hm, hrest⟩ := hnd
    have ih := ih hrest
    have hkey : ∀ u, (m, u) ∉ rest := by
      intro u hu
      exact hm (List.mem_map.mpr ⟨(m, u), hu, rfl⟩)
    unfold weaken_neighbor
    by_cases hmn : m = n
    · subst hmn
      have habs : ∀ p ∈ rest, p.1 ≠ m := by
        rintro ⟨k, v⟩ hp e
        simp only at e
        subst e
        exact hkey v hp
      have hbm : (b, t) ∈ rest → b ≠ m := by
        intro hb e
        subst e
        exact hkey t hb
      by_cases hs : s - 1 ≤ 0
      · simp only [if_true, hs, List.mem_cons]
        constructor
        · intro h
          exact Or.inl ⟨hbm h, Or.inr h⟩
        · rintro (⟨hb, h | h⟩ | ⟨hb, h | h, ht⟩)
          · exact absurd (Prod.mk.inj h).1 hb
          · exact h
          · have := (Prod.mk.inj h).2
            omega
          · exact absurd h (hkey _)
      · simp only [if_true, hs, if_false, List.mem_cons, weaken_neighbor_absent rest m habs]
        constructor
        · rintro (h | h)
          · have h1 := (Prod.mk.inj h).1
            have h2 := (Prod.mk.inj h).2
            right
            refine ⟨h1, Or.inl ?_, by omega⟩
            rw [h2]
            simp
          · exact Or.inl ⟨hbm h, Or.inr h⟩
        · rintro (⟨hb, h | h⟩ | ⟨hb, h | h, ht⟩)
          · exact absurd (Prod.mk.inj h).1 hb
          · exact Or.inr h
          · left
            have := (Prod.mk.inj h).2
            rw [hb]
            congr 1
            omega
          · exact absurd h (hkey _)
    · simp only [hmn, if_false, List.mem_cons, ih]
      constructor
      · rintro (h | ⟨hb, h⟩ | ⟨hb, h, ht⟩)
        · left
          refine ⟨fun e => hmn ?_, Or.inl h⟩
          rw [← e]
          exact ((Prod.mk.inj h).1).symm
        · exact Or.inl ⟨hb, Or.inr h⟩
        · exact Or.inr ⟨hb, Or.inr h, ht⟩
      · rintro (⟨hb, h | h⟩ | ⟨hb, h | h, ht⟩)
        · exact Or.inl h
        · exact Or.inr (Or.inl ⟨hb, h⟩)
        · exact absurd (Prod.mk.inj h).1.symm hmn
        · exact Or.inr (Or.inr ⟨hb, h, ht⟩)

theorem EdgeInv.key_absent {N : Nat → List (Nat × Int)} (h : EdgeInv N) (a : Nat) :
    ∀ p ∈ N a, p.1 ≠ a := by
  rintro ⟨k, v⟩ hp e
  simp only at e
  subst e
  exact h.irrefl _ _ hp

theorem EdgeInv.strength_unique {N : Nat → List (Nat × Int)} (h : EdgeInv N) (a b : Nat)
    (s t : Int) (hs : (b, s) ∈ N a) (ht : (b, t) ∈ N a) : s = t := by
  have hnd := h.nodup a
  have := List.inj_on_of_nodup_map hnd hs ht rfl
  exact (Prod.mk.inj this).2

/-- The empty neighbour map satisfies the edge invariant. -/
theorem EdgeInv.empty : EdgeInv (fun _ => ([] : List (Nat × Int))) :=
  { sym := by intro a b s h; simp at h
    nodup := by intro a; simp
    irrefl := by intro a s h; simp at h
    pos := by intro a b s h; simp at h
    le_max := by intro a b s h; simp at h }

theorem mem_add_edge (N : Nat → List (Nat × Int)) (a c : Nat) (hac : a ≠ c) (j b : Nat)
    (t : Int) :
    (b, t) ∈ add_edge N a c j ↔
      (b, t) ∈ N j ∨ (t = PLACE_CONNECTION_STRENGTH ∧ ((j = a ∧ b = c) ∨ (j = c ∧ b = a))) := by
  unfold add_edge
  by_cases hja : j = a
  · subst hja
    have : ¬ j = c := hac
    simp only [if_true, List.mem_append, List.mem_singleton, Prod.mk.injEq, this, false_and,
      or_false, true_and]
    tauto
  · by_cases hjc : j = c
    · subst hjc
      simp only [hja, if_false, if_true, List.mem_append, List.mem_singleton, Prod.mk.injEq,
        false_and, false_or, true_and]
      tauto
    · simp [hja, hjc]

/-- Adding an edge between two distinct, not yet connected cells keeps the invariant. -/
theorem EdgeInv.add_edge {N : Nat → List (Nat × Int)} (h : EdgeInv N) (a c : Nat)
    (hac : a ≠ c) (hnc : ∀ p ∈ N c, p.1 ≠ a) : EdgeInv (add_edge N a c) := by
  have hna : ∀ p ∈ N a, p.1 ≠ c := by
    rintro ⟨k, v⟩ hp e
    simp only at e
    subst e
    exact hnc _ (h.sym a k v hp) rfl
  refine ⟨?_, ?_, ?_, ?_, ?_⟩
  · intro x b s hx
    rw [mem_add_edge N a c hac] at hx ⊢
    rcases hx with hx | ⟨hs, hx⟩
    · exact Or.inl (h.sym x b s hx)
    · right
      exact ⟨hs, by tauto⟩
  · intro x
    unfold GridPlaceNav.add_edge
    by_cases hxa : x = a
    · subst hxa
      simp only [if_true, List.map_append, List.map_cons, List.map_nil]
      rw [List.nodup_append]
      refine ⟨h.nodup x, by simp, ?_⟩
      intro k hk1 hk2
      simp only [List.mem_singleton] at hk2
      subst hk2
      rcases List.mem_map.mp hk1 with ⟨p, hp, hpe⟩
      exact hna p hp hpe
    · by_cases hxc : x = c
      · subst hxc
        simp only [hxa, if_false, if_true, List.map_append, List.map_cons, List.map_nil]
        rw [List.nodup_append]
        refine ⟨h.nodup x, by simp, ?_⟩
        intro k hk1 hk2
        simp only [List.mem_singleton] at hk2
        subst hk2
        rcases List.mem_map.mp hk1 with ⟨p, hp, hpe⟩
        exact hnc p hp hpe
      · simp only [hxa, hxc, if_false]
        exact h.nodup x
  · intro x s hx
    rw [mem_add_edge N a c hac] at hx
    rcases hx with hx | ⟨_, ⟨h1, h2⟩ | ⟨h1, h2⟩⟩
    · exact h.irrefl x s hx
    · exact hac (h1 ▸ h2)
    · exact hac (h2 ▸ h1)
  · intro x b s hx
    rw [mem_add_edge N a c hac] at hx
    rcases hx with hx | ⟨hs, _⟩
    · exact h.pos x b s hx
    · rw [hs]; decide
  · intro x b s hx
    rw [mem_add_edge N a c hac] at hx
    rcases hx with hx | ⟨hs, _⟩
    · exact h.le_max x b s hx
    · rw [hs]

theorem weaken_edge_self {N : Nat → List (Nat × Int)} (h : EdgeInv N) (r : Nat) :
    weaken_edge N r r = N := by
  funext j
  unfold weaken_edge
  have h1 := weaken_neighbor_absent _ _ (h.key_absent r)
  by_cases hj : j = r
  · subst hj
    simp only [if_true, h1]
  · simp [hj]

theorem weaken_edge_ne (N : Nat → List (Nat × Int)) (r s : Nat) (hrs : r ≠ s) :
    weaken_edge N r s = fun j =>
      if j = r then weaken_neighbor (N r) s
      else if j = s then weaken_neighbor (N s) r
      else N j := by
  funext j
  unfold weaken_edge
  have hsr : ¬ s = r := fun e => hrs e.symm
  by_cases hjs : j = s
  · subst hjs
    simp [hsr]
  · simp [hjs]

/-- Membership in the neighbour map after an edge has been weakened on both sides. -/
theorem mem_weaken_edge {N : Nat → List (Nat × Int)} (h : EdgeInv N) (r s : Nat) (j b : Nat)
    (t : Int) :
    (b, t) ∈ weaken_edge N r s j ↔
      if (j = r ∧ b = s) ∨ (j = s ∧ b = r) then (b, t + 1) ∈ N j ∧ 0 < t
      else (b, t) ∈ N j := by
  by_cases hrs : r = s
  · subst hrs
    rw [weaken_edge_self h]
    by_cases hc : (j = r ∧ b = r) ∨ (j = r ∧ b = r)
    · rw [if_pos hc]
      have hj : j = r := by tauto
      have hb : b = r := by tauto
      subst hj
      subst hb
      constructor
      · intro hx; exact absurd hx (h.irrefl _ _)
      · intro hx; exact absurd hx.1 (h.irrefl _ _)
    · rw [if_neg hc]
  · by_cases hc : (j = r ∧ b = s) ∨ (j = s ∧ b = r)
    · rw [if_pos hc, weaken_edge_ne N r s hrs]
      rcases hc with ⟨hj, hb⟩ | ⟨hj, hb⟩
      · subst hj
        subst hb
        simp only [if_true]
        rw [mem_weaken_neighbor _ _ (h.nodup j)]
        simp
      · subst hj
        subst hb
        have hjb : ¬ j = b := fun e => hrs e.symm
        simp only [hjb, if_false, if_true]
        rw [mem_weaken_neighbor _ _ (h.nodup j)]
        simp
    · rw [if_neg hc, weaken_edge_ne N r s hrs]
      by_cases hjr : j = r
      · have hbs : b ≠ s := fun e => hc (Or.inl ⟨hjr, e⟩)
        subst hjr
        simp only [if_true]
        rw [mem_weaken_neighbor _ _ (h.nodup j)]
        simp [hbs]
      · by_cases hjs : j = s
        · have hbr : b ≠ r := fun e => hc (Or.inr ⟨hjs, e⟩)
          subst hjs
          simp only [hjr, if_false, if_true]
          rw [mem_weaken_neighbor _ _ (h.nodup j)]
          simp [hbr]
        · simp only [hjr, hjs, if_false]

/-- Weakening an edge on both of its endpoints keeps the invariant. -/
theorem EdgeInv.weaken_edge {N : Nat → List (Nat × Int)} (h : EdgeInv N) (r s : Nat) :
    EdgeInv (weaken_edge N r s) := by
  refine ⟨?_, ?_, ?_, ?_, ?_⟩
  · intro a b t hx
    rw [mem_weaken_edge h] at hx ⊢
    by_cases hc : (a = r ∧ b = s) ∨ (a = s ∧ b = r)
    · have hc' : (b = r ∧ a = s) ∨ (b = s ∧ a = r) := by tauto
      rw [if_pos hc] at hx
      rw [if_pos hc']
      exact ⟨h.sym _ _ _ hx.1, hx.2⟩
    · have hc' : ¬ ((b = r ∧ a = s) ∨ (b = s ∧ a = r)) := by tauto
      rw [if_neg hc] at hx
      rw [if_neg hc']
      exact h.sym _ _ _ hx
  · intro a
    by_cases hrs : r = s
    · subst hrs
      rw [weaken_edge_self h]
      exact h.nodup a
    · rw [weaken_edge_ne N r s hrs]
      by_cases har : a = r
      · simp only [har, if_true]
        exact List.Nodup.sublist (weaken_neighbor_keys_sublist _ _) (h.nodup r)
      · by_cases has : a = s
        · have hsr : ¬ s = r := fun e => hrs e.symm
          simp only [has, hsr, if_false, if_true]
          exact List.Nodup.sublist (weaken_neighbor_keys_sublist _ _) (h.nodup s)
        · simp only [har, has, if_false]
          exact h.nodup a
  · intro a t hx
    rw [mem_weaken_edge h] at hx
    by_cases hc : (a = r ∧ a = s) ∨ (a = s ∧ a = r)
    · rw [if_pos hc] at hx
      exact h.irrefl _ _ hx.1
    · rw [if_neg hc] at hx
      exact h.irrefl _ _ hx
  · intro a b t hx
    rw [mem_weaken_edge h] at hx
    by_cases hc : (a = r ∧ b = s) ∨ (a = s ∧ b = r)
    · rw [if_pos hc] at hx
      exact hx.2
    · rw [if_neg hc] at hx
      exact h.pos _ _ _ hx
  · intro a b t hx
    rw [mem_weaken_edge h] at hx
    by_cases hc : (a = r ∧ b = s) ∨ (a = s ∧ b = r)
    · rw [if_pos hc] at hx
      have := h.le_max _ _ _ hx.1
      omega
    · rw [if_neg hc] at hx
      exact h.le_max _ _ _ hx

theorem weaken_nbrs_cases (N : Nat → List (Nat × Int)) (w : Bool) (r s : Option Nat) :
    weaken_nbrs N w r s = N ∨
    (w = true ∧ ∃ r' s', r = some r' ∧ s = some s' ∧
      weaken_nbrs N w r s = weaken_edge N r' s') := by
  cases w with
  | false => exact Or.inl rfl
  | true =>
    cases r with
    | none => exact Or.inl rfl
    | some r' =>
      cases s with
      | none => exact Or.inl rfl
      | some s' => exact Or.inr ⟨rfl, r', s', rfl, rfl, rfl⟩

end Edges

end GridPlaceNav

namespace GridPlaceNav

/-! ## The phases of `update` and what they leave alone -/

section Phases

variable {α : Type} [LinearOrderedCommRing α]

theorem map_set_same {β : Type} (f : PlaceCell α → β) (cells : List (PlaceCell α)) (i : Nat)
    (c c' : PlaceCell α) (h : cells[i]? = some c) (hf : f c' = f c) :
    (cells.set i c').map f = cells.map f := by
  have hi : i < cells.length := by
    rcases List.getElem?_eq_some.mp h with ⟨hi, _⟩
    exact hi
  apply List.ext_getElem?
  intro n
  rw [List.map_set, List.getElem?_set]
  by_cases hn : i = n
  · subst hn
    simp only [if_true, List.length_map, hi, List.getElem?_map, h, Option.map_some', hf]
  · simp [hn]

theorem nbrs_eq_of_map (cells cells' : List (PlaceCell α))
    (h : cells'.map (fun c => c.neighbors) = cells.map (fun c => c.neighbors)) :
    nbrs cells' = nbrs cells := by
  funext i
  have h1 := congrArg (fun l => l[i]?) h
  simp only [List.getElem?_map] at h1
  unfold nbrs
  cases h2 : cells'[i]? <;> cases h3 : cells[i]? <;> simp [h2, h3] at h1 ⊢
  exact h1

theorem pred_of_eq_of_map (cells cells' : List (PlaceCell α))
    (h : cells'.map (fun c => c.bfs_predecessor) = cells.map (fun c => c.bfs_predecessor)) :
    pred_of cells' = pred_of cells := by
  funext i
  have h1 := congrArg (fun l => l[i]?) h
  simp only [List.getElem?_map] at h1
  unfold pred_of
  cases h2 : cells'[i]? <;> cases h3 : cells[i]? <;> simp [h2, h3] at h1 ⊢
  exact h1

theorem source_of_eq_of_map (cells cells' : List (PlaceCell α))
    (h : cells'.map (fun c => c.replay_source) = cells.map (fun c => c.replay_source)) :
    source_of cells' = source_of cells := by
  funext i
  have h1 := congrArg (fun l => l[i]?) h
  simp only [List.getElem?_map] at h1
  unfold source_of
  cases h2 : cells'[i]? <;> cases h3 : cells[i]? <;> simp [h2, h3] at h1 ⊢
  exact h1

/-- The two outcomes of lines 70-86. -/
theorem form_cell_cases (g : PlaceGraph α) (model : Model α) (g1 : PlaceGraph α)
    (cl : Option Nat) (h : g.form_cell model = some (g1, cl)) :
    (should_form g (find_closest g.input.x g.input.y g.cells 0 none) = true ∧
      ∃ snap, capture_grid_state_from_model model = some snap ∧
        g1 = { g with cells := g.cells ++
          [{ index := g.cells.length, x := g.input.x, y := g.input.y, neighbors := [],
             bfs_predecessor := none, replay_source := none, grid_state := snap }] } ∧
        cl = some g.cells.length) ∨
    (should_form g (find_closest g.input.x g.input.y g.cells 0 none) = false ∧
      g1 = g ∧ cl = (find_closest g.input.x g.input.y g.cells 0 none).map Prod.fst) := by
  unfold PlaceGraph.form_cell at h
  by_cases hf : should_form g (find_closest g.input.x g.input.y g.cells 0 none) = true
  · left
    simp only [hf, if_true] at h
    cases hs : capture_grid_state_from_model model with
    | none => simp [hs] at h
    | some snap =>
      simp only [hs, Option.bind_eq_bind, Option.some_bind, Option.some.injEq,
        Prod.mk.injEq] at h
      exact ⟨hf, snap, rfl, h.1.symm, h.2.symm⟩
  · right
    rw [if_neg hf] at h
    simp only [Option.some.injEq, Prod.mk.injEq] at h
    simp only [Bool.not_eq_true] at hf
    exact ⟨hf, h.1.symm, h.2.symm⟩

theorem form_cell_nbrs (g : PlaceGraph α) (model : Model α) (g1 : PlaceGraph α)
    (cl : Option Nat) (h : g.form_cell model = some (g1, cl)) :
    nbrs g1.cells = nbrs g.cells := by
  rcases form_cell_cases g model g1 cl h with ⟨_, snap, _, hg, _⟩ | ⟨_, hg, _⟩
  · subst hg
    funext j
    exact nbrs_append_new _ _ rfl j
  · rw [hg]

theorem form_cell_fields (g : PlaceGraph α) (model : Model α) (g1 : PlaceGraph α)
    (cl : Option Nat) (h : g.form_cell model = some (g1, cl)) :
    g1 = { g with cells := g1.cells } := by
  rcases form_cell_cases g model g1 cl h with ⟨_, snap, _, hg, _⟩ | ⟨_, hg, _⟩
  · subst hg; rfl
  · rw [hg]

/-- What lines 91-107 do: only neighbour lists and `agent_cell` change. -/
theorem connect_spec (g : PlaceGraph α) (cl : Option Nat) (g2 : PlaceGraph α)
    (h : g.connect cl = some g2) :
    g2 = { g with cells := g2.cells, agent_cell := cl } ∧
    nbrs g2.cells = connect_nbrs (nbrs g.cells) g.agent_cell cl ∧
    ∀ {β : Type} (f : PlaceCell α → β),
      (∀ c nb, f { c with neighbors := nb } = f c) → g2.cells.map f = g.cells.map f := by
  unfold PlaceGraph.connect at h
  rcases Option.eq_none_or_eq_some g.agent_cell with ha | ⟨a, ha⟩
  · simp only [ha, Option.some.injEq] at h
    subst h
    exact ⟨rfl, by simp [connect_nbrs, ha], fun _ _ => rfl⟩
  · simp only [ha] at h
    by_cases hac : some a = cl
    · simp only [hac, if_true, Option.some.injEq] at h
      subst h
      refine ⟨rfl, ?_, fun _ _ => rfl⟩
      subst hac
      simp [connect_nbrs, ha]
    · simp only [hac, if_false] at h
      rcases Option.eq_none_or_eq_some cl with hcl | ⟨c, hcl⟩
      · simp [hcl] at h
      · subst hcl
        have hne : a ≠ c := fun e => hac (by rw [e])
        simp only [Option.bind_eq_bind, Option.some_bind] at h
        cases hcc : g.cells[c]? with
        | none => simp [hcc] at h
        | some cc =>
          simp only [hcc, Option.some_bind] at h
          have hN : nbrs g.cells c = cc.neighbors := nbrs_of_getElem _ _ _ hcc
          by_cases hcon : cc.neighbors.any (fun p => decide (p.1 = a)) = true
          · simp only [hcon, if_true, Option.some.injEq] at h
            subst h
            refine ⟨rfl, ?_, fun _ _ => rfl⟩
            simp [connect_nbrs, ha, hN, hcon]
          · rw [if_neg hcon] at h
            have hac1 : (g.cells.set c
                { cc with neighbors := cc.neighbors ++ [(a, PLACE_CONNECTION_STRENGTH)] })[a]?
                = g.cells[a]? := List.getElem?_set_ne (fun e => hne e.symm)
            cases hca : g.cells[a]? with
            | none => simp [hac1, hca] at h
            | some ac =>
              simp only [hac1, hca, Option.some_bind, Option.some.injEq] at h
              subst h
              refine ⟨rfl, ?_, ?_⟩
              · have hcon' : (nbrs g.cells c).any (fun p => decide (p.1 = a)) = false := by
                  rw [hN]; exact Bool.eq_false_iff.mpr hcon
                simp only [connect_nbrs, ha, ne_eq, hne, not_false_eq_true, hcon', and_self,
                  if_true]
                funext j
                have hget : (g.cells.set c
                    { cc with neighbors := cc.neighbors ++ [(a, PLACE_CONNECTION_STRENGTH)] })[a]?
                    = some ac := by rw [hac1, hca]
                rw [nbrs_set _ a j ac _ hget, nbrs_set _ c j cc _ hcc]
                unfold add_edge
                by_cases hja : j = a
                · simp [hja, nbrs_of_getElem _ _ _ hca]
                · by_cases hjc : j = c
                  · subst hjc
                    simp [hja, hN]
                  · simp [hja, hjc]
              · intro β f hf
                have hget : (g.cells.set c
                    { cc with neighbors := cc.neighbors ++ [(a, PLACE_CONNECTION_STRENGTH)] })[a]?
                    = some ac := by rw [hac1, hca]
                rw [map_set_same f _ a ac _ hget (hf _ _), map_set_same f _ c cc _ hcc (hf _ _)]

/-- What lines 112-116 do: only `reward_locations` changes. -/
theorem save_reward_spec (g g3 : PlaceGraph α) (h : g.save_reward = some g3) :
    g3 = { g with reward_locations := g3.reward_locations } ∧
    (g.input.save_reward = false → g3 = g) ∧
    (g.input.save_reward = true → 0 < g.input.reward_id ∧ ∃ a, g.agent_cell = some a ∧
      g3.reward_locations = map_set g.reward_locations g.input.reward_id a) := by
  unfold PlaceGraph.save_reward at h
  by_cases hs : g.input.save_reward = true
  · simp only [hs, if_true] at h
    by_cases hr : 0 < g.input.reward_id
    · simp only [hr, if_true] at h
      rcases Option.eq_none_or_eq_some g.agent_cell with ha | ⟨a, ha⟩
      · simp [ha] at h
      · simp only [ha, Option.some.injEq] at h
        subst h
        exact ⟨by rw [ha], by simp [hs], fun _ => ⟨hr, a, ha, rfl⟩⟩
    · simp [hr] at h
  · rw [if_neg hs] at h
    simp only [Option.some.injEq] at h
    subst h
    exact ⟨rfl, fun _ => rfl, fun h' => absurd h' hs⟩

/-- What lines 120-125 do: only neighbour lists change. -/
theorem weaken_spec (g g4 : PlaceGraph α) (h : g.weaken = some g4) :
    g4 = { g with cells := g4.cells } ∧
    nbrs g4.cells = weaken_nbrs (nbrs g.cells) g.input.weaken_synapse g.replay_cell
      (g.replay_cell.bind (source_of g.cells)) ∧
    ∀ {β : Type} (f : PlaceCell α → β),
      (∀ c nb, f { c with neighbors := nb } = f c) → g4.cells.map f = g.cells.map f := by
  unfold PlaceGraph.weaken at h
  by_cases hw : g.input.weaken_synapse = true
  · simp only [hw, if_true] at h
    rcases Option.eq_none_or_eq_some g.replay_cell with hr | ⟨r, hr⟩
    · simp only [hr, Option.some.injEq] at h
      subst h
      exact ⟨rfl, by simp [weaken_nbrs, hr], fun _ _ => rfl⟩
    · simp only [hr, Option.bind_eq_bind] at h
      rcases Option.eq_none_or_eq_some g.cells[r]? with hrc | ⟨rc, hrc⟩
      · simp [hrc] at h
      · simp only [hrc, Option.some_bind] at h
        have hsrc : source_of g.cells r = rc.replay_source := by simp [source_of, hrc]
        rcases Option.eq_none_or_eq_some rc.replay_source with hs | ⟨s, hs⟩
        · simp only [hs, Option.some.injEq] at h
          subst h
          refine ⟨rfl, ?_, fun _ _ => rfl⟩
          simp [weaken_nbrs, hr, hsrc, hs, hw]
        · simp only [hs] at h
          obtain ⟨sc, hsc, h⟩ := Option.bind_eq_some.mp h
          simp only [Option.some.injEq] at h
          subst h
          refine ⟨by rw [hr], ?_, ?_⟩
          · simp only [weaken_nbrs, hr, hsrc, hs, hw, Option.some_bind]
            funext j
            rw [nbrs_set _ s j sc _ hsc, nbrs_set _ r j rc _ hrc]
            have hsc' := (nbrs_of_getElem _ _ _ hsc).symm
            rw [nbrs_set _ r s rc _ hrc] at hsc'
            simp only [hsc']
            unfold weaken_edge
            simp only [nbrs_of_getElem _ _ _ hrc]
          · intro β f hf
            rw [map_set_same f _ s sc _ hsc (hf _ _), map_set_same f _ r rc _ hrc]
            rw [← hs]
            exact hf _ _
  · rw [if_neg hw] at h
    simp only [Option.some.injEq] at h
    subst h
    refine ⟨rfl, ?_, fun _ _ => rfl⟩
    simp only [Bool.not_eq_true] at hw
    simp [weaken_nbrs, hw]

end Phases

end GridPlaceNav

namespace GridPlaceNav

/-! ## The replay phase leaves edges and cell identities alone -/

section Frame

variable {α : Type} [LinearOrderedCommRing α]

theorem bfs_clear_map {β : Type} (f : PlaceCell α → β)
    (hf : ∀ c p s, f { c with bfs_predecessor := p, replay_source := s } = f c)
    (cells : List (PlaceCell α)) : (bfs_clear cells).map f = cells.map f := by
  unfold bfs_clear
  rw [List.map_map]
  apply List.map_congr_left
  intro c _
  exact hf c none none

theorem bfs_scan_frame {β : Type} (f : PlaceCell α → β)
    (hf : ∀ c p s, f { c with bfs_predecessor := p, replay_source := s } = f c) (cur : Nat) :
    ∀ (L : List (Nat × Int)) (cells : List (PlaceCell α)) (fifo : List Nat)
      (cells' : List (PlaceCell α)) (fifo' : List Nat),
      bfs_scan cur L cells fifo = some (cells', fifo') → cells'.map f = cells.map f := by
  intro L
  induction L with
  | nil =>
    intro cells fifo cells' fifo' h
    simp only [bfs_scan, Option.some.injEq, Prod.mk.injEq] at h
    rw [h.1]
  | cons p rest ih =>
    intro cells fifo cells' fifo' h
    obtain ⟨nb, st⟩ := p
    unfold bfs_scan at h
    obtain ⟨nc, hnc, h⟩ := Option.bind_eq_some.mp h
    by_cases hp : nc.bfs_predecessor = none
    · rw [if_pos hp] at h
      rw [ih _ _ _ _ h]
      exact map_set_same f _ nb nc _ hnc (hf nc (some cur) nc.replay_source)
    · rw [if_neg hp] at h
      exact ih _ _ _ _ h

theorem bfs_loop_frame {β : Type} (f : PlaceCell α → β)
    (hf : ∀ c p s, f { c with bfs_predecessor := p, replay_source := s } = f c) :
    ∀ (fuel : Nat) (cells : List (PlaceCell α)) (fifo : List Nat) (cells' : List (PlaceCell α)),
      bfs_loop fuel cells fifo = some cells' → cells'.map f = cells.map f := by
  intro fuel
  induction fuel with
  | zero =>
    intro cells fifo cells' h
    cases fifo with
    | nil =>
      simp only [bfs_loop, Option.some.injEq] at h
      rw [h]
    | cons a t => simp [bfs_loop] at h
  | succ n ih =>
    intro cells fifo cells' h
    cases fifo with
    | nil =>
      simp only [bfs_loop, Option.some.injEq] at h
      rw [h]
    | cons a t =>
      unfold bfs_loop at h
      obtain ⟨cc, _, h⟩ := Option.bind_eq_some.mp h
      obtain ⟨⟨c1, f1⟩, hscan, h⟩ := Option.bind_eq_some.mp h
      rw [ih _ _ _ h]
      exact bfs_scan_frame f hf a _ _ _ _ _ hscan

/-- The search only writes `bfs_predecessor` and `replay_source`. -/
theorem bfs_frame {β : Type} (f : PlaceCell α → β)
    (hf : ∀ c p s, f { c with bfs_predecessor := p, replay_source := s } = f c)
    (cells : List (PlaceCell α)) (start : Nat) (cells' : List (PlaceCell α))
    (h : bfs cells start = some cells') : cells'.map f = cells.map f := by
  unfold bfs bfs_with_fuel at h
  obtain ⟨sc, hsc, h⟩ := Option.bind_eq_some.mp h
  rw [bfs_loop_frame f hf _ _ _ _ h,
    map_set_same f _ start sc _ hsc (hf sc (some start) sc.replay_source)]
  exact bfs_clear_map f hf cells

/-- Lines 158-205 change only transient cell fields, `replay_cell` and
`replay_terminated`. -/
theorem propagate_frame (g g' : PlaceGraph α) (h : g.propagate = some g') :
    g' = { g with cells := g'.cells, replay_cell := g'.replay_cell,
                  output := { g.output with replay_terminated := g'.output.replay_terminated } } ∧
    ∀ {β : Type} (f : PlaceCell α → β),
      (∀ c p s, f { c with bfs_predecessor := p, replay_source := s } = f c) →
      g'.cells.map f = g.cells.map f := by
  unfold PlaceGraph.propagate at h
  obtain ⟨start, _, h⟩ := Option.bind_eq_some.mp h
  obtain ⟨cells, hbfs, h⟩ := Option.bind_eq_some.mp h
  obtain ⟨r, _, h⟩ := Option.bind_eq_some.mp h
  obtain ⟨rc, _, h⟩ := Option.bind_eq_some.mp h
  rcases Option.eq_none_or_eq_some rc.bfs_predecessor with hp | ⟨p, hp⟩
  · simp only [hp, Option.some.injEq] at h
    subst h
    exact ⟨rfl, fun f hf => bfs_frame f hf _ _ _ hbfs⟩
  · simp only [hp] at h
    obtain ⟨pc, hpc, h⟩ := Option.bind_eq_some.mp h
    obtain ⟨pc', _, h⟩ := Option.bind_eq_some.mp h
    simp only [Option.some.injEq] at h
    subst h
    refine ⟨rfl, fun f hf => ?_⟩
    simp only
    rw [map_set_same f _ p pc _ hpc (hf pc pc.bfs_predecessor (some r))]
    exact bfs_frame f hf _ _ _ hbfs

theorem reset_replay_frame (g : PlaceGraph α) :
    g.reset_replay = { g with replay_cell := g.reset_replay.replay_cell } := by
  unfold PlaceGraph.reset_replay
  split <;> rfl

theorem propagate_if_requested_frame (g g' : PlaceGraph α)
    (h : g.propagate_if_requested = some g') :
    g' = { g with cells := g'.cells, replay_cell := g'.replay_cell,
                  output := { g.output with replay_terminated := g'.output.replay_terminated } } ∧
    ∀ {β : Type} (f : PlaceCell α → β),
      (∀ c p s, f { c with bfs_predecessor := p, replay_source := s } = f c) →
      g'.cells.map f = g.cells.map f := by
  unfold PlaceGraph.propagate_if_requested at h
  split at h
  · exact propagate_frame g g' h
  · simp only [Option.some.injEq] at h
    subst h
    exact ⟨rfl, fun _ _ => rfl⟩

/-- The pieces of a successful replay phase that performs a replay update. -/
theorem replay_performed (g g' : PlaceGraph α) (model model' : Model α)
    (h : g.replay model = some (g', model'))
    (hp : g.input.reset_replay_to ≠ ReplayMode.maintain_current_node ∨
      g.input.propagate_replay_towards ≠ ReplayMode.maintain_current_node) :
    0 < g.input.reward_id ∧
    ∃ rw r rc, map_get g.reward_locations g.input.reward_id = some rw ∧
      PlaceGraph.propagate_if_requested (PlaceGraph.reset_replay
        { g with output := { g.output with replay_terminated := false },
                 reward_cell := some rw }) = some g' ∧
      g'.replay_cell = some r ∧ g'.cells[r]? = some rc ∧
      transfer_grid_state_to_decoder rc.grid_state model = some model' := by
  unfold PlaceGraph.replay at h
  simp only at h
  rw [if_pos hp] at h
  by_cases hid : 0 < g.input.reward_id
  · rw [if_pos hid] at h
    obtain ⟨rw, hrw, h⟩ := Option.bind_eq_some.mp h
    obtain ⟨g3, hg3, h⟩ := Option.bind_eq_some.mp h
    obtain ⟨r, hr, h⟩ := Option.bind_eq_some.mp h
    obtain ⟨rc, hrc, h⟩ := Option.bind_eq_some.mp h
    obtain ⟨m', hm, h⟩ := Option.bind_eq_some.mp h
    simp only [Option.some.injEq, Prod.mk.injEq] at h
    obtain ⟨h1, h2⟩ := h
    subst h1
    subst h2
    exact ⟨hid, rw, r, rc, hrw, hg3, hr, hrc, hm⟩
  · rw [if_neg hid] at h
    simp at h

/-- A replay phase without a replay request only clears `replay_terminated`. -/
theorem replay_not_performed (g g' : PlaceGraph α) (model model' : Model α)
    (h : g.replay model = some (g', model'))
    (hp : ¬ (g.input.reset_replay_to ≠ ReplayMode.maintain_current_node ∨
      g.input.propagate_replay_towards ≠ ReplayMode.maintain_current_node)) :
    g' = { g with output := { g.output with replay_terminated := false } } ∧ model' = model := by
  unfold PlaceGraph.replay at h
  simp only at h
  rw [if_neg hp] at h
  simp only [Option.some.injEq, Prod.mk.injEq] at h
  exact ⟨h.1.symm, h.2.symm⟩

/-- Lines 130-209 change only transient cell fields, `reward_cell`, `replay_cell` and
`replay_terminated`. -/
theorem replay_frame (g g' : PlaceGraph α) (model model' : Model α)
    (h : g.replay model = some (g', model')) :
    g' = { g with cells := g'.cells, reward_cell := g'.reward_cell,
                  replay_cell := g'.replay_cell,
                  output := { g.output with replay_terminated := g'.output.replay_terminated } } ∧
    ∀ {β : Type} (f : PlaceCell α → β),
      (∀ c p s, f { c with bfs_predecessor := p, replay_source := s } = f c) →
      g'.cells.map f = g.cells.map f := by
  by_cases hp : g.input.reset_replay_to ≠ ReplayMode.maintain_current_node ∨
      g.input.propagate_replay_towards ≠ ReplayMode.maintain_current_node
  · obtain ⟨_, rw, r, rc, _, hg3, _, _, _⟩ := replay_performed g g' model model' h hp
    obtain ⟨h1, h2⟩ := propagate_if_requested_frame _ _ hg3
    have h3 := reset_replay_frame
      { g with output := { g.output with replay_terminated := false }, reward_cell := some rw }
    constructor
    · rw [h1, h3]
    · intro β f hf
      rw [h2 f hf, h3]
  · obtain ⟨h1, _⟩ := replay_not_performed g g' model model' h hp
    subst h1
    exact ⟨rfl, fun _ _ => rfl⟩

/-- Lines 214-221 change only the output flags other than `replay_terminated`. -/
theorem set_outputs_frame (g g' : PlaceGraph α) (h : g.set_outputs = some g') :
    g' = { g with output := g'.output } ∧
    g'.output.replay_terminated = g.output.replay_terminated := by
  unfold PlaceGraph.set_outputs at h
  obtain ⟨ag, _, h⟩ := Option.bind_eq_some.mp h
  obtain ⟨asg, _, h⟩ := Option.bind_eq_some.mp h
  obtain ⟨vis, _, h⟩ := Option.bind_eq_some.mp h
  obtain ⟨dir, _, h⟩ := Option.bind_eq_some.mp h
  simp only [Option.some.injEq] at h
  subst h
  exact ⟨rfl, rfl⟩

/-- The phases of a successful `update`. -/
theorem update_phases (g : PlaceGraph α) (model : Model α) (g' : PlaceGraph α)
    (model' : Model α) (h : g.update model = some (g', model')) :
    ∃ g1 cl g2 g3 g4 g5,
      g.form_cell model = some (g1, cl) ∧ g1.connect cl = some g2 ∧
      g2.save_reward = some g3 ∧ g3.weaken = some g4 ∧ g.pre_replay model = some g4 ∧
      g4.replay model = some (g5, model') ∧ g5.set_outputs = some g' := by
  unfold PlaceGraph.update at h
  obtain ⟨g4, hpre, h⟩ := Option.bind_eq_some.mp h
  obtain ⟨⟨g5, m5⟩, hrep, h⟩ := Option.bind_eq_some.mp h
  obtain ⟨g6, hout, h⟩ := Option.bind_eq_some.mp h
  simp only [Option.some.injEq, Prod.mk.injEq] at h
  obtain ⟨h1, h2⟩ := h
  subst h1
  subst h2
  have hpre' := hpre
  unfold PlaceGraph.pre_replay at hpre
  obtain ⟨⟨g1, cl⟩, hform, hpre⟩ := Option.bind_eq_some.mp hpre
  obtain ⟨g2, hcon, hpre⟩ := Option.bind_eq_some.mp hpre
  obtain ⟨g3, hsave, hpre⟩ := Option.bind_eq_some.mp hpre
  exact ⟨g1, cl, g2, g3, g4, g5, hform, hcon, hsave, hpre, hpre', hrep, hout⟩

theorem neighbors_insensitive (c : PlaceCell α) (p s : Option Nat) :
    ({ c with bfs_predecessor := p, replay_source := s } : PlaceCell α).neighbors
      = c.neighbors := rfl

/-- The neighbour map after a successful `update`, as a function of the one before. -/
theorem update_nbrs (g : PlaceGraph α) (model : Model α) (g' : PlaceGraph α)
    (model' : Model α) (h : g.update model = some (g', model')) :
    ∃ g1 g2, g.form_cell model = some (g1, g'.agent_cell) ∧
      g1.connect g'.agent_cell = some g2 ∧
      nbrs g2.cells = connect_nbrs (nbrs g.cells) g.agent_cell g'.agent_cell ∧
      nbrs g'.cells = weaken_nbrs (nbrs g2.cells) g.input.weaken_synapse g.replay_cell
        (g.replay_cell.bind (source_of g2.cells)) := by
  obtain ⟨g1, cl, g2, g3, g4, g5, hform, hcon, hsave, hweak, _, hrep, hout⟩ :=
    update_phases g model g' model' h
  have h1 := form_cell_nbrs g model g1 cl hform
  have h1' := form_cell_fields g model g1 cl hform
  obtain ⟨h2a, h2b, _⟩ := connect_spec g1 cl g2 hcon
  obtain ⟨h3a, _, _⟩ := save_reward_spec g2 g3 hsave
  obtain ⟨h4a, h4b, _⟩ := weaken_spec g3 g4 hweak
  obtain ⟨h5a, h5b⟩ := replay_frame g4 g5 model model' hrep
  obtain ⟨h6a, _⟩ := set_outputs_frame g5 g' hout
  have hag : g'.agent_cell = cl := by
    rw [h6a, h5a, h4a, h3a, h2a]
  have hc3 : g3.cells = g2.cells := by rw [h3a]
  have hin : g3.input = g.input := by rw [h3a, h2a, h1']
  have hrc : g3.replay_cell = g.replay_cell := by rw [h3a, h2a, h1']
  have ha1 : g1.agent_cell = g.agent_cell := by rw [h1']
  have hc6 : g'.cells = g5.cells := by rw [h6a]
  have hn5 : nbrs g5.cells = nbrs g4.cells :=
    nbrs_eq_of_map _ _ (h5b (fun c => c.neighbors) neighbors_insensitive)
  rw [hag]
  refine ⟨g1, g2, hform, hcon, ?_, ?_⟩
  · rw [h2b, h1, ha1]
  · rw [hc6, hn5, h4b, hc3, hin, hrc]

theorem connect_nbrs_inv {N : Nat → List (Nat × Int)} (h : EdgeInv N) (agent cl : Option Nat) :
    EdgeInv (connect_nbrs N agent cl) := by
  unfold connect_nbrs
  split
  · rename_i a c
    split
    · rename_i hc
      apply h.add_edge a c hc.1
      intro p hp e
      have := List.any_eq_false.mp hc.2 p hp
      simp [e] at this
    · exact h
  · exact h

theorem weaken_nbrs_inv {N : Nat → List (Nat × Int)} (h : EdgeInv N) (w : Bool)
    (r s : Option Nat) : EdgeInv (weaken_nbrs N w r s) := by
  unfold weaken_nbrs
  split
  · exact h.weaken_edge _ _
  · exact h

/-- A successful `update` keeps the edge invariant. -/
theorem update_inv (g : PlaceGraph α) (model : Model α) (g' : PlaceGraph α)
    (model' : Model α) (h : g.update model = some (g', model'))
    (hinv : EdgeInv (nbrs g.cells)) : EdgeInv (nbrs g'.cells) := by
  obtain ⟨g1, g2, _, _, h2, h4⟩ := update_nbrs g model g' model' h
  rw [h4, h2]
  exact weaken_nbrs_inv (connect_nbrs_inv hinv _ _) _ _ _

/-- Every graph built by `update` calls from the empty graph has the edge invariant. -/
theorem reachable_inv (g : PlaceGraph α) (h : Reachable g) : EdgeInv (nbrs g.cells) := by
  induction h with
  | init R =>
    have : nbrs (PlaceGraph.init R).cells = fun _ => ([] : List (Nat × Int)) := by
      funext i
      simp [nbrs, PlaceGraph.init]
    rw [this]
    exact EdgeInv.empty
  | write_input g inp _ ih => exact ih
  | update g g' model model' _ hstep ih =>
    exact update_inv _ model g' model' hstep ih

end Frame

end GridPlaceNav

namespace GridPlaceNav

/-! ## The breadth-first search: the loop invariant on predecessor maps -/

section BfsAbstract

theorem HopDist.unique {N : Nat → List (Nat × Int)} {a b d e : Nat}
    (h1 : HopDist N a b d) (h2 : HopDist N a b e) : d = e :=
  Nat.le_antisymm (h1.2 e h2.1) (h2.2 d h1.1)

theorem hopDist_self (N : Nat → List (Nat × Int)) (a : Nat) : HopDist N a a 0 :=
  ⟨Walk.nil, fun _ _ => Nat.zero_le _⟩

/-- Every cell within the hop distance of the whole queue is already marked. -/
theorem BfsInv.low {N : Nat → List (Nat × Int)} {root : Nat} {D : Nat → Nat}
    {P : Nat → Option Nat} {fifo : List Nat} (h : BfsInv N root D P fifo) :
    ∀ v n, Walk N root v n → (∀ x ∈ fifo, n ≤ D x) → P v ≠ none := by
  intro v n hw
  induction hw with
  | nil =>
    intro _
    rw [h.root_pred]
    simp
  | snoc b c n s hwb hedge ih =>
    intro hq
    have hb : P b ≠ none := ih (fun x hx => Nat.le_of_succ_le (hq x hx))
    have hdb : D b ≤ n := (h.dist b hb).2 n hwb
    have hnq : b ∉ fifo := by
      intro hin
      have := hq b hin
      omega
    exact h.closed b hb hnq c s hedge

/-- When the queue is empty, every reachable cell is marked. -/
theorem BfsInv.complete {N : Nat → List (Nat × Int)} {root : Nat} {D : Nat → Nat}
    {P : Nat → Option Nat} (h : BfsInv N root D P []) (v : Nat) (hr : Reach N root v) :
    P v ≠ none := by
  obtain ⟨n, hw⟩ := hr
  exact h.low v n hw (by simp)

/-- The invariant holds when the search starts. -/
theorem BfsInv.start (N : Nat → List (Nat × Int)) (root : Nat) :
    BfsInv N root (fun _ => 0) (fun v => if v = root then some root else none) [root] := by
  refine ⟨by simp, ?_, ?_, ?_, by simp, ?_, ?_⟩
  · intro v hv
    by_cases hvr : v = root
    · subst hvr
      exact hopDist_self N v
    · simp [hvr] at hv
  · intro v p hv hvr
    simp [hvr] at hv
  · intro x hx
    simp only [List.mem_singleton] at hx
    simp [hx]
  · intro x _ y _
    exact Nat.zero_le _
  · intro v hv hnq
    by_cases hvr : v = root
    · simp [hvr] at hnq
    · simp [hvr] at hv

/-- Popping the head of the queue starts the scan of its neighbours. -/
theorem BfsInv.pop {N : Nat → List (Nat × Int)} {root : Nat} {D : Nat → Nat}
    {P : Nat → Option Nat} {cur : Nat} {rest : List Nat}
    (h : BfsInv N root D P (cur :: rest)) : ScanInv N root D P rest cur [] := by
  have hsorted := List.pairwise_cons.mp h.sorted
  refine ⟨h.root_pred, h.dist, h.tree, ?_, hsorted.2, ?_, ?_, ?_, by simp, ?_⟩
  · intro x hx
    exact h.queued x (List.mem_cons_of_mem _ hx)
  · exact h.queued cur (List.mem_cons_self _ _)
  · intro x hx
    exact ⟨hsorted.1 x hx,
      h.narrow cur (List.mem_cons_self _ _) x (List.mem_cons_of_mem _ hx)⟩
  · intro v hv hnq hvc
    apply h.closed v hv
    intro hin
    rcases List.mem_cons.mp hin with e | e
    · exact hvc e
    · exact hnq e
  · intro v n hw hn
    apply h.low v n hw
    intro x hx
    rcases List.mem_cons.mp hx with e | e
    · rw [e]; exact hn
    · exact Nat.le_trans hn (hsorted.1 x e)

/-- Meeting a neighbour that is already marked. -/
theorem ScanInv.skip {N : Nat → List (Nat × Int)} {root : Nat} {D : Nat → Nat}
    {P : Nat → Option Nat} {fifo : List Nat} {cur : Nat} {done : List (Nat × Int)}
    (h : ScanInv N root D P fifo cur done) (w : Nat) (s : Int) (hw : P w ≠ none) :
    ScanInv N root D P fifo cur (done ++ [(w, s)]) := by
  refine ⟨h.root_pred, h.dist, h.tree, h.queued, h.sorted, h.cur_marked, h.band, h.closed,
    ?_, h.low⟩
  intro p hp
  rcases List.mem_append.mp hp with e | e
  · exact h.done_marked p e
  · simp only [List.mem_singleton] at e
    rw [e]
    exact hw

/-- Meeting an unmarked neighbour: it is marked with predecessor `cur` and queued. -/
theorem ScanInv.mark {N : Nat → List (Nat × Int)} {root : Nat} {D : Nat → Nat}
    {P : Nat → Option Nat} {fifo : List Nat} {cur : Nat} {done : List (Nat × Int)}
    (h : ScanInv N root D P fifo cur done) (w : Nat) (s : Int) (hedge : (w, s) ∈ N cur)
    (hw : P w = none) :
    ScanInv N root (fun v => if v = w then D cur + 1 else D v)
      (fun v => if v = w then some cur else P v) (fifo ++ [w]) cur (done ++ [(w, s)]) := by
  have hwroot : w ≠ root := by
    intro e
    rw [e, h.root_pred] at hw
    exact Option.noConfusion hw
  have hwcur : cur ≠ w := by
    intro e
    rw [← e] at hw
    exact h.cur_marked hw
  have hmarked : ∀ v, P v ≠ none → v ≠ w := by
    intro v hv e
    rw [e] at hv
    exact hv hw
  have hfifo : ∀ x ∈ fifo, x ≠ w := fun x hx => hmarked x (h.queued x hx)
  refine ⟨?_, ?_, ?_, ?_, ?_, ?_, ?_, ?_, ?_, ?_⟩
  · simp [Ne.symm hwroot, h.root_pred]
  · intro v hv
    by_cases hvw : v = w
    · subst hvw
      simp only [if_true]
      refine ⟨Walk.snoc cur v (D cur) s (h.dist cur h.cur_marked).1 hedge, ?_⟩
      intro n hn
      by_contra hlt
      exact h.low v n hn (by omega) hw
    · simp only [hvw, if_false] at hv ⊢
      exact h.dist v hv
  · intro v p hv hvr
    by_cases hvw : v = w
    · subst hvw
      simp only [if_true, Option.some.injEq] at hv
      subst hv
      simp only [if_true, hwcur, if_false]
      exact ⟨h.cur_marked, ⟨s, hedge⟩, trivial⟩
    · simp only [hvw, if_false] at hv
      obtain ⟨h1, h2, h3⟩ := h.tree v p hv hvr
      have hpw : p ≠ w := hmarked p h1
      simp only [hvw, hpw, if_false]
      exact ⟨h1, h2, h3⟩
  · intro x hx
    rcases List.mem_append.mp hx with e | e
    · simp only [hfifo x e, if_false]
      exact h.queued x e
    · simp only [List.mem_singleton] at e
      simp [e]
  · rw [List.pairwise_append]
    refine ⟨?_, by simp, ?_⟩
    · apply List.Pairwise.imp_of_mem _ h.sorted
      intro a b ha hb hab
      simp only [hfifo a ha, hfifo b hb, if_false]
      exact hab
    · intro a ha b hb
      simp only [List.mem_singleton] at hb
      subst hb
      simp only [hfifo a ha, if_false, if_true]
      exact (h.band a ha).2
  · simp only [hwcur, if_false]
    exact h.cur_marked
  · intro x hx
    simp only [hwcur, if_false]
    rcases List.mem_append.mp hx with e | e
    · simp only [hfifo x e, if_false]
      exact h.band x e
    · simp only [List.mem_singleton] at e
      simp [e]
  · intro v hv hnq hvc u t hut
    have hvw : v ≠ w := by
      intro e
      exact hnq (List.mem_append.mpr (Or.inr (by simp [e])))
    simp only [hvw, if_false] at hv
    have hnq' : v ∉ fifo := fun e => hnq (List.mem_append.mpr (Or.inl e))
    have := h.closed v hv hnq' hvc u t hut
    by_cases huw : u = w
    · simp [huw]
    · simp only [huw, if_false]
      exact this
  · intro p hp
    rcases List.mem_append.mp hp with e | e
    · have := h.done_marked p e
      simp only [hmarked p.1 this, if_false]
      exact this
    · simp only [List.mem_singleton] at e
      simp [e]
  · intro v n hwalk hn
    simp only [hwcur, if_false] at hn
    have := h.low v n hwalk hn
    simp only [hmarked v this, if_false]
    exact this

/-- When all neighbours of `cur` are handled, the loop invariant holds again. -/
theorem ScanInv.finish {N : Nat → List (Nat × Int)} {root : Nat} {D : Nat → Nat}
    {P : Nat → Option Nat} {fifo : List Nat} {cur : Nat}
    (h : ScanInv N root D P fifo cur (N cur)) : BfsInv N root D P fifo := by
  refine ⟨h.root_pred, h.dist, h.tree, h.queued, h.sorted, ?_, ?_⟩
  · intro x hx y hy
    have h1 := h.band x hx
    have h2 := h.band y hy
    omega
  · intro v hv hnq w s hws
    by_cases hvc : v = cur
    · subst hvc
      exact h.done_marked (w, s) hws
    · exact h.closed v hv hnq hvc w s hws

end BfsAbstract

end GridPlaceNav

namespace GridPlaceNav

/-! ## The breadth-first search: the code establishes the invariant and terminates -/

section BfsCode

variable {α : Type}

theorem pred_of_set (cells : List (PlaceCell α)) (i j : Nat) (c c' : PlaceCell α)
    (h : cells[i]? = some c) :
    pred_of (cells.set i c') j = if j = i then c'.bfs_predecessor else pred_of cells j := by
  have hi : i < cells.length := by
    rcases List.getElem?_eq_some.mp h with ⟨hi, _⟩
    exact hi
  unfold pred_of
  rw [List.getElem?_set]
  by_cases hji : j = i
  · subst hji
    simp [hi]
  · have : ¬ i = j := fun e => hji e.symm
    simp [hji, this]

theorem source_of_set (cells : List (PlaceCell α)) (i j : Nat) (c c' : PlaceCell α)
    (h : cells[i]? = some c) :
    source_of (cells.set i c') j = if j = i then c'.replay_source else source_of cells j := by
  have hi : i < cells.length := by
    rcases List.getElem?_eq_some.mp h with ⟨hi, _⟩
    exact hi
  unfold source_of
  rw [List.getElem?_set]
  by_cases hji : j = i
  · subst hji
    simp [hi]
  · have : ¬ i = j := fun e => hji e.symm
    simp [hji, this]

theorem pred_of_bfs_clear (cells : List (PlaceCell α)) (j : Nat) :
    pred_of (bfs_clear cells) j = none := by
  unfold pred_of bfs_clear
  rw [List.getElem?_map]
  cases cells[j]? <;> rfl

theorem source_of_bfs_clear (cells : List (PlaceCell α)) (j : Nat) :
    source_of (bfs_clear cells) j = none := by
  unfold source_of bfs_clear
  rw [List.getElem?_map]
  cases cells[j]? <;> rfl

theorem nbrs_bfs_clear (cells : List (PlaceCell α)) : nbrs (bfs_clear cells) = nbrs cells := by
  funext j
  unfold nbrs bfs_clear
  rw [List.getElem?_map]
  cases cells[j]? <;> rfl

theorem length_bfs_clear (cells : List (PlaceCell α)) :
    (bfs_clear cells).length = cells.length := by
  simp [bfs_clear]

theorem unmarked_bfs_clear (cells : List (PlaceCell α)) :
    unmarked (bfs_clear cells) = cells.length := by
  unfold unmarked bfs_clear
  rw [List.countP_map, List.countP_eq_length]
  intro c _
  simp

theorem pred_of_some_getElem (cells : List (PlaceCell α)) (i : Nat)
    (h : pred_of cells i ≠ none) : ∃ c, cells[i]? = some c := by
  unfold pred_of at h
  cases hc : cells[i]? with
  | none => simp [hc] at h
  | some c => exact ⟨c, rfl⟩

/-- Marking an unmarked cell lowers the number of unmarked cells by one. -/
theorem unmarked_set (cells : List (PlaceCell α)) (i : Nat) (c c' : PlaceCell α)
    (h : cells[i]? = some c) (hc : c.bfs_predecessor = none)
    (hc' : c'.bfs_predecessor ≠ none) :
    unmarked (cells.set i c') + 1 = unmarked cells := by
  obtain ⟨hi, hci⟩ := List.getElem?_eq_some.mp h
  have hsplit : cells = cells.take i ++ c :: cells.drop (i + 1) := by
    rw [← hci]
    simp
  unfold unmarked
  rw [List.set_eq_take_cons_drop _ hi]
  conv_rhs => rw [hsplit]
  simp only [List.countP_append, List.countP_cons, hc, decide_True, if_true]
  have : decide (c'.bfs_predecessor = none) = false := by simpa using hc'
  simp only [this]
  simp
  omega

/-- The inner loop keeps the scan invariant and the potential
`fifo.size() + #unmarked`. -/
theorem bfs_scan_correct (N : Nat → List (Nat × Int)) (root cur : Nat) :
    ∀ (L done : List (Nat × Int)) (cells : List (PlaceCell α)) (fifo : List Nat)
      (D : Nat → Nat),
      nbrs cells = N → done ++ L = N cur → (∀ p ∈ L, p.1 < cells.length) →
      ScanInv N root D (pred_of cells) fifo cur done →
      ∃ cells' fifo' D', bfs_scan cur L cells fifo = some (cells', fifo') ∧
        nbrs cells' = N ∧ cells'.length = cells.length ∧
        ScanInv N root D' (pred_of cells') fifo' cur (N cur) ∧
        fifo'.length + unmarked cells' = fifo.length + unmarked cells := by
  intro L
  induction L with
  | nil =>
    intro done cells fifo D hN hdone _ hinv
    rw [List.append_nil] at hdone
    rw [hdone] at hinv
    exact ⟨cells, fifo, D, rfl, hN, rfl, hinv, rfl⟩
  | cons p rest ih =>
    intro done cells fifo D hN hdone hvalid hinv
    obtain ⟨w, s⟩ := p
    have hw : w < cells.length := hvalid (w, s) (List.mem_cons_self _ _)
    have hedge : (w, s) ∈ N cur := by
      rw [← hdone]
      exact List.mem_append_right _ (List.mem_cons_self _ _)
    have hdone' : (done ++ [(w, s)]) ++ rest = N cur := by
      rw [List.append_assoc]
      exact hdone
    have hget : cells[w]? = some cells[w] := List.getElem?_eq_getElem hw
    have hpw : pred_of cells w = (cells[w]).bfs_predecessor := by
      simp [pred_of, hget]
    unfold bfs_scan
    simp only [hget, Option.bind_eq_bind, Option.some_bind]
    by_cases hnone : (cells[w]).bfs_predecessor = none
    · rw [if_pos hnone]
      have hP : pred_of (cells.set w { cells[w] with bfs_predecessor := some cur }) =
          fun v => if v = w then some cur else pred_of cells v := by
        funext v
        rw [pred_of_set cells w v _ _ hget]
      have hN' : nbrs (cells.set w { cells[w] with bfs_predecessor := some cur }) = N := by
        rw [← hN]
        funext v
        rw [nbrs_set cells w v _ _ hget]
        by_cases hvw : v = w
        · subst hvw
          simp [nbrs, hget]
        · simp [hvw]
      have hinv' := hinv.mark w s hedge (by rw [hpw]; exact hnone)
      rw [← hP] at hinv'
      have hvalid' : ∀ p ∈ rest,
          p.1 < (cells.set w { cells[w] with bfs_predecessor := some cur }).length := by
        intro p hp
        rw [List.length_set]
        exact hvalid p (List.mem_cons_of_mem _ hp)
      obtain ⟨cells', fifo', D', h1, h2, h3, h4, h5⟩ :=
        ih (done ++ [(w, s)]) _ (fifo ++ [w]) _ hN' hdone' hvalid' hinv'
      refine ⟨cells', fifo', D', h1, h2, ?_, h4, ?_⟩
      · rw [h3, List.length_set]
      · rw [h5, List.length_append, List.length_singleton]
        have := unmarked_set cells w _ { cells[w] with bfs_predecessor := some cur } hget hnone
          (by simp)
        omega
    · rw [if_neg hnone]
      have hinv' := hinv.skip w s (by rw [hpw]; exact hnone)
      have hvalid' : ∀ p ∈ rest, p.1 < cells.length :=
        fun p hp => hvalid p (List.mem_cons_of_mem _ hp)
      exact ih (done ++ [(w, s)]) cells fifo D hN hdone' hvalid' hinv'

/-- With enough fuel the `while` loop ends with an empty queue and the invariant. -/
theorem bfs_loop_correct (N : Nat → List (Nat × Int)) (root : Nat) :
    ∀ (fuel : Nat) (cells : List (PlaceCell α)) (fifo : List Nat) (D : Nat → Nat),
      nbrs cells = N → ValidNbrs cells → BfsInv N root D (pred_of cells) fifo →
      fifo.length + unmarked cells ≤ fuel →
      ∃ cells' D', bfs_loop fuel cells fifo = some cells' ∧ nbrs cells' = N ∧
        cells'.length = cells.length ∧ BfsInv N root D' (pred_of cells') [] := by
  intro fuel
  induction fuel with
  | zero =>
    intro cells fifo D hN _ hinv hfuel
    cases fifo with
    | nil => exact ⟨cells, D, rfl, hN, rfl, hinv⟩
    | cons a t => simp at hfuel
  | succ k ih =>
    intro cells fifo D hN hvalid hinv hfuel
    cases fifo with
    | nil => exact ⟨cells, D, rfl, hN, rfl, hinv⟩
    | cons cur rest =>
      have hcur : pred_of cells cur ≠ none := hinv.queued cur (List.mem_cons_self _ _)
      obtain ⟨cc, hcc⟩ := pred_of_some_getElem cells cur hcur
      have hnb : cc.neighbors = N cur := by
        rw [← hN]
        simp [nbrs, hcc]
      have hvalidL : ∀ p ∈ cc.neighbors, p.1 < cells.length := by
        intro p hp
        apply hvalid cur p
        rw [hN, ← hnb]
        exact hp
      obtain ⟨cells1, fifo1, D1, h1, h2, h3, h4, h5⟩ :=
        bfs_scan_correct N root cur cc.neighbors [] cells rest D hN
          (by rw [List.nil_append]; exact hnb) hvalidL hinv.pop
      have hvalid1 : ValidNbrs cells1 := by
        intro i p hp
        rw [h3]
        apply hvalid i p
        rw [hN, ← h2]
        exact hp
      have hfuel1 : fifo1.length + unmarked cells1 ≤ k := by
        rw [h5]
        simp only [List.length_cons] at hfuel
        omega
      obtain ⟨cells2, D2, h6, h7, h8, h9⟩ := ih cells1 fifo1 D1 h2 hvalid1 h4.finish hfuel1
      refine ⟨cells2, D2, ?_, h7, by rw [h8, h3], h9⟩
      unfold bfs_loop
      simp only [hcc, Option.bind_eq_bind, Option.some_bind, h1]
      exact h6

/-- The search terminates within its fuel and ends with the loop invariant on an empty
queue. -/
theorem bfs_correct (cells : List (PlaceCell α)) (root : Nat) (hroot : root < cells.length)
    (hvalid : ValidNbrs cells) :
    ∃ cells' D, bfs cells root = some cells' ∧ nbrs cells' = nbrs cells ∧
      cells'.length = cells.length ∧ BfsInv (nbrs cells) root D (pred_of cells') [] := by
  have hlen : root < (bfs_clear cells).length := by rw [length_bfs_clear]; exact hroot
  have hget : (bfs_clear cells)[root]? = some (bfs_clear cells)[root] :=
    List.getElem?_eq_getElem hlen
  have hN1 : nbrs ((bfs_clear cells).set root
      { (bfs_clear cells)[root] with bfs_predecessor := some root }) = nbrs cells := by
    rw [← nbrs_bfs_clear cells]
    funext v
    rw [nbrs_set _ root v _ _ hget]
    by_cases hv : v = root
    · subst hv
      simp [nbrs, hget]
    · simp [hv]
  have hP1 : pred_of ((bfs_clear cells).set root
      { (bfs_clear cells)[root] with bfs_predecessor := some root }) =
      fun v => if v = root then some root else none := by
    funext v
    rw [pred_of_set _ root v _ _ hget, pred_of_bfs_clear]
  have hvalid1 : ValidNbrs ((bfs_clear cells).set root
      { (bfs_clear cells)[root] with bfs_predecessor := some root }) := by
    intro i p hp
    rw [List.length_set, length_bfs_clear]
    apply hvalid i p
    rw [← hN1]
    exact hp
  have hinv := BfsInv.start (nbrs cells) root
  rw [← hP1] at hinv
  have hun : unmarked ((bfs_clear cells).set root
      { (bfs_clear cells)[root] with bfs_predecessor := some root }) + 1 = cells.length := by
    rw [unmarked_set _ root _ _ hget (by
      have := pred_of_bfs_clear cells root
      simpa [pred_of, hget] using this) (by simp), unmarked_bfs_clear]
  obtain ⟨cells', D', h1, h2, h3, h4⟩ :=
    bfs_loop_correct (nbrs cells) root cells.length _ [root] _ hN1 hvalid1 hinv
      (by rw [List.length_singleton, Nat.add_comm]; exact Nat.le_of_eq hun)
  refine ⟨cells', D', ?_, h2, ?_, h4⟩
  · unfold bfs bfs_with_fuel
    simp only [hget, Option.bind_eq_bind, Option.some_bind]
    exact h1
  · rw [h3, List.length_set, length_bfs_clear]

/-- More fuel does not change the result of the `while` loop. -/
theorem bfs_loop_fuel_mono :
    ∀ (fuel : Nat) (cells : List (PlaceCell α)) (fifo : List Nat) (r : List (PlaceCell α))
      (k : Nat), bfs_loop fuel cells fifo = some r → bfs_loop (fuel + k) cells fifo = some r := by
  intro fuel
  induction fuel with
  | zero =>
    intro cells fifo r k h
    cases fifo with
    | nil =>
      cases k with
      | zero => exact h
      | succ k =>
        simp only [bfs_loop] at h ⊢
        exact h
    | cons a t => simp [bfs_loop] at h
  | succ n ih =>
    intro cells fifo r k h
    cases fifo with
    | nil =>
      rw [Nat.add_right_comm]
      simp only [bfs_loop] at h ⊢
      exact h
    | cons a t =>
      rw [Nat.add_right_comm]
      unfold bfs_loop at h ⊢
      obtain ⟨cc, hcc, h⟩ := Option.bind_eq_some.mp h
      obtain ⟨⟨c1, f1⟩, hscan, h⟩ := Option.bind_eq_some.mp h
      simp only [hcc, Option.bind_eq_bind, Option.some_bind, hscan]
      exact ih c1 f1 r k h

theorem bfs_with_fuel_mono (cells : List (PlaceCell α)) (root : Nat)
    (r : List (PlaceCell α)) (h : bfs cells root = some r) (fuel : Nat)
    (hfuel : cells.length ≤ fuel) : bfs_with_fuel fuel cells root = some r := by
  unfold bfs bfs_with_fuel at h
  unfold bfs_with_fuel
  obtain ⟨sc, hsc, h⟩ := Option.bind_eq_some.mp h
  simp only [hsc, Option.bind_eq_bind, Option.some_bind]
  have := bfs_loop_fuel_mono _ _ _ _ (fuel - cells.length) h
  rw [Nat.add_sub_cancel' hfuel] at this
  exact this

end BfsCode

end GridPlaceNav

namespace GridPlaceNav

/-! ## Invariants of the edge set (C1, C2) -/

section EdgeClaims

variable {α : Type} [LinearOrderedCommRing α]

theorem reachable_run (model : Model ℤ) :
    ∀ (inputs : List (GraphInput ℤ)) (g g' : PlaceGraph ℤ),
      Reachable g → run_inputs model g inputs = some g' → Reachable g' := by
  intro inputs
  induction inputs with
  | nil =>
    intro g g' hg h
    simp only [run_inputs, Option.some.injEq] at h
    rw [← h]
    exact hg
  | cons inp rest ih =>
    intro g g' hg h
    unfold run_inputs at h
    split at h
    · rename_i g1 m1 hstep
      exact ih g1 g' (Reachable.update _ g1 model m1 (Reachable.write_input g inp hg) hstep) h
    · exact Option.noConfusion h

/-- Every scenario graph is reachable from the empty graph. -/
theorem reachable_scen (radius : ℤ) (inputs : List (GraphInput ℤ)) :
    Reachable (scen_graph radius inputs) := by
  unfold scen_graph
  cases h : run_inputs scen_model (PlaceGraph.init radius) inputs with
  | none => exact Reachable.init radius
  | some g => exact reachable_run scen_model inputs _ g (Reachable.init radius) h

/-- A weakened neighbour list keeps only positive strengths. -/
theorem weaken_neighbor_pos (L : List (Nat × Int)) (n : Nat)
    (hpos : ∀ p ∈ L, 0 < p.2) : ∀ p ∈ weaken_neighbor L n, 0 < p.2 := by
  induction L with
  | nil => intro p hp; simp [weaken_neighbor] at hp
  | cons q rest ih =>
    obtain ⟨m, s⟩ := q
    have hrest : ∀ p ∈ rest, 0 < p.2 := fun p hp => hpos p (List.mem_cons_of_mem _ hp)
    intro p hp
    unfold weaken_neighbor at hp
    by_cases hm : m = n
    · rw [if_pos hm] at hp
      by_cases hs : s - 1 ≤ 0
      · rw [if_pos hs] at hp
        exact hrest p hp
      · rw [if_neg hs] at hp
        rcases List.mem_cons.mp hp with e | e
        · rw [e]
          simp only
          omega
        · exact ih hrest p e
    · rw [if_neg hm] at hp
      rcases List.mem_cons.mp hp with e | e
      · rw [e]
        exact hpos (m, s) (List.mem_cons_self _ _)
      · exact ih hrest p e

end EdgeClaims

end GridPlaceNav

namespace GridPlaceNav

section EdgeClaimTheorems

variable {α : Type} [LinearOrderedCommRing α]

/-- C1. After every sequence of `update` calls from the empty graph, every edge is
symmetric: if `b` occurs in the neighbour list of `a` with strength `s`, then `a` occurs
in the neighbour list of `b` with the same strength `s`. -/
theorem edges_symmetric (g : PlaceGraph α) (h : Reachable g) (a b : Nat) (s : Int)
    (hab : (b, s) ∈ nbrs g.cells a) : (a, s) ∈ nbrs g.cells b :=
  (reachable_inv g h).sym a b s hab

/-- Witness for C1: the edge `B - C` of the chain `A - B - C`, seen from both ends. -/
theorem edges_symmetric_witness :
    Reachable scen_chain ∧ (2, 2) ∈ nbrs scen_chain.cells 1 ∧
      (1, 2) ∈ nbrs scen_chain.cells 2 :=
  ⟨reachable_scen _ _, by decide,
    edges_symmetric scen_chain (reachable_scen _ _) 1 2 2 (by decide)⟩

/-- C2. After every sequence of `update` calls from the empty graph, every stored
(neighbour, strength) pair has a strictly positive strength; weakening keeps only positive
strengths, and an entry whose strength would drop to zero is removed from the list. -/
theorem strengths_positive (g : PlaceGraph α) (h : Reachable g) (a b : Nat) (s : Int)
    (hab : (b, s) ∈ nbrs g.cells a) :
    0 < s ∧
    (∀ n, ∀ p ∈ weaken_neighbor (nbrs g.cells a) n, 0 < p.2) ∧
    (s = 1 → ∀ t, (b, t) ∉ weaken_neighbor (nbrs g.cells a) b) := by
  have hinv := reachable_inv g h
  refine ⟨hinv.pos a b s hab, ?_, ?_⟩
  · intro n
    apply weaken_neighbor_pos
    rintro ⟨k, v⟩ hp
    exact hinv.pos a k v hp
  · intro hs t ht
    rw [mem_weaken_neighbor _ _ (hinv.nodup a)] at ht
    rcases ht with ⟨hne, _⟩ | ⟨_, hmem, hpos⟩
    · exact hne rfl
    · have := hinv.strength_unique a b s (t + 1) hab hmem
      omega

/-- Witness for C2: the edge `A - B` of the chain after one weakening, of strength 1. -/
theorem strengths_positive_witness :
    Reachable scen_weakened_once ∧ (1, 1) ∈ nbrs scen_weakened_once.cells 0 ∧
    ((0 : Int) < 1 ∧
      (∀ n, ∀ p ∈ weaken_neighbor (nbrs scen_weakened_once.cells 0) n, 0 < p.2) ∧
      ((1 : Int) = 1 → ∀ t, (1, t) ∉ weaken_neighbor (nbrs scen_weakened_once.cells 0) 1)) :=
  ⟨reachable_scen _ _, by decide,
    strengths_positive scen_weakened_once (reachable_scen _ _) 0 1 1 (by decide)⟩

end EdgeClaimTheorems

end GridPlaceNav

namespace GridPlaceNav

/-! ## The nearest cell and the formation of place cells (C3, C4) -/

section Nearest

variable {α : Type} [LinearOrderedCommRing α]

/-- The search loop with a non-null running minimum `(a, d)`: the result is a running
minimum of the scanned cells, and it moves only to a strictly nearer cell. -/
theorem find_closest_some (x y : α) :
    ∀ (cs : List (PlaceCell α)) (i a : Nat) (d : α),
      ∃ a' d', find_closest x y cs i (some (a, d)) = some (a', d') ∧
        (∀ (k : Nat) (c : PlaceCell α), cs[k]? = some c → d' ≤ c.distance_sq x y) ∧
        ((a' = a ∧ d' = d) ∨
          (∃ (k : Nat) (c : PlaceCell α), cs[k]? = some c ∧ a' = i + k ∧
            d' = c.distance_sq x y ∧ d' < d ∧
            ∀ (k' : Nat) (c' : PlaceCell α), cs[k']? = some c' → k' < k →
              d' < c'.distance_sq x y)) := by
  intro cs
  induction cs with
  | nil =>
    intro i a d
    exact ⟨a, d, rfl, by intro k c h; simp at h, Or.inl ⟨rfl, rfl⟩⟩
  | cons c0 cs ih =>
    intro i a d
    unfold find_closest
    simp only [sqrt_lt]
    by_cases hlt : c0.distance_sq x y < d
    · simp only [hlt, decide_True, if_true]
      obtain ⟨a', d', h1, h2, h3⟩ := ih (i + 1) i (c0.distance_sq x y)
      refine ⟨a', d', h1, ?_, ?_⟩
      · intro k c hk
        rcases h3 with ⟨_, hd⟩ | ⟨k1, c1, _, _, _, hlt1, _⟩
        · cases k with
          | zero =>
            simp only [List.getElem?_cons_zero, Option.some.injEq] at hk
            rw [← hk, hd]
          | succ k =>
            simp only [List.getElem?_cons_succ] at hk
            exact h2 k c hk
        · cases k with
          | zero =>
            simp only [List.getElem?_cons_zero, Option.some.injEq] at hk
            rw [← hk]
            exact le_of_lt hlt1
          | succ k =>
            simp only [List.getElem?_cons_succ] at hk
            exact h2 k c hk
      · right
        rcases h3 with ⟨ha, hd⟩ | ⟨k1, c1, hk1, ha1, hd1, hlt1, hfirst⟩
        · refine ⟨0, c0, by simp, by simp [ha], hd, by rw [hd]; exact hlt, ?_⟩
          intro k' c' _ hk'
          exact absurd hk' (Nat.not_lt_zero _)
        · refine ⟨k1 + 1, c1, by simpa using hk1, by omega, hd1, lt_trans hlt1 hlt, ?_⟩
          intro k' c' hk' hlt'
          cases k' with
          | zero =>
            simp only [List.getElem?_cons_zero, Option.some.injEq] at hk'
            rw [← hk']
            exact hlt1
          | succ k' =>
            simp only [List.getElem?_cons_succ] at hk'
            exact hfirst k' c' hk' (by omega)
    · simp only [hlt, decide_False, if_false, Bool.false_eq_true]
      obtain ⟨a', d', h1, h2, h3⟩ := ih (i + 1) a d
      refine ⟨a', d', h1, ?_, ?_⟩
      · intro k c hk
        cases k with
        | zero =>
          simp only [List.getElem?_cons_zero, Option.some.injEq] at hk
          rw [← hk]
          rcases h3 with ⟨_, hd⟩ | ⟨_, _, _, _, _, hlt1, _⟩
          · rw [hd]
            exact le_of_not_lt hlt
          · exact le_trans (le_of_lt hlt1) (le_of_not_lt hlt)
        | succ k =>
          simp only [List.getElem?_cons_succ] at hk
          exact h2 k c hk
      · rcases h3 with h3 | ⟨k1, c1, hk1, ha1, hd1, hlt1, hfirst⟩
        · exact Or.inl h3
        · right
          refine ⟨k1 + 1, c1, by simpa using hk1, by omega, hd1, hlt1, ?_⟩
          intro k' c' hk' hlt'
          cases k' with
          | zero =>
            simp only [List.getElem?_cons_zero, Option.some.injEq] at hk'
            rw [← hk']
            exact lt_of_lt_of_le hlt1 (le_of_not_lt hlt)
          | succ k' =>
            simp only [List.getElem?_cons_succ] at hk'
            exact hfirst k' c' hk' (by omega)

/-- The search of lines 70-78 returns null exactly for the empty list, and otherwise the
first cell at minimal distance together with that distance. -/
theorem find_closest_spec (x y : α) (cells : List (PlaceCell α)) :
    (cells = [] ∧ find_closest x y cells 0 none = none) ∨
    (cells ≠ [] ∧ ∃ (a : Nat) (A : PlaceCell α),
      find_closest x y cells 0 none = some (a, A.distance_sq x y) ∧ cells[a]? = some A ∧
      (∀ (j : Nat) (c : PlaceCell α), cells[j]? = some c →
        A.distance_sq x y ≤ c.distance_sq x y) ∧
      (∀ (j : Nat) (c : PlaceCell α), cells[j]? = some c → j < a →
        A.distance_sq x y < c.distance_sq x y)) := by
  cases cells with
  | nil => exact Or.inl ⟨rfl, rfl⟩
  | cons c0 cs =>
    right
    refine ⟨by simp, ?_⟩
    obtain ⟨a', d', h1, h2, h3⟩ := find_closest_some x y cs 1 0 (c0.distance_sq x y)
    have hfc : find_closest x y (c0 :: cs) 0 none = some (a', d') := by
      unfold find_closest
      simpa using h1
    rcases h3 with ⟨ha, hd⟩ | ⟨k1, c1, hk1, ha1, hd1, hlt1, hfirst⟩
    · subst ha
      subst hd
      refine ⟨0, c0, hfc, by simp, ?_, ?_⟩
      · intro j c hj
        cases j with
        | zero =>
          simp only [List.getElem?_cons_zero, Option.some.injEq] at hj
          rw [hj]
        | succ j =>
          simp only [List.getElem?_cons_succ] at hj
          exact h2 j c hj
      · intro j c _ hj
        exact absurd hj (Nat.not_lt_zero _)
    · subst hd1
      refine ⟨a', c1, hfc, ?_, ?_, ?_⟩
      · rw [ha1, Nat.add_comm]
        simpa using hk1
      · intro j c hj
        cases j with
        | zero =>
          simp only [List.getElem?_cons_zero, Option.some.injEq] at hj
          rw [← hj]
          exact le_of_lt hlt1
        | succ j =>
          simp only [List.getElem?_cons_succ] at hj
          exact h2 j c hj
      · intro j c hj hja
        cases j with
        | zero =>
          simp only [List.getElem?_cons_zero, Option.some.injEq] at hj
          rw [← hj]
          exact hlt1
        | succ j =>
          simp only [List.getElem?_cons_succ] at hj
          exact hfirst j c hj (by omega)

theorem isFirstNearest_congr (cells cells' : List (PlaceCell α)) (x y : α) (a : Nat)
    (hid : cells'.map PlaceCell.ident = cells.map PlaceCell.ident)
    (h : IsFirstNearest cells x y a) : IsFirstNearest cells' x y a := by
  have hget : ∀ j : Nat,
      (cells'[j]?).map PlaceCell.ident = (cells[j]?).map PlaceCell.ident := by
    intro j
    have := congrArg (fun l => l[j]?) hid
    simpa only [List.getElem?_map] using this
  have hdist : ∀ (j : Nat) (c' : PlaceCell α), cells'[j]? = some c' →
      ∃ c, cells[j]? = some c ∧ c.distance_sq x y = c'.distance_sq x y := by
    intro j c' hc'
    have h1 := hget j
    rw [hc'] at h1
    cases hc : cells[j]? with
    | none => simp [hc] at h1
    | some c =>
      refine ⟨c, rfl, ?_⟩
      simp only [hc, Option.map_some', Option.some.injEq, PlaceCell.ident, Prod.mk.injEq] at h1
      unfold PlaceCell.distance_sq
      rw [h1.2.1, h1.2.2.1]
  obtain ⟨A, hA, hmin, hfirst⟩ := h
  have h1 := hget a
  rw [hA] at h1
  cases hA' : cells'[a]? with
  | none => simp [hA'] at h1
  | some A' =>
    obtain ⟨A0, hA0, hd0⟩ := hdist a A' hA'
    rw [hA] at hA0
    have hAA : A0 = A := (Option.some.inj hA0).symm
    subst hAA
    refine ⟨A', hA', ?_, ?_⟩
    · intro j c' hc'
      obtain ⟨c, hc, hd⟩ := hdist j c' hc'
      rw [← hd0, ← hd]
      exact hmin j c hc
    · intro j c' hc' hja
      obtain ⟨c, hc, hd⟩ := hdist j c' hc'
      rw [← hd0, ← hd]
      exact hfirst j c hc hja

/-- The test of lines 79-81 agrees with the formation condition of the specification. -/
theorem should_form_iff (g : PlaceGraph α) :
    should_form g (find_closest g.input.x g.input.y g.cells 0 none) = true ↔ FormCond g := by
  unfold should_form FormCond
  rcases find_closest_spec g.input.x g.input.y g.cells with ⟨hnil, hfc⟩ |
    ⟨hne, a, A, hfc, hA, hmin, _⟩
  · rw [hfc]
    simp [hnil]
  · rw [hfc]
    simp only [Bool.and_eq_true, hne, false_or]
    have hAmem : A ∈ g.cells := List.mem_iff_getElem?.mpr ⟨a, hA⟩
    constructor
    · rintro ⟨hf, hgt⟩
      refine ⟨hf, A, hAmem, ?_, hgt⟩
      intro c' hc'
      obtain ⟨j, hj⟩ := List.mem_iff_getElem?.mp hc'
      exact hmin j c' hj
    · rintro ⟨hf, c, hc, hcmin, hgt⟩
      refine ⟨hf, ?_⟩
      obtain ⟨j, hj⟩ := List.mem_iff_getElem?.mp hc
      have : A.distance_sq g.input.x g.input.y = c.distance_sq g.input.x g.input.y :=
        le_antisymm (hmin j c hj) (hcmin A hAmem)
      rw [this]
      exact hgt

theorem ident_insensitive_neighbors (c : PlaceCell α) (nb : List (Nat × Int)) :
    PlaceCell.ident { c with neighbors := nb } = PlaceCell.ident c := rfl

theorem ident_insensitive_transient (c : PlaceCell α) (p s : Option Nat) :
    PlaceCell.ident { c with bfs_predecessor := p, replay_source := s } = PlaceCell.ident c :=
  rfl

/-- After lines 70-86 nothing in `update` touches the identity of a cell, the input or the
radius, and `agent_cell` ends up as the local `closest_cell`. -/
theorem update_frame (g : PlaceGraph α) (model : Model α) (g' : PlaceGraph α)
    (model' : Model α) (h : g.update model = some (g', model')) :
    ∃ g1, g.form_cell model = some (g1, g'.agent_cell) ∧
      g'.cells.map PlaceCell.ident = g1.cells.map PlaceCell.ident ∧
      g'.input = g.input ∧ g'.place_cell_radius = g.place_cell_radius := by
  obtain ⟨g1, cl, g2, g3, g4, g5, hform, hcon, hsave, hweak, _, hrep, hout⟩ :=
    update_phases g model g' model' h
  have h1' := form_cell_fields g model g1 cl hform
  obtain ⟨h2a, _, h2c⟩ := connect_spec g1 cl g2 hcon
  obtain ⟨h3a, _, _⟩ := save_reward_spec g2 g3 hsave
  obtain ⟨h4a, _, h4c⟩ := weaken_spec g3 g4 hweak
  obtain ⟨h5a, h5b⟩ := replay_frame g4 g5 model model' hrep
  obtain ⟨h6a, _⟩ := set_outputs_frame g5 g' hout
  have hag : g'.agent_cell = cl := by
    rw [h6a, h5a, h4a, h3a, h2a]
  have hc3 : g3.cells = g2.cells := by rw [h3a]
  have hc6 : g'.cells = g5.cells := by rw [h6a]
  rw [hag]
  refine ⟨g1, hform, ?_, ?_, ?_⟩
  · rw [hc6, h5b PlaceCell.ident ident_insensitive_transient,
      h4c PlaceCell.ident ident_insensitive_neighbors, hc3,
      h2c PlaceCell.ident ident_insensitive_neighbors]
  · rw [h6a, h5a, h4a, h3a, h2a, h1']
  · rw [h6a, h5a, h4a, h3a, h2a, h1']

/-- A successful `mapM` in `Option` yields one result per element, in order. -/
theorem mapM_option_spec {β γ : Type} (f : β → Option γ) :
    ∀ (l : List β) (r : List γ), l.mapM f = some r →
      r.length = l.length ∧ ∀ (i : Nat), (l[i]?).bind f = r[i]? ∨ l.length ≤ i := by
  intro l
  induction l with
  | nil =>
    intro r h
    simp only [List.mapM_nil, Option.pure_def, Option.some.injEq] at h
    subst h
    exact ⟨rfl, fun i => Or.inr (Nat.zero_le _)⟩
  | cons b l ih =>
    intro r h
    rw [List.mapM_cons] at h
    obtain ⟨c, hc, h⟩ := Option.bind_eq_some.mp h
    obtain ⟨cs, hcs, h⟩ := Option.bind_eq_some.mp h
    simp only [Option.pure_def, Option.some.injEq] at h
    subst h
    obtain ⟨h1, h2⟩ := ih cs hcs
    refine ⟨by simp [h1], ?_⟩
    intro i
    cases i with
    | zero =>
      left
      simp [hc]
    | succ i =>
      rcases h2 i with e | e
      · left
        simpa using e
      · right
        simp only [List.length_cons]
        omega

/-- The capture takes one snapshot per module, equal to the moving convolved sheet. -/
theorem capture_spec (model : Model α) (snap : List (Vector α))
    (h : capture_grid_state_from_model model = some snap) :
    snap.length = model.module_count ∧
    ∀ i, i < model.module_count → snap[i]? = model.mec_moving_convolved[i]? ∧
      ∃ v, snap[i]? = some v := by
  unfold capture_grid_state_from_model at h
  obtain ⟨h1, h2⟩ := mapM_option_spec _ _ _ h
  rw [List.length_range] at h1
  refine ⟨h1, ?_⟩
  intro i hi
  rcases h2 i with e | e
  · rw [List.getElem?_range hi] at e
    simp only [Option.some_bind, Option.bind_eq_bind] at e
    have hlt : i < snap.length := by rw [h1]; exact hi
    rw [List.getElem?_eq_getElem hlt] at e ⊢
    obtain ⟨src, hsrc, hcopy⟩ := Option.bind_eq_some.mp e
    obtain ⟨hr, _⟩ := copy_from_some _ _ _ hcopy
    rw [hsrc, hr]
    exact ⟨rfl, _, rfl⟩
  · rw [List.length_range] at e
    omega

end Nearest

end GridPlaceNav

namespace GridPlaceNav

section Bridge

/-- On real radicands, `sqrt_lt` is the comparison of the square roots. -/
theorem sqrt_lt_iff_real (a b : ℝ) (ha : 0 ≤ a) :
    sqrt_lt a b = true ↔ Real.sqrt a < Real.sqrt b := by
  unfold sqrt_lt
  rw [decide_eq_true_iff, Real.sqrt_lt_sqrt_iff ha]

/-- On a real radicand, `sqrt_gt a r` is the test `Real.sqrt a > r`. -/
theorem sqrt_gt_iff_real (a r : ℝ) (ha : 0 ≤ a) :
    sqrt_gt a r = true ↔ r < Real.sqrt a := by
  unfold sqrt_gt
  rw [Bool.or_eq_true, decide_eq_true_iff, decide_eq_true_iff]
  constructor
  · rintro (h | h)
    · exact lt_of_lt_of_le h (Real.sqrt_nonneg a)
    · by_cases hr : 0 ≤ r
      · exact (Real.lt_sqrt hr).mpr h
      · exact lt_of_lt_of_le (lt_of_not_le hr) (Real.sqrt_nonneg a)
  · intro h
    by_cases hr : 0 ≤ r
    · exact Or.inr ((Real.lt_sqrt hr).mp h)
    · exact Or.inl (lt_of_not_le hr)

/-- On a real radicand, `sqrt_le a r` is the test `Real.sqrt a <= r`. -/
theorem sqrt_le_iff_real (a r : ℝ) (ha : 0 ≤ a) :
    sqrt_le a r = true ↔ Real.sqrt a ≤ r := by
  unfold sqrt_le
  rw [Bool.and_eq_true, decide_eq_true_iff, decide_eq_true_iff]
  constructor
  · rintro ⟨h1, h2⟩
    exact (Real.sqrt_le_left h1).mpr h2
  · intro h
    have hr : 0 ≤ r := le_trans (Real.sqrt_nonneg a) h
    exact ⟨hr, (Real.sqrt_le_left hr).mp h⟩

end Bridge

section NearestClaims

variable {α : Type} [LinearOrderedCommRing α]

/-- C3, as stated, fails on a tie. In a graph of radius 8 with cells at `(0,0)` and
`(30,0)`, an update at `(15,0)` forms no cell (15 does not exceed 16) and makes cell 0
the agent cell, although cell 1 is exactly as near: the agent cell is not the unique
nearest cell. -/
theorem agent_cell_tie_not_unique :
    scen_two_far.step (scen_visit 15 0) scen_model = some (scen_tie, scen_model) ∧
    scen_tie.cells.length = scen_two_far.cells.length ∧
    scen_tie.agent_cell = some 0 ∧
    ¬ IsUniqueNearest scen_tie.cells 15 0 0 := by
  refine ⟨by decide, by decide, by decide, ?_⟩
  rintro ⟨A, hA, hall⟩
  have h0 : scen_tie.cells[0]? = some
      { index := 0, x := 0, y := 0, neighbors := [(1, 2)], bfs_predecessor := none,
        replay_source := none, grid_state := [[3, 4]] } := by decide
  have h1 : scen_tie.cells[1]? = some
      { index := 1, x := 30, y := 0, neighbors := [(0, 2)], bfs_predecessor := none,
        replay_source := none, grid_state := [[3, 4]] } := by decide
  rw [h0] at hA
  have hA' := Option.some.inj hA
  subst hA'
  have := hall 1 _ h1 (by decide)
  exact absurd this (by decide)

/-- C3, amended. After every `update` at `(x, y)`: if a new cell was formed, `agent_cell`
is that new cell; otherwise `agent_cell` is null when no cell exists, and else it is a
cell at minimal distance from `(x, y)`, namely the first (earliest created) of the cells
at minimal distance. -/
theorem agent_cell_after_update (g : PlaceGraph α) (model : Model α) (g' : PlaceGraph α)
    (model' : Model α) (h : g.update model = some (g', model')) :
    (g'.cells.length = g.cells.length + 1 ∧ g'.agent_cell = some g.cells.length) ∨
    (g'.cells.length = g.cells.length ∧
      ((g.cells = [] ∧ g'.agent_cell = none) ∨
        ∃ a, g'.agent_cell = some a ∧ IsFirstNearest g'.cells g.input.x g.input.y a)) := by
  obtain ⟨g1, hform, hid, _, _⟩ := update_frame g model g' model' h
  have hlen : g'.cells.length = g1.cells.length := by
    have := congrArg List.length hid
    simpa using this
  rcases form_cell_cases g model g1 _ hform with ⟨_, snap, _, hg1, hcl⟩ | ⟨_, hg1, hcl⟩
  · left
    refine ⟨?_, hcl⟩
    rw [hlen, hg1]
    simp
  · right
    subst hg1
    refine ⟨hlen, ?_⟩
    rcases find_closest_spec g1.input.x g1.input.y g1.cells with ⟨hnil, hfc⟩ |
      ⟨_, a, A, hfc, hA, hmin, hfirst⟩
    · left
      rw [hfc] at hcl
      exact ⟨hnil, hcl⟩
    · right
      rw [hfc] at hcl
      exact ⟨a, hcl, isFirstNearest_congr g1.cells g'.cells _ _ a hid ⟨A, hA, hmin, hfirst⟩⟩

/-- Witness for the amended C3: the tie at `(15,0)` between the cells `(0,0)` and `(30,0)`. -/
theorem agent_cell_after_update_witness :
    PlaceGraph.update { scen_two_far with input := scen_visit 15 0 } scen_model
      = some (scen_tie, scen_model) ∧
    ((scen_tie.cells.length = scen_two_far.cells.length + 1 ∧
        scen_tie.agent_cell = some scen_two_far.cells.length) ∨
     (scen_tie.cells.length = scen_two_far.cells.length ∧
       ((scen_two_far.cells = [] ∧ scen_tie.agent_cell = none) ∨
         ∃ a, scen_tie.agent_cell = some a ∧ IsFirstNearest scen_tie.cells 15 0 a))) :=
  ⟨by decide,
    agent_cell_after_update { scen_two_far with input := scen_visit 15 0 } scen_model
      scen_tie scen_model (by decide)⟩

/-- C4. An `update` creates a new place cell if and only if `form_place_cells` is set and
either no cell exists or the distance to the nearest cell exceeds `2 * place_cell_radius`.
When it does, exactly one cell is appended, located at the input position, with index
equal to the previous number of cells and with one grid-state snapshot per module (the
moving convolved sheets); when it does not, the list of cells is unchanged. -/
theorem place_cell_formation (g : PlaceGraph α) (model : Model α) (g' : PlaceGraph α)
    (model' : Model α) (h : g.update model = some (g', model')) :
    (g'.cells.length = g.cells.length + 1 ↔ FormCond g) ∧
    (FormCond g → ∃ snap : List (Vector α),
      g'.cells.map PlaceCell.ident =
        g.cells.map PlaceCell.ident ++ [(g.cells.length, g.input.x, g.input.y, snap)] ∧
      snap.length = model.module_count ∧
      ∀ i, i < model.module_count → snap[i]? = model.mec_moving_convolved[i]?) ∧
    (¬ FormCond g → g'.cells.map PlaceCell.ident = g.cells.map PlaceCell.ident) := by
  obtain ⟨g1, hform, hid, _, _⟩ := update_frame g model g' model' h
  have hlen : g'.cells.length = g1.cells.length := by
    have := congrArg List.length hid
    simpa using this
  rcases form_cell_cases g model g1 _ hform with ⟨hsf, snap, hcap, hg1, _⟩ | ⟨hsf, hg1, _⟩
  · have hfc : FormCond g := (should_form_iff g).mp hsf
    have hlen1 : g'.cells.length = g.cells.length + 1 := by
      rw [hlen, hg1]
      simp
    refine ⟨⟨fun _ => hfc, fun _ => hlen1⟩, ?_, fun hn => absurd hfc hn⟩
    intro _
    obtain ⟨hs1, hs2⟩ := capture_spec model snap hcap
    refine ⟨snap, ?_, hs1, fun i hi => (hs2 i hi).1⟩
    rw [hid, hg1]
    simp [PlaceCell.ident]
  · have hfc : ¬ FormCond g := by
      intro hc
      have := (should_form_iff g).mpr hc
      rw [hsf] at this
      exact Bool.noConfusion this
    subst hg1
    refine ⟨⟨fun hl => ?_, fun hc => absurd hc hfc⟩, fun hc => absurd hc hfc, fun _ => hid⟩
    omega

/-- Witness for C4: a visit of `(60,0)` from the chain `A - B - C` forms a fourth cell. -/
theorem place_cell_formation_witness :
    PlaceGraph.update { scen_chain with input := scen_visit 60 0 } scen_model
      = some (scen_graph 7 (scen_chain_walk ++ [scen_visit 60 0]), scen_model) ∧
    (scen_graph 7 (scen_chain_walk ++ [scen_visit 60 0])).cells.length
      = scen_chain.cells.length + 1 :=
  ⟨by decide,
    ((place_cell_formation { scen_chain with input := scen_visit 60 0 } scen_model
      (scen_graph 7 (scen_chain_walk ++ [scen_visit 60 0])) scen_model (by decide)).1).mpr
      ((should_form_iff _).mp (by decide))⟩

end NearestClaims

end GridPlaceNav

namespace GridPlaceNav

/-! ## Edge formation and weakening within one update (C5, C6) -/

section EdgeUpdate

variable {α : Type} [LinearOrderedCommRing α]

theorem source_of_append_new (cells : List (PlaceCell α)) (c : PlaceCell α)
    (hc : c.replay_source = none) (j : Nat) :
    source_of (cells ++ [c]) j = source_of cells j := by
  unfold source_of
  rw [List.getElem?_append]
  by_cases hj : j < cells.length
  · simp [hj]
  · have h1 : cells[j]? = none := List.getElem?_eq_none (Nat.le_of_not_lt hj)
    simp only [hj, if_false, h1]
    cases h2 : [c][j - cells.length]? with
    | none => rfl
    | some d =>
      have : d ∈ [c] := List.mem_iff_getElem?.mpr ⟨_, h2⟩
      simp at this
      subst this
      simpa using hc

theorem form_cell_source (g : PlaceGraph α) (model : Model α) (g1 : PlaceGraph α)
    (cl : Option Nat) (h : g.form_cell model = some (g1, cl)) :
    source_of g1.cells = source_of g.cells := by
  rcases form_cell_cases g model g1 cl h with ⟨_, snap, _, hg, _⟩ | ⟨_, hg, _⟩
  · subst hg
    funext j
    exact source_of_append_new _ _ rfl j
  · rw [hg]

/-- The neighbour map after a successful `update`, from the values before it: first the
edge between the previous and the new agent cell is ensured, then the edge between the
replay cell and its source is weakened if requested. -/
theorem update_nbrs_eq (g : PlaceGraph α) (model : Model α) (g' : PlaceGraph α)
    (model' : Model α) (h : g.update model = some (g', model')) :
    nbrs g'.cells =
      weaken_nbrs (connect_nbrs (nbrs g.cells) g.agent_cell g'.agent_cell)
        g.input.weaken_synapse g.replay_cell (g.replay_cell.bind (source_of g.cells)) := by
  obtain ⟨g1, g2, hform, hcon, h2, h4⟩ := update_nbrs g model g' model' h
  obtain ⟨_, _, h2c⟩ := connect_spec g1 _ g2 hcon
  have hs2 : source_of g2.cells = source_of g.cells := by
    rw [source_of_eq_of_map g1.cells g2.cells (h2c (fun c => c.replay_source) (fun _ _ => rfl))]
    exact form_cell_source g model g1 _ hform
  rw [h4, h2, hs2]

theorem entries_for_absent (L : List (Nat × Int)) (b : Nat) (h : ∀ p ∈ L, p.1 ≠ b) :
    entries_for L b = [] := by
  unfold entries_for
  rw [List.filter_eq_nil_iff]
  intro p hp
  simpa using h p hp

/-- In a list with one entry per neighbour, the entries for `b` are the one entry. -/
theorem entries_for_mem (L : List (Nat × Int)) (b : Nat) (s : Int)
    (hnd : (L.map Prod.fst).Nodup) (h : (b, s) ∈ L) : entries_for L b = [(b, s)] := by
  induction L with
  | nil => simp at h
  | cons q rest ih =>
    obtain ⟨m, v⟩ := q
    rw [List.map_cons, List.nodup_cons] at hnd
    obtain ⟨hm, hrest⟩ := hnd
    rcases List.mem_cons.mp h with e | e
    · have h1 := (Prod.mk.inj e).1
      have h2 := (Prod.mk.inj e).2
      subst h1
      subst h2
      have habs : ∀ p ∈ rest, p.1 ≠ b := by
        rintro ⟨k, u⟩ hp e2
        simp only at e2
        subst e2
        exact hm (List.mem_map.mpr ⟨(k, u), hp, rfl⟩)
      have := entries_for_absent rest b habs
      unfold entries_for at this ⊢
      simp [List.filter_cons, this]
    · have hmb : m ≠ b := by
        intro e2
        subst e2
        exact hm (List.mem_map.mpr ⟨(m, s), e, rfl⟩)
      have := ih hrest e
      unfold entries_for at this ⊢
      simp [List.filter_cons, hmb, this]

/-- After lines 91-107 the previous and the new agent cell, if different, are connected
by one edge: the one they had, or a fresh one of strength `PLACE_CONNECTION_STRENGTH`. -/
theorem connect_nbrs_edge {N : Nat → List (Nat × Int)} (hinv : EdgeInv N) (a c : Nat)
    (hac : a ≠ c) :
    ∃ s : Int, (c, s) ∈ connect_nbrs N (some a) (some c) a ∧
      (a, s) ∈ connect_nbrs N (some a) (some c) c ∧
      ((∀ t, (c, t) ∉ N a) → s = PLACE_CONNECTION_STRENGTH) ∧
      (∀ t, (c, t) ∈ N a → s = t) := by
  unfold connect_nbrs
  simp only
  by_cases hcon : (N c).any (fun p => decide (p.1 = a)) = false
  · have hnot : ∀ t, (c, t) ∉ N a := by
      intro t ht
      have h1 := hinv.sym a c t ht
      have := List.any_eq_false.mp hcon (a, t) h1
      simp at this
    rw [if_pos ⟨hac, hcon⟩]
    refine ⟨PLACE_CONNECTION_STRENGTH, ?_, ?_, fun _ => rfl, fun t ht => absurd ht (hnot t)⟩
    · rw [mem_add_edge N a c hac]
      exact Or.inr ⟨rfl, Or.inl ⟨rfl, rfl⟩⟩
    · rw [mem_add_edge N a c hac]
      exact Or.inr ⟨rfl, Or.inr ⟨rfl, rfl⟩⟩
  · have hneg : ¬ (a ≠ c ∧ (N c).any (fun p => decide (p.1 = a)) = false) := fun hh => hcon hh.2
    rw [if_neg hneg]
    simp only [Bool.not_eq_false, List.any_eq_true, decide_eq_true_eq] at hcon
    obtain ⟨⟨k, s⟩, hp, hk⟩ := hcon
    simp only at hk
    subst hk
    have hs := hinv.sym c k s hp
    refine ⟨s, hs, hp, ?_, ?_⟩
    · intro hno
      exact absurd hs (hno s)
    · intro t ht
      exact hinv.strength_unique k c s t hs ht

end EdgeUpdate

end GridPlaceNav

namespace GridPlaceNav

section EdgeUpdateClaims

variable {α : Type} [LinearOrderedCommRing α]

/-- C5, as stated, fails for an edge that was weakened before. In the chain `A - B - C`
whose edge `A - B` was weakened to strength 1, the agent walks from `A` to `B`: the two
cells are already connected, so the update leaves the edge at strength 1 and does not
restore `PLACE_CONNECTION_STRENGTH`. -/
theorem agent_edge_keeps_weakened_strength :
    scen_weakened_once.agent_cell = some 0 ∧
    scen_weakened_once.step (scen_visit 20 0) scen_model = some (scen_recrossed, scen_model) ∧
    scen_recrossed.agent_cell = some 1 ∧
    entries_for (nbrs scen_recrossed.cells 0) 1 = [(1, 1)] ∧
    entries_for (nbrs scen_recrossed.cells 1) 0 = [(0, 1)] ∧
    entries_for (nbrs scen_recrossed.cells 0) 1 ≠ [(1, PLACE_CONNECTION_STRENGTH)] := by
  refine ⟨by decide, by decide, by decide, by decide, by decide, by decide⟩

/-- C5, amended. For every `update` of a graph built from the empty graph in which the
previous `agent_cell` is non-null and differs from the new one, and which does not weaken
the edge between these two cells in the same call: afterwards each of the two cells has
exactly one neighbour entry for the other, both with the same strength, which is
`PLACE_CONNECTION_STRENGTH` when the cells were not connected before and otherwise the
strength (1 or 2) that the edge already had. -/
theorem agent_edge_after_update (g : PlaceGraph α) (model : Model α) (g' : PlaceGraph α)
    (model' : Model α) (hreach : Reachable g) (h : g.update model = some (g', model'))
    (a c : Nat) (ha : g.agent_cell = some a) (hc : g'.agent_cell = some c) (hac : a ≠ c)
    (hw : ¬ WeakensEdge g a c) :
    ∃ s : Int, entries_for (nbrs g'.cells a) c = [(c, s)] ∧
      entries_for (nbrs g'.cells c) a = [(a, s)] ∧
      ((∀ t, (c, t) ∉ nbrs g.cells a) → s = PLACE_CONNECTION_STRENGTH) ∧
      (∀ t, (c, t) ∈ nbrs g.cells a → s = t) ∧
      1 ≤ s ∧ s ≤ PLACE_CONNECTION_STRENGTH := by
  have hinv := reachable_inv g hreach
  have hinv2 := connect_nbrs_inv hinv (some a) (some c)
  have hinv' := update_inv g model g' model' h hinv
  have hN := update_nbrs_eq g model g' model' h
  rw [ha, hc] at hN
  obtain ⟨s, h1, h2, h3, h4⟩ := connect_nbrs_edge hinv a c hac
  have hkeep : (c, s) ∈ nbrs g'.cells a ∧ (a, s) ∈ nbrs g'.cells c := by
    rw [hN]
    rcases weaken_nbrs_cases (connect_nbrs (nbrs g.cells) (some a) (some c))
      g.input.weaken_synapse g.replay_cell (g.replay_cell.bind (source_of g.cells)) with
      he | ⟨hwt, r, s', hr, hs, he⟩
    · rw [he]
      exact ⟨h1, h2⟩
    · rw [he]
      have hsrc : source_of g.cells r = some s' := by
        rw [hr] at hs
        simpa using hs
      have hnot : ¬ ((a = r ∧ c = s') ∨ (a = s' ∧ c = r)) := by
        intro hh
        apply hw
        refine ⟨hwt, r, s', hr, hsrc, ?_⟩
        rcases hh with ⟨e1, e2⟩ | ⟨e1, e2⟩
        · exact Or.inl ⟨e1.symm, e2.symm⟩
        · exact Or.inr ⟨e2.symm, e1.symm⟩
      have hnot' : ¬ ((c = r ∧ a = s') ∨ (c = s' ∧ a = r)) := by
        intro hh
        apply hnot
        rcases hh with ⟨e1, e2⟩ | ⟨e1, e2⟩
        · exact Or.inr ⟨e2, e1⟩
        · exact Or.inl ⟨e2, e1⟩
      rw [mem_weaken_edge hinv2, mem_weaken_edge hinv2, if_neg hnot, if_neg hnot']
      exact ⟨h1, h2⟩
  refine ⟨s, entries_for_mem _ c s (hinv'.nodup a) hkeep.1,
    entries_for_mem _ a s (hinv'.nodup c) hkeep.2, h3, h4, ?_, hinv'.le_max a c s hkeep.1⟩
  have := hinv'.pos a c s hkeep.1
  omega

/-- Witness for the amended C5: the agent crosses the once weakened edge `A - B`. -/
theorem agent_edge_after_update_witness :
    Reachable { scen_weakened_once with input := scen_visit 20 0 } ∧
    PlaceGraph.update { scen_weakened_once with input := scen_visit 20 0 } scen_model
      = some (scen_recrossed, scen_model) ∧
    ∃ s : Int, entries_for (nbrs scen_recrossed.cells 0) 1 = [(1, s)] ∧
      entries_for (nbrs scen_recrossed.cells 1) 0 = [(0, s)] ∧
      ((∀ t, (1, t) ∉ nbrs scen_weakened_once.cells 0) → s = PLACE_CONNECTION_STRENGTH) ∧
      (∀ t, (1, t) ∈ nbrs scen_weakened_once.cells 0 → s = t) ∧
      1 ≤ s ∧ s ≤ PLACE_CONNECTION_STRENGTH :=
  have hreach : Reachable { scen_weakened_once with input := scen_visit 20 0 } :=
    Reachable.write_input scen_weakened_once (scen_visit 20 0) (reachable_scen _ _)
  ⟨hreach, by decide,
    agent_edge_after_update { scen_weakened_once with input := scen_visit 20 0 } scen_model
      scen_recrossed scen_model hreach (by decide) 0 1 (by decide) (by decide) (by decide)
      (by
        rintro ⟨hwk, _⟩
        exact absurd hwk (by decide))⟩

end EdgeUpdateClaims

end GridPlaceNav

namespace GridPlaceNav

section WeakenClaims

theorem mem_connect_nbrs_of_mem (N : Nat → List (Nat × Int)) (ag cl : Option Nat)
    (i j : Nat) (t : Int) (h : (j, t) ∈ N i) : (j, t) ∈ connect_nbrs N ag cl i := by
  unfold connect_nbrs
  split
  · rename_i a c
    split
    · rename_i hc
      rw [mem_add_edge N a c hc.1]
      exact Or.inl h
    · exact h
  · exact h

theorem mem_connect_nbrs_cases (N : Nat → List (Nat × Int)) (ag cl : Option Nat)
    (i j : Nat) (t : Int) (h : (j, t) ∈ connect_nbrs N ag cl i) :
    (j, t) ∈ N i ∨ (ag = some i ∧ cl = some j) ∨ (ag = some j ∧ cl = some i) := by
  unfold connect_nbrs at h
  split at h
  · rename_i a c
    split at h
    · rename_i hc
      rw [mem_add_edge N a c hc.1] at h
      rcases h with h | ⟨_, ⟨e1, e2⟩ | ⟨e1, e2⟩⟩
      · exact Or.inl h
      · exact Or.inr (Or.inl ⟨by rw [e1], by rw [e2]⟩)
      · exact Or.inr (Or.inr ⟨by rw [e2], by rw [e1]⟩)
    · exact Or.inl h
  · exact Or.inl h

/-- C6, as stated, fails in its last part. In the chain `A - B - C` with the replay at
`A` (source `B`), an update with `weaken_synapse` set whose position is at `C` weakens
the edge `A - B` to strength 1, but it also makes `C` the agent cell and therefore adds
the edge `A - C`: an edge other than `A - B` has changed. -/
theorem weaken_update_changes_other_edge :
    scen_replayed.replay_cell = some 0 ∧ source_of scen_replayed.cells 0 = some 1 ∧
    nbrs scen_replayed.cells 0 = [(1, 2)] ∧ nbrs scen_replayed.cells 2 = [(1, 2)] ∧
    scen_replayed.step scen_weaken_at_C scen_model = some (scen_weakened_at_C, scen_model) ∧
    nbrs scen_weakened_at_C.cells 0 = [(1, 1), (2, 2)] ∧
    nbrs scen_weakened_at_C.cells 2 = [(1, 2), (0, 2)] ∧
    ¬ (∀ i j t, ¬ ((i = 0 ∧ j = 1) ∨ (i = 1 ∧ j = 0)) →
        ((j, t) ∈ nbrs scen_weakened_at_C.cells i ↔ (j, t) ∈ nbrs scen_replayed.cells i)) := by
  refine ⟨by decide, by decide, by decide, by decide, by decide, by decide, by decide, ?_⟩
  intro hall
  have := (hall 0 2 2 (by decide)).mp (by decide)
  exact absurd this (by decide)

/-- C6, amended. An `update` of a graph built from the empty graph with `weaken_synapse`
set, whose replay cell `r` and its `replay_source` `s` are connected with strength `k`,
leaves in each of the two neighbour lists exactly the entry of strength `k - 1` for the
other cell, and no entry when `k - 1` is zero; every other edge is unchanged, except for
the edge between the previous and the new agent cell, which the same update may add.
Consequently, in the chain `A - B - C` with fresh edges of strength 2, once the replay has
reached `A` with source `B`, one weakening leaves the edge `A - B` at strength 1 and a
second one removes it from both `A` and `B`. -/
theorem weaken_synapse_effect :
    (∀ {α : Type} [LinearOrderedCommRing α] (g : PlaceGraph α) (model : Model α)
      (g' : PlaceGraph α) (model' : Model α), Reachable g →
      g.update model = some (g', model') → g.input.weaken_synapse = true →
      ∀ (r s : Nat) (k : Int), g.replay_cell = some r → source_of g.cells r = some s →
        (s, k) ∈ nbrs g.cells r →
        (∀ t, (s, t) ∈ nbrs g'.cells r ↔ (t = k - 1 ∧ 0 < t)) ∧
        (∀ t, (r, t) ∈ nbrs g'.cells s ↔ (t = k - 1 ∧ 0 < t)) ∧
        (∀ i j t, ¬ ((i = r ∧ j = s) ∨ (i = s ∧ j = r)) → ¬ IsAgentEdge g g' i j →
          ((j, t) ∈ nbrs g'.cells i ↔ (j, t) ∈ nbrs g.cells i))) ∧
    (scen_replayed.replay_cell = some 0 ∧ source_of scen_replayed.cells 0 = some 1 ∧
      nbrs scen_replayed.cells 0 = [(1, 2)] ∧
      nbrs scen_replayed.cells 1 = [(0, 2), (2, 2)] ∧
      nbrs scen_replayed.cells 2 = [(1, 2)] ∧
      scen_replayed.step scen_weaken scen_model = some (scen_weakened_once, scen_model) ∧
      nbrs scen_weakened_once.cells 0 = [(1, 1)] ∧
      nbrs scen_weakened_once.cells 1 = [(0, 1), (2, 2)] ∧
      scen_weakened_once.step scen_weaken scen_model
        = some (scen_weakened_twice, scen_model) ∧
      nbrs scen_weakened_twice.cells 0 = [] ∧
      nbrs scen_weakened_twice.cells 1 = [(2, 2)]) := by
  refine ⟨?_, by decide, by decide, by decide, by decide, by decide, by decide, by decide,
    by decide, by decide, by decide, by decide⟩
  intro α _ g model g' model' hreach h hw r s k hr hs hk
  have hinv := reachable_inv g hreach
  have hinv2 := connect_nbrs_inv hinv g.agent_cell g'.agent_cell
  have hN := update_nbrs_eq g model g' model' h
  have hN' : nbrs g'.cells =
      weaken_edge (connect_nbrs (nbrs g.cells) g.agent_cell g'.agent_cell) r s := by
    rw [hN, hw, hr]
    simp only [Option.some_bind, hs]
    rfl
  have hk2 : (s, k) ∈ connect_nbrs (nbrs g.cells) g.agent_cell g'.agent_cell r :=
    mem_connect_nbrs_of_mem _ _ _ _ _ _ hk
  have hk2' : (r, k) ∈ connect_nbrs (nbrs g.cells) g.agent_cell g'.agent_cell s :=
    hinv2.sym r s k hk2
  refine ⟨?_, ?_, ?_⟩
  · intro t
    rw [hN', mem_weaken_edge hinv2, if_pos (Or.inl ⟨rfl, rfl⟩)]
    constructor
    · rintro ⟨h1, h2⟩
      have := hinv2.strength_unique r s k (t + 1) hk2 h1
      exact ⟨by omega, h2⟩
    · rintro ⟨h1, h2⟩
      have : t + 1 = k := by omega
      rw [this]
      exact ⟨hk2, h2⟩
  · intro t
    rw [hN', mem_weaken_edge hinv2, if_pos (Or.inr ⟨rfl, rfl⟩)]
    constructor
    · rintro ⟨h1, h2⟩
      have := hinv2.strength_unique s r k (t + 1) hk2' h1
      exact ⟨by omega, h2⟩
    · rintro ⟨h1, h2⟩
      have : t + 1 = k := by omega
      rw [this]
      exact ⟨hk2', h2⟩
  · intro i j t hnot hnag
    rw [hN', mem_weaken_edge hinv2, if_neg hnot]
    constructor
    · intro hm
      rcases mem_connect_nbrs_cases _ _ _ _ _ _ hm with h1 | h1
      · exact h1
      · exact absurd h1 hnag
    · exact mem_connect_nbrs_of_mem _ _ _ _ _ _

/-- Witness for the amended C6: the first weakening of the edge `A - B` of the chain. -/
theorem weaken_synapse_effect_witness :
    Reachable { scen_replayed with input := scen_weaken } ∧
    PlaceGraph.update { scen_replayed with input := scen_weaken } scen_model
      = some (scen_weakened_once, scen_model) ∧
    (∀ t, (1, t) ∈ nbrs scen_weakened_once.cells 0 ↔ (t = 2 - 1 ∧ 0 < t)) ∧
    (∀ t, (0, t) ∈ nbrs scen_weakened_once.cells 1 ↔ (t = 2 - 1 ∧ 0 < t)) :=
  have hreach : Reachable { scen_replayed with input := scen_weaken } :=
    Reachable.write_input scen_replayed scen_weaken (reachable_scen _ _)
  have hall := weaken_synapse_effect.1 { scen_replayed with input := scen_weaken } scen_model
    scen_weakened_once scen_model hreach (by decide) (by decide) 0 1 2 (by decide)
    (by decide) (by decide)
  ⟨hreach, by decide, hall.1, hall.2.1⟩

end WeakenClaims

end GridPlaceNav

namespace GridPlaceNav

/-! ## Replay propagation (C7, C8, C9) -/

section Propagation

variable {α : Type} [LinearOrderedCommRing α]

theorem EdgeInv.valid (cells : List (PlaceCell α)) (h : EdgeInv (nbrs cells)) :
    ValidNbrs cells := by
  rintro i ⟨b, s⟩ hp
  exact nbrs_ne_nil_lt cells b (i, s) (h.sym i b s hp)

theorem bfs_some_root_lt (cells cells' : List (PlaceCell α)) (root : Nat)
    (h : bfs cells root = some cells') : root < cells.length := by
  unfold bfs bfs_with_fuel at h
  obtain ⟨sc, hsc, _⟩ := Option.bind_eq_some.mp h
  obtain ⟨hlt, _⟩ := List.getElem?_eq_some.mp hsc
  rw [length_bfs_clear] at hlt
  exact hlt

/-- The result of a successful search on a graph with valid pointers. -/
theorem bfs_result (cells cells' : List (PlaceCell α)) (root : Nat)
    (hvalid : ValidNbrs cells) (h : bfs cells root = some cells') :
    nbrs cells' = nbrs cells ∧ cells'.length = cells.length ∧
      ∃ D, BfsInv (nbrs cells) root D (pred_of cells') [] := by
  obtain ⟨c2, D, h1, h2, h3, h4⟩ := bfs_correct cells root (bfs_some_root_lt _ _ _ h) hvalid
  rw [h] at h1
  have := Option.some.inj h1
  subst this
  exact ⟨h2, h3, D, h4⟩

/-- Only the root is its own predecessor. -/
theorem BfsInv.self_pred {N : Nat → List (Nat × Int)} {root : Nat} {D : Nat → Nat}
    {P : Nat → Option Nat} {fifo : List Nat} (h : BfsInv N root D P fifo) (v : Nat) :
    P v = some v ↔ v = root := by
  constructor
  · intro hv
    by_contra hne
    have := (h.tree v v hv hne).2.2
    omega
  · intro hv
    rw [hv]
    exact h.root_pred

/-- The marked cells are the reachable ones. -/
theorem BfsInv.marked_iff {N : Nat → List (Nat × Int)} {root : Nat} {D : Nat → Nat}
    {P : Nat → Option Nat} (h : BfsInv N root D P []) (v : Nat) :
    P v ≠ none ↔ Reach N root v :=
  ⟨fun hv => ⟨D v, (h.dist v hv).1⟩, fun hr => h.complete v hr⟩

/-- What lines 158-205 do, in terms of the search result. -/
theorem propagate_spec (g g' : PlaceGraph α) (h : g.propagate = some g') :
    ∃ root cells_b r, g.select_node g.input.propagate_replay_towards = some root ∧
      bfs g.cells root = some cells_b ∧ g.replay_cell = some r ∧
      pred_of g'.cells = pred_of cells_b ∧
      ((pred_of cells_b r = none ∧ g'.replay_cell = some r ∧
          g'.output.replay_terminated = true) ∨
       (∃ p, pred_of cells_b r = some p ∧ g'.replay_cell = some p ∧
          g'.output.replay_terminated = decide (some p = pred_of cells_b p) ∧
          source_of g'.cells p = some r)) := by
  unfold PlaceGraph.propagate at h
  obtain ⟨root, hroot, h⟩ := Option.bind_eq_some.mp h
  obtain ⟨cells_b, hbfs, h⟩ := Option.bind_eq_some.mp h
  obtain ⟨r, hr, h⟩ := Option.bind_eq_some.mp h
  obtain ⟨rc, hrc, h⟩ := Option.bind_eq_some.mp h
  have hpr : pred_of cells_b r = rc.bfs_predecessor := by simp [pred_of, hrc]
  refine ⟨root, cells_b, r, hroot, hbfs, hr, ?_⟩
  rcases Option.eq_none_or_eq_some rc.bfs_predecessor with hp | ⟨p, hp⟩
  · simp only [hp, Option.some.injEq] at h
    subst h
    exact ⟨rfl, Or.inl ⟨by rw [hpr, hp], hr, rfl⟩⟩
  · simp only [hp] at h
    obtain ⟨pc, hpc, h⟩ := Option.bind_eq_some.mp h
    obtain ⟨pc', hpc', h⟩ := Option.bind_eq_some.mp h
    simp only [Option.some.injEq] at h
    subst h
    have hplt : p < cells_b.length := (List.getElem?_eq_some.mp hpc).1
    rw [List.getElem?_set_self hplt] at hpc'
    have hpc'' := Option.some.inj hpc'
    subst hpc''
    have hpp : pred_of cells_b p = pc.bfs_predecessor := by simp [pred_of, hpc]
    refine ⟨?_, Or.inr ⟨p, by rw [hpr, hp], rfl, ?_, ?_⟩⟩
    · funext v
      simp only
      rw [pred_of_set _ p v pc _ hpc]
      by_cases hv : v = p
      · subst hv
        simp [hpp]
      · simp [hv]
    · simp only [hpp]
    · simp only
      rw [source_of_set _ p p pc _ hpc]
      simp

theorem reset_replay_cell (g : PlaceGraph α) :
    g.reset_replay.replay_cell =
      if g.input.reset_replay_to ≠ ReplayMode.maintain_current_node then
        g.select_node g.input.reset_replay_to
      else g.replay_cell := by
  unfold PlaceGraph.reset_replay
  split <;> rfl

theorem select_node_congr (g g' : PlaceGraph α) (hr : g.reward_cell = g'.reward_cell)
    (ha : g.agent_cell = g'.agent_cell) (mode : ReplayMode) :
    g.select_node mode = g'.select_node mode := by
  unfold PlaceGraph.select_node
  rw [hr, ha]

/-- An `update` that propagates the replay runs lines 158-205 on a graph that has the
edges, the agent cell and the reward cell of the result, and whose replay cell is
`old_replay_cell`. -/
theorem update_propagates (g : PlaceGraph α) (model : Model α) (g' : PlaceGraph α)
    (model' : Model α) (h : g.update model = some (g', model'))
    (hprop : g.input.propagate_replay_towards ≠ ReplayMode.maintain_current_node) :
    ∃ gR g5 : PlaceGraph α, gR.propagate = some g5 ∧ g'.cells = g5.cells ∧
      g'.replay_cell = g5.replay_cell ∧
      g'.output.replay_terminated = g5.output.replay_terminated ∧
      gR.select_node g.input.propagate_replay_towards = bfs_root g g' ∧
      gR.input = g.input ∧
      gR.replay_cell = old_replay_cell g g' ∧ nbrs gR.cells = nbrs g'.cells := by
  obtain ⟨g1, cl, g2, g3, g4, g5, hform, hcon, hsave, hweak, _, hrep, hout⟩ :=
    update_phases g model g' model' h
  have h1' := form_cell_fields g model g1 cl hform
  obtain ⟨h2a, _, _⟩ := connect_spec g1 cl g2 hcon
  obtain ⟨h3a, _, _⟩ := save_reward_spec g2 g3 hsave
  obtain ⟨h4a, _, _⟩ := weaken_spec g3 g4 hweak
  obtain ⟨h6a, h6b⟩ := set_outputs_frame g5 g' hout
  have hin4 : g4.input = g.input := by rw [h4a, h3a, h2a, h1']
  have hrc4 : g4.replay_cell = g.replay_cell := by rw [h4a, h3a, h2a, h1']
  have hp4 : g4.input.reset_replay_to ≠ ReplayMode.maintain_current_node ∨
      g4.input.propagate_replay_towards ≠ ReplayMode.maintain_current_node := by
    rw [hin4]
    exact Or.inr hprop
  obtain ⟨_, rw, r, rc, _, hg5, _, _, _⟩ := replay_performed g4 g5 model model' hrep hp4
  unfold PlaceGraph.propagate_if_requested at hg5
  have hRin : (PlaceGraph.reset_replay
      { g4 with output := { g4.output with replay_terminated := false },
                reward_cell := some rw }).input = g.input := by
    rw [reset_replay_frame]
    exact hin4
  rw [hRin, if_pos hprop] at hg5
  obtain ⟨hp1, hp2⟩ := propagate_frame _ _ hg5
  have hR := reset_replay_frame
    { g4 with output := { g4.output with replay_terminated := false }, reward_cell := some rw }
  have hc6 : g'.cells = g5.cells := by rw [h6a]
  have hrw5 : g5.reward_cell = some rw := by rw [hp1, hR]
  have hag5 : g5.agent_cell = g4.agent_cell := by rw [hp1, hR]
  have hrw' : g'.reward_cell = some rw := by rw [h6a]; exact hrw5
  have hag' : g'.agent_cell = g4.agent_cell := by rw [h6a]; exact hag5
  have hsel : ∀ mode, (PlaceGraph.reset_replay
      { g4 with output := { g4.output with replay_terminated := false },
                reward_cell := some rw }).select_node mode = g'.select_node mode := by
    intro mode
    apply select_node_congr
    · rw [hR, hrw']
    · rw [hR, hag']
  refine ⟨_, g5, hg5, hc6, by rw [h6a], h6b, hsel _, hRin, ?_, ?_⟩
  · have hselX : ∀ mode, (PlaceGraph.select_node
        { g4 with output := { g4.output with replay_terminated := false },
                  reward_cell := some rw } mode) = g'.select_node mode := by
      intro mode
      apply select_node_congr
      · rw [hrw']
      · rw [hag']
    rw [reset_replay_cell]
    unfold old_replay_cell
    rw [hselX]
    simp only
    rw [hin4, hrc4]
  · rw [hc6, nbrs_eq_of_map _ _ (hp2 (fun c => c.neighbors) neighbors_insensitive)]

end Propagation

end GridPlaceNav

namespace GridPlaceNav

section PropagationClaims

variable {α : Type} [LinearOrderedCommRing α]

/-- The facts about a propagating update that C7 and C8 rest on: the search result `P`
satisfies the loop invariant on the edges of the resulting graph, the stored predecessors
are `P`, and the replay cell moves to the predecessor of the old one if it has one. -/
theorem update_propagate_search (g : PlaceGraph α) (model : Model α) (g' : PlaceGraph α)
    (model' : Model α) (hreach : Reachable g) (h : g.update model = some (g', model'))
    (hprop : g.input.propagate_replay_towards ≠ ReplayMode.maintain_current_node) :
    ∃ root old D, bfs_root g g' = some root ∧ old_replay_cell g g' = some old ∧
      BfsInv (nbrs g'.cells) root D (pred_of g'.cells) [] ∧
      ((pred_of g'.cells old = none ∧ g'.replay_cell = some old ∧
          g'.output.replay_terminated = true) ∨
       (∃ p, pred_of g'.cells old = some p ∧ g'.replay_cell = some p ∧
          g'.output.replay_terminated = decide (some p = pred_of g'.cells p) ∧
          source_of g'.cells p = some old)) := by
  have hinv' := update_inv g model g' model' h (reachable_inv g hreach)
  obtain ⟨gR, g5, hpg, hc, hrc, hrt, hsel, hin, hold, hN⟩ :=
    update_propagates g model g' model' h hprop
  obtain ⟨root, cells_b, r, hroot, hbfs, hr, hpred, hcases⟩ := propagate_spec gR g5 hpg
  rw [hin, hsel] at hroot
  rw [hold] at hr
  have hvalid : ValidNbrs gR.cells := by
    apply EdgeInv.valid
    rw [hN]
    exact hinv'
  obtain ⟨_, _, D, hD⟩ := bfs_result gR.cells cells_b root hvalid hbfs
  rw [hN, ← hpred, ← hc] at hD
  rw [← hpred, ← hc, ← hrc, ← hrt] at hcases
  exact ⟨root, r, D, hroot, hr, hD, hcases⟩

/-- C7. In every update of a graph built from the empty graph that propagates the replay,
if the old replay cell is reachable from the root of the search (the reward cell when
propagating towards the goal, the agent cell when propagating towards the agent) and is
not the root: the new replay cell is a neighbour of the old one, its hop distance to the
root is exactly one less, and its `replay_source` is the old replay cell. -/
theorem replay_step_shortest_path (g : PlaceGraph α) (model : Model α) (g' : PlaceGraph α)
    (model' : Model α) (hreach : Reachable g) (h : g.update model = some (g', model'))
    (hprop : g.input.propagate_replay_towards ≠ ReplayMode.maintain_current_node)
    (root old : Nat) (hroot : bfs_root g g' = some root)
    (hold : old_replay_cell g g' = some old) (hne : old ≠ root)
    (hr : Reach (nbrs g'.cells) root old) :
    ∃ new, g'.replay_cell = some new ∧
      (∃ s, (new, s) ∈ nbrs g'.cells old ∧ (old, s) ∈ nbrs g'.cells new) ∧
      (∃ d, HopDist (nbrs g'.cells) root new d ∧ HopDist (nbrs g'.cells) root old (d + 1)) ∧
      source_of g'.cells new = some old := by
  have hinv' := update_inv g model g' model' h (reachable_inv g hreach)
  obtain ⟨root', old', D, hroot', hold', hD, hcases⟩ :=
    update_propagate_search g model g' model' hreach h hprop
  rw [hroot] at hroot'
  rw [hold] at hold'
  have e1 := Option.some.inj hroot'
  have e2 := Option.some.inj hold'
  subst e1
  subst e2
  have hmarked : pred_of g'.cells old ≠ none := hD.complete old hr
  rcases hcases with ⟨hnone, _, _⟩ | ⟨p, hp, hrc, _, hsrc⟩
  · exact absurd hnone hmarked
  · obtain ⟨hpm, ⟨s, hs⟩, hd⟩ := hD.tree old p hp hne
    refine ⟨p, hrc, ⟨s, hinv'.sym p old s hs, hs⟩, ⟨D p, hD.dist p hpm, ?_⟩, hsrc⟩
    rw [← hd]
    exact hD.dist old hmarked

/-- Witness for C7: the first replay step in the chain, from the goal `C` towards the agent at `A`. -/
theorem replay_step_shortest_path_witness :
    Reachable { scen_chain with input := scen_reset_and_propagate } ∧
    ∃ g' : PlaceGraph ℤ, ∃ new, g'.replay_cell = some new ∧
      (∃ s, (new, s) ∈ nbrs g'.cells 2 ∧ (2, s) ∈ nbrs g'.cells new) ∧
      (∃ d, HopDist (nbrs g'.cells) 0 new d ∧ HopDist (nbrs g'.cells) 0 2 (d + 1)) ∧
      source_of g'.cells new = some 2 :=
  have hreach : Reachable { scen_chain with input := scen_reset_and_propagate } :=
    Reachable.write_input scen_chain _ (reachable_scen _ _)
  ⟨hreach, scen_first_hop,
    replay_step_shortest_path _ scen_model _ scen_model_replayed hreach (by decide) (by decide) 0 2
      (by decide) (by decide) (by decide)
      ⟨2, Walk.snoc 1 2 1 2 (Walk.snoc 0 1 0 2 Walk.nil (by decide)) (by decide)⟩⟩

/-- C8. After an update (of a graph built from the empty graph) that propagates the
replay, `replay_terminated` is true if and only if the new replay cell is the root of the
search or the search did not reach the old replay cell; the new replay cell is the root
exactly when it equals its own `bfs_predecessor`; the search misses the old replay cell
exactly when its `bfs_predecessor` stays null, and then the replay cell is left
unchanged. After an update that does not propagate, `replay_terminated` is false. -/
theorem replay_terminated_iff (g : PlaceGraph α) (model : Model α) (g' : PlaceGraph α)
    (model' : Model α) (hreach : Reachable g) (h : g.update model = some (g', model')) :
    (g.input.propagate_replay_towards = ReplayMode.maintain_current_node →
      g'.output.replay_terminated = false) ∧
    (g.input.propagate_replay_towards ≠ ReplayMode.maintain_current_node →
      ∃ root old, bfs_root g g' = some root ∧ old_replay_cell g g' = some old ∧
        (g'.output.replay_terminated = true ↔
          (g'.replay_cell = some root ∨ ¬ Reach (nbrs g'.cells) root old)) ∧
        (∀ n, g'.replay_cell = some n → (n = root ↔ pred_of g'.cells n = some n)) ∧
        (¬ Reach (nbrs g'.cells) root old ↔ pred_of g'.cells old = none) ∧
        (¬ Reach (nbrs g'.cells) root old → g'.replay_cell = some old)) := by
  constructor
  · intro hm
    obtain ⟨g1, cl, g2, g3, g4, g5, hform, hcon, hsave, hweak, _, hrep, hout⟩ :=
      update_phases g model g' model' h
    have h1' := form_cell_fields g model g1 cl hform
    obtain ⟨h2a, _, _⟩ := connect_spec g1 cl g2 hcon
    obtain ⟨h3a, _, _⟩ := save_reward_spec g2 g3 hsave
    obtain ⟨h4a, _, _⟩ := weaken_spec g3 g4 hweak
    obtain ⟨_, h6b⟩ := set_outputs_frame g5 g' hout
    have hin4 : g4.input = g.input := by rw [h4a, h3a, h2a, h1']
    rw [h6b]
    by_cases hp : g4.input.reset_replay_to ≠ ReplayMode.maintain_current_node ∨
        g4.input.propagate_replay_towards ≠ ReplayMode.maintain_current_node
    · obtain ⟨_, rw, r, rc, _, hg5, _, _, _⟩ := replay_performed g4 g5 model model' hrep hp
      unfold PlaceGraph.propagate_if_requested at hg5
      have hRin : (PlaceGraph.reset_replay
          { g4 with output := { g4.output with replay_terminated := false },
                    reward_cell := some rw }).input = g.input := by
        rw [reset_replay_frame]
        exact hin4
      rw [hRin, if_neg (by rw [hm]; simp)] at hg5
      have := Option.some.inj hg5
      rw [← this, reset_replay_frame]
    · obtain ⟨h5, _⟩ := replay_not_performed g4 g5 model model' hrep hp
      rw [h5]
  · intro hprop
    obtain ⟨root, old, D, hroot, hold, hD, hcases⟩ :=
      update_propagate_search g model g' model' hreach h hprop
    have hmiss : ¬ Reach (nbrs g'.cells) root old ↔ pred_of g'.cells old = none := by
      rw [← hD.marked_iff old]
      simp
    refine ⟨root, old, hroot, hold, ?_, ?_, hmiss, ?_⟩
    · rcases hcases with ⟨hnone, hrc, hrt⟩ | ⟨p, hp, hrc, hrt, _⟩
      · rw [hrt]
        simp only [true_iff]
        exact Or.inr (hmiss.mpr hnone)
      · rw [hrt, hrc, decide_eq_true_iff]
        constructor
        · intro hself
          exact Or.inl (by rw [(hD.self_pred p).mp hself.symm])
        · rintro (hpr | hnr)
          · have e := Option.some.inj hpr
            rw [e]
            exact hD.root_pred.symm
          · rw [hmiss, hp] at hnr
            exact Option.noConfusion hnr
    · intro n _
      exact (hD.self_pred n).symm
    · intro hnr
      rcases hcases with ⟨_, hrc, _⟩ | ⟨p, hp, _, _, _⟩
      · exact hrc
      · rw [hmiss, hp] at hnr
        exact Option.noConfusion hnr

/-- Witness for C8: the first replay step in the chain does not terminate the replay. -/
theorem replay_terminated_iff_witness :
    Reachable { scen_chain with input := scen_reset_and_propagate } ∧
    ∃ g' : PlaceGraph ℤ, g'.output.replay_terminated = false ∧
      (ReplayMode.agent_node ≠ ReplayMode.maintain_current_node →
        ∃ root old, g'.agent_cell = some root ∧ g'.reward_cell = some old ∧
          (g'.output.replay_terminated = true ↔
            (g'.replay_cell = some root ∨ ¬ Reach (nbrs g'.cells) root old)) ∧
          (∀ n, g'.replay_cell = some n → (n = root ↔ pred_of g'.cells n = some n)) ∧
          (¬ Reach (nbrs g'.cells) root old ↔ pred_of g'.cells old = none) ∧
          (¬ Reach (nbrs g'.cells) root old → g'.replay_cell = some old)) :=
  have hreach : Reachable { scen_chain with input := scen_reset_and_propagate } :=
    Reachable.write_input scen_chain _ (reachable_scen _ _)
  ⟨hreach, scen_first_hop, by decide,
    (replay_terminated_iff _ scen_model _ scen_model_replayed hreach (by decide)).2⟩

/-- C9. For every finite place graph with valid neighbour pointers and every root cell,
the breadth-first search of `update` terminates (with `cells.length` units of fuel, and
with the same result for any larger amount). Afterwards `bfs_predecessor` is non-null for
exactly the cells reachable from the root through neighbour lists: the root is its own
predecessor, the predecessor of every other marked cell has that cell as a neighbour, and
the predecessor of every unreachable cell is null. The edges are untouched. -/
theorem bfs_terminates_and_marks_reachable (cells : List (PlaceCell α)) (root : Nat)
    (hroot : root < cells.length) (hvalid : ValidNbrs cells) :
    ∃ cells', bfs cells root = some cells' ∧
      (∀ fuel, cells.length ≤ fuel → bfs_with_fuel fuel cells root = some cells') ∧
      (∀ v, pred_of cells' v ≠ none ↔ Reach (nbrs cells) root v) ∧
      pred_of cells' root = some root ∧
      (∀ v p, v ≠ root → pred_of cells' v = some p →
        pred_of cells' p ≠ none ∧ ∃ s, (v, s) ∈ nbrs cells p) ∧
      (∀ v, ¬ Reach (nbrs cells) root v → pred_of cells' v = none) ∧
      nbrs cells' = nbrs cells ∧ cells'.length = cells.length := by
  obtain ⟨cells', D, h1, h2, h3, h4⟩ := bfs_correct cells root hroot hvalid
  refine ⟨cells', h1, fun fuel hf => bfs_with_fuel_mono cells root cells' h1 fuel hf,
    fun v => h4.marked_iff v, h4.root_pred, ?_, ?_, h2, h3⟩
  · intro v p hv hp
    obtain ⟨hpm, hs, _⟩ := h4.tree v p hp hv
    exact ⟨hpm, hs⟩
  · intro v hnr
    by_contra hne
    exact hnr ((h4.marked_iff v).mp hne)

/-- Witness for C9: the search from `C` in the chain `A - B - C`. -/
theorem bfs_terminates_and_marks_reachable_witness :
    (2 < scen_chain.cells.length ∧ ValidNbrs scen_chain.cells) ∧
    ∃ cells', bfs scen_chain.cells 2 = some cells' ∧
      (∀ fuel, scen_chain.cells.length ≤ fuel →
        bfs_with_fuel fuel scen_chain.cells 2 = some cells') ∧
      (∀ v, pred_of cells' v ≠ none ↔ Reach (nbrs scen_chain.cells) 2 v) ∧
      pred_of cells' 2 = some 2 ∧
      (∀ v p, v ≠ 2 → pred_of cells' v = some p →
        pred_of cells' p ≠ none ∧ ∃ s, (v, s) ∈ nbrs scen_chain.cells p) ∧
      (∀ v, ¬ Reach (nbrs scen_chain.cells) 2 v → pred_of cells' v = none) ∧
      nbrs cells' = nbrs scen_chain.cells ∧ cells'.length = scen_chain.cells.length :=
  ⟨⟨by decide, EdgeInv.valid _ (reachable_inv _ (reachable_scen _ _))⟩,
    bfs_terminates_and_marks_reachable scen_chain.cells 2 (by decide)
      (EdgeInv.valid _ (reachable_inv _ (reachable_scen _ _)))⟩

end PropagationClaims

end GridPlaceNav

namespace GridPlaceNav

/-! ## Grid-state snapshots (C10) -/

section Snapshots

variable {α : Type} [LinearOrderedCommRing α]

/-- The loop of `transfer_grid_state_to_decoder` after `k` rounds: the first `k` fixed
sheets hold the snapshots, the rest of the model is as before. -/
theorem transfer_fold (gs : List (Vector α)) (model : Model α) :
    ∀ (k : Nat) (m' : Model α),
      (List.range k).foldlM (fun (m : Model α) (i : Nat) => do
        let src ← gs[i]?
        let dst ← m.mec_fixed_convolved[i]?
        let dst' ← Vector.copy_from dst src
        some { m with mec_fixed_convolved := m.mec_fixed_convolved.set i dst' }) model
        = some m' →
      m'.module_count = model.module_count ∧
      m'.mec_moving_convolved = model.mec_moving_convolved ∧
      ∀ i : Nat, m'.mec_fixed_convolved[i]? =
        if i < k then gs[i]? else model.mec_fixed_convolved[i]? := by
  intro k
  induction k with
  | zero =>
    intro m' h
    simp only [List.range_zero, List.foldlM_nil, Option.pure_def, Option.some.injEq] at h
    subst h
    exact ⟨rfl, rfl, fun i => by simp⟩
  | succ k ih =>
    intro m' h
    rw [List.range_succ, List.foldlM_append] at h
    obtain ⟨mk, hmk, h⟩ := Option.bind_eq_some.mp h
    obtain ⟨h1, h2, h3⟩ := ih mk hmk
    simp only [List.foldlM_cons, List.foldlM_nil, Option.bind_eq_bind, Option.pure_def,
      Option.bind_some] at h
    obtain ⟨src, hsrc, h⟩ := Option.bind_eq_some.mp h
    obtain ⟨dst, hdst, h⟩ := Option.bind_eq_some.mp h
    obtain ⟨dst', hcopy, h⟩ := Option.bind_eq_some.mp h
    simp only [Option.some.injEq] at h
    subst h
    obtain ⟨hd, _⟩ := copy_from_some _ _ _ hcopy
    subst hd
    have hk : k < mk.mec_fixed_convolved.length := (List.getElem?_eq_some.mp hdst).1
    refine ⟨h1, h2, ?_⟩
    intro i
    simp only
    rw [List.getElem?_set]
    by_cases hik : k = i
    · subst hik
      simp [hk, hsrc]
    · simp only [hik, if_false, h3 i]
      by_cases hlt : i < k
      · have hlt' : i < k + 1 := by omega
        simp [hlt, hlt']
      · have hlt' : ¬ i < k + 1 := by omega
        simp [hlt, hlt']

/-- The transfer writes snapshot `i` into the fixed convolved sheet `i` of every module and
leaves the moving sheets alone. -/
theorem transfer_spec (gs : List (Vector α)) (model model' : Model α)
    (h : transfer_grid_state_to_decoder gs model = some model') :
    gs.length = model.module_count ∧
    model'.mec_moving_convolved = model.mec_moving_convolved ∧
    ∀ i, i < model.module_count →
      model'.mec_fixed_convolved[i]? = gs[i]? ∧ ∃ v, gs[i]? = some v := by
  unfold transfer_grid_state_to_decoder at h
  by_cases hlen : gs.length = model.module_count
  · simp only [ne_eq, hlen, not_true_eq_false, if_false] at h
    obtain ⟨_, h2, h3⟩ := transfer_fold gs model _ _ h
    refine ⟨hlen, h2, ?_⟩
    intro i hi
    have := h3 i
    rw [if_pos hi] at this
    have hlt : i < gs.length := by rw [hlen]; exact hi
    exact ⟨this, gs[i], List.getElem?_eq_getElem hlt⟩
  · simp [hlen] at h

/-- The captured snapshots are the first `module_count` moving convolved sheets. -/
theorem capture_eq_take (model : Model α) (snap : List (Vector α))
    (h : capture_grid_state_from_model model = some snap) :
    snap = model.mec_moving_convolved.take model.module_count := by
  obtain ⟨h1, h2⟩ := capture_spec model snap h
  apply List.ext_getElem?
  intro i
  rw [List.getElem?_take]
  by_cases hi : i < model.module_count
  · rw [if_pos hi]
    exact (h2 i hi).1
  · rw [if_neg hi]
    apply List.getElem?_eq_none
    omega

theorem grid_state_of_ident (cells cells' : List (PlaceCell α))
    (h : cells'.map PlaceCell.ident = cells.map PlaceCell.ident) :
    cells'.map (fun c => c.grid_state) = cells.map (fun c => c.grid_state) := by
  have h2 := congrArg (List.map (fun (p : Nat × α × α × List (Vector α)) => p.2.2.2)) h
  simpa [List.map_map, Function.comp_def, PlaceCell.ident] using h2

/-- The snapshot lists after a successful `update`: those before, followed by the
captured moving sheets if a cell was formed. -/
theorem update_grid_states (g : PlaceGraph α) (model : Model α) (g' : PlaceGraph α)
    (model' : Model α) (h : g.update model = some (g', model')) :
    (g'.cells.length = g.cells.length + 1 ∧
      g'.cells.map (fun c => c.grid_state) =
        g.cells.map (fun c => c.grid_state) ++
          [model.mec_moving_convolved.take model.module_count]) ∨
    (g'.cells.length = g.cells.length ∧
      g'.cells.map (fun c => c.grid_state) = g.cells.map (fun c => c.grid_state)) := by
  obtain ⟨g1, hform, hid, _, _⟩ := update_frame g model g' model' h
  have hgs := grid_state_of_ident _ _ hid
  have hlen : g'.cells.length = g1.cells.length := by
    have := congrArg List.length hid
    simpa using this
  rcases form_cell_cases g model g1 _ hform with ⟨_, snap, hcap, hg1, _⟩ | ⟨_, hg1, _⟩
  · left
    rw [hgs, hlen, hg1, capture_eq_take model snap hcap]
    simp
  · right
    rw [hgs, hlen, hg1]
    exact ⟨rfl, rfl⟩

/-- Every cell keeps the snapshots taken when it was formed. -/
theorem formed_grid_states (g : PlaceGraph α) (S : List (List (Vector α)))
    (h : Formed g S) : g.cells.map (fun c => c.grid_state) = S := by
  induction h with
  | init R => rfl
  | write_input g S inp _ ih => exact ih
  | update_formed g g' model model' S _ hup hlen ih =>
    rcases update_grid_states g model g' model' hup with ⟨_, h2⟩ | ⟨h1, _⟩
    · rw [h2, ih]
    · omega
  | update_kept g g' model model' S _ hup hlen ih =>
    rcases update_grid_states g model g' model' hup with ⟨h1, _⟩ | ⟨_, h2⟩
    · omega
    · rw [h2, ih]

/-- Every graph built from the empty graph has a formation record. -/
theorem reachable_formed (g : PlaceGraph α) (h : Reachable g) : ∃ S, Formed g S := by
  induction h with
  | init R => exact ⟨[], Formed.init R⟩
  | write_input g inp _ ih =>
    obtain ⟨S, hS⟩ := ih
    exact ⟨S, Formed.write_input g S inp hS⟩
  | update g g' model model' _ hup ih =>
    obtain ⟨S, hS⟩ := ih
    rcases update_grid_states g model g' model' hup with ⟨h1, _⟩ | ⟨h1, _⟩
    · exact ⟨_, Formed.update_formed g g' model model' S hS hup h1⟩
    · exact ⟨S, Formed.update_kept g g' model model' S hS hup h1⟩

/-- C10. After any replay update (reset and/or propagation) the fixed convolved sheet of
every module `i` equals `replay_cell.grid_state[i]`; the snapshots of every cell are the
moving convolved sheets of the model that was passed to the update which formed the cell;
and capture followed by transfer reproduces the captured moving sheets in the fixed
sheets, whatever the moving sheets have become in the meantime. -/
theorem snapshot_round_trip :
    (∀ {α : Type} [LinearOrderedCommRing α] (g : PlaceGraph α) (model : Model α)
      (g' : PlaceGraph α) (model' : Model α), g.update model = some (g', model') →
      (g.input.reset_replay_to ≠ ReplayMode.maintain_current_node ∨
        g.input.propagate_replay_towards ≠ ReplayMode.maintain_current_node) →
      ∃ r rc, g'.replay_cell = some r ∧ g'.cells[r]? = some rc ∧
        rc.grid_state.length = model.module_count ∧
        ∀ i, i < model.module_count →
          model'.mec_fixed_convolved[i]? = rc.grid_state[i]? ∧
          ∃ v, rc.grid_state[i]? = some v) ∧
    (∀ {α : Type} [LinearOrderedCommRing α] (g : PlaceGraph α)
      (S : List (List (Vector α))), Formed g S →
      g.cells.map (fun c => c.grid_state) = S) ∧
    (∀ {α : Type} [LinearOrderedCommRing α] (model later model' : Model α)
      (snap : List (Vector α)), capture_grid_state_from_model model = some snap →
      transfer_grid_state_to_decoder snap later = some model' →
      ∀ i, i < model.module_count →
        model'.mec_fixed_convolved[i]? = model.mec_moving_convolved[i]? ∧
        ∃ v, model.mec_moving_convolved[i]? = some v) := by
  refine ⟨?_, ?_, ?_⟩
  · intro α _ g model g' model' h hperf
    obtain ⟨g1, cl, g2, g3, g4, g5, hform, hcon, hsave, hweak, _, hrep, hout⟩ :=
      update_phases g model g' model' h
    have h1' := form_cell_fields g model g1 cl hform
    obtain ⟨h2a, _, _⟩ := connect_spec g1 cl g2 hcon
    obtain ⟨h3a, _, _⟩ := save_reward_spec g2 g3 hsave
    obtain ⟨h4a, _, _⟩ := weaken_spec g3 g4 hweak
    obtain ⟨h6a, _⟩ := set_outputs_frame g5 g' hout
    have hin4 : g4.input = g.input := by rw [h4a, h3a, h2a, h1']
    rw [← hin4] at hperf
    obtain ⟨_, rw, r, rc, _, _, hr, hrc, htr⟩ := replay_performed g4 g5 model model' hrep hperf
    obtain ⟨ht1, _, ht3⟩ := transfer_spec rc.grid_state model model' htr
    refine ⟨r, rc, by rw [h6a]; exact hr, by rw [h6a]; exact hrc, ht1, ht3⟩
  · intro α _ g S h
    exact formed_grid_states g S h
  · intro α _ model later model' snap hcap htr
    obtain ⟨hs1, hs2⟩ := capture_spec model snap hcap
    obtain ⟨ht1, _, ht3⟩ := transfer_spec snap later model' htr
    intro i hi
    have hi' : i < later.module_count := by rw [← ht1, hs1]; exact hi
    obtain ⟨h1, v, hv⟩ := ht3 i hi'
    obtain ⟨h2, _⟩ := hs2 i hi
    refine ⟨by rw [h1, h2], v, ?_⟩
    rw [← h2]
    exact hv

/-- Witness for C10: the replay update that moves the replay cell to `B` in the chain. -/
theorem snapshot_round_trip_witness :
    PlaceGraph.update { scen_chain with input := scen_reset_and_propagate } scen_model
      = some (scen_first_hop, scen_model_replayed) ∧
    ∃ r rc, scen_first_hop.replay_cell = some r ∧ scen_first_hop.cells[r]? = some rc ∧
      rc.grid_state.length = scen_model.module_count ∧
      ∀ i, i < scen_model.module_count →
        scen_model_replayed.mec_fixed_convolved[i]? = rc.grid_state[i]? ∧
        ∃ v, rc.grid_state[i]? = some v :=
  ⟨by decide,
    snapshot_round_trip.1 { scen_chain with input := scen_reset_and_propagate } scen_model
      scen_first_hop scen_model_replayed (by decide) (by decide)⟩

end Snapshots

end GridPlaceNav

namespace GridPlaceNav

section Outputs

variable {α : Type} [LinearOrderedCommRing α]

theorem sqrt_le_iff (a r : α) : sqrt_le a r = true ↔ 0 ≤ r ∧ a ≤ r ^ 2 := by
  unfold sqrt_le
  simp

theorem cell_within_true (cells : List (PlaceCell α)) (cell : Option Nat) (x y bound : α)
    (b : Bool) (h : cell_within cells cell x y bound = some b) :
    b = true ↔ ∃ w wc, cell = some w ∧ cells[w]? = some wc ∧
      0 ≤ bound ∧ wc.distance_sq x y ≤ bound ^ 2 := by
  unfold cell_within at h
  rcases Option.eq_none_or_eq_some cell with hc | ⟨w, hc⟩
  · subst hc
    simp only [Option.some.injEq] at h
    subst h
    simp
  · subst hc
    simp only [Option.map_eq_some'] at h
    obtain ⟨wc, hwc, hb⟩ := h
    rw [← hb, sqrt_le_iff]
    constructor
    · intro hle
      exact ⟨w, wc, rfl, hwc, hle⟩
    · rintro ⟨w', wc', hw', hwc', hle⟩
      have e := Option.some.inj hw'
      subst e
      rw [hwc] at hwc'
      have e' := Option.some.inj hwc'
      subst e'
      exact hle

theorem subgoal_direction_of_spec (cells : List (PlaceCell α)) (replay_cell : Option Nat)
    (visible : Bool) (x y : α) (d : Option (α × α))
    (h : subgoal_direction_of cells replay_cell visible x y = some d) :
    (visible = true → ∃ r rc, replay_cell = some r ∧ cells[r]? = some rc ∧
      d = some (rc.y - y, rc.x - x)) ∧
    (visible = false → d = none) := by
  unfold subgoal_direction_of at h
  cases visible with
  | false =>
    simp only [Bool.false_eq_true, if_false, Option.some.injEq] at h
    exact ⟨fun hv => Bool.noConfusion hv, fun _ => h.symm⟩
  | true =>
    simp only [if_true] at h
    refine ⟨fun _ => ?_, fun hv => Bool.noConfusion hv⟩
    rcases Option.eq_none_or_eq_some replay_cell with hc | ⟨r, hc⟩
    · subst hc
      exact Option.noConfusion h
    · subst hc
      simp only [Option.map_eq_some'] at h
      obtain ⟨rc, hrc, hd⟩ := h
      exact ⟨r, rc, rfl, hrc, by rw [← hd]; rfl⟩

theorem set_outputs_spec (g g' : PlaceGraph α) (h : g.set_outputs = some g') :
    cell_within g.cells g.reward_cell g.input.x g.input.y g.place_cell_radius
      = some g'.output.at_goal ∧
    cell_within g.cells g.replay_cell g.input.x g.input.y g.place_cell_radius
      = some g'.output.at_subgoal ∧
    cell_within g.cells g.replay_cell g.input.x g.input.y (3 * g.place_cell_radius)
      = some g'.output.subgoal_visible ∧
    subgoal_direction_of g.cells g.replay_cell g'.output.subgoal_visible g.input.x g.input.y
      = some g'.output.subgoal_direction := by
  unfold PlaceGraph.set_outputs at h
  obtain ⟨a, ha, h⟩ := Option.bind_eq_some.mp h
  obtain ⟨b, hb, h⟩ := Option.bind_eq_some.mp h
  obtain ⟨c, hc, h⟩ := Option.bind_eq_some.mp h
  obtain ⟨d, hd, h⟩ := Option.bind_eq_some.mp h
  simp only [Option.some.injEq] at h
  subst h
  exact ⟨ha, hb, hc, hd⟩

/-- C11. After every `update` that returns, at the position `(x, y)` of the input and with
radius `R`: `at_goal` holds iff `reward_cell` is non-null and its centre is within `R` of
the position; `at_subgoal` holds iff `replay_cell` is non-null and within `R`;
`subgoal_visible` holds iff `replay_cell` is non-null and within `3 R`; and
`subgoal_direction` is the `atan2` of `(replay_cell.y - y, replay_cell.x - x)` when
`subgoal_visible` and the literal zero (`none`) otherwise. The comparison
`sqrt d2 <= r` of the code is written `0 <= r` and `d2 <= r ^ 2`. -/
theorem update_outputs (g : PlaceGraph α) (model : Model α) (g' : PlaceGraph α)
    (model' : Model α) (h : g.update model = some (g', model')) :
    (g'.output.at_goal = true ↔ ∃ w wc, g'.reward_cell = some w ∧ g'.cells[w]? = some wc ∧
      0 ≤ g.place_cell_radius ∧
      wc.distance_sq g.input.x g.input.y ≤ g.place_cell_radius ^ 2) ∧
    (g'.output.at_subgoal = true ↔ ∃ r rc, g'.replay_cell = some r ∧
      g'.cells[r]? = some rc ∧ 0 ≤ g.place_cell_radius ∧
      rc.distance_sq g.input.x g.input.y ≤ g.place_cell_radius ^ 2) ∧
    (g'.output.subgoal_visible = true ↔ ∃ r rc, g'.replay_cell = some r ∧
      g'.cells[r]? = some rc ∧ 0 ≤ 3 * g.place_cell_radius ∧
      rc.distance_sq g.input.x g.input.y ≤ (3 * g.place_cell_radius) ^ 2) ∧
    (g'.output.subgoal_visible = true → ∃ r rc, g'.replay_cell = some r ∧
      g'.cells[r]? = some rc ∧
      g'.output.subgoal_direction = some (rc.y - g.input.y, rc.x - g.input.x)) ∧
    (g'.output.subgoal_visible = false → g'.output.subgoal_direction = none) := by
  obtain ⟨g1, cl, g2, g3, g4, g5, _, _, _, _, _, _, hout⟩ :=
    update_phases g model g' model' h
  obtain ⟨_, _, _, hin, hrad⟩ := update_frame g model g' model' h
  obtain ⟨hfr, _⟩ := set_outputs_frame g5 g' hout
  have hcells : g5.cells = g'.cells := by rw [hfr]
  have hrew : g5.reward_cell = g'.reward_cell := by rw [hfr]
  have hrep : g5.replay_cell = g'.replay_cell := by rw [hfr]
  have hinp : g5.input = g.input := by rw [← hin, hfr]
  have hr : g5.place_cell_radius = g.place_cell_radius := by rw [← hrad, hfr]
  obtain ⟨ha, hb, hc, hd⟩ := set_outputs_spec g5 g' hout
  rw [hcells, hrew, hinp, hr] at ha
  rw [hcells, hrep, hinp, hr] at hb hc
  rw [hcells, hrep, hinp] at hd
  obtain ⟨hd1, hd2⟩ := subgoal_direction_of_spec _ _ _ _ _ _ hd
  exact ⟨cell_within_true _ _ _ _ _ _ ha, cell_within_true _ _ _ _ _ _ hb,
    cell_within_true _ _ _ _ _ _ hc, hd1, hd2⟩

/-- Witness for C11: the first replay step in the chain, seen from `A = (0, 0)` with radius
`7`; the replay cell `B = (20, 0)` is visible (within `21`) but not reached. -/
theorem update_outputs_witness :
    ({ scen_chain with input := scen_reset_and_propagate } : PlaceGraph ℤ).update scen_model
      = some (scen_first_hop, scen_model_replayed) ∧
    scen_first_hop.output.at_subgoal = false ∧
    scen_first_hop.output.subgoal_visible = true ∧
    scen_first_hop.output.subgoal_direction = some (0, 20) ∧
    (scen_first_hop.output.at_subgoal = true ↔ ∃ r rc, scen_first_hop.replay_cell = some r ∧
      scen_first_hop.cells[r]? = some rc ∧ (0 : ℤ) ≤ 7 ∧
      rc.distance_sq 0 0 ≤ 7 ^ 2) :=
  ⟨by decide, by decide, by decide, by decide,
    (update_outputs { scen_chain with input := scen_reset_and_propagate } scen_model
      scen_first_hop scen_model_replayed (by decide)).2.1⟩

end Outputs

end GridPlaceNav

namespace GridPlaceNav

section Numerical

theorem wrap_int32_of_is_int32 (z : Int) (h : is_int32 z) : wrap_int32 z = z := by
  unfold is_int32 at h
  unfold wrap_int32
  omega

theorem floor_quotient_eq (value period : Int) (hp : 0 < period) :
    Periodic.floor_quotient value period = value / period := by
  unfold Periodic.floor_quotient
  obtain ⟨n, hn⟩ := Int.eq_ofNat_of_zero_le hp.le
  subst hn
  exact_mod_cast Rat.floor_intCast_div_natCast value n

/-- C12. For every 32-bit `int` `v` and every positive 32-bit `int` period `P`,
`Periodic::modulo(v, P)` returns `r` with `0 <= r < P` and `r` congruent to `v` modulo `P`
(indeed `r` is the non-negative remainder `v % P`, also for negative `v`). The floor of the
quotient always fits an `int`; the product `P * floor(v / P)` fits an `int` whenever
`v >= INT_MIN + P`, and for the remaining `v` the result is the same after the 32-bit
wrap-around of the product and of the difference. -/
theorem modulo_nonneg_remainder (v P : Int) (hv : is_int32 v) (hP : is_int32 P)
    (hpos : 0 < P) :
    0 ≤ Periodic.modulo v P ∧ Periodic.modulo v P < P ∧
    Periodic.modulo v P ≡ v [ZMOD P] ∧ Periodic.modulo v P = v % P ∧
    is_int32 (Periodic.floor_quotient v P) ∧
    (-2147483648 + P ≤ v → is_int32 (Periodic.product v P)) := by
  have hq := floor_quotient_eq v P hpos
  have hdiv : P * (v / P) + v % P = v := Int.ediv_add_emod v P
  have hm0 : 0 ≤ v % P := Int.emod_nonneg v hpos.ne'
  have hm1 : v % P < P := Int.emod_lt_of_pos v hpos
  unfold is_int32 at hv hP
  have hq0 : -2147483648 ≤ v / P := by
    have := Int.le_ediv_of_mul_le hpos (show (-2147483648) * P ≤ v by nlinarith)
    exact this
  have hq1 : v / P < 2147483648 := by
    apply Int.ediv_lt_of_lt_mul hpos
    nlinarith
  have hqr : is_int32 (Periodic.floor_quotient v P) := by
    rw [hq]
    exact ⟨hq0, hq1⟩
  have hprod : Periodic.product v P = P * (v / P) := by
    unfold Periodic.product
    rw [wrap_int32_of_is_int32 _ hqr, hq]
  have hres : Periodic.modulo v P = v % P := by
    unfold Periodic.modulo
    rw [hprod]
    generalize P * (v / P) = m at hdiv
    unfold wrap_int32
    omega
  refine ⟨by rw [hres]; exact hm0, by rw [hres]; exact hm1, ?_, hres, hqr, ?_⟩
  · rw [hres]
    exact Int.mod_modEq v P
  · intro hlow
    rw [hprod]
    unfold is_int32
    generalize P * (v / P) = m at hdiv
    omega

/-- Witness for C12: `modulo(-1, 40) = 39`, the wrap of a torus coordinate, and
`modulo(INT_MIN, 3) = 1`, where the product leaves the range of `int` and wraps. -/
theorem modulo_nonneg_remainder_witness :
    is_int32 (-1) ∧ is_int32 40 ∧ Periodic.modulo (-1) 40 = 39 ∧
    is_int32 (-2147483648) ∧ is_int32 3 ∧ Periodic.modulo (-2147483648) 3 = 1 ∧
    ¬ is_int32 (Periodic.product (-2147483648) 3) :=
  ⟨by decide, by decide,
    (modulo_nonneg_remainder (-1) 40 (by decide) (by decide) (by decide)).2.2.2.1.trans
      (by decide),
    by decide, by decide,
    (modulo_nonneg_remainder (-2147483648) 3 (by decide) (by decide)
      (by decide)).2.2.2.1.trans (by decide),
    by
      have h : Periodic.product (-2147483648) 3 = -2147483649 := by
        unfold Periodic.product
        rw [floor_quotient_eq _ _ (by decide)]
        decide
      rw [h]
      decide⟩

end Numerical

end GridPlaceNav

namespace GridPlaceNav

section AgentFacts

variable {α : Type} [LinearOrderedField α]

theorem prepare_state_impl (a : Agent α) : a.prepare.state_impl = a.state_impl := rfl

theorem prepare_active_state (a : Agent α) : a.prepare.active_state = a.active_state := rfl

theorem hook_state_impl (L : Libm α) (u n : α) (impl : StateImplementation) (a : Agent α) :
    (impl.hook L u n a).state_impl = a.state_impl := by
  cases impl <;>
    simp only [StateImplementation.hook, ForcedMoveState.hook, ReceiveRewardState.hook,
      InitiateNavigationState.hook, ApproachSubgoalState.hook,
      NoResumeApproachSubgoalState.hook, NoTopoApproachSubgoalState.hook,
      TopologicalStepState.hook, ReplayEpisodeState.hook, ExplorationState.hook,
      Agent.set_model_input, Agent.set_graph_input] <;>
    (repeat' split) <;> rfl

theorem hook_active_state (L : Libm α) (u n : α) (impl : StateImplementation) (a : Agent α) :
    (impl.hook L u n a).active_state = a.active_state := by
  cases impl <;>
    simp only [StateImplementation.hook, ForcedMoveState.hook, ReceiveRewardState.hook,
      InitiateNavigationState.hook, ApproachSubgoalState.hook,
      NoResumeApproachSubgoalState.hook, NoTopoApproachSubgoalState.hook,
      TopologicalStepState.hook, ReplayEpisodeState.hook, ExplorationState.hook,
      Agent.set_model_input, Agent.set_graph_input] <;>
    (repeat' split) <;> rfl

/-- The shape of `execute`: the hook of the active state runs on the prepared agent, the
model simulates one timestep, and `finish` shifts the states. -/
theorem execute_eq (L : Libm α) (u n : α) (mv : List (Vector α)) (dc : MotorNetwork α)
    (a : Agent α) :
    a.execute L u n mv dc = (a.state_impl a.active_state).bind (fun impl =>
      ((impl.hook L u n a.prepare).model.simulate_timestep L mv dc).map (fun model =>
        Agent.finish { impl.hook L u n a.prepare with model := model })) := by
  unfold Agent.execute
  simp only [prepare_state_impl, prepare_active_state]
  rcases Option.eq_none_or_eq_some (a.state_impl a.active_state) with h | ⟨impl, h⟩
  · rw [h]
    rfl
  · rw [h]
    rfl

theorem execute_some (L : Libm α) (u n : α) (mv : List (Vector α)) (dc : MotorNetwork α)
    (a a' : Agent α) (h : a.execute L u n mv dc = some a') :
    ∃ impl model, a.state_impl a.active_state = some impl ∧
      (impl.hook L u n a.prepare).model.simulate_timestep L mv dc = some model ∧
      a' = Agent.finish { impl.hook L u n a.prepare with model := model } := by
  rw [execute_eq] at h
  obtain ⟨impl, himpl, h⟩ := Option.bind_eq_some.mp h
  obtain ⟨model, hmodel, h⟩ := Option.map_eq_some'.mp h
  exact ⟨impl, model, himpl, hmodel, h.symm⟩

end AgentFacts

end GridPlaceNav

namespace GridPlaceNav

section AgentClaims

variable {α : Type} [LinearOrderedField α]

/-- Counterexample to C17 as written: the combined preset enters the hook with
`form_place_cells = true`, because `execute` copies the agent's own parameter. -/
theorem combined_agent_hook_input_forms_cells :
    IsPreset (scen_combined_agent : Agent ℚ) ∧
    (scen_combined_agent : Agent ℚ).prepare.model.place_graph.input.form_place_cells
      = true :=
  ⟨IsPreset.combined _ _ _, rfl⟩

/-- C17 (amended). In every `Agent::execute` the hook of the active state is called on
the prepared agent, in which the model inputs are `motor_mode = grid_decoder_mode`,
`motor_tuning = approach_motor_tuning`, `motor_offset = 0` and
`confidence_threshold = approach_confidence_threshold` (heading and speed are the
agent's inputs), and the place-graph inputs are the agent's position and reward id,
`save_reward = false`, `weaken_synapse = false`,
`reset_replay_to = propagate_replay_towards = maintain_current_node`, and
`form_place_cells` equal to the agent's parameter `form_place_cells`: `true` for every
preset except the deflect preset, for which it is `false`. -/
theorem hook_inputs_after_prepare (L : Libm α) (u n : α) (mv : List (Vector α))
    (dc : MotorNetwork α) (a : Agent α) :
    a.execute L u n mv dc = (a.state_impl a.active_state).bind (fun impl =>
      ((impl.hook L u n a.prepare).model.simulate_timestep L mv dc).map (fun model =>
        Agent.finish { impl.hook L u n a.prepare with model := model })) ∧
    a.prepare.model.input =
      { heading := a.input.heading, speed := a.input.speed,
        motor_mode := MotorMode.grid_decoder_mode,
        motor_tuning := a.approach_motor_tuning, motor_offset := 0,
        confidence_threshold := a.approach_confidence_threshold } ∧
    a.prepare.model.place_graph.input =
      { x := a.input.x, y := a.input.y, reward_id := a.input.reward_id,
        save_reward := false, form_place_cells := a.form_place_cells,
        weaken_synapse := false,
        reset_replay_to := ReplayMode.maintain_current_node,
        propagate_replay_towards := ReplayMode.maintain_current_node } ∧
    a.prepare.next_state = a.active_state ∧
    (∀ (model : ModelState α) (input : AgentInput α) (output : AgentOutput α),
      (VectorAgent model input output).form_place_cells = true ∧
      (CombinedAgent model input output).form_place_cells = true ∧
      (CombinedNarrowAgent model input output).form_place_cells = true ∧
      (CombinedStrictAgent model input output).form_place_cells = true ∧
      (NoResumeCombinedStrictAgent model input output).form_place_cells = true ∧
      (NoTopoCombinedStrictAgent model input output).form_place_cells = true ∧
      (PlaceAgent model input output).form_place_cells = true ∧
      (DeflectAgent model input output).form_place_cells = false) :=
  ⟨execute_eq L u n mv dc a, rfl, rfl, rfl,
    fun _ _ _ => ⟨rfl, rfl, rfl, rfl, rfl, rfl, rfl, rfl⟩⟩

/-- Witness for C17: the prepared combined agent on a fresh model. -/
theorem hook_inputs_after_prepare_witness :
    (scen_combined_agent : Agent ℝ).prepare.model.input =
      { heading := 0, speed := 0, motor_mode := MotorMode.grid_decoder_mode,
        motor_tuning := 3 / 4, motor_offset := 0, confidence_threshold := 1 / 20 } :=
  (hook_inputs_after_prepare
    ⟨Real.cos, Real.sin, fun y x => Complex.arg ⟨x, y⟩, Real.exp, Real.sqrt, Real.pi⟩
    0 0 [] (ring_at_rest 28 false false 1) scen_combined_agent).2.1

/-- C18. After every `Agent::execute` that returns, `active_state` is `no_state` or a
state with a registered handler: if the `next_state` selected by the hook has no handler
the agent is left in `no_state`, otherwise in `next_state`. The handler table never
changes. The handler assertion at the start of `execute` fails exactly when the active
state has no handler, so after an `execute` it can fail only in `no_state`; `no_state`
has no handler, the states that the simulation enters directly (forced move, receive
reward, initiate navigation) have one in every preset, and for example
`topological_step` and `replay_episode` have none under the vector preset. -/
theorem active_state_has_handler (L : Libm α) (u n : α) (mv : List (Vector α))
    (dc : MotorNetwork α) (a a' : Agent α) (h : a.execute L u n mv dc = some a') :
    (a'.active_state = State.no_state ∨ a'.state_impl a'.active_state ≠ none) ∧
    a'.state_impl = a.state_impl ∧
    (∃ impl, a.state_impl a.active_state = some impl ∧
      a'.active_state =
        if a.state_impl (impl.hook L u n a.prepare).next_state = none then State.no_state
        else (impl.hook L u n a.prepare).next_state) ∧
    (a'.state_impl a'.active_state = none → a'.active_state = State.no_state) ∧
    (∀ b : Agent α, b.state_impl b.active_state = none → b.execute L u n mv dc = none) ∧
    (∀ b : Agent α, IsPreset b →
      b.state_impl State.no_state = none ∧
      b.state_impl State.forced_move_state ≠ none ∧
      b.state_impl State.receive_reward_state ≠ none ∧
      b.state_impl State.initiate_navigation_state ≠ none) ∧
    (∀ (model : ModelState α) (input : AgentInput α) (output : AgentOutput α),
      (VectorAgent model input output).state_impl State.topological_step_state = none ∧
      (VectorAgent model input output).state_impl State.replay_episode_state = none) := by
  obtain ⟨impl, model, himpl, _, ha'⟩ := execute_some L u n mv dc a a' h
  have hsi : a'.state_impl = a.state_impl := by
    rw [ha']
    show (impl.hook L u n a.prepare).state_impl = a.state_impl
    rw [hook_state_impl, prepare_state_impl]
  have hact : a'.active_state =
      if a.state_impl (impl.hook L u n a.prepare).next_state = none then State.no_state
      else (impl.hook L u n a.prepare).next_state := by
    rw [ha']
    show (if (impl.hook L u n a.prepare).state_impl (impl.hook L u n a.prepare).next_state
      = none then State.no_state else (impl.hook L u n a.prepare).next_state) = _
    rw [hook_state_impl, prepare_state_impl]
  have hdisj : a'.active_state = State.no_state ∨ a'.state_impl a'.active_state ≠ none := by
    rw [hsi, hact]
    by_cases hn : a.state_impl (impl.hook L u n a.prepare).next_state = none
    · rw [if_pos hn]
      exact Or.inl rfl
    · rw [if_neg hn]
      exact Or.inr hn
  refine ⟨hdisj, hsi, ⟨impl, himpl, hact⟩, ?_, ?_, ?_, ?_⟩
  · intro hnone
    rcases hdisj with h0 | h1
    · exact h0
    · exact absurd hnone h1
  · intro b hb
    rw [execute_eq, hb]
    rfl
  · intro b hb
    cases hb <;> exact ⟨rfl, by simp [VectorAgent, DeflectAgent, CombinedAgent,
      CombinedNarrowAgent, CombinedStrictAgent, NoResumeCombinedStrictAgent,
      NoTopoCombinedStrictAgent, PlaceAgent, UnifiedAgent, Agent.new],
      by simp [VectorAgent, DeflectAgent, CombinedAgent,
      CombinedNarrowAgent, CombinedStrictAgent, NoResumeCombinedStrictAgent,
      NoTopoCombinedStrictAgent, PlaceAgent, UnifiedAgent, Agent.new],
      by simp [VectorAgent, DeflectAgent, CombinedAgent,
      CombinedNarrowAgent, CombinedStrictAgent, NoResumeCombinedStrictAgent,
      NoTopoCombinedStrictAgent, PlaceAgent, UnifiedAgent, Agent.new]⟩
  · intro model input output
    exact ⟨rfl, rfl⟩

end AgentClaims

end GridPlaceNav

namespace GridPlaceNav

section HookClaims

variable {α : Type} [LinearOrderedField α]

/-- Witness for C18: the vector agent receives a reward on the empty graph; the hook
selects `no_state` and the agent is left there. -/
theorem active_state_has_handler_witness : ∃ a' : Agent ℝ,
    (scen_vector_agent : Agent ℝ).execute
      ⟨Real.cos, Real.sin, fun y x => Complex.arg ⟨x, y⟩, Real.exp, Real.sqrt, Real.pi⟩
      0 0 [[3, 4]] (ring_at_rest 28 false false 1) = some a' ∧
    a'.active_state = State.no_state ∧
    (a'.active_state = State.no_state ∨ a'.state_impl a'.active_state ≠ none) :=
  ⟨_, rfl, rfl, (active_state_has_handler _ 0 0 [[3, 4]] (ring_at_rest 28 false false 1)
    scen_vector_agent _ rfl).1⟩

/-- C19. The default `approach_subgoal` hook (the one of the vector, deflect, place,
combined, narrow and strict presets) selects `next_state` from the outputs of the
previous tick only, which `execute` leaves in place before the hook:
`topological_step` if `at_subgoal` (halted or not); otherwise `replay_episode`, with the
model's `confidence_threshold` set to `replay_confidence_threshold`, if `halted`;
otherwise `approach_subgoal` with the threshold unchanged. In no case does it change the
motor mode, tuning or offset, any place-graph input, or anything else of the agent. -/
theorem approach_subgoal_hook_spec (L : Libm α) (u n : α) (a : Agent α) :
    StateImplementation.hook L u n StateImplementation.ApproachSubgoalState a
      = ApproachSubgoalState.hook a ∧
    (ApproachSubgoalState.hook a).next_state =
      (if a.model.place_graph.output.at_subgoal = true then State.topological_step_state
       else if a.model.output.halted = true then State.replay_episode_state
       else State.approach_subgoal_state) ∧
    (ApproachSubgoalState.hook a).model.input =
      { a.model.input with confidence_threshold :=
          if a.model.place_graph.output.at_subgoal = false ∧ a.model.output.halted = true
          then a.replay_confidence_threshold else a.model.input.confidence_threshold } ∧
    (ApproachSubgoalState.hook a).model.input.motor_mode = a.model.input.motor_mode ∧
    (ApproachSubgoalState.hook a).model.input.motor_tuning = a.model.input.motor_tuning ∧
    (ApproachSubgoalState.hook a).model.place_graph = a.model.place_graph ∧
    ApproachSubgoalState.hook a =
      { a with next_state := (ApproachSubgoalState.hook a).next_state,
               model := { a.model with input := (ApproachSubgoalState.hook a).model.input } } ∧
    a.prepare.model.output = a.model.output ∧
    a.prepare.model.place_graph.output = a.model.place_graph.output ∧
    (∀ (model : ModelState α) (input : AgentInput α) (output : AgentOutput α),
      (VectorAgent model input output).state_impl State.approach_subgoal_state
        = some StateImplementation.ApproachSubgoalState ∧
      (UnifiedAgent model input output).state_impl State.approach_subgoal_state
        = some StateImplementation.ApproachSubgoalState) := by
  refine ⟨rfl, ?_, ?_, ?_, ?_, ?_, ?_, rfl, rfl, fun _ _ _ => ⟨rfl, rfl⟩⟩ <;>
  · unfold ApproachSubgoalState.hook Agent.set_model_input
    by_cases h1 : a.model.place_graph.output.at_subgoal = true
    · simp [h1]
    · by_cases h2 : a.model.output.halted = true
      · simp [h1, h2]
      · simp [h1, h2]

/-- C20. The `replay_episode` hook: if the model is not halted, `next_state` is
`approach_subgoal` and nothing else changes; else if `replay_terminated`, it sets
`weaken_synapse`, `motor_mode = last_heading_mode` and `motor_offset = M_PI`, selects
`exploration` and changes nothing else, so that inside `execute` no replay propagation or
reset is requested; else it sets `propagate_replay_towards = agent_node`,
`motor_tuning = replay_motor_tuning` and
`confidence_threshold = replay_confidence_threshold`, stays in `replay_episode` and
changes nothing else. -/
theorem replay_episode_hook_spec (L : Libm α) (u n : α) (a : Agent α) :
    StateImplementation.hook L u n StateImplementation.ReplayEpisodeState a
      = ReplayEpisodeState.hook L a ∧
    (a.model.output.halted = false →
      ReplayEpisodeState.hook L a = { a with next_state := State.approach_subgoal_state }) ∧
    (a.model.output.halted = true → a.model.place_graph.output.replay_terminated = true →
      ReplayEpisodeState.hook L a =
        { a with
          next_state := State.exploration_state,
          model := { a.model with
            input := { a.model.input with
              motor_mode := MotorMode.last_heading_mode, motor_offset := L.pi },
            place_graph := { a.model.place_graph with
              input := { a.model.place_graph.input with weaken_synapse := true } } } } ∧
      (ReplayEpisodeState.hook L a.prepare).model.place_graph.input.propagate_replay_towards
        = ReplayMode.maintain_current_node ∧
      (ReplayEpisodeState.hook L a.prepare).model.place_graph.input.reset_replay_to
        = ReplayMode.maintain_current_node) ∧
    (a.model.output.halted = true → a.model.place_graph.output.replay_terminated = false →
      ReplayEpisodeState.hook L a =
        { a with
          next_state := State.replay_episode_state,
          model := { a.model with
            input := { a.model.input with
              motor_tuning := a.replay_motor_tuning,
              confidence_threshold := a.replay_confidence_threshold },
            place_graph := { a.model.place_graph with
              input := { a.model.place_graph.input with
                propagate_replay_towards := ReplayMode.agent_node } } } }) := by
  refine ⟨rfl, ?_, ?_, ?_⟩
  · intro h
    unfold ReplayEpisodeState.hook
    simp [h]
  · intro h ht
    have h' : a.prepare.model.output.halted = true := h
    have ht' : a.prepare.model.place_graph.output.replay_terminated = true := ht
    refine ⟨?_, ?_, ?_⟩
    · unfold ReplayEpisodeState.hook Agent.set_model_input Agent.set_graph_input
      simp [h, ht]
    · unfold ReplayEpisodeState.hook Agent.set_model_input Agent.set_graph_input
      simp only [h', ht']
      rfl
    · unfold ReplayEpisodeState.hook Agent.set_model_input Agent.set_graph_input
      simp only [h', ht']
      rfl
  · intro h ht
    unfold ReplayEpisodeState.hook Agent.set_model_input Agent.set_graph_input
    simp [h, ht]

end HookClaims

end GridPlaceNav

namespace GridPlaceNav

section NetworkFacts

variable {α : Type} [LinearOrderedField α]

theorem getD_nonneg (l : List α) (h : ∀ v ∈ l, 0 ≤ v) (i : Nat) : 0 ≤ l.getD i 0 := by
  rw [List.getD_eq_getElem?_getD]
  rcases Option.eq_none_or_eq_some l[i]? with hn | ⟨v, hv⟩
  · rw [hn]
    exact le_refl 0
  · rw [hv]
    exact h v (List.getElem?_mem hv)

theorem set_nonneg (l : List α) (h : ∀ v ∈ l, 0 ≤ v) (i : Nat) (x : α) (hx : 0 ≤ x) :
    ∀ v ∈ l.set i x, 0 ≤ v := by
  intro v hv
  rcases List.mem_or_eq_of_mem_set hv with hm | he
  · exact h v hm
  · rw [he]
    exact hx

theorem foldl_preserves {β γ : Type} (P : β → Prop) (f : β → γ → β) (l : List γ)
    (hf : ∀ b c, P b → P (f b c)) (init : β) (h : P init) : P (l.foldl f init) := by
  induction l generalizing init with
  | nil => exact h
  | cons c l ih => exact ih (f init c) (hf init c h)

theorem MAX_cases (a b : α) : (MAX a b = a ∧ b ≤ a) ∨ (MAX a b = b ∧ a ≤ b) := by
  unfold MAX
  by_cases h : a > b
  · rw [if_pos h]
    exact Or.inl ⟨rfl, le_of_lt h⟩
  · rw [if_neg h]
    exact Or.inr ⟨rfl, not_lt.mp h⟩

/-- The running maximum `peak_activation` of a list of values, started at `p`: it bounds
`p` and all values, and it is `p` or one of the values. -/
theorem foldl_MAX_spec (l : List α) (p : α) :
    p ≤ l.foldl MAX p ∧ (∀ v ∈ l, v ≤ l.foldl MAX p) ∧
    (l.foldl MAX p = p ∨ l.foldl MAX p ∈ l) := by
  induction l generalizing p with
  | nil => exact ⟨le_refl p, fun v hv => absurd hv (List.not_mem_nil v), Or.inl rfl⟩
  | cons x l ih =>
    obtain ⟨h1, h2, h3⟩ := ih (MAX p x)
    rw [List.foldl_cons]
    rcases MAX_cases p x with ⟨hm, hle⟩ | ⟨hm, hle⟩
    · rw [hm] at h1 h2 h3 ⊢
      refine ⟨h1, ?_, ?_⟩
      · intro v hv
        rcases List.mem_cons.mp hv with he | hl
        · rw [he]
          exact le_trans hle h1
        · exact h2 v hl
      · rcases h3 with h3 | h3
        · exact Or.inl h3
        · exact Or.inr (List.mem_cons_of_mem x h3)
    · rw [hm] at h1 h2 h3 ⊢
      refine ⟨le_trans hle h1, ?_, ?_⟩
      · intro v hv
        rcases List.mem_cons.mp hv with he | hl
        · rw [he]
          exact h1
        · exact h2 v hl
      · rcases h3 with h3 | h3
        · rw [h3]
          exact Or.inr (List.mem_cons_self x l)
        · exact Or.inr (List.mem_cons_of_mem x h3)

theorem rectified_inputs_nonneg (n : MotorNetwork α) : ∀ v ∈ n.rectified_inputs, 0 ≤ v := by
  intro v hv
  unfold MotorNetwork.rectified_inputs at hv
  obtain ⟨i, _, hi⟩ := List.mem_map.mp hv
  rw [← hi]
  by_cases h : n.neuron_inputs.getD i 0 < 0
  · simp only [h, if_true]
    exact le_refl 0
  · simp only [h, if_false]
    exact not_lt.mp h

/-- The 0/1 strength of the bump. -/
theorem bump_nonneg (L : Libm α) (hexp : ∀ x, 0 ≤ L.exp x) (n : MotorNetwork α) (d s : α)
    (hs : 0 ≤ s) : ∀ v ∈ n.bump L d s, 0 ≤ v := by
  intro v hv
  unfold MotorNetwork.bump at hv
  obtain ⟨i, _, hi⟩ := List.mem_map.mp hv
  rw [← hi]
  exact mul_nonneg hs (hexp _)

theorem bump_zero (L : Libm α) (n : MotorNetwork α) (d : α) : ∀ v ∈ n.bump L d 0, v = 0 := by
  intro v hv
  unfold MotorNetwork.bump at hv
  obtain ⟨i, _, hi⟩ := List.mem_map.mp hv
  rw [← hi]
  exact zero_mul _

end NetworkFacts

end GridPlaceNav

namespace GridPlaceNav

section Normalization

variable {α : Type} [LinearOrderedField α]

theorem commit_current (L : Libm α) (n : MotorNetwork α) : (n.commit L).current = n.next := rfl

theorem commit_strength (L : Libm α) (n : MotorNetwork α) :
    (n.commit L).strength = L.sqrt ((n.vector_sum L n.next).1 ^ 2 + (n.vector_sum L n.next).2 ^ 2) :=
  rfl

theorem commit_direction (L : Libm α) (n : MotorNetwork α) :
    (n.commit L).direction = L.atan2 (n.vector_sum L n.next).2 (n.vector_sum L n.next).1 :=
  rfl

/-- The next activity of a normalizing ring: the bump around the chosen direction, with
strength 1 or 0, rescaled by `normalization_peak / peak_activation`. -/
theorem update_neuron_values_normalize (L : Libm α) (n : MotorNetwork α)
    (hn : n.normalize = true) :
    (n.update_neuron_values L).next =
      (n.bump L (n.chosen_direction L) (if n.chosen_strength L > 0 then 1 else 0)).map
        (fun v => v *
          (if (n.bump L (n.chosen_direction L)
                (if n.chosen_strength L > 0 then 1 else 0)).foldl MAX 0 > 0
           then n.normalization_peak /
             (n.bump L (n.chosen_direction L)
                (if n.chosen_strength L > 0 then 1 else 0)).foldl MAX 0
           else 0)) := by
  unfold MotorNetwork.update_neuron_values MotorNetwork.chosen_direction
    MotorNetwork.chosen_strength
  simp only [hn, if_true]

theorem update_neuron_values_plain (L : Libm α) (n : MotorNetwork α)
    (hn : n.normalize = false) :
    (n.update_neuron_values L).next = n.rectified_inputs := by
  unfold MotorNetwork.update_neuron_values
  simp [hn]

/-- The rescaled values of a normalizing ring, for any non-negative unscaled values. -/
theorem rescale_spec (vs : List α) (peak : α) (hvs : ∀ v ∈ vs, 0 ≤ v) (hpeak : 0 ≤ peak) :
    (∀ v ∈ vs.map (fun v => v * (if vs.foldl MAX 0 > 0 then peak / vs.foldl MAX 0 else 0)),
      0 ≤ v ∧ v ≤ peak) ∧
    ((∀ v ∈ vs.map (fun v => v * (if vs.foldl MAX 0 > 0 then peak / vs.foldl MAX 0 else 0)),
        v = 0) ∨
      peak ∈ vs.map (fun v => v * (if vs.foldl MAX 0 > 0 then peak / vs.foldl MAX 0 else 0))) ∧
    (vs.foldl MAX 0 > 0 →
      peak ∈ vs.map (fun v => v * (if vs.foldl MAX 0 > 0 then peak / vs.foldl MAX 0 else 0))) := by
  obtain ⟨h0, hle, hmem⟩ := foldl_MAX_spec vs 0
  by_cases hp : vs.foldl MAX 0 > 0
  · simp only [hp, if_true]
    have hin : peak ∈ vs.map (fun v => v * (peak / vs.foldl MAX 0)) := by
      rcases hmem with h | h
      · exact absurd h (ne_of_gt hp)
      · refine List.mem_map.mpr ⟨vs.foldl MAX 0, h, ?_⟩
        field_simp
    refine ⟨?_, Or.inr hin, fun _ => hin⟩
    intro v hv
    obtain ⟨w, hw, hwv⟩ := List.mem_map.mp hv
    rw [← hwv]
    refine ⟨mul_nonneg (hvs w hw) (div_nonneg hpeak (le_of_lt hp)), ?_⟩
    rw [mul_div_assoc', div_le_iff₀ hp]
    exact mul_le_mul_of_nonneg_right (hle w hw) hpeak |>.trans_eq (mul_comm _ _)
  · simp only [hp, if_false]
    have hz : ∀ v ∈ vs.map (fun v => v * (0 : α)), v = 0 := by
      intro v hv
      obtain ⟨w, _, hwv⟩ := List.mem_map.mp hv
      rw [← hwv]
      exact mul_zero w
    refine ⟨?_, Or.inl hz, fun h => False.elim h⟩
    intro v hv
    rw [hz v hv]
    exact ⟨le_refl 0, hpeak⟩

end Normalization

end GridPlaceNav

namespace GridPlaceNav

section NormalizationClaims

variable {α : Type} [LinearOrderedField α]

theorem clear_inputs_fields (n : MotorNetwork α) :
    n.clear_inputs.normalize = n.normalize ∧
    n.clear_inputs.normalization_peak = n.normalization_peak ∧
    n.clear_inputs.normalization_spread = n.normalization_spread ∧
    n.clear_inputs.override_active = n.override_active ∧
    n.clear_inputs.override_strength = n.override_strength ∧
    n.clear_inputs.override_direction = n.override_direction ∧
    n.clear_inputs.direction_samples = n.direction_samples :=
  ⟨rfl, rfl, rfl, rfl, rfl, rfl, rfl⟩

theorem bump_length (L : Libm α) (n : MotorNetwork α) (d s : α) :
    (n.bump L d s).length = n.direction_samples := by
  unfold MotorNetwork.bump
  simp

/-- C15. For every override direction and strength (and also without override) and every
normalization spread, after update and commit of a normalizing motor ring every
activity lies in `[0, normalization_peak]`, and either every activity is zero or the
maximum activity over the ring equals `normalization_peak` (which is 1 in the model).
Every activity is zero when the chosen strength, that is the override strength when the
override is active as in the first normalized ring, is not greater than zero; and when
it is greater than zero, the ring is not empty and `exp` is positive, the peak
`normalization_peak` is attained. The arithmetic is exact and `exp` is assumed
non-negative. -/
theorem normalization_invariant (L : Libm α) (hexp : ∀ x, 0 ≤ L.exp x) (n : MotorNetwork α)
    (hn : n.normalize = true) (hpeak : 0 ≤ n.normalization_peak) :
    (∀ v ∈ (n.update_and_commit L).current, 0 ≤ v ∧ v ≤ n.normalization_peak) ∧
    ((∀ v ∈ (n.update_and_commit L).current, v = 0) ∨
      (n.normalization_peak ∈ (n.update_and_commit L).current ∧
        ∀ v ∈ (n.update_and_commit L).current, v ≤ n.normalization_peak)) ∧
    (¬ (n.clear_inputs.chosen_strength L > 0) →
      ∀ v ∈ (n.update_and_commit L).current, v = 0) ∧
    (n.override_active = true → n.clear_inputs.chosen_strength L = n.override_strength) ∧
    ((∀ x, 0 < L.exp x) → n.clear_inputs.chosen_strength L > 0 → 0 < n.direction_samples →
      n.normalization_peak ∈ (n.update_and_commit L).current) ∧
    (∀ inputs : Vector α,
      ∀ v ∈ (({ n with neuron_inputs := inputs } : MotorNetwork α).update_neuron_values L
        |>.commit L).current, 0 ≤ v ∧ v ≤ n.normalization_peak) := by
  have key : ∀ k : MotorNetwork α, k.normalize = true →
      k.normalization_peak = n.normalization_peak →
      (∀ v ∈ ((k.update_neuron_values L).commit L).current, 0 ≤ v ∧ v ≤ n.normalization_peak) ∧
      ((∀ v ∈ ((k.update_neuron_values L).commit L).current, v = 0) ∨
        n.normalization_peak ∈ ((k.update_neuron_values L).commit L).current) ∧
      (¬ (k.chosen_strength L > 0) →
        ∀ v ∈ ((k.update_neuron_values L).commit L).current, v = 0) ∧
      ((∀ x, 0 < L.exp x) → k.chosen_strength L > 0 → 0 < k.direction_samples →
        n.normalization_peak ∈ ((k.update_neuron_values L).commit L).current) := by
    intro k hk hkp
    rw [commit_current, update_neuron_values_normalize L k hk, hkp]
    have hs : (0 : α) ≤ (if k.chosen_strength L > 0 then 1 else 0) := by
      by_cases h : k.chosen_strength L > 0
      · rw [if_pos h]
        exact zero_le_one
      · rw [if_neg h]
    obtain ⟨h1, h2, h3⟩ := rescale_spec _ n.normalization_peak
      (bump_nonneg L hexp k (k.chosen_direction L) _ hs) hpeak
    refine ⟨h1, h2, ?_, ?_⟩
    · intro hns v hv
      rw [if_neg hns] at hv
      obtain ⟨w, hw, hwv⟩ := List.mem_map.mp hv
      rw [← hwv, bump_zero L k _ w hw]
      exact zero_mul _
    · intro hpos hcs hds
      apply h3
      rw [if_pos hcs]
      obtain ⟨_, hle, _⟩ := foldl_MAX_spec (k.bump L (k.chosen_direction L) 1) 0
      have hmem : (k.bump L (k.chosen_direction L) 1).getD 0 0 ∈
          k.bump L (k.chosen_direction L) 1 := by
        have hlen := bump_length L k (k.chosen_direction L) 1
        rw [List.getD_eq_getElem _ _ (by rw [hlen]; exact hds)]
        exact List.getElem_mem _
      have hv0 : 0 < (k.bump L (k.chosen_direction L) 1).getD 0 0 := by
        obtain ⟨i, _, hi⟩ := List.mem_map.mp
          (show (k.bump L (k.chosen_direction L) 1).getD 0 0 ∈ List.map _ _ from hmem)
        rw [← hi]
        exact mul_pos zero_lt_one (hpos _)
      exact lt_of_lt_of_le hv0 (hle _ hmem)
  obtain ⟨hc1, hc2, _, _, _, _, _⟩ := clear_inputs_fields n
  obtain ⟨h1, h2, h3, h4⟩ := key n.clear_inputs (by rw [hc1]; exact hn) hc2
  refine ⟨h1, ?_, h3, ?_, h4, ?_⟩
  · rcases h2 with h | h
    · exact Or.inl h
    · exact Or.inr ⟨h, fun v hv => (h1 v hv).2⟩
  · intro ho
    unfold MotorNetwork.chosen_strength
    show (if n.override_active = true then n.override_strength else _) = _
    rw [if_pos ho]
  · intro inputs
    exact (key { n with neuron_inputs := inputs } hn rfl).1

/-- Witness for C15: the first normalized ring of `main` (72 neurons) with the override
at direction 0 and strength 1, over the reals. -/
theorem normalization_invariant_witness :
    (1 : ℝ) ∈ (MotorNetwork.update_and_commit
      ⟨Real.cos, Real.sin, fun y x => Complex.arg ⟨x, y⟩, Real.exp, Real.sqrt, Real.pi⟩
      { (ring_at_rest 72 true true 1 : MotorNetwork ℝ) with override_strength := 1 }).current :=
  (normalization_invariant
    ⟨Real.cos, Real.sin, fun y x => Complex.arg ⟨x, y⟩, Real.exp, Real.sqrt, Real.pi⟩
    (fun x => le_of_lt (Real.exp_pos x))
    { (ring_at_rest 72 true true 1 : MotorNetwork ℝ) with override_strength := 1 }
    rfl zero_le_one).2.2.2.2.1
    Real.exp_pos (by
      show (if true = true then (1 : ℝ) else _) > 0
      rw [if_pos rfl]
      exact zero_lt_one) (by decide)

end NormalizationClaims

end GridPlaceNav

namespace GridPlaceNav

section NonNegativity

variable {α : Type} [LinearOrderedField α]

theorem clear_nonneg (v : Vector α) : ∀ x ∈ Vector.clear v, 0 ≤ x := by
  intro x hx
  unfold Vector.clear at hx
  obtain ⟨_, _, h⟩ := List.mem_map.mp hx
  rw [← h]

theorem mec_update_nonneg (neurons_enabled : List Bool) (n : Network α)
    (h : ∀ v ∈ n.current, 0 ≤ v) :
    ∀ v ∈ (MecNetwork.update_neuron_values neurons_enabled n).commit.current, 0 ≤ v := by
  intro v hv
  have hv' : v ∈ (MecNetwork.update_neuron_values neurons_enabled n).next := hv
  unfold MecNetwork.update_neuron_values at hv'
  obtain ⟨i, _, hi⟩ := List.mem_map.mp hv'
  rw [← hi]
  have hc := getD_nonneg n.current h i
  by_cases he : neurons_enabled.getD i false = true
  · simp only [he, if_true]
    by_cases hin : 1 + n.neuron_inputs.getD i 0 < 0
    · simp only [hin, if_true]
      linarith
    · simp only [hin, if_false]
      have := not_lt.mp hin
      linarith
  · simp only [he]
    exact hc

theorem convolve_inputs_nonneg (efferent afferent : Network α)
    (he : ∀ v ∈ efferent.neuron_inputs, 0 ≤ v) (ha : ∀ v ∈ afferent.current, 0 ≤ v) :
    ∀ v ∈ (MecConvolveInput.add_inputs efferent afferent).neuron_inputs, 0 ≤ v := by
  unfold MecConvolveInput.add_inputs
  dsimp only
  apply foldl_preserves (fun (inputs : Vector α) => ∀ v ∈ inputs, 0 ≤ v) _ _ _ _ he
  intro inputs y hinp
  apply foldl_preserves (fun (inputs : Vector α) => ∀ v ∈ inputs, 0 ≤ v) _ _ _ _ hinp
  intro inputs x hinp
  apply foldl_preserves (fun (inputs : Vector α) => ∀ v ∈ inputs, 0 ≤ v) _ _ _ _ hinp
  intro inputs dy hinp
  apply foldl_preserves (fun (inputs : Vector α) => ∀ v ∈ inputs, 0 ≤ v) _ _ _ _ hinp
  intro inputs dx hinp
  apply set_nonneg _ hinp
  have h1 := getD_nonneg inputs hinp
    (coords_to_neuron_index ((x + dx) % MEC_SIZE) ((y + dy) % MEC_SIZE))
  have h2 := getD_nonneg afferent.current ha (coords_to_neuron_index x y)
  have h3 : (0 : α) ≤ 1 / 4 * afferent.current.getD (coords_to_neuron_index x y) 0 :=
    mul_nonneg (by norm_num) h2
  exact add_nonneg h1 h3

theorem convolved_update_nonneg (n afferent : Network α)
    (ha : ∀ v ∈ afferent.current, 0 ≤ v) :
    ∀ v ∈ (ConvolvedMecNetwork.update n afferent).commit.current, 0 ≤ v := by
  intro v hv
  have hv' : v ∈ (ConvolvedMecNetwork.update n afferent).next := hv
  unfold ConvolvedMecNetwork.update ConvolvedMecNetwork.update_neuron_values at hv'
  obtain ⟨i, _, hi⟩ := List.mem_map.mp hv'
  rw [← hi]
  exact getD_nonneg _ (convolve_inputs_nonneg _ afferent (clear_nonneg n.neuron_inputs) ha) i

theorem mecdiff_update_nonneg (simplified : Bool) (n : Network α) :
    ∀ v ∈ (MecDiffNetwork.update_neuron_values simplified n).commit.current, 0 ≤ v := by
  intro v hv
  have hv' : v ∈ (MecDiffNetwork.update_neuron_values simplified n).next := hv
  unfold MecDiffNetwork.update_neuron_values at hv'
  obtain ⟨i, _, hi⟩ := List.mem_map.mp hv'
  rw [← hi]
  dsimp only
  generalize (if simplified = true then n.neuron_inputs.getD i 0 - 3 / 5
    else n.neuron_inputs.getD i 0) = input
  by_cases h : input < 0
  · rw [if_pos h]
  · rw [if_neg h]
    exact not_lt.mp h

theorem motor_update_nonneg (L : Libm α) (hexp : ∀ x, 0 ≤ L.exp x) (n : MotorNetwork α)
    (hpeak : 0 ≤ n.normalization_peak) :
    ∀ v ∈ ((n.update_neuron_values L).commit L).current, 0 ≤ v := by
  rw [commit_current]
  by_cases hn : n.normalize = true
  · rw [update_neuron_values_normalize L n hn]
    have hs : (0 : α) ≤ (if n.chosen_strength L > 0 then 1 else 0) := by
      by_cases h : n.chosen_strength L > 0
      · rw [if_pos h]
        exact zero_le_one
      · rw [if_neg h]
    intro v hv
    exact ((rescale_spec _ n.normalization_peak
      (bump_nonneg L hexp n (n.chosen_direction L) _ hs) hpeak).1 v hv).1
  · rw [update_neuron_values_plain L n (by simpa using hn)]
    exact rectified_inputs_nonneg n

/-- C16. Non-negativity is preserved by the update-and-commit of every network, for
every input vector. A grid module sheet with non-negative current activities has
non-negative activities after its update (whatever its recurrent and velocity input and
whichever neurons are enabled), and so has its convolved readout after the update that
follows; a grid-difference layer and a motor ring (normalizing or not) have non-negative
activities after their update for every input vector, also when the border inhibition
exceeds the motor activity. The arithmetic is exact, `exp` is assumed non-negative and
`normalization_peak` (1 in the model) non-negative. -/
theorem nonnegativity_preserved (L : Libm α) (hexp : ∀ x, 0 ≤ L.exp x) :
    (∀ (neurons_enabled : List Bool) (mec convolved : Network α) (inputs : Vector α),
      (∀ v ∈ mec.current, 0 ≤ v) →
      (∀ v ∈ (MecNetwork.update_neuron_values neurons_enabled
          { mec with neuron_inputs := inputs }).commit.current, 0 ≤ v) ∧
      (∀ v ∈ (ConvolvedMecNetwork.update convolved
          (MecNetwork.update_neuron_values neurons_enabled
            { mec with neuron_inputs := inputs }).commit).commit.current, 0 ≤ v)) ∧
    (∀ (simplified : Bool) (diff : Network α) (inputs : Vector α),
      ∀ v ∈ (MecDiffNetwork.update_neuron_values simplified
          { diff with neuron_inputs := inputs }).commit.current, 0 ≤ v) ∧
    (∀ (n : MotorNetwork α) (inputs : Vector α), 0 ≤ n.normalization_peak →
      ∀ v ∈ (({ n with neuron_inputs := inputs } : MotorNetwork α).update_neuron_values L
        |>.commit L).current, 0 ≤ v) ∧
    (∀ (n afferent : MotorNetwork α) (border_active : Bool) (border_sensors : Vector α),
      0 ≤ n.normalization_peak →
      ∀ v ∈ (n.update_and_commit_inhibited L afferent border_active border_sensors).current,
        0 ≤ v) := by
  refine ⟨?_, ?_, ?_, ?_⟩
  · intro neurons_enabled mec convolved inputs hmec
    have h1 := mec_update_nonneg neurons_enabled { mec with neuron_inputs := inputs } hmec
    exact ⟨h1, convolved_update_nonneg convolved _ h1⟩
  · intro simplified diff inputs
    exact mecdiff_update_nonneg simplified _
  · intro n inputs hpeak
    exact motor_update_nonneg L hexp _ hpeak
  · intro n afferent border_active border_sensors hpeak
    unfold MotorNetwork.update_and_commit_inhibited
    apply motor_update_nonneg L hexp
    unfold MotorNetwork.inhibited_inputs
    split
    · exact hpeak
    · exact hpeak

/-- Witness for C16: over the reals, an inhibited ring of 72 neurons at rest whose
border sensors all read 2, so that every input is negative. -/
theorem nonnegativity_preserved_witness :
    (∀ x : ℝ, 0 ≤ Real.exp x) ∧
    ∀ v ∈ (MotorNetwork.update_and_commit_inhibited
      ⟨Real.cos, Real.sin, fun y x => Complex.arg ⟨x, y⟩, Real.exp, Real.sqrt, Real.pi⟩
      (ring_at_rest 72 false false 1 : MotorNetwork ℝ) (ring_at_rest 72 true true 1) true
      (Vector.mk 72 2)).current, 0 ≤ v :=
  ⟨fun x => le_of_lt (Real.exp_pos x),
    (nonnegativity_preserved
      ⟨Real.cos, Real.sin, fun y x => Complex.arg ⟨x, y⟩, Real.exp, Real.sqrt, Real.pi⟩
      (fun x => le_of_lt (Real.exp_pos x))).2.2.2
      (ring_at_rest 72 false false 1) (ring_at_rest 72 true true 1) true (Vector.mk 72 2)
      zero_le_one⟩

end NonNegativity

end GridPlaceNav

namespace GridPlaceNav

section RingLists

variable {α : Type} [LinearOrderedField α]

theorem range_map_getD (f : Nat → α) (N i : Nat) (h : i < N) :
    ((List.range N).map f).getD i 0 = f i := by
  rw [List.getD_eq_getElem _ _ (by simpa using h)]
  simp

theorem clear_getD (v : Vector α) (i : Nat) : (Vector.clear v).getD i 0 = 0 := by
  unfold Vector.clear
  rw [List.getD_eq_getElem?_getD, List.getElem?_map]
  rcases Option.eq_none_or_eq_some v[i]? with h | ⟨x, h⟩
  · rw [h]
    rfl
  · rw [h]
    rfl

theorem clear_length (v : Vector α) : (Vector.clear v).length = v.length := by
  unfold Vector.clear
  simp

/-- The loops of the `add_inputs` methods: an in-place update of the first `M` entries. -/
theorem foldl_set_spec (f : Nat → α → α) (M : Nat) (inp : List α) (hM : M ≤ inp.length) :
    ((List.range M).foldl (fun l d => l.set d (f d (l.getD d 0))) inp).length = inp.length ∧
    ∀ i, ((List.range M).foldl (fun l d => l.set d (f d (l.getD d 0))) inp).getD i 0 =
      if i < M then f i (inp.getD i 0) else inp.getD i 0 := by
  induction M with
  | zero =>
    refine ⟨rfl, fun i => ?_⟩
    simp
  | succ M ih =>
    obtain ⟨hlen, hget⟩ := ih (Nat.le_of_succ_le hM)
    rw [List.range_succ, List.foldl_append]
    simp only [List.foldl_cons, List.foldl_nil]
    refine ⟨by rw [List.length_set, hlen], fun i => ?_⟩
    rw [List.getD_eq_getElem?_getD, List.getElem?_set]
    by_cases hi : M = i
    · subst hi
      rw [if_pos rfl, if_pos (by rw [hlen]; exact hM), if_pos (Nat.lt_succ_self M)]
      rw [hget M, if_neg (Nat.lt_irrefl M)]
      rfl
    · rw [if_neg hi, ← List.getD_eq_getElem?_getD, hget i]
      by_cases hlt : i < M
      · rw [if_pos hlt, if_pos (Nat.lt_succ_of_lt hlt)]
      · rw [if_neg hlt, if_neg (by omega)]

/-- The vector sum of a ring as two finite sums. -/
theorem vector_sum_eq (L : Libm α) (n : MotorNetwork α) (v : Vector α) :
    n.vector_sum L v =
      (∑ i in Finset.range n.direction_samples, v.getD i 0 * L.cos (n.angle L i),
       ∑ i in Finset.range n.direction_samples, v.getD i 0 * L.sin (n.angle L i)) := by
  unfold MotorNetwork.vector_sum
  generalize n.direction_samples = N
  induction N with
  | zero => simp
  | succ N ih =>
    rw [List.range_succ, List.foldl_append, ih]
    simp only [List.foldl_cons, List.foldl_nil, Finset.sum_range_succ]

theorem angle_congr (L : Libm α) (a b : MotorNetwork α)
    (h : a.direction_samples = b.direction_samples) (i : Nat) : a.angle L i = b.angle L i := by
  unfold MotorNetwork.angle
  rw [h]

theorem vector_sum_congr (L : Libm α) (a b : MotorNetwork α)
    (h : a.direction_samples = b.direction_samples) (v : Vector α) :
    a.vector_sum L v = b.vector_sum L v := by
  rw [vector_sum_eq, vector_sum_eq, h]
  simp only [angle_congr L a b h]

/-- The inputs of an inhibited ring with active border input. -/
theorem inhibited_inputs_getD (n afferent : MotorNetwork α) (border_sensors : Vector α)
    (hlen : n.neuron_inputs.length = n.direction_samples) (i : Nat)
    (hi : i < n.direction_samples) :
    (n.inhibited_inputs afferent true border_sensors).neuron_inputs.getD i 0 =
      0 + afferent.current.getD i 0 * afferent.scaling_factor - border_sensors.getD i 0 := by
  unfold MotorNetwork.inhibited_inputs BorderMotorInput.add_inputs MotorMotorInput.add_inputs
    MotorNetwork.clear_inputs
  simp only [if_true]
  have h1 := foldl_set_spec
    (fun d x => x + afferent.current.getD d 0 * afferent.scaling_factor)
    n.direction_samples (Vector.clear n.neuron_inputs) (by rw [clear_length, hlen])
  have h2 := foldl_set_spec (fun d x => x - border_sensors.getD d 0) n.direction_samples
    ((List.range n.direction_samples).foldl
      (fun l d => l.set d (l.getD d 0 + afferent.current.getD d 0 * afferent.scaling_factor))
      (Vector.clear n.neuron_inputs)) (by rw [h1.1, clear_length, hlen])
  rw [h2.2 i, if_pos hi, h1.2 i, if_pos hi, clear_getD]

/-- The inputs of a ring whose only input comes from another ring. -/
theorem motor_inputs_getD (n afferent : MotorNetwork α)
    (hlen : n.neuron_inputs.length = n.direction_samples) (i : Nat)
    (hi : i < n.direction_samples) :
    (MotorMotorInput.add_inputs n.clear_inputs afferent).neuron_inputs.getD i 0 =
      0 + afferent.current.getD i 0 * afferent.scaling_factor := by
  unfold MotorMotorInput.add_inputs MotorNetwork.clear_inputs
  have h1 := foldl_set_spec
    (fun d x => x + afferent.current.getD d 0 * afferent.scaling_factor)
    n.direction_samples (Vector.clear n.neuron_inputs) (by rw [clear_length, hlen])
  simp only
  rw [h1.2 i, if_pos hi, clear_getD]

end RingLists

end GridPlaceNav

namespace GridPlaceNav

section RingMath

/-- The argument of the unit vector at angle `t`, for `t` in `(-π, π]`. -/
theorem arg_unit (t : ℝ) (h1 : -Real.pi < t) (h2 : t ≤ Real.pi) :
    Complex.arg ⟨Real.cos t, Real.sin t⟩ = t := by
  have h := Complex.arg_cos_add_sin_mul_I (θ := t) ⟨h1, h2⟩
  have e : (⟨Real.cos t, Real.sin t⟩ : ℂ) = Complex.cos t + Complex.sin t * Complex.I := by
    apply Complex.ext
    · simp [Complex.cos_ofReal_re]
    · simp [Complex.sin_ofReal_re]
  rw [e]
  exact h

theorem arg_unit_shift (t : ℝ) (h1 : Real.pi < t) (h2 : t ≤ 3 * Real.pi) :
    Complex.arg ⟨Real.cos t, Real.sin t⟩ = t - 2 * Real.pi := by
  have h := arg_unit (t - 2 * Real.pi) (by linarith) (by linarith)
  rw [Real.cos_sub_two_pi, Real.sin_sub_two_pi] at h
  exact h

/-- A sum over a ring of `k + k` directions whose antipodal pairs are non-negative and
whose first pair is positive is positive. -/
theorem sum_antipodal_pos (k : ℕ) (hk : 0 < k) (f : ℕ → ℝ)
    (hpair : ∀ i, i < k → 0 ≤ f i + f (k + i)) (h0 : 0 < f 0 + f (k + 0)) :
    0 < ∑ i in Finset.range (k + k), f i := by
  rw [Finset.sum_range_add, ← Finset.sum_add_distrib]
  apply Finset.sum_pos'
  · intro i hi
    exact hpair i (Finset.mem_range.mp hi)
  · exact ⟨0, Finset.mem_range.mpr hk, h0⟩

/-- A sum over a ring of `N` directions of a function that is odd under the reflection
`i ↦ N - i` vanishes. -/
theorem sum_reflection_zero (N : ℕ) (f : ℕ → ℝ) (h0 : f 0 = 0)
    (hodd : ∀ i, 0 < i → i < N → f (N - i) = - f i) :
    ∑ i in Finset.range N, f i = 0 := by
  cases N with
  | zero => simp
  | succ M =>
    rw [Finset.sum_range_succ', h0, add_zero]
    have h := Finset.sum_range_reflect (fun j => f (j + 1)) M
    have h2 : ∑ j in Finset.range M, f (M - 1 - j + 1)
        = - ∑ j in Finset.range M, f (j + 1) := by
      rw [← Finset.sum_neg_distrib]
      apply Finset.sum_congr rfl
      intro j hj
      have hj' := Finset.mem_range.mp hj
      have e : M - 1 - j + 1 = M + 1 - (j + 1) := by omega
      rw [e]
      exact hodd (j + 1) (by omega) (by omega)
    rw [h2] at h
    linarith

theorem angle_eq (L : Libm ℝ) (hL : IsReal L) (n : MotorNetwork ℝ) (k : ℕ) (hk : 0 < k)
    (hN : n.direction_samples = k + k) (i : ℕ) : n.angle L i = (i : ℝ) * Real.pi / (k : ℝ) := by
  unfold MotorNetwork.angle
  rw [hL.2.2.2.2.2, hN]
  have hk' : (k : ℝ) ≠ 0 := Nat.cast_ne_zero.mpr (Nat.pos_iff_ne_zero.mp hk)
  push_cast
  field_simp
  ring

theorem angle_zero (L : Libm ℝ) (hL : IsReal L) (n : MotorNetwork ℝ) (k : ℕ) (hk : 0 < k)
    (hN : n.direction_samples = k + k) : n.angle L 0 = 0 := by
  rw [angle_eq L hL n k hk hN]
  simp

theorem angle_half (L : Libm ℝ) (hL : IsReal L) (n : MotorNetwork ℝ) (k : ℕ) (hk : 0 < k)
    (hN : n.direction_samples = k + k) : n.angle L k = Real.pi := by
  rw [angle_eq L hL n k hk hN]
  have hk' : (k : ℝ) ≠ 0 := Nat.cast_ne_zero.mpr (Nat.pos_iff_ne_zero.mp hk)
  field_simp

theorem angle_antipodal (L : Libm ℝ) (hL : IsReal L) (n : MotorNetwork ℝ) (k : ℕ) (hk : 0 < k)
    (hN : n.direction_samples = k + k) (i : ℕ) : n.angle L (k + i) = n.angle L i + Real.pi := by
  rw [angle_eq L hL n k hk hN, angle_eq L hL n k hk hN]
  have hk' : (k : ℝ) ≠ 0 := Nat.cast_ne_zero.mpr (Nat.pos_iff_ne_zero.mp hk)
  push_cast
  field_simp
  ring

theorem angle_reflect (L : Libm ℝ) (hL : IsReal L) (n : MotorNetwork ℝ) (k : ℕ) (hk : 0 < k)
    (hN : n.direction_samples = k + k) (i : ℕ) (hi : i ≤ k + k) :
    n.angle L (k + k - i) = 2 * Real.pi - n.angle L i := by
  rw [angle_eq L hL n k hk hN, angle_eq L hL n k hk hN]
  have hk' : (k : ℝ) ≠ 0 := Nat.cast_ne_zero.mpr (Nat.pos_iff_ne_zero.mp hk)
  rw [Nat.cast_sub hi]
  push_cast
  field_simp
  ring

theorem angle_nonneg (L : Libm ℝ) (hL : IsReal L) (n : MotorNetwork ℝ) (k : ℕ) (hk : 0 < k)
    (hN : n.direction_samples = k + k) (i : ℕ) : 0 ≤ n.angle L i := by
  rw [angle_eq L hL n k hk hN]
  have hk' : (0 : ℝ) < k := Nat.cast_pos.mpr hk
  positivity

theorem angle_lt (L : Libm ℝ) (hL : IsReal L) (n : MotorNetwork ℝ) (k : ℕ) (hk : 0 < k)
    (hN : n.direction_samples = k + k) (i j : ℕ) (h : i < j) : n.angle L i < n.angle L j := by
  rw [angle_eq L hL n k hk hN, angle_eq L hL n k hk hN]
  have hk' : (0 : ℝ) < k := Nat.cast_pos.mpr hk
  have hij : (i : ℝ) < j := Nat.cast_lt.mpr h
  have hpi := Real.pi_pos
  apply div_lt_div_of_pos_right _ hk'
  exact mul_lt_mul_of_pos_right hij hpi

theorem angle_le (L : Libm ℝ) (hL : IsReal L) (n : MotorNetwork ℝ) (k : ℕ) (hk : 0 < k)
    (hN : n.direction_samples = k + k) (i j : ℕ) (h : i ≤ j) : n.angle L i ≤ n.angle L j := by
  rcases Nat.eq_or_lt_of_le h with e | hlt
  · rw [e]
  · exact le_of_lt (angle_lt L hL n k hk hN i j hlt)

end RingMath

end GridPlaceNav

namespace GridPlaceNav

section UnitBump

theorem unit_bump_eq (L : Libm ℝ) (hL : IsReal L) (n : MotorNetwork ℝ) (i : ℕ)
    (hi : i < n.direction_samples) :
    n.unit_bump L i = Real.exp
      (-(Complex.arg ⟨Real.cos (n.angle L i), Real.sin (n.angle L i)⟩) ^ 2
        / (2 * n.normalization_spread ^ 2)) := by
  unfold MotorNetwork.unit_bump MotorNetwork.bump
  rw [range_map_getD _ _ _ hi]
  obtain ⟨hcos, hsin, hatan, hexp, _, _⟩ := hL
  simp only [hcos, hsin, hatan, hexp, sub_zero, one_mul]

theorem unit_bump_pos (L : Libm ℝ) (hL : IsReal L) (n : MotorNetwork ℝ) (i : ℕ)
    (hi : i < n.direction_samples) : 0 < n.unit_bump L i := by
  rw [unit_bump_eq L hL n i hi]
  exact Real.exp_pos _

theorem unit_bump_le_one (L : Libm ℝ) (hL : IsReal L) (n : MotorNetwork ℝ) (i : ℕ)
    (hi : i < n.direction_samples) : n.unit_bump L i ≤ 1 := by
  rw [unit_bump_eq L hL n i hi, Real.exp_le_one_iff]
  apply div_nonpos_of_nonpos_of_nonneg
  · exact neg_nonpos.mpr (sq_nonneg _)
  · positivity

/-- The bump in the upper half of the ring. -/
theorem unit_bump_upper (L : Libm ℝ) (hL : IsReal L) (n : MotorNetwork ℝ) (k : ℕ)
    (hk : 0 < k) (hN : n.direction_samples = k + k) (i : ℕ) (hi : i ≤ k) :
    n.unit_bump L i = Real.exp (-(n.angle L i) ^ 2 / (2 * n.normalization_spread ^ 2)) := by
  rw [unit_bump_eq L hL n i (by omega)]
  have h0 := angle_nonneg L hL n k hk hN i
  have h1 := angle_le L hL n k hk hN i k hi
  rw [angle_half L hL n k hk hN] at h1
  rw [arg_unit _ (by linarith [Real.pi_pos]) h1]

/-- The bump in the lower half of the ring. -/
theorem unit_bump_lower (L : Libm ℝ) (hL : IsReal L) (n : MotorNetwork ℝ) (k : ℕ)
    (hk : 0 < k) (hN : n.direction_samples = k + k) (i : ℕ) (h1 : k < i) (h2 : i < k + k) :
    n.unit_bump L i =
      Real.exp (-(n.angle L i - 2 * Real.pi) ^ 2 / (2 * n.normalization_spread ^ 2)) := by
  rw [unit_bump_eq L hL n i (by omega)]
  have ha := angle_lt L hL n k hk hN k i h1
  rw [angle_half L hL n k hk hN] at ha
  have hb := angle_lt L hL n k hk hN i (k + k) h2
  have hc := angle_antipodal L hL n k hk hN k
  rw [angle_half L hL n k hk hN] at hc
  rw [arg_unit_shift _ ha (by linarith [Real.pi_pos])]

theorem unit_bump_zero (L : Libm ℝ) (hL : IsReal L) (n : MotorNetwork ℝ) (k : ℕ)
    (hk : 0 < k) (hN : n.direction_samples = k + k) : n.unit_bump L 0 = 1 := by
  rw [unit_bump_upper L hL n k hk hN 0 (Nat.zero_le k), angle_zero L hL n k hk hN]
  simp

/-- The bump at the antipode of a direction of the upper half. -/
theorem unit_bump_antipodal (L : Libm ℝ) (hL : IsReal L) (n : MotorNetwork ℝ) (k : ℕ)
    (hk : 0 < k) (hN : n.direction_samples = k + k) (i : ℕ) (hi : i < k) :
    n.unit_bump L (k + i) =
      Real.exp (-(n.angle L i - Real.pi) ^ 2 / (2 * n.normalization_spread ^ 2)) := by
  rcases Nat.eq_zero_or_pos i with h0 | hpos
  · subst h0
    rw [Nat.add_zero, unit_bump_upper L hL n k hk hN k (le_refl k),
      angle_half L hL n k hk hN, angle_zero L hL n k hk hN]
    congr 2
    ring
  · rw [unit_bump_lower L hL n k hk hN (k + i) (by omega) (by omega),
      angle_antipodal L hL n k hk hN i]
    congr 2
    ring

theorem unit_bump_half_lt_one (L : Libm ℝ) (hL : IsReal L) (n : MotorNetwork ℝ) (k : ℕ)
    (hk : 0 < k) (hN : n.direction_samples = k + k) (hs : 0 < n.normalization_spread) :
    n.unit_bump L k < 1 := by
  rw [unit_bump_upper L hL n k hk hN k (le_refl k), angle_half L hL n k hk hN,
    Real.exp_lt_one_iff]
  apply div_neg_of_neg_of_pos
  · exact neg_neg_of_pos (pow_pos Real.pi_pos 2)
  · positivity

/-- The bump is symmetric under the reflection `i ↦ N - i`. -/
theorem unit_bump_reflect (L : Libm ℝ) (hL : IsReal L) (n : MotorNetwork ℝ) (k : ℕ)
    (hk : 0 < k) (hN : n.direction_samples = k + k) (i : ℕ) (h1 : 0 < i) (h2 : i < k + k) :
    n.unit_bump L (k + k - i) = n.unit_bump L i := by
  have hr := angle_reflect L hL n k hk hN i (le_of_lt h2)
  rcases Nat.lt_trichotomy i k with hlt | heq | hgt
  · rw [unit_bump_lower L hL n k hk hN (k + k - i) (by omega) (by omega),
      unit_bump_upper L hL n k hk hN i (le_of_lt hlt), hr]
    congr 2
    ring
  · subst heq
    rw [Nat.add_sub_cancel]
  · rw [unit_bump_upper L hL n k hk hN (k + k - i) (by omega),
      unit_bump_lower L hL n k hk hN i hgt h2, hr]
    congr 2
    ring

/-- The vertical component of the vector sum of the bump vanishes. -/
theorem unit_bump_sum_sin (L : Libm ℝ) (hL : IsReal L) (n : MotorNetwork ℝ) (k : ℕ)
    (hk : 0 < k) (hN : n.direction_samples = k + k) :
    ∑ i in Finset.range (k + k), n.unit_bump L i * Real.sin (n.angle L i) = 0 := by
  apply sum_reflection_zero
  · rw [angle_zero L hL n k hk hN]
    simp
  · intro i h1 h2
    rw [unit_bump_reflect L hL n k hk hN i h1 h2,
      angle_reflect L hL n k hk hN i (le_of_lt h2), Real.sin_two_pi_sub]
    ring

/-- The horizontal component of the vector sum of the bump is positive. -/
theorem unit_bump_sum_cos (L : Libm ℝ) (hL : IsReal L) (n : MotorNetwork ℝ) (k : ℕ)
    (hk : 0 < k) (hN : n.direction_samples = k + k) (hs : 0 < n.normalization_spread) :
    0 < ∑ i in Finset.range (k + k), n.unit_bump L i * Real.cos (n.angle L i) := by
  have hden : 0 < 2 * n.normalization_spread ^ 2 := by positivity
  apply sum_antipodal_pos k hk
  · intro i hi
    rw [unit_bump_antipodal L hL n k hk hN i hi,
      unit_bump_upper L hL n k hk hN i (le_of_lt hi),
      angle_antipodal L hL n k hk hN i, Real.cos_add_pi]
    have h0 := angle_nonneg L hL n k hk hN i
    have h1 := angle_lt L hL n k hk hN i k hi
    rw [angle_half L hL n k hk hN] at h1
    generalize n.angle L i = t at h0 h1
    have hpi := Real.pi_pos
    rcases le_total t (Real.pi / 2) with hle | hge
    · have hc : 0 ≤ Real.cos t := Real.cos_nonneg_of_mem_Icc ⟨by linarith, hle⟩
      have he : Real.exp (-(t - Real.pi) ^ 2 / (2 * n.normalization_spread ^ 2))
          ≤ Real.exp (-t ^ 2 / (2 * n.normalization_spread ^ 2)) := by
        apply Real.exp_le_exp.mpr
        apply div_le_div_of_nonneg_right _ (le_of_lt hden)
        nlinarith
      nlinarith
    · have hc : Real.cos t ≤ 0 :=
        Real.cos_nonpos_of_pi_div_two_le_of_le hge (by linarith)
      have he : Real.exp (-t ^ 2 / (2 * n.normalization_spread ^ 2))
          ≤ Real.exp (-(t - Real.pi) ^ 2 / (2 * n.normalization_spread ^ 2)) := by
        apply Real.exp_le_exp.mpr
        apply div_le_div_of_nonneg_right _ (le_of_lt hden)
        nlinarith
      nlinarith
  · have hk1 := unit_bump_half_lt_one L hL n k hk hN hs
    rw [Nat.add_zero, unit_bump_zero L hL n k hk hN, angle_zero L hL n k hk hN,
      angle_half L hL n k hk hN, Real.cos_zero, Real.cos_pi]
    linarith

end UnitBump

end GridPlaceNav

namespace GridPlaceNav

section Stages

theorem half_double (k : ℕ) : (k + k) / 2 = k := by omega

theorem bump_eq_map (L : Libm ℝ) (n : MotorNetwork ℝ) :
    n.bump L 0 1 = (List.range n.direction_samples).map (fun i => n.unit_bump L i) := by
  apply List.ext_getElem
  · rw [bump_length]
    simp
  · intro i h1 h2
    have e : (n.bump L 0 1)[i] = n.unit_bump L i := by
      unfold MotorNetwork.unit_bump
      rw [List.getD_eq_getElem _ _ h1]
    rw [e]
    simp

theorem unit_bump_sum_pos (L : Libm ℝ) (hL : IsReal L) (n : MotorNetwork ℝ) (k : ℕ)
    (hk : 0 < k) (hN : n.direction_samples = k + k) (hs : 0 < n.normalization_spread) :
    0 < n.unit_bump_sum L := by
  unfold MotorNetwork.unit_bump_sum
  rw [hL.1, hN]
  exact unit_bump_sum_cos L hL n k hk hN hs

/-- Direction and strength of the unit bump, read by any ring of the same size. -/
theorem calc_bump (L : Libm ℝ) (hL : IsReal L) (r n : MotorNetwork ℝ) (k : ℕ) (hk : 0 < k)
    (hr : r.direction_samples = k + k) (hN : n.direction_samples = k + k)
    (hs : 0 < n.normalization_spread) :
    r.calculate_direction_and_strength L (n.bump L 0 1) = (0, n.unit_bump_sum L) := by
  have hpos := unit_bump_sum_pos L hL n k hk hN hs
  unfold MotorNetwork.calculate_direction_and_strength
  rw [vector_sum_congr L r n (by rw [hr, hN]), vector_sum_eq]
  have hx : ∑ i in Finset.range n.direction_samples,
      (n.bump L 0 1).getD i 0 * L.cos (n.angle L i) = n.unit_bump_sum L := rfl
  have hy : ∑ i in Finset.range n.direction_samples,
      (n.bump L 0 1).getD i 0 * L.sin (n.angle L i) = 0 := by
    rw [hL.2.1, hN]
    exact unit_bump_sum_sin L hL n k hk hN
  rw [hx, hy]
  obtain ⟨_, _, hatan, _, hsqrt, _⟩ := hL
  simp only [hatan, hsqrt]
  congr 1
  · exact Complex.arg_ofReal_of_nonneg (le_of_lt hpos)
  · rw [zero_pow (by norm_num), add_zero]
    exact Real.sqrt_sq (le_of_lt hpos)

theorem inhibited_bump_getD (L : Libm ℝ) (n : MotorNetwork ℝ) (k : ℕ)
    (hN : n.direction_samples = k + k) (i : ℕ) (hi : i < k + k) :
    (n.inhibited_bump L).getD i 0 = if i = k then 0 else n.unit_bump L i := by
  unfold MotorNetwork.inhibited_bump
  rw [range_map_getD _ _ _ (by rw [hN]; exact hi), hN, half_double]

/-- Direction and strength of the inhibited bump, read by any ring of the same size:
silencing the neuron opposite to the peak makes the vector sum longer. -/
theorem calc_inhibited_bump (L : Libm ℝ) (hL : IsReal L) (r n : MotorNetwork ℝ) (k : ℕ)
    (hk : 0 < k) (hr : r.direction_samples = k + k) (hN : n.direction_samples = k + k)
    (hs : 0 < n.normalization_spread) :
    r.calculate_direction_and_strength L (n.inhibited_bump L)
      = (0, n.unit_bump_sum L + n.unit_bump L k) := by
  have hpos := unit_bump_sum_pos L hL n k hk hN hs
  have hkpos := unit_bump_pos L hL n k (by omega)
  have hkN : k ∈ Finset.range (k + k) := Finset.mem_range.mpr (by omega)
  unfold MotorNetwork.calculate_direction_and_strength
  rw [vector_sum_congr L r n (by rw [hr, hN]), vector_sum_eq]
  have hx : ∑ i in Finset.range n.direction_samples,
      (n.inhibited_bump L).getD i 0 * L.cos (n.angle L i)
      = n.unit_bump_sum L + n.unit_bump L k := by
    unfold MotorNetwork.unit_bump_sum
    rw [hN, hL.1]
    have e : ∀ i ∈ Finset.range (k + k),
        (n.inhibited_bump L).getD i 0 * Real.cos (n.angle L i)
        = n.unit_bump L i * Real.cos (n.angle L i)
          - (if i = k then n.unit_bump L k * Real.cos (n.angle L k) else 0) := by
      intro i hi
      rw [inhibited_bump_getD L n k hN i (Finset.mem_range.mp hi)]
      by_cases hik : i = k
      · rw [if_pos hik, if_pos hik, hik]
        ring
      · rw [if_neg hik, if_neg hik]
        ring
    rw [Finset.sum_congr rfl e, Finset.sum_sub_distrib, Finset.sum_ite_eq' _ k, if_pos hkN,
      angle_half L hL n k hk hN, Real.cos_pi]
    ring
  have hy : ∑ i in Finset.range n.direction_samples,
      (n.inhibited_bump L).getD i 0 * L.sin (n.angle L i) = 0 := by
    rw [hN, hL.2.1]
    have e : ∀ i ∈ Finset.range (k + k),
        (n.inhibited_bump L).getD i 0 * Real.sin (n.angle L i)
        = n.unit_bump L i * Real.sin (n.angle L i)
          - (if i = k then n.unit_bump L k * Real.sin (n.angle L k) else 0) := by
      intro i hi
      rw [inhibited_bump_getD L n k hN i (Finset.mem_range.mp hi)]
      by_cases hik : i = k
      · rw [if_pos hik, if_pos hik, hik]
        ring
      · rw [if_neg hik, if_neg hik]
        ring
    rw [Finset.sum_congr rfl e, Finset.sum_sub_distrib, Finset.sum_ite_eq' _ k, if_pos hkN,
      angle_half L hL n k hk hN, Real.sin_pi, unit_bump_sum_sin L hL n k hk hN]
    ring
  rw [hx, hy]
  obtain ⟨_, _, hatan, _, hsqrt, _⟩ := hL
  simp only [hatan, hsqrt]
  have hsum : 0 < n.unit_bump_sum L + n.unit_bump L k := add_pos hpos hkpos
  congr 1
  · exact Complex.arg_ofReal_of_nonneg (le_of_lt hsum)
  · rw [zero_pow (by norm_num), add_zero]
    exact Real.sqrt_sq (le_of_lt hsum)

end Stages

end GridPlaceNav

namespace GridPlaceNav

section StageUpdates

theorem update_neuron_values_fields {α : Type} [LinearOrderedField α] (L : Libm α)
    (n : MotorNetwork α) :
    (n.update_neuron_values L).direction_samples = n.direction_samples ∧
    (n.update_neuron_values L).scaling_factor = n.scaling_factor ∧
    (n.update_neuron_values L).normalize = n.normalize ∧
    (n.update_neuron_values L).neuron_inputs = n.neuron_inputs := by
  unfold MotorNetwork.update_neuron_values
  by_cases h : n.normalize = true
  · simp [h]
  · simp [h]

theorem update_commit_fields {α : Type} [LinearOrderedField α] (L : Libm α)
    (n : MotorNetwork α) :
    ((n.update_neuron_values L).commit L).direction_samples = n.direction_samples ∧
    ((n.update_neuron_values L).commit L).scaling_factor = n.scaling_factor ∧
    ((n.update_neuron_values L).commit L).neuron_inputs = n.neuron_inputs ∧
    ((n.update_neuron_values L).commit L).strength =
      (n.calculate_direction_and_strength L (n.update_neuron_values L).next).2 ∧
    ((n.update_neuron_values L).commit L).direction =
      (n.calculate_direction_and_strength L (n.update_neuron_values L).next).1 := by
  obtain ⟨h1, h2, _, h4⟩ := update_neuron_values_fields L n
  refine ⟨h1, h2, h4, ?_, ?_⟩
  · show ((n.update_neuron_values L).calculate_direction_and_strength L _).2 = _
    unfold MotorNetwork.calculate_direction_and_strength
    rw [vector_sum_congr L _ n h1]
  · show ((n.update_neuron_values L).calculate_direction_and_strength L _).1 = _
    unfold MotorNetwork.calculate_direction_and_strength
    rw [vector_sum_congr L _ n h1]

theorem bump_mem (L : Libm ℝ) (n : MotorNetwork ℝ) (v : ℝ) (hv : v ∈ n.bump L 0 1) :
    ∃ i, i < n.direction_samples ∧ v = n.unit_bump L i := by
  rw [bump_eq_map] at hv
  obtain ⟨i, hi, he⟩ := List.mem_map.mp hv
  exact ⟨i, List.mem_range.mp hi, he.symm⟩

/-- The peak activation of the unit bump is 1. -/
theorem bump_peak (L : Libm ℝ) (hL : IsReal L) (n : MotorNetwork ℝ) (k : ℕ) (hk : 0 < k)
    (hN : n.direction_samples = k + k) : (n.bump L 0 1).foldl MAX 0 = 1 := by
  obtain ⟨_, hle, hmem⟩ := foldl_MAX_spec (n.bump L 0 1) 0
  have h0 : n.unit_bump L 0 ∈ n.bump L 0 1 := by
    rw [bump_eq_map]
    exact List.mem_map.mpr ⟨0, List.mem_range.mpr (by omega), rfl⟩
  have h1 := hle _ h0
  rw [unit_bump_zero L hL n k hk hN] at h1
  rcases hmem with h | h
  · rw [h] at h1
    exact absurd h1 (by norm_num)
  · obtain ⟨i, hi, he⟩ := bump_mem L n _ h
    have h2 := unit_bump_le_one L hL n i hi
    rw [← he] at h2
    exact le_antisymm h2 h1

/-- A normalizing ring whose chosen direction is 0 and whose chosen strength is positive
takes the shape of the unit bump. -/
theorem normalized_update (L : Libm ℝ) (hL : IsReal L) (a : MotorNetwork ℝ) (k : ℕ)
    (hk : 0 < k) (hN : a.direction_samples = k + k) (hnorm : a.normalize = true)
    (hpeak : a.normalization_peak = 1) (hs : 0 < a.normalization_spread)
    (hdir : a.chosen_direction L = 0) (hstr : 0 < a.chosen_strength L) :
    ((a.update_neuron_values L).commit L).current = a.bump L 0 1 ∧
    ((a.update_neuron_values L).commit L).strength = a.unit_bump_sum L ∧
    ((a.update_neuron_values L).commit L).direction = 0 := by
  have hnext : (a.update_neuron_values L).next = a.bump L 0 1 := by
    rw [update_neuron_values_normalize L a hnorm, hdir, if_pos hstr,
      bump_peak L hL a k hk hN, if_pos zero_lt_one, hpeak]
    simp
  obtain ⟨_, _, _, h4, h5⟩ := update_commit_fields L a
  refine ⟨by rw [commit_current, hnext], ?_, ?_⟩
  · rw [h4, hnext, calc_bump L hL a a k hk hN hN hs]
  · rw [h5, hnext, calc_bump L hL a a k hk hN hN hs]

theorem wall_behind_getD (k i : ℕ) (hi : i < k + k) :
    (scen_wall_behind (k + k) : Vector ℝ).getD i 0 = if i = k then 1 else 0 := by
  unfold scen_wall_behind
  rw [range_map_getD _ _ _ hi, half_double]

theorem inhibited_inputs_fields {α : Type} [LinearOrderedField α]
    (n afferent : MotorNetwork α) (border_active : Bool) (border_sensors : Vector α) :
    (n.inhibited_inputs afferent border_active border_sensors).direction_samples
      = n.direction_samples ∧
    (n.inhibited_inputs afferent border_active border_sensors).normalize = n.normalize ∧
    (n.inhibited_inputs afferent border_active border_sensors).scaling_factor
      = n.scaling_factor ∧
    (n.inhibited_inputs afferent border_active border_sensors).normalization_peak
      = n.normalization_peak := by
  unfold MotorNetwork.inhibited_inputs
  cases border_active
  · exact ⟨rfl, rfl, rfl, rfl⟩
  · exact ⟨rfl, rfl, rfl, rfl⟩

/-- An inhibited ring that reads the unit bump while an obstacle is sensed straight
behind: only the neuron opposite to the peak is silenced. -/
theorem inhibited_update (L : Libm ℝ) (hL : IsReal L) (a b afferent : MotorNetwork ℝ)
    (k : ℕ) (hk : 0 < k) (hNa : a.direction_samples = k + k)
    (hNb : b.direction_samples = k + k) (hs : 0 < a.normalization_spread)
    (hnorm : b.normalize = false) (hlen : b.neuron_inputs.length = k + k)
    (hcur : afferent.current = a.bump L 0 1) (hsc : afferent.scaling_factor = 1) :
    (b.update_and_commit_inhibited L afferent true (scen_wall_behind (k + k))).current
      = a.inhibited_bump L ∧
    (b.update_and_commit_inhibited L afferent true (scen_wall_behind (k + k))).strength
      = a.unit_bump_sum L + a.unit_bump L k ∧
    (b.update_and_commit_inhibited L afferent true (scen_wall_behind (k + k))).direction
      = 0 ∧
    (b.update_and_commit_inhibited L afferent true (scen_wall_behind (k + k))).scaling_factor
      = b.scaling_factor := by
  obtain ⟨hf1, hf2, hf3, _⟩ :=
    inhibited_inputs_fields b afferent true (scen_wall_behind (k + k) : Vector ℝ)
  have hnext : ((b.inhibited_inputs afferent true
      (scen_wall_behind (k + k))).update_neuron_values L).next = a.inhibited_bump L := by
    rw [update_neuron_values_plain L _ (by rw [hf2]; exact hnorm)]
    unfold MotorNetwork.rectified_inputs MotorNetwork.inhibited_bump
    rw [hf1, hNb, hNa, half_double]
    apply List.map_congr_left
    intro i hi
    have hi' := List.mem_range.mp hi
    dsimp only
    rw [inhibited_inputs_getD b afferent _ (by rw [hlen, hNb]) i (by rw [hNb]; exact hi'),
      hcur, hsc, wall_behind_getD k i hi']
    have hw : (a.bump L 0 1).getD i 0 = a.unit_bump L i := rfl
    rw [hw]
    by_cases hik : i = k
    · rw [if_pos hik, if_pos hik, hik]
      have := unit_bump_half_lt_one L hL a k hk hNa hs
      rw [if_pos (by linarith)]
    · rw [if_neg hik, if_neg hik]
      have := unit_bump_pos L hL a i (by rw [hNa]; exact hi')
      rw [if_neg (by linarith)]
      ring
  unfold MotorNetwork.update_and_commit_inhibited
  obtain ⟨h1, h2, _, h4, h5⟩ := update_commit_fields L
    (b.inhibited_inputs afferent true (scen_wall_behind (k + k)))
  refine ⟨by rw [commit_current, hnext], ?_, ?_, by rw [h2, hf3]⟩
  · rw [h4, hnext, calc_inhibited_bump L hL _ a k hk (by rw [hf1, hNb]) hNa hs]
  · rw [h5, hnext, calc_inhibited_bump L hL _ a k hk (by rw [hf1, hNb]) hNa hs]

end StageUpdates

end GridPlaceNav

namespace GridPlaceNav

section Relay

theorem bump_congr {α : Type} [LinearOrderedField α] (L : Libm α) (a b : MotorNetwork α)
    (hN : a.direction_samples = b.direction_samples)
    (hs : a.normalization_spread = b.normalization_spread) (d s : α) :
    a.bump L d s = b.bump L d s := by
  unfold MotorNetwork.bump
  rw [hN, hs]
  simp only [angle_congr L a b hN]

theorem unit_bump_congr {α : Type} [LinearOrderedField α] (L : Libm α) (a b : MotorNetwork α)
    (hN : a.direction_samples = b.direction_samples)
    (hs : a.normalization_spread = b.normalization_spread) (i : Nat) :
    a.unit_bump L i = b.unit_bump L i := by
  unfold MotorNetwork.unit_bump
  rw [bump_congr L a b hN hs]

theorem unit_bump_sum_congr {α : Type} [LinearOrderedField α] (L : Libm α)
    (a b : MotorNetwork α) (hN : a.direction_samples = b.direction_samples)
    (hs : a.normalization_spread = b.normalization_spread) :
    a.unit_bump_sum L = b.unit_bump_sum L := by
  unfold MotorNetwork.unit_bump_sum
  rw [hN]
  simp only [angle_congr L a b hN, unit_bump_congr L a b hN hs]

theorem add_inputs_fields {α : Type} [LinearOrderedField α] (n afferent : MotorNetwork α) :
    (MotorMotorInput.add_inputs n.clear_inputs afferent).direction_samples
      = n.direction_samples ∧
    (MotorMotorInput.add_inputs n.clear_inputs afferent).normalize = n.normalize ∧
    (MotorMotorInput.add_inputs n.clear_inputs afferent).scaling_factor
      = n.scaling_factor ∧
    (MotorMotorInput.add_inputs n.clear_inputs afferent).normalization_peak
      = n.normalization_peak ∧
    (MotorMotorInput.add_inputs n.clear_inputs afferent).normalization_spread
      = n.normalization_spread ∧
    (MotorMotorInput.add_inputs n.clear_inputs afferent).override_active
      = n.override_active :=
  ⟨rfl, rfl, rfl, rfl, rfl, rfl⟩

/-- The first normalized ring, overridden with direction 0 and a positive strength. -/
theorem first_normalized_update (L : Libm ℝ) (hL : IsReal L) (a : MotorNetwork ℝ) (k : ℕ)
    (hk : 0 < k) (hN : a.direction_samples = k + k) (hnorm : a.normalize = true)
    (hpeak : a.normalization_peak = 1) (hs : 0 < a.normalization_spread)
    (hact : a.override_active = true) (hdir : a.override_direction = 0)
    (hstr : 0 < a.override_strength) :
    (a.update_and_commit L).current = a.bump L 0 1 ∧
    (a.update_and_commit L).strength = a.unit_bump_sum L ∧
    (a.update_and_commit L).scaling_factor = a.scaling_factor := by
  unfold MotorNetwork.update_and_commit
  have hd : a.clear_inputs.chosen_direction L = 0 := by
    unfold MotorNetwork.chosen_direction
    show (if a.override_active = true then a.override_direction else _) = 0
    rw [if_pos hact, hdir]
  have hc : 0 < a.clear_inputs.chosen_strength L := by
    unfold MotorNetwork.chosen_strength
    show 0 < (if a.override_active = true then a.override_strength else _)
    rw [if_pos hact]
    exact hstr
  obtain ⟨h1, h2, _⟩ := normalized_update L hL a.clear_inputs k hk hN hnorm hpeak hs hd hc
  exact ⟨by rw [h1]; exact bump_congr L _ _ rfl rfl 0 1,
    by rw [h2]; exact unit_bump_sum_congr L _ _ rfl rfl,
    (update_commit_fields L a.clear_inputs).2.1⟩

/-- The second normalized ring, which reads the inhibited bump of the first stage: its
direction is again 0, so it takes the shape of its own unit bump. -/
theorem second_normalized_update (L : Libm ℝ) (hL : IsReal L) (a c afferent : MotorNetwork ℝ)
    (k : ℕ) (hk : 0 < k) (hNa : a.direction_samples = k + k)
    (hsa : 0 < a.normalization_spread) (hNc : c.direction_samples = k + k)
    (hnorm : c.normalize = true) (hpeak : c.normalization_peak = 1)
    (hsc : 0 < c.normalization_spread) (hact : c.override_active = false)
    (hlen : c.neuron_inputs.length = k + k)
    (hcur : afferent.current = a.inhibited_bump L) (hscale : afferent.scaling_factor = 1) :
    (c.update_and_commit_from L afferent).current = c.bump L 0 1 ∧
    (c.update_and_commit_from L afferent).strength = c.unit_bump_sum L ∧
    (c.update_and_commit_from L afferent).scaling_factor = c.scaling_factor := by
  unfold MotorNetwork.update_and_commit_from
  obtain ⟨f1, f2, f3, f4, f5, f6⟩ := add_inputs_fields c afferent
  have hrect : (MotorMotorInput.add_inputs c.clear_inputs afferent).rectified_inputs
      = a.inhibited_bump L := by
    unfold MotorNetwork.rectified_inputs
    rw [f1, hNc]
    have e : a.inhibited_bump L = (List.range (k + k)).map
        (fun i => if i = k then 0 else a.unit_bump L i) := by
      unfold MotorNetwork.inhibited_bump
      rw [hNa, half_double]
    rw [e]
    apply List.map_congr_left
    intro i hi
    have hi' := List.mem_range.mp hi
    dsimp only
    rw [motor_inputs_getD c afferent (by rw [hlen, hNc]) i (by rw [hNc]; exact hi'),
      hcur, hscale, inhibited_bump_getD L a k hNa i hi']
    by_cases hik : i = k
    · rw [if_pos hik]
      norm_num
    · rw [if_neg hik]
      have := unit_bump_pos L hL a i (by rw [hNa]; exact hi')
      rw [if_neg (by linarith)]
      ring
  have hcalc := calc_inhibited_bump L hL (MotorMotorInput.add_inputs c.clear_inputs afferent)
    a k hk (by rw [f1, hNc]) hNa hsa
  have hd : (MotorMotorInput.add_inputs c.clear_inputs afferent).chosen_direction L = 0 := by
    unfold MotorNetwork.chosen_direction
    rw [f6, hact, hrect, hcalc]
    rfl
  have hc : 0 < (MotorMotorInput.add_inputs c.clear_inputs afferent).chosen_strength L := by
    unfold MotorNetwork.chosen_strength
    rw [f6, hact, hrect, hcalc]
    show 0 < a.unit_bump_sum L + a.unit_bump L k
    exact add_pos (unit_bump_sum_pos L hL a k hk hNa hsa)
      (unit_bump_pos L hL a k (by omega))
  obtain ⟨h1, h2, _⟩ := normalized_update L hL
    (MotorMotorInput.add_inputs c.clear_inputs afferent) k hk (by rw [f1, hNc])
    (by rw [f2, hnorm]) (by rw [f4, hpeak]) (by rw [f5]; exact hsc) hd hc
  exact ⟨by rw [h1]; exact bump_congr L _ _ f1 f5 0 1,
    by rw [h2]; exact unit_bump_sum_congr L _ _ f1 f5,
    by rw [(update_commit_fields L _).2.1, f3]⟩

/-- Two ratios above 1 give a confidence above 1. -/
theorem sqrt_ratios_gt_one (x1 w1 x2 w2 : ℝ) (hx1 : 0 < x1) (hw1 : 0 < w1) (hx2 : 0 < x2)
    (hw2 : 0 < w2) : 1 < Real.sqrt ((x1 + w1) / x1 * (x2 + w2) / x2) := by
  rw [Real.lt_sqrt zero_le_one, one_pow, mul_div_assoc]
  have h1 : 1 < (x1 + w1) / x1 := by
    rw [one_lt_div hx1]
    linarith
  have h2 : 1 < (x2 + w2) / x2 := by
    rw [one_lt_div hx2]
    linarith
  nlinarith

end Relay

end GridPlaceNav

namespace GridPlaceNav

section SimulateFacts

variable {α : Type} [LinearOrderedField α]

/-- The rings after `navigate` are the rings after `update_motors`, the confidence is
computed from them, and halting and heading follow lines 179-182. -/
theorem navigate_spec (L : Libm α) (m : ModelState α) :
    (m.navigate L).first_normalized_motor
      = ((m.configure_motors L).update_motors L).first_normalized_motor ∧
    (m.navigate L).first_inhibited_motor
      = ((m.configure_motors L).update_motors L).first_inhibited_motor ∧
    (m.navigate L).second_normalized_motor
      = ((m.configure_motors L).update_motors L).second_normalized_motor ∧
    (m.navigate L).second_inhibited_motor
      = ((m.configure_motors L).update_motors L).second_inhibited_motor ∧
    (m.navigate L).confidence = ((m.configure_motors L).update_motors L).compute_confidence L ∧
    (m.navigate L).input = m.input ∧
    (m.navigate L).output.halted
      = decide ((m.navigate L).confidence < m.input.confidence_threshold) ∧
    (m.navigate L).output.heading =
      (if (m.navigate L).second_inhibited_motor.strength > 0
       then (m.navigate L).second_inhibited_motor.direction else m.output.heading) :=
  ⟨rfl, rfl, rfl, rfl, rfl, rfl, rfl, rfl⟩

/-- The confidence of line 168-177 in terms of the rings of the same state. -/
theorem navigate_confidence (L : Libm α) (m : ModelState α) :
    (m.navigate L).confidence =
      if (m.navigate L).first_normalized_motor.strength > 0 ∧
          (m.navigate L).second_normalized_motor.strength > 0 then
        L.sqrt ((m.navigate L).first_inhibited_motor.strength
          / (m.navigate L).first_normalized_motor.strength
          * (m.navigate L).second_inhibited_motor.strength
          / (m.navigate L).second_normalized_motor.strength)
      else 0 := rfl

/-- The state on which the motor decision of a successful `simulate_timestep` runs. -/
theorem simulate_some (L : Libm α) (mv : List (Vector α)) (dc : MotorNetwork α)
    (m m' : ModelState α) (h : m.simulate_timestep L mv dc = some m') :
    ∃ M : ModelState α, m' = M.steer L ∧ M.input = m.input ∧
      M.output = m.output ∧
      M.border_sensors = m.border_sensors ∧
      M.internal_motor_tuning = m.internal_motor_tuning ∧
      M.first_normalized_motor = m.first_normalized_motor ∧
      M.first_inhibited_motor = m.first_inhibited_motor ∧
      M.second_normalized_motor = m.second_normalized_motor ∧
      M.second_inhibited_motor = m.second_inhibited_motor ∧
      M.first_border_motor_input = m.first_border_motor_input ∧
      M.second_border_motor_input = m.second_border_motor_input ∧
      M.confidence = m.confidence := by
  unfold ModelState.simulate_timestep at h
  obtain ⟨r, _, hr⟩ := Option.map_eq_some'.mp h
  refine ⟨ModelState.decode dc { m with place_graph := r.1, sheets := r.2 }, hr.symm, ?_⟩
  unfold ModelState.decode
  by_cases hm : m.input.motor_mode = MotorMode.grid_decoder_mode
  · rw [if_pos hm]
    exact ⟨rfl, rfl, rfl, rfl, rfl, rfl, rfl, rfl, rfl, rfl, rfl⟩
  · rw [if_neg hm]
    exact ⟨rfl, rfl, rfl, rfl, rfl, rfl, rfl, rfl, rfl, rfl, rfl⟩

/-- The motor decision in a mode other than `halt_mode`. -/
theorem steer_spec (L : Libm α) (M : ModelState α)
    (hmode : M.input.motor_mode ≠ MotorMode.halt_mode) :
    ∃ N : ModelState α,
      N = ({ M with output := { M.output with halted := true, heading := M.input.heading } }
        : ModelState α).navigate L ∧
      (M.steer L).input = M.input ∧
      (M.steer L).confidence = N.confidence ∧
      (M.steer L).first_normalized_motor = N.first_normalized_motor ∧
      (M.steer L).first_inhibited_motor = N.first_inhibited_motor ∧
      (M.steer L).second_normalized_motor = N.second_normalized_motor ∧
      (M.steer L).second_inhibited_motor = N.second_inhibited_motor ∧
      (M.steer L).output.halted = N.output.halted ∧
      (M.steer L).output.heading = N.output.heading ∧
      (M.steer L).output.speed = (if N.output.halted = true then 0 else FIXED_SPEED) := by
  refine ⟨_, rfl, ?_⟩
  unfold ModelState.steer
  simp only [ne_eq, hmode, not_false_eq_true, if_true]
  repeat' constructor

/-- The motor decision in `halt_mode`: the agent halts with its heading unchanged. -/
theorem steer_halt (L : Libm α) (M : ModelState α)
    (hmode : M.input.motor_mode = MotorMode.halt_mode) :
    (M.steer L).output.halted = true ∧ (M.steer L).output.heading = M.input.heading ∧
    (M.steer L).output.speed = 0 ∧ (M.steer L).confidence = M.confidence := by
  unfold ModelState.steer
  simp only [ne_eq, hmode, not_true_eq_false, if_false]
  repeat' constructor

end SimulateFacts

end GridPlaceNav

namespace GridPlaceNav

section ConfidenceClaims

variable {α : Type} [LinearOrderedField α]

theorem update_motors_strength_nonneg (L : Libm α) (hsqrt : ∀ x, 0 ≤ L.sqrt x)
    (c : ModelState α) :
    0 ≤ (c.update_motors L).first_normalized_motor.strength ∧
    0 ≤ (c.update_motors L).first_inhibited_motor.strength ∧
    0 ≤ (c.update_motors L).second_normalized_motor.strength ∧
    0 ≤ (c.update_motors L).second_inhibited_motor.strength :=
  ⟨hsqrt _, hsqrt _, hsqrt _, hsqrt _⟩

/-- The facts about one successful timestep in a mode other than `halt_mode` that the
claims on confidence, halting and heading rest on. -/
theorem simulate_decision (L : Libm α) (mv : List (Vector α)) (dc : MotorNetwork α)
    (m m' : ModelState α) (h : m.simulate_timestep L mv dc = some m')
    (hmode : m.input.motor_mode ≠ MotorMode.halt_mode) :
    m'.input = m.input ∧
    m'.confidence =
      (if m'.first_normalized_motor.strength > 0 ∧ m'.second_normalized_motor.strength > 0
       then L.sqrt (m'.first_inhibited_motor.strength / m'.first_normalized_motor.strength
          * m'.second_inhibited_motor.strength / m'.second_normalized_motor.strength)
       else 0) ∧
    m'.output.halted = decide (m'.confidence < m.input.confidence_threshold) ∧
    m'.output.heading =
      (if m'.second_inhibited_motor.strength > 0 then m'.second_inhibited_motor.direction
       else m.input.heading) ∧
    m'.output.speed = (if m'.output.halted = true then 0 else FIXED_SPEED) ∧
    ((∀ x, 0 ≤ L.sqrt x) →
      0 ≤ m'.first_normalized_motor.strength ∧ 0 ≤ m'.first_inhibited_motor.strength ∧
      0 ≤ m'.second_normalized_motor.strength ∧ 0 ≤ m'.second_inhibited_motor.strength) := by
  obtain ⟨M, hM, hin, _⟩ := simulate_some L mv dc m m' h
  obtain ⟨N, hN, s1, s2, s3, s4, s5, s6, s7, s8, s9⟩ :=
    steer_spec L M (by rw [hin]; exact hmode)
  rw [← hM] at s1 s2 s3 s4 s5 s6 s7 s8 s9
  have hc := navigate_confidence L
    ({ M with output := { M.output with halted := true, heading := M.input.heading } }
      : ModelState α)
  obtain ⟨n1, n2, n3, n4, _, n6, n7, n8⟩ := navigate_spec L
    ({ M with output := { M.output with halted := true, heading := M.input.heading } }
      : ModelState α)
  rw [← hN] at hc n1 n2 n3 n4 n6 n7 n8
  refine ⟨by rw [s1, hin], ?_, ?_, ?_, ?_, ?_⟩
  · rw [s2, s3, s4, s5, s6]
    exact hc
  · rw [s7, s2, n7]
    show decide (N.confidence < M.input.confidence_threshold) = _
    rw [hin]
  · rw [s8, s6, n8]
    show (if N.second_inhibited_motor.strength > 0 then N.second_inhibited_motor.direction
      else M.input.heading) = _
    rw [hin]
  · rw [s9, s7]
  · intro hsqrt
    rw [s3, s4, s5, s6, n1, n2, n3, n4]
    exact update_motors_strength_nonneg L hsqrt _

/-- C14 (amended). For every successful timestep in a motor mode other than `halt_mode`:
`output.halted` holds iff `confidence < input.confidence_threshold`; the confidence is 0
when either normalized strength is 0; `output.heading` is the direction of the second
inhibited ring when that ring has positive strength and the input heading otherwise; so
whenever `output.halted` is false and the confidence threshold is positive (as it is in
every agent preset), `output.heading` equals `second_inhibited_motor.direction`;
`output.speed` is `FIXED_SPEED` whenever `output.halted` is false and 0 whenever it is
true. The square root is assumed non-negative and positive only on positive numbers. -/
theorem halted_heading_speed (L : Libm α) (hsqrt : ∀ x, 0 ≤ L.sqrt x)
    (hpos : ∀ x, 0 < L.sqrt x → 0 < x) (mv : List (Vector α)) (dc : MotorNetwork α)
    (m m' : ModelState α) (h : m.simulate_timestep L mv dc = some m')
    (hmode : m.input.motor_mode ≠ MotorMode.halt_mode) :
    (m'.output.halted = true ↔ m'.confidence < m.input.confidence_threshold) ∧
    ((m'.first_normalized_motor.strength = 0 ∨ m'.second_normalized_motor.strength = 0) →
      m'.confidence = 0) ∧
    (0 ≤ m'.confidence) ∧
    m'.output.heading =
      (if m'.second_inhibited_motor.strength > 0 then m'.second_inhibited_motor.direction
       else m.input.heading) ∧
    (m'.output.halted = false → 0 < m.input.confidence_threshold →
      m'.output.heading = m'.second_inhibited_motor.direction) ∧
    (m'.output.halted = false → m'.output.speed = FIXED_SPEED) ∧
    (m'.output.halted = true → m'.output.speed = 0) := by
  obtain ⟨_, hc, hh, hd, hs, hn⟩ := simulate_decision L mv dc m m' h hmode
  obtain ⟨_, _, _, hn4⟩ := hn hsqrt
  have hiff : m'.output.halted = true ↔ m'.confidence < m.input.confidence_threshold := by
    rw [hh, decide_eq_true_iff]
  have hc0 : 0 ≤ m'.confidence := by
    rw [hc]
    split
    · exact hsqrt _
    · exact le_refl 0
  refine ⟨hiff, ?_, hc0, hd, ?_, ?_, ?_⟩
  · intro hz
    rw [hc]
    apply if_neg
    rintro ⟨h1, h2⟩
    rcases hz with hz | hz
    · rw [hz] at h1
      exact lt_irrefl 0 h1
    · rw [hz] at h2
      exact lt_irrefl 0 h2
  · intro hnh hthr
    have hge : ¬ m'.confidence < m.input.confidence_threshold := by
      intro hlt
      rw [hiff.mpr hlt] at hnh
      exact Bool.noConfusion hnh
    have hcpos : 0 < m'.confidence := lt_of_lt_of_le hthr (not_lt.mp hge)
    have hsi : 0 < m'.second_inhibited_motor.strength := by
      rcases lt_or_eq_of_le hn4 with hlt | heq
      · exact hlt
      · exfalso
        rw [hc] at hcpos
        by_cases hcond : m'.first_normalized_motor.strength > 0 ∧
            m'.second_normalized_motor.strength > 0
        · rw [if_pos hcond, ← heq] at hcpos
          have := hpos _ hcpos
          simp at this
        · rw [if_neg hcond] at hcpos
          exact lt_irrefl 0 hcpos
    rw [hd, if_pos hsi]
  · intro hnh
    rw [hs, hnh]
    rfl
  · intro hht
    rw [hs, hht]
    rfl

/-- C13 (amended). For every successful timestep in a motor mode other than `halt_mode`,
the confidence is the square root of the product of the two strength ratios when both
normalized strengths are positive, and 0 otherwise; it is non-negative, and it is at most 1
whenever neither inhibited ring is stronger than the normalized ring it inhibits.
(In general it can exceed 1: silencing neurons that point away from the bump lengthens
the vector sum.) The square root is assumed non-negative and at most 1 on `[0, 1]`. -/
theorem confidence_bounds (L : Libm α) (hsqrt : ∀ x, 0 ≤ L.sqrt x)
    (hone : ∀ x, 0 ≤ x → x ≤ 1 → L.sqrt x ≤ 1) (mv : List (Vector α)) (dc : MotorNetwork α)
    (m m' : ModelState α) (h : m.simulate_timestep L mv dc = some m')
    (hmode : m.input.motor_mode ≠ MotorMode.halt_mode) :
    m'.confidence =
      (if m'.first_normalized_motor.strength > 0 ∧ m'.second_normalized_motor.strength > 0
       then L.sqrt (m'.first_inhibited_motor.strength / m'.first_normalized_motor.strength
          * m'.second_inhibited_motor.strength / m'.second_normalized_motor.strength)
       else 0) ∧
    0 ≤ m'.confidence ∧
    (m'.first_inhibited_motor.strength ≤ m'.first_normalized_motor.strength →
      m'.second_inhibited_motor.strength ≤ m'.second_normalized_motor.strength →
      m'.confidence ≤ 1) := by
  obtain ⟨_, hc, _, _, _, hn⟩ := simulate_decision L mv dc m m' h hmode
  obtain ⟨_, hn2, _, hn4⟩ := hn hsqrt
  refine ⟨hc, ?_, ?_⟩
  · rw [hc]
    split
    · exact hsqrt _
    · exact le_refl 0
  · intro h1 h2
    rw [hc]
    by_cases hcond : m'.first_normalized_motor.strength > 0 ∧
        m'.second_normalized_motor.strength > 0
    · rw [if_pos hcond]
      obtain ⟨hp1, hp2⟩ := hcond
      have r1 : m'.first_inhibited_motor.strength / m'.first_normalized_motor.strength ≤ 1 :=
        (div_le_one hp1).mpr h1
      have r1' : 0 ≤ m'.first_inhibited_motor.strength / m'.first_normalized_motor.strength :=
        div_nonneg hn2 (le_of_lt hp1)
      have r2 : m'.second_inhibited_motor.strength / m'.second_normalized_motor.strength ≤ 1 :=
        (div_le_one hp2).mpr h2
      have r2' : 0 ≤ m'.second_inhibited_motor.strength
          / m'.second_normalized_motor.strength := div_nonneg hn4 (le_of_lt hp2)
      rw [mul_div_assoc]
      exact hone _ (mul_nonneg r1' r2')
        ((mul_le_mul r1 r2 r2' zero_le_one).trans_eq (one_mul 1))
    · rw [if_neg hcond]
      exact zero_le_one

end ConfidenceClaims

end GridPlaceNav

namespace GridPlaceNav

section WallBehind

/-- The configuration written by lines 139-161 in `last_heading_mode`. -/
theorem configure_last_heading {α : Type} [LinearOrderedField α] (L : Libm α)
    (m : ModelState α) (hmode : m.input.motor_mode = MotorMode.last_heading_mode) :
    (m.configure_motors L).first_normalized_motor =
      { m.first_normalized_motor with
        override_direction := m.input.heading + m.input.motor_offset,
        override_strength := 1,
        normalization_spread := m.input.motor_tuning } ∧
    (m.configure_motors L).second_normalized_motor =
      { m.second_normalized_motor with normalization_spread := m.internal_motor_tuning } ∧
    (m.configure_motors L).first_inhibited_motor = m.first_inhibited_motor ∧
    (m.configure_motors L).second_inhibited_motor = m.second_inhibited_motor ∧
    (m.configure_motors L).first_border_motor_input = true ∧
    (m.configure_motors L).second_border_motor_input = true ∧
    (m.configure_motors L).border_sensors = m.border_sensors := by
  unfold ModelState.configure_motors ModelState.override_source
  simp only [hmode]
  repeat' constructor

/-- With an obstacle sensed straight behind the heading, each inhibited ring is stronger
than the normalized ring it inhibits, and the confidence exceeds 1. -/
theorem wall_behind_motors (L : Libm ℝ) (hL : IsReal L) (c : ModelState ℝ) (k : ℕ)
    (hk : 0 < k) (hshape : c.ChainShape (k + k))
    (hdir : c.first_normalized_motor.override_direction = 0)
    (hstr : 0 < c.first_normalized_motor.override_strength)
    (hs1 : 0 < c.first_normalized_motor.normalization_spread)
    (hs2 : 0 < c.second_normalized_motor.normalization_spread)
    (hb1 : c.first_border_motor_input = true) (hb2 : c.second_border_motor_input = true)
    (hS : c.border_sensors = scen_wall_behind (k + k)) :
    1 < (c.update_motors L).compute_confidence L := by
  obtain ⟨⟨a1, _, a3, a4, a5, a6⟩, ⟨b1, b2, b3, b4⟩, ⟨c1, c2, c3, c4, c5, c6⟩,
    ⟨d1, d2, _, d4⟩⟩ := hshape
  obtain ⟨e1, e2, e3⟩ := first_normalized_update L hL c.first_normalized_motor k hk a1 a5 a4
    hs1 a6 hdir hstr
  obtain ⟨f1, f2, _, f4⟩ := inhibited_update L hL c.first_normalized_motor
    c.first_inhibited_motor (c.first_normalized_motor.update_and_commit L) k hk a1 b1 hs1
    b4 b2 e1 (by rw [e3, a3])
  obtain ⟨g1, g2, g3⟩ := second_normalized_update L hL c.first_normalized_motor
    c.second_normalized_motor
    (c.first_inhibited_motor.update_and_commit_inhibited L
      (c.first_normalized_motor.update_and_commit L) true (scen_wall_behind (k + k)))
    k hk a1 hs1 c1 c5 c4 hs2 c6 c2 f1 (by rw [f4, b3])
  obtain ⟨_, i2, _, _⟩ := inhibited_update L hL c.second_normalized_motor
    c.second_inhibited_motor
    (c.second_normalized_motor.update_and_commit_from L
      (c.first_inhibited_motor.update_and_commit_inhibited L
        (c.first_normalized_motor.update_and_commit L) true (scen_wall_behind (k + k))))
    k hk c1 d1 hs2 d4 d2 g1 (by rw [g3, c3])
  have x1 := unit_bump_sum_pos L hL c.first_normalized_motor k hk a1 hs1
  have x2 := unit_bump_sum_pos L hL c.second_normalized_motor k hk c1 hs2
  have w1 := unit_bump_pos L hL c.first_normalized_motor k (by omega)
  have w2 := unit_bump_pos L hL c.second_normalized_motor k (by omega)
  unfold ModelState.compute_confidence ModelState.update_motors
  simp only [hb1, hb2, hS]
  rw [e2, f2, g2, i2, if_pos ⟨x1, x2⟩, hL.2.2.2.2.1]
  exact sqrt_ratios_gt_one _ _ _ _ x1 w1 x2 w2

theorem scen_wall_shape : (scen_wall_model : ModelState ℝ).ChainShape (36 + 36) := by
  unfold ModelState.ChainShape scen_wall_model scen_main_model model_at_rest ring_at_rest
    Vector.mk
  simp

end WallBehind

end GridPlaceNav

namespace GridPlaceNav

section ConfidenceCounterexample

/-- The confidence after a successful timestep in `last_heading_mode` with the heading
0, no motor offset, positive tunings and an obstacle sensed straight behind. -/
theorem wall_behind_simulate (L : Libm ℝ) (hL : IsReal L) (mv : List (Vector ℝ))
    (dc : MotorNetwork ℝ) (m m' : ModelState ℝ) (k : ℕ) (hk : 0 < k)
    (h : m.simulate_timestep L mv dc = some m')
    (hmode : m.input.motor_mode = MotorMode.last_heading_mode)
    (hhead : m.input.heading + m.input.motor_offset = 0)
    (htun : 0 < m.input.motor_tuning) (hint : 0 < m.internal_motor_tuning)
    (hshape : m.ChainShape (k + k)) (hS : m.border_sensors = scen_wall_behind (k + k)) :
    1 < m'.confidence := by
  obtain ⟨M, hM, hin, _, hbs, hit, hfn, hfi, hsn, hsi, _, _, _⟩ :=
    simulate_some L mv dc m m' h
  have hmodeM : M.input.motor_mode = MotorMode.last_heading_mode := by rw [hin, hmode]
  obtain ⟨N, hN, _, s2, _⟩ := steer_spec L M (by rw [hmodeM]; decide)
  rw [← hM] at s2
  rw [s2, hN]
  obtain ⟨q1, q2, q3, q4, q5, q6, q7⟩ := configure_last_heading L
    ({ M with output := { M.output with halted := true, heading := M.input.heading } }
      : ModelState ℝ) hmodeM
  show 1 < ((ModelState.configure_motors L _).update_motors L).compute_confidence L
  obtain ⟨⟨a1, a2, a3, a4, a5, a6⟩, ⟨b1, b2, b3, b4⟩, ⟨c1, c2, c3, c4, c5, c6⟩,
    ⟨d1, d2, d3, d4⟩⟩ := hshape
  apply wall_behind_motors L hL _ k hk
  · unfold ModelState.ChainShape
    rw [q1, q2, q3, q4]
    refine ⟨⟨?_, ?_, ?_, ?_, ?_, ?_⟩, ⟨?_, ?_, ?_, ?_⟩, ⟨?_, ?_, ?_, ?_, ?_, ?_⟩,
      ⟨?_, ?_, ?_, ?_⟩⟩
    · exact (congrArg MotorNetwork.direction_samples hfn).trans a1
    · exact (congrArg (fun r : MotorNetwork ℝ => r.neuron_inputs.length) hfn).trans a2
    · exact (congrArg MotorNetwork.scaling_factor hfn).trans a3
    · exact (congrArg MotorNetwork.normalization_peak hfn).trans a4
    · exact (congrArg MotorNetwork.normalize hfn).trans a5
    · exact (congrArg MotorNetwork.override_active hfn).trans a6
    · exact (congrArg MotorNetwork.direction_samples hfi).trans b1
    · exact (congrArg (fun r : MotorNetwork ℝ => r.neuron_inputs.length) hfi).trans b2
    · exact (congrArg MotorNetwork.scaling_factor hfi).trans b3
    · exact (congrArg MotorNetwork.normalize hfi).trans b4
    · exact (congrArg MotorNetwork.direction_samples hsn).trans c1
    · exact (congrArg (fun r : MotorNetwork ℝ => r.neuron_inputs.length) hsn).trans c2
    · exact (congrArg MotorNetwork.scaling_factor hsn).trans c3
    · exact (congrArg MotorNetwork.normalization_peak hsn).trans c4
    · exact (congrArg MotorNetwork.normalize hsn).trans c5
    · exact (congrArg MotorNetwork.override_active hsn).trans c6
    · exact (congrArg MotorNetwork.direction_samples hsi).trans d1
    · exact (congrArg (fun r : MotorNetwork ℝ => r.neuron_inputs.length) hsi).trans d2
    · exact (congrArg MotorNetwork.scaling_factor hsi).trans d3
    · exact (congrArg MotorNetwork.normalize hsi).trans d4
  · rw [q1]
    show M.input.heading + M.input.motor_offset = 0
    rw [hin]
    exact hhead
  · rw [q1]
    exact zero_lt_one
  · rw [q1]
    show 0 < M.input.motor_tuning
    rw [hin]
    exact htun
  · rw [q2]
    show 0 < M.internal_motor_tuning
    rw [hit]
    exact hint
  · exact q5
  · exact q6
  · rw [q7]
    show M.border_sensors = _
    rw [hbs, hS]

/-- Counterexample to C13 as written: the model of `main` (72 border sensors, internal
motor tuning 0.1) in `last_heading_mode` with the last heading 0 and the motor tuning
0.75, while an obstacle is sensed straight behind (sensor 36 reads 1, all others 0).
The timestep succeeds and the confidence exceeds 1. -/
theorem confidence_exceeds_one :
    (∀ v ∈ (scen_wall_model : ModelState ℝ).border_sensors, 0 ≤ v) ∧
    ∃ m' : ModelState ℝ,
      (scen_wall_model : ModelState ℝ).simulate_timestep
        ⟨Real.cos, Real.sin, fun y x => Complex.arg ⟨x, y⟩, Real.exp, Real.sqrt, Real.pi⟩
        [[3, 4]] (ring_at_rest 28 false false 1) = some m' ∧
      1 < m'.confidence := by
  refine ⟨?_, ?_⟩
  · intro v hv
    have hv' : v ∈ (scen_wall_behind 72 : Vector ℝ) := hv
    unfold scen_wall_behind at hv'
    obtain ⟨i, _, hi⟩ := List.mem_map.mp hv'
    rw [← hi]
    split
    · exact zero_le_one
    · exact le_refl 0
  · obtain ⟨m', h⟩ : ∃ m' : ModelState ℝ,
        (scen_wall_model : ModelState ℝ).simulate_timestep
          ⟨Real.cos, Real.sin, fun y x => Complex.arg ⟨x, y⟩, Real.exp, Real.sqrt, Real.pi⟩
          [[3, 4]] (ring_at_rest 28 false false 1) = some m' := ⟨_, rfl⟩
    refine ⟨m', h, ?_⟩
    exact wall_behind_simulate _ ⟨rfl, rfl, fun _ _ => rfl, rfl, rfl, rfl⟩ _ _ _ m' 36
      (by norm_num) h rfl (by show (0 : ℝ) + 0 = 0; norm_num)
      (by show (0 : ℝ) < 3 / 4; norm_num) (by show (0 : ℝ) < 1 / 10; norm_num)
      scen_wall_shape rfl

end ConfidenceCounterexample

end GridPlaceNav

namespace GridPlaceNav

section ZeroRings

theorem getD_zero_of_all_zero {α : Type} [LinearOrderedField α] (l : List α)
    (h : ∀ v ∈ l, v = 0) (i : Nat) : l.getD i 0 = 0 := by
  rw [List.getD_eq_getElem?_getD]
  rcases Option.eq_none_or_eq_some l[i]? with hn | ⟨v, hv⟩
  · rw [hn]
    rfl
  · rw [hv]
    exact h v (List.getElem?_mem hv)

/-- Direction and strength of a silent ring. -/
theorem calc_zero (L : Libm ℝ) (hL : IsReal L) (n : MotorNetwork ℝ) (v : Vector ℝ)
    (h : ∀ x ∈ v, x = 0) : n.calculate_direction_and_strength L v = (0, 0) := by
  unfold MotorNetwork.calculate_direction_and_strength
  rw [vector_sum_eq]
  have hx : ∑ i in Finset.range n.direction_samples, v.getD i 0 * L.cos (n.angle L i) = 0 :=
    Finset.sum_eq_zero (fun i _ => by rw [getD_zero_of_all_zero v h i, zero_mul])
  have hy : ∑ i in Finset.range n.direction_samples, v.getD i 0 * L.sin (n.angle L i) = 0 :=
    Finset.sum_eq_zero (fun i _ => by rw [getD_zero_of_all_zero v h i, zero_mul])
  rw [hx, hy]
  obtain ⟨_, _, hatan, _, hsqrt, _⟩ := hL
  simp only [hatan, hsqrt]
  congr 1
  · exact Complex.arg_zero
  · simp

/-- A normalizing ring whose chosen strength is not positive falls silent. -/
theorem zero_normalized (L : Libm ℝ) (hL : IsReal L) (a : MotorNetwork ℝ)
    (hnorm : a.normalize = true) (hns : ¬ 0 < a.chosen_strength L) :
    (∀ v ∈ ((a.update_neuron_values L).commit L).current, v = 0) ∧
    ((a.update_neuron_values L).commit L).strength = 0 ∧
    ((a.update_neuron_values L).commit L).direction = 0 := by
  have hnext : ∀ v ∈ (a.update_neuron_values L).next, v = 0 := by
    rw [update_neuron_values_normalize L a hnorm]
    intro v hv
    rw [if_neg hns] at hv
    obtain ⟨w, hw, hwv⟩ := List.mem_map.mp hv
    rw [← hwv, bump_zero L a _ w hw]
    exact zero_mul _
  obtain ⟨_, _, _, h4, h5⟩ := update_commit_fields L a
  refine ⟨by rw [commit_current]; exact hnext, ?_, ?_⟩
  · rw [h4, calc_zero L hL a _ hnext]
  · rw [h5, calc_zero L hL a _ hnext]

/-- An inhibited ring that reads a silent ring while nothing is sensed stays silent. -/
theorem zero_inhibited (L : Libm ℝ) (hL : IsReal L) (b afferent : MotorNetwork ℝ)
    (border_sensors : Vector ℝ) (hnorm : b.normalize = false)
    (hlen : b.neuron_inputs.length = b.direction_samples)
    (hcur : ∀ v ∈ afferent.current, v = 0) (hS : ∀ v ∈ border_sensors, v = 0) :
    (∀ v ∈ (b.update_and_commit_inhibited L afferent true border_sensors).current, v = 0) ∧
    (b.update_and_commit_inhibited L afferent true border_sensors).strength = 0 ∧
    (b.update_and_commit_inhibited L afferent true border_sensors).direction = 0 := by
  obtain ⟨hf1, hf2, _, _⟩ := inhibited_inputs_fields b afferent true border_sensors
  have hnext : ∀ v ∈ ((b.inhibited_inputs afferent true
      border_sensors).update_neuron_values L).next, v = 0 := by
    rw [update_neuron_values_plain L _ (by rw [hf2]; exact hnorm)]
    unfold MotorNetwork.rectified_inputs
    intro v hv
    obtain ⟨i, hi, he⟩ := List.mem_map.mp hv
    rw [hf1] at hi
    rw [← he]
    dsimp only
    rw [inhibited_inputs_getD b afferent _ hlen i (List.mem_range.mp hi),
      getD_zero_of_all_zero _ hcur, getD_zero_of_all_zero _ hS]
    norm_num
  unfold MotorNetwork.update_and_commit_inhibited
  obtain ⟨_, _, _, h4, h5⟩ := update_commit_fields L
    (b.inhibited_inputs afferent true border_sensors)
  refine ⟨by rw [commit_current]; exact hnext, ?_, ?_⟩
  · rw [h4, calc_zero L hL _ _ hnext]
  · rw [h5, calc_zero L hL _ _ hnext]

/-- A normalizing ring without override that reads a silent ring falls silent. -/
theorem zero_relay (L : Libm ℝ) (hL : IsReal L) (c afferent : MotorNetwork ℝ)
    (hnorm : c.normalize = true) (hact : c.override_active = false)
    (hlen : c.neuron_inputs.length = c.direction_samples)
    (hcur : ∀ v ∈ afferent.current, v = 0) :
    (∀ v ∈ (c.update_and_commit_from L afferent).current, v = 0) ∧
    (c.update_and_commit_from L afferent).strength = 0 := by
  obtain ⟨f1, f2, _, _, _, f6⟩ := add_inputs_fields c afferent
  have hrect : ∀ v ∈ (MotorMotorInput.add_inputs c.clear_inputs afferent).rectified_inputs,
      v = 0 := by
    unfold MotorNetwork.rectified_inputs
    intro v hv
    obtain ⟨i, hi, he⟩ := List.mem_map.mp hv
    rw [f1] at hi
    rw [← he]
    dsimp only
    rw [motor_inputs_getD c afferent hlen i (List.mem_range.mp hi),
      getD_zero_of_all_zero _ hcur]
    norm_num
  have hns : ¬ 0 < (MotorMotorInput.add_inputs c.clear_inputs afferent).chosen_strength L := by
    unfold MotorNetwork.chosen_strength
    rw [f6, hact, calc_zero L hL _ _ hrect]
    exact lt_irrefl 0
  obtain ⟨h1, h2, _⟩ := zero_normalized L hL _ (by rw [f2, hnorm]) hns
  exact ⟨h1, h2⟩

/-- The configuration written by lines 139-161 in `grid_decoder_mode` while no subgoal
is visible. -/
theorem configure_decoder {α : Type} [LinearOrderedField α] (L : Libm α)
    (m : ModelState α) (hmode : m.input.motor_mode = MotorMode.grid_decoder_mode)
    (hvis : m.place_graph.output.subgoal_visible = false) :
    (m.configure_motors L).first_normalized_motor =
      { m.first_normalized_motor with
        override_direction := m.final_motor.direction + m.input.motor_offset,
        override_strength := m.final_motor.strength,
        normalization_spread := m.input.motor_tuning } ∧
    (m.configure_motors L).second_normalized_motor =
      { m.second_normalized_motor with normalization_spread := m.internal_motor_tuning } ∧
    (m.configure_motors L).first_inhibited_motor = m.first_inhibited_motor ∧
    (m.configure_motors L).second_inhibited_motor = m.second_inhibited_motor ∧
    (m.configure_motors L).first_border_motor_input = true ∧
    (m.configure_motors L).second_border_motor_input = true ∧
    (m.configure_motors L).border_sensors = m.border_sensors := by
  unfold ModelState.configure_motors ModelState.override_source
  simp only [hmode, hvis]
  repeat' constructor

/-- With a silent decoder, no visible subgoal and nothing sensed, the four rings fall
silent: both strengths and the direction of the second inhibited ring are 0. -/
theorem silent_motors (L : Libm ℝ) (hL : IsReal L) (c : ModelState ℝ) (n : ℕ)
    (hshape : c.ChainShape n)
    (hstr : c.first_normalized_motor.override_strength = 0)
    (hb1 : c.first_border_motor_input = true) (hb2 : c.second_border_motor_input = true)
    (hS : ∀ v ∈ c.border_sensors, v = 0) :
    (c.update_motors L).first_normalized_motor.strength = 0 ∧
    (c.update_motors L).second_inhibited_motor.strength = 0 ∧
    (c.update_motors L).second_inhibited_motor.direction = 0 := by
  obtain ⟨⟨a1, a2, _, _, a5, a6⟩, ⟨b1, b2, _, b4⟩, ⟨c1, c2, _, _, c5, c6⟩,
    ⟨d1, d2, _, d4⟩⟩ := hshape
  have hns : ¬ 0 < c.first_normalized_motor.clear_inputs.chosen_strength L := by
    unfold MotorNetwork.chosen_strength
    show ¬ 0 < (if c.first_normalized_motor.override_active = true
      then c.first_normalized_motor.override_strength else _)
    rw [if_pos a6, hstr]
    exact lt_irrefl 0
  obtain ⟨e1, e2, _⟩ := zero_normalized L hL c.first_normalized_motor.clear_inputs a5 hns
  obtain ⟨f1, _, _⟩ := zero_inhibited L hL c.first_inhibited_motor
    (c.first_normalized_motor.update_and_commit L) c.border_sensors b4 (by rw [b2, b1]) e1 hS
  obtain ⟨g1, _⟩ := zero_relay L hL c.second_normalized_motor
    (c.first_inhibited_motor.update_and_commit_inhibited L
      (c.first_normalized_motor.update_and_commit L) true c.border_sensors)
    c5 c6 (by rw [c2, c1]) f1
  obtain ⟨_, i2, i3⟩ := zero_inhibited L hL c.second_inhibited_motor
    (c.second_normalized_motor.update_and_commit_from L
      (c.first_inhibited_motor.update_and_commit_inhibited L
        (c.first_normalized_motor.update_and_commit L) true c.border_sensors))
    c.border_sensors d4 (by rw [d2, d1]) g1 hS
  unfold ModelState.update_motors
  simp only [hb1, hb2]
  exact ⟨e2, i2, i3⟩

end ZeroRings

end GridPlaceNav

namespace GridPlaceNav

section SilentDecoder

theorem configure_shape {α : Type} [LinearOrderedField α] (L : Libm α) (m : ModelState α)
    (n : Nat) (h : m.ChainShape n) : (m.configure_motors L).ChainShape n := h

/-- The motor decision in decoder mode when the decoder is silent, no subgoal is visible
and nothing is sensed: the confidence is 0, the heading is kept, and the agent halts
only if the confidence threshold is positive. -/
theorem silent_steer (L : Libm ℝ) (hL : IsReal L) (M : ModelState ℝ) (n : ℕ)
    (hmode : M.input.motor_mode = MotorMode.grid_decoder_mode)
    (hvis : M.place_graph.output.subgoal_visible = false)
    (hfin : M.final_motor.strength = 0) (hshape : M.ChainShape n)
    (hS : ∀ v ∈ M.border_sensors, v = 0) :
    (M.steer L).confidence = 0 ∧
    (M.steer L).output.halted = decide ((0 : ℝ) < M.input.confidence_threshold) ∧
    (M.steer L).output.heading = M.input.heading ∧
    (M.steer L).second_inhibited_motor.direction = 0 ∧
    (M.steer L).second_inhibited_motor.strength = 0 := by
  obtain ⟨N, hN, _, s2, _, _, _, s6, s7, s8, _⟩ :=
    steer_spec L M (by rw [hmode]; decide)
  obtain ⟨_, _, _, n4, n5, _, n7, n8⟩ := navigate_spec L
    ({ M with output := { M.output with halted := true, heading := M.input.heading } }
      : ModelState ℝ)
  rw [← hN] at n4 n5 n7 n8
  obtain ⟨q1, _, _, _, q5, q6, q7⟩ := configure_decoder L
    ({ M with output := { M.output with halted := true, heading := M.input.heading } }
      : ModelState ℝ) hmode hvis
  obtain ⟨t1, t2, t3⟩ := silent_motors L hL
    (ModelState.configure_motors L
      ({ M with output := { M.output with halted := true, heading := M.input.heading } }
        : ModelState ℝ)) n (configure_shape L _ n hshape)
    (by rw [q1]; exact hfin) q5 q6 (by rw [q7]; exact hS)
  have hconf : N.confidence = 0 := by
    rw [n5]
    unfold ModelState.compute_confidence
    rw [t1]
    apply if_neg
    rintro ⟨h1, _⟩
    exact lt_irrefl 0 h1
  have hs : N.second_inhibited_motor.strength = 0 := by rw [n4, t2]
  refine ⟨by rw [s2, hconf], ?_, ?_, by rw [s6, n4, t3], by rw [s6, hs]⟩
  · rw [s7, n7, hconf]
  · rw [s8, n8, hs, if_neg (lt_irrefl 0)]

theorem scen_zero_threshold_shape :
    (scen_zero_threshold_model : ModelState ℝ).ChainShape 72 := by
  unfold ModelState.ChainShape scen_zero_threshold_model scen_main_model model_at_rest
    ring_at_rest Vector.mk
  simp

/-- The timestep of the counterexample to C14, for any library that computes the real
functions. -/
theorem zero_threshold_simulate (L : Libm ℝ) (hL : IsReal L) :
    ∃ m' : ModelState ℝ,
      (scen_zero_threshold_model : ModelState ℝ).simulate_timestep L
        [[3, 4]] (ring_at_rest 28 false false 1) = some m' ∧
      m'.output.halted = false ∧ m'.output.heading = 1 ∧
      m'.second_inhibited_motor.direction = 0 ∧ m'.output.speed = 20 := by
  obtain ⟨M, hM⟩ : ∃ M : ModelState ℝ, M = ModelState.decode (ring_at_rest 28 false false 1)
      { (scen_zero_threshold_model : ModelState ℝ) with
        place_graph := ((scen_zero_threshold_model : ModelState ℝ).place_graph.update
          { (scen_zero_threshold_model : ModelState ℝ).sheets with
            mec_moving_convolved := [[3, 4]] }).getD
            ((scen_zero_threshold_model : ModelState ℝ).place_graph, scen_sheets) |>.1,
        sheets := ((scen_zero_threshold_model : ModelState ℝ).place_graph.update
          { (scen_zero_threshold_model : ModelState ℝ).sheets with
            mec_moving_convolved := [[3, 4]] }).getD
            ((scen_zero_threshold_model : ModelState ℝ).place_graph, scen_sheets) |>.2 } :=
    ⟨_, rfl⟩
  have hsim : (scen_zero_threshold_model : ModelState ℝ).simulate_timestep L
      [[3, 4]] (ring_at_rest 28 false false 1) = some (M.steer L) := by
    rw [hM]
    rfl
  have hmode : M.input.motor_mode = MotorMode.grid_decoder_mode := by rw [hM]; rfl
  have hvis : M.place_graph.output.subgoal_visible = false := by rw [hM]; rfl
  have hfin : M.final_motor.strength = 0 := by rw [hM]; rfl
  have hshape : M.ChainShape 72 := by
    rw [hM]
    exact scen_zero_threshold_shape
  have hS : ∀ v ∈ M.border_sensors, v = 0 := by
    rw [hM]
    intro v hv
    exact List.eq_of_mem_replicate hv
  have hthr : M.input.confidence_threshold = 0 := by rw [hM]; rfl
  have hhead : M.input.heading = 1 := by rw [hM]; rfl
  obtain ⟨_, r2, r3, r4, _⟩ := silent_steer L hL M 72 hmode hvis hfin hshape hS
  refine ⟨_, hsim, ?_, by rw [r3, hhead], r4, ?_⟩
  · rw [r2, hthr]
    simp
  · obtain ⟨N, _, _, _, _, _, _, _, s7, _, s9⟩ := steer_spec L M (by rw [hmode]; decide)
    rw [s9, ← s7, r2, hthr]
    simp [FIXED_SPEED]

/-- Counterexample to C14 as written: the model of `main` in decoder mode with the
confidence threshold 0, input heading 1, a silent decoder, no subgoal and nothing
sensed. The timestep succeeds, the agent is not halted and moves at `FIXED_SPEED`, and
the output heading is the input heading 1, not the direction 0 of the second inhibited
ring. -/
theorem heading_kept_when_not_halted :
    ∃ m' : ModelState ℝ,
      (scen_zero_threshold_model : ModelState ℝ).simulate_timestep
        ⟨Real.cos, Real.sin, fun y x => Complex.arg ⟨x, y⟩, Real.exp, Real.sqrt, Real.pi⟩
        [[3, 4]] (ring_at_rest 28 false false 1) = some m' ∧
      m'.output.halted = false ∧ m'.output.heading = 1 ∧
      m'.second_inhibited_motor.direction = 0 ∧ m'.output.speed = 20 :=
  zero_threshold_simulate _ ⟨rfl, rfl, fun _ _ => rfl, rfl, rfl, rfl⟩

end SilentDecoder

end GridPlaceNav

namespace GridPlaceNav

section DecisionWitnesses

/-- Witness for C13: the timestep of the model of `main` in decoder mode, over the
reals. -/
theorem confidence_bounds_witness :
    ∃ m' : ModelState ℝ,
      (scen_zero_threshold_model : ModelState ℝ).simulate_timestep
        ⟨Real.cos, Real.sin, fun y x => Complex.arg ⟨x, y⟩, Real.exp, Real.sqrt, Real.pi⟩
        [[3, 4]] (ring_at_rest 28 false false 1) = some m' ∧
      0 ≤ m'.confidence :=
  ⟨_, rfl, (confidence_bounds
    ⟨Real.cos, Real.sin, fun y x => Complex.arg ⟨x, y⟩, Real.exp, Real.sqrt, Real.pi⟩
    Real.sqrt_nonneg (fun _ _ h => Real.sqrt_le_one.mpr h) [[3, 4]] (ring_at_rest 28 false false 1)
    scen_zero_threshold_model _ rfl (by decide)).2.1⟩

/-- Witness for C14: the timestep of the model of `main` with an obstacle straight
behind, over the reals. -/
theorem halted_heading_speed_witness :
    ∃ m' : ModelState ℝ,
      (scen_wall_model : ModelState ℝ).simulate_timestep
        ⟨Real.cos, Real.sin, fun y x => Complex.arg ⟨x, y⟩, Real.exp, Real.sqrt, Real.pi⟩
        [[3, 4]] (ring_at_rest 28 false false 1) = some m' ∧
      (m'.output.halted = true ↔ m'.confidence < 1 / 20) :=
  ⟨_, rfl, (halted_heading_speed
    ⟨Real.cos, Real.sin, fun y x => Complex.arg ⟨x, y⟩, Real.exp, Real.sqrt, Real.pi⟩
    Real.sqrt_nonneg (fun _ h => Real.sqrt_pos.mp h) [[3, 4]] (ring_at_rest 28 false false 1)
    scen_wall_model _ rfl (by decide)).1⟩

end DecisionWitnesses

end GridPlaceNav

namespace GridPlaceNav

section Separation

variable {α : Type} [LinearOrderedCommRing α]

/-- The test `sqrt a > r` is monotone in the radicand. -/
theorem sqrt_gt_mono (a b r : α) (hab : a ≤ b) (h : sqrt_gt a r = true) :
    sqrt_gt b r = true := by
  unfold sqrt_gt at h ⊢
  simp only [Bool.or_eq_true, decide_eq_true_eq] at h ⊢
  rcases h with h | h
  · exact Or.inl h
  · exact Or.inr (lt_of_lt_of_le h hab)

/-- The positions of the cells, which are written only when a cell is constructed. -/
theorem positions_of_ident (cells cells' : List (PlaceCell α))
    (h : cells'.map PlaceCell.ident = cells.map PlaceCell.ident) :
    cells'.map (fun c => (c.x, c.y)) = cells.map (fun c => (c.x, c.y)) := by
  have h2 := congrArg (List.map (fun t : Nat × α × α × List (Vector α) => (t.2.1, t.2.2.1))) h
  simpa [List.map_map, Function.comp, PlaceCell.ident] using h2

/-- When a cell is formed, every existing cell is more than `2 * place_cell_radius` away
from the position of the agent. -/
theorem should_form_far (g : PlaceGraph α)
    (h : should_form g (find_closest g.input.x g.input.y g.cells 0 none) = true)
    (c : PlaceCell α) (hc : c ∈ g.cells) :
    sqrt_gt (c.distance_sq g.input.x g.input.y) (2 * g.place_cell_radius) = true := by
  obtain ⟨j, hj⟩ := List.getElem?_of_mem hc
  rcases find_closest_spec g.input.x g.input.y g.cells with ⟨hnil, _⟩ | ⟨_, a, A, hfc, _, hmin, _⟩
  · rw [hnil] at hc
    cases hc
  · rw [hfc] at h
    unfold should_form at h
    simp only [Bool.and_eq_true] at h
    exact sqrt_gt_mono _ _ _ (hmin j c hj) h.2

/-- The separation of the cell positions, as a property of the list of positions. -/
theorem separated_after_update (g : PlaceGraph α) (model : Model α) (g' : PlaceGraph α)
    (model' : Model α) (h : g.update model = some (g', model'))
    (hsep : (g.cells.map (fun c => (c.x, c.y))).Pairwise
      (fun p q => sqrt_gt ((q.1 - p.1) ^ 2 + (q.2 - p.2) ^ 2) (2 * g.place_cell_radius) = true)) :
    (g'.cells.map (fun c => (c.x, c.y))).Pairwise
      (fun p q => sqrt_gt ((q.1 - p.1) ^ 2 + (q.2 - p.2) ^ 2)
        (2 * g'.place_cell_radius) = true) := by
  obtain ⟨g1, hform, hid, _, hrad⟩ := update_frame g model g' model' h
  rw [hrad, positions_of_ident _ _ hid]
  rcases form_cell_cases g model g1 g'.agent_cell hform with ⟨hsf, snap, _, hg1, _⟩ | ⟨_, hg1, _⟩
  · rw [hg1]
    simp only [List.map_append, List.map_cons, List.map_nil]
    rw [List.pairwise_append]
    refine ⟨hsep, List.pairwise_singleton _ _, ?_⟩
    intro p hp q hq
    rw [List.mem_singleton] at hq
    obtain ⟨c, hc, rfl⟩ := List.mem_map.mp hp
    rw [hq]
    have := should_form_far g hsf c hc
    unfold PlaceCell.distance_sq at this
    exact this
  · rw [hg1]
    exact hsep

theorem reachable_separated (g : PlaceGraph α) (h : Reachable g) :
    (g.cells.map (fun c => (c.x, c.y))).Pairwise
      (fun p q => sqrt_gt ((q.1 - p.1) ^ 2 + (q.2 - p.2) ^ 2)
        (2 * g.place_cell_radius) = true) := by
  induction h with
  | init r => exact List.Pairwise.nil
  | write_input g inp _ ih => exact ih
  | update g g' model model' _ hupd ih => exact separated_after_update g model g' model' hupd ih

/-- C29: in every graph built from the empty graph by updates with arbitrary inputs, any
two distinct place cells lie strictly more than `2 * place_cell_radius` apart, in the
comparison `distance > 2 * place_cell_radius` of the formation rule. -/
theorem place_fields_disjoint (g : PlaceGraph α) (h : Reachable g) (i j : Nat)
    (ci cj : PlaceCell α) (hi : g.cells[i]? = some ci) (hj : g.cells[j]? = some cj)
    (hij : i ≠ j) :
    sqrt_gt (ci.distance_sq cj.x cj.y) (2 * g.place_cell_radius) = true := by
  have hsep := reachable_separated g h
  rw [List.pairwise_iff_getElem] at hsep
  have hil : i < g.cells.length := (List.getElem?_eq_some.mp hi).1
  have hjl : j < g.cells.length := (List.getElem?_eq_some.mp hj).1
  have hci : g.cells[i] = ci := (List.getElem?_eq_some.mp hi).2
  have hcj : g.cells[j] = cj := (List.getElem?_eq_some.mp hj).2
  rcases lt_or_gt_of_ne hij with hlt | hgt
  · have := hsep i j (by simpa using hil) (by simpa using hjl) hlt
    simp only [List.getElem_map, hci, hcj] at this
    unfold PlaceCell.distance_sq
    exact this
  · have := hsep j i (by simpa using hjl) (by simpa using hil) hgt
    simp only [List.getElem_map, hci, hcj] at this
    unfold PlaceCell.distance_sq
    have e : (cj.x - ci.x) ^ 2 + (cj.y - ci.y) ^ 2 = (ci.x - cj.x) ^ 2 + (ci.y - cj.y) ^ 2 := by
      ring
    rw [e]
    exact this

/-- Witness for C29: the first two cells of the chain `A - B - C`, 20 apart with
radius 7. -/
theorem place_fields_disjoint_witness :
    Reachable scen_chain ∧
    sqrt_gt ((20 - 0 : ℤ) ^ 2 + (0 - 0) ^ 2) (2 * 7) = true :=
  ⟨reachable_scen 7 scen_chain_walk,
    place_fields_disjoint scen_chain (reachable_scen 7 scen_chain_walk) 0 1
      { index := 0, x := 0, y := 0, neighbors := [(1, 2)], bfs_predecessor := none,
        replay_source := none, grid_state := [[3, 4]] }
      { index := 1, x := 20, y := 0, neighbors := [(0, 2), (2, 2)], bfs_predecessor := none,
        replay_source := none, grid_state := [[3, 4]] }
      (by decide) (by decide) (by decide)⟩

end Separation

end GridPlaceNav

namespace GridPlaceNav

section ReplayEpisode

variable {α : Type} [LinearOrderedCommRing α]

theorem walk_zero_eq {N : Nat → List (Nat × Int)} {a b : Nat} (h : Walk N a b 0) : b = a := by
  cases h
  rfl

/-- One propagation step from hop distance `n + 1`: the replay cell moves to a cell at
hop distance `n`, and the flag `replay_terminated` tells whether that cell is the root. -/
theorem replay_hop (g : PlaceGraph α) (model : Model α) (g' : PlaceGraph α)
    (model' : Model α) (hreach : Reachable g) (h : g.update model = some (g', model'))
    (hprop : g.input.propagate_replay_towards ≠ ReplayMode.maintain_current_node)
    (hreset : g.input.reset_replay_to = ReplayMode.maintain_current_node)
    (root r n : Nat) (hroot : bfs_root g g' = some root) (hr : g.replay_cell = some r)
    (hd : HopDist (nbrs g'.cells) root r (n + 1)) :
    ∃ p, g'.replay_cell = some p ∧ HopDist (nbrs g'.cells) root p n ∧
      g'.output.replay_terminated = decide (n = 0) ∧ (n = 0 → p = root) := by
  obtain ⟨root', old, D, hroot', hold, hinv, hcase⟩ :=
    update_propagate_search g model g' model' hreach h hprop
  have e1 : root' = root := by
    rw [hroot] at hroot'
    exact (Option.some.inj hroot').symm
  subst e1
  have e2 : old = r := by
    unfold old_replay_cell at hold
    rw [if_neg (fun hh => hh hreset), hr] at hold
    exact (Option.some.inj hold).symm
  subst e2
  have hmarked : pred_of g'.cells old ≠ none := (hinv.marked_iff old).mpr ⟨n + 1, hd.1⟩
  have hne : old ≠ root' := by
    intro e
    rw [e] at hd
    have := HopDist.unique hd (hopDist_self _ root')
    omega
  rcases hcase with ⟨hnone, _⟩ | ⟨p, hp, hrep, hterm, _⟩
  · exact absurd hnone hmarked
  · obtain ⟨hpm, _, hD⟩ := hinv.tree old p hp hne
    have hDold : D old = n + 1 := HopDist.unique (hinv.dist old hmarked) hd
    have hDp : D p = n := by omega
    have hdp : HopDist (nbrs g'.cells) root' p n := by
      have := hinv.dist p hpm
      rwa [hDp] at this
    have hiff : p = root' ↔ n = 0 := by
      constructor
      · intro e
        rw [e] at hdp
        exact HopDist.unique hdp (hopDist_self _ root')
      · intro e
        rw [e] at hdp
        exact walk_zero_eq hdp.1
    refine ⟨p, hrep, hdp, ?_, hiff.mpr⟩
    rw [hterm]
    have hself := hinv.self_pred p
    by_cases e : n = 0
    · have : pred_of g'.cells p = some p := hself.mpr (hiff.mpr e)
      simp [e, this]
    · have : ¬ (some p = pred_of g'.cells p) := fun hh => e (hiff.mp (hself.mp hh.symm))
      simp [e, this]

/-- The state of a replay episode after `k` of its `d` propagation steps: the graph is
reachable and the replay cell is at hop distance `d - k` from the root. -/
theorem replay_episode_progress (G : Nat → PlaceGraph α) (inp : Nat → GraphInput α)
    (M M' : Nat → Model α) (N : Nat → List (Nat × Int)) (root r0 d : Nat)
    (hreach : Reachable (G 0))
    (hstep : ∀ k, k < d → (G k).step (inp k) (M k) = some (G (k + 1), M' k))
    (hprop : ∀ k, k < d →
      (inp k).propagate_replay_towards ≠ ReplayMode.maintain_current_node)
    (hreset : ∀ k, k < d → (inp k).reset_replay_to = ReplayMode.maintain_current_node)
    (hroot : ∀ k, k < d → bfs_root { G k with input := inp k } (G (k + 1)) = some root)
    (hedges : ∀ k, k < d → nbrs (G (k + 1)).cells = N)
    (hstart : (G 0).replay_cell = some r0) (hd : HopDist N root r0 d) :
    ∀ k, k ≤ d → Reachable (G k) ∧ ∃ r, (G k).replay_cell = some r ∧
      HopDist N root r (d - k) ∧ (0 < k → k = d → r = root) ∧
      (0 < k → (G k).output.replay_terminated = decide (k = d)) := by
  intro k
  induction k with
  | zero =>
    intro _
    exact ⟨hreach, r0, hstart, hd, fun h => absurd h (lt_irrefl 0),
      fun h => absurd h (lt_irrefl 0)⟩
  | succ k ih =>
    intro hk
    obtain ⟨hrk, r, hr, hdr, _⟩ := ih (by omega)
    have hlt : k < d := by omega
    have hupd : PlaceGraph.update { G k with input := inp k } (M k)
        = some (G (k + 1), M' k) := hstep k hlt
    have hreach' : Reachable { G k with input := inp k } :=
      Reachable.write_input (G k) (inp k) hrk
    have hdist : HopDist (nbrs (G (k + 1)).cells) root r ((d - (k + 1)) + 1) := by
      rw [hedges k hlt]
      have e : d - (k + 1) + 1 = d - k := by omega
      rw [e]
      exact hdr
    obtain ⟨p, hp, hdp, hterm, hz⟩ := replay_hop { G k with input := inp k } (M k) (G (k + 1))
      (M' k) hreach' hupd (hprop k hlt) (hreset k hlt) root r (d - (k + 1)) (hroot k hlt) hr
      hdist
    refine ⟨Reachable.update _ _ _ _ hreach' hupd, p, hp, ?_, ?_, ?_⟩
    · rw [← hedges k hlt]
      exact hdp
    · intro _ e
      exact hz (by omega)
    · intro _
      rw [hterm]
      by_cases e : k + 1 = d
      · have : d - (k + 1) = 0 := by omega
        simp [e]
      · have : d - (k + 1) ≠ 0 := by omega
        simp [e, this]

/-- C30: a replay episode from hop distance `d` ends after exactly `d` propagation steps.
For a run of `d` updates that propagate the replay (without resetting it) towards the same
root over the same edges, starting with the replay cell at hop distance `d >= 1` from the
root, the flag `replay_terminated` is false after each of the first `d - 1` updates and
true after update `d`, and the replay cell is then the root. -/
theorem replay_episode_length (G : Nat → PlaceGraph α) (inp : Nat → GraphInput α)
    (M M' : Nat → Model α) (N : Nat → List (Nat × Int)) (root r0 d : Nat)
    (hreach : Reachable (G 0))
    (hstep : ∀ k, k < d → (G k).step (inp k) (M k) = some (G (k + 1), M' k))
    (hprop : ∀ k, k < d →
      (inp k).propagate_replay_towards ≠ ReplayMode.maintain_current_node)
    (hreset : ∀ k, k < d → (inp k).reset_replay_to = ReplayMode.maintain_current_node)
    (hroot : ∀ k, k < d → bfs_root { G k with input := inp k } (G (k + 1)) = some root)
    (hedges : ∀ k, k < d → nbrs (G (k + 1)).cells = N)
    (hstart : (G 0).replay_cell = some r0) (hd : HopDist N root r0 d) (hpos : 1 ≤ d) :
    (∀ k, 1 ≤ k → k < d → (G k).output.replay_terminated = false) ∧
    (G d).output.replay_terminated = true ∧ (G d).replay_cell = some root := by
  have key := replay_episode_progress G inp M M' N root r0 d hreach hstep hprop hreset hroot
    hedges hstart hd
  refine ⟨?_, ?_, ?_⟩
  · intro k hk1 hkd
    obtain ⟨_, r, _, _, _, hterm⟩ := key k (by omega)
    rw [hterm (by omega)]
    have : k ≠ d := by omega
    simp [this]
  · obtain ⟨_, r, _, _, _, hterm⟩ := key d (le_refl d)
    rw [hterm (by omega)]
    simp
  · obtain ⟨_, r, hr, _, hz, _⟩ := key d (le_refl d)
    rw [hr, hz (by omega) rfl]

end ReplayEpisode

end GridPlaceNav

namespace GridPlaceNav

section ReplayEpisodeWitness

/-- Witness for C30: on the chain `A - B - C` with the agent at `A` and the replay reset
to the goal `C`, two hops away, the first propagation does not terminate the replay and
the second one does, with the replay cell at `A`. -/
theorem replay_episode_length_witness :
    HopDist (nbrs scen_chain.cells) 0 2 2 ∧
    (scen_episode 0).replay_cell = some 2 ∧
    (∀ k, 1 ≤ k → k < 2 → (scen_episode k).output.replay_terminated = false) ∧
    (scen_episode 2).output.replay_terminated = true ∧
    (scen_episode 2).replay_cell = some 0 := by
  have hd : HopDist (nbrs scen_chain.cells) 0 2 2 := by
    refine ⟨Walk.snoc 1 2 1 2 (Walk.snoc 0 1 0 2 Walk.nil (by decide)) (by decide), ?_⟩
    intro n hw
    cases hw with
    | snoc b c m s hw1 he =>
      cases hw1 with
      | nil =>
        exfalso
        have e : nbrs scen_chain.cells 0 = [(1, 2)] := by decide
        rw [e] at he
        simp at he
      | snoc b' c' m' s' hw2 he' => omega
  refine ⟨hd, by decide, ?_⟩
  exact replay_episode_length scen_episode (fun _ => scen_propagate) (fun _ => scen_model)
    (fun _ => scen_model_replayed) (nbrs scen_chain.cells) 0 2 2
    (reachable_scen 7 _)
    (by
      intro k hk
      interval_cases k <;> decide)
    (fun _ _ => by
      show scen_propagate.propagate_replay_towards ≠ ReplayMode.maintain_current_node
      decide)
    (fun _ _ => by
      show scen_propagate.reset_replay_to = ReplayMode.maintain_current_node
      decide)
    (by
      intro k hk
      interval_cases k <;> decide)
    (by
      intro k hk
      interval_cases k <;> exact nbrs_eq_of_map _ _ (by decide))
    (by decide) hd (by decide)

end ReplayEpisodeWitness

end GridPlaceNav

namespace GridPlaceNav

section UpdateTotal

variable {α : Type} [LinearOrderedCommRing α]

theorem mapM_option_total {β γ : Type} (f : β → Option γ) :
    ∀ (l : List β), (∀ b ∈ l, ∃ c, f b = some c) → ∃ r, l.mapM f = some r := by
  intro l
  induction l with
  | nil =>
    intro _
    exact ⟨[], rfl⟩
  | cons b l ih =>
    intro h
    obtain ⟨c, hc⟩ := h b (List.mem_cons_self b l)
    obtain ⟨r, hr⟩ := ih (fun b' hb' => h b' (List.mem_cons_of_mem b hb'))
    refine ⟨c :: r, ?_⟩
    rw [List.mapM_cons, hc, hr]
    rfl

/-- The capture succeeds when the model has a moving convolved sheet for each module. -/
theorem capture_total (model : Model α)
    (h : model.module_count ≤ model.mec_moving_convolved.length) :
    ∃ snap, capture_grid_state_from_model model = some snap := by
  unfold capture_grid_state_from_model
  apply mapM_option_total
  intro i hi
  have hi' : i < model.mec_moving_convolved.length := by
    have := List.mem_range.mp hi
    omega
  refine ⟨model.mec_moving_convolved[i], ?_⟩
  rw [List.getElem?_eq_getElem hi']
  exact copy_from_eq _ _ (by simp [Vector.mk])

theorem cell_within_some (cells : List (PlaceCell α)) (cell : Option Nat) (x y bound : α)
    (b : Bool) (h : cell_within cells cell x y bound = some b) :
    ∀ w, cell = some w → w < cells.length := by
  intro w hw
  subst hw
  unfold cell_within at h
  obtain ⟨wc, hwc, _⟩ := Option.map_eq_some'.mp h
  exact (List.getElem?_eq_some.mp hwc).1

theorem cell_within_total (cells : List (PlaceCell α)) (cell : Option Nat) (x y bound : α)
    (h : ∀ w, cell = some w → w < cells.length) :
    ∃ b, cell_within cells cell x y bound = some b ∧ (b = true → cell ≠ none) := by
  cases cell with
  | none => exact ⟨false, rfl, fun hb => absurd hb (by decide)⟩
  | some w =>
    have hw := h w rfl
    refine ⟨sqrt_le (cells[w].distance_sq x y) bound, ?_, fun _ => by simp⟩
    unfold cell_within
    simp only
    rw [List.getElem?_eq_getElem hw]
    rfl

/-- The number of cells after a successful update: one more if a cell was formed. -/
theorem update_length (g : PlaceGraph α) (model : Model α) (g' : PlaceGraph α)
    (model' : Model α) (h : g.update model = some (g', model')) :
    g.cells.length ≤ g'.cells.length ∧
    ∀ a, g'.agent_cell = some a → a < g'.cells.length := by
  obtain ⟨g1, hform, hid, _, _⟩ := update_frame g model g' model' h
  have hlen : g'.cells.length = g1.cells.length := by
    have := congrArg List.length hid
    simpa using this
  rcases form_cell_cases g model g1 g'.agent_cell hform with
    ⟨_, snap, _, hg1, hcl⟩ | ⟨_, hg1, hcl⟩
  · rw [hlen, hg1]
    simp only [List.length_append, List.length_singleton]
    refine ⟨by omega, ?_⟩
    intro a ha
    rw [hcl] at ha
    have := Option.some.inj ha
    omega
  · rw [hlen, hg1]
    refine ⟨le_refl _, ?_⟩
    intro a ha
    rw [hcl] at ha
    rcases find_closest_spec g.input.x g.input.y g.cells with ⟨_, hnone⟩ | ⟨_, a', A, hfc, hA, _⟩
    · rw [hnone] at ha
      cases ha
    · rw [hfc] at ha
      simp only [Option.map_some', Option.some.injEq] at ha
      subst ha
      exact (List.getElem?_eq_some.mp hA).1

/-- In every graph built from the empty graph, the pointer members are null or refer to
existing cells. -/
theorem reachable_ptr (g : PlaceGraph α) (h : Reachable g) : g.PtrInv := by
  induction h with
  | init r =>
    refine ⟨?_, ?_, ?_⟩ <;> intro a ha <;> cases ha
  | write_input g inp _ ih => exact ih
  | update g g' model model' _ hupd _ =>
    obtain ⟨g1, cl, g2, g3, g4, g5, _, _, _, _, _, _, hout⟩ :=
      update_phases g model g' model' hupd
    obtain ⟨h1, h2, _, _⟩ := set_outputs_spec g5 g' hout
    have hg' := (set_outputs_frame g5 g' hout).1
    have hc : g'.cells = g5.cells := by rw [hg']
    have hrw : g'.reward_cell = g5.reward_cell := by rw [hg']
    have hrp : g'.replay_cell = g5.replay_cell := by rw [hg']
    refine ⟨(update_length g model g' model' hupd).2, ?_, ?_⟩
    · rw [hc, hrw]
      exact cell_within_some _ _ _ _ _ _ h1
    · rw [hc, hrp]
      exact cell_within_some _ _ _ _ _ _ h2

/-- Lines 70-86 never fail when the model has a moving convolved sheet for each
module. -/
theorem form_cell_total (g : PlaceGraph α) (model : Model α)
    (hm : model.module_count ≤ model.mec_moving_convolved.length) :
    ∃ g1 cl, g.form_cell model = some (g1, cl) ∧
      g.cells.length ≤ g1.cells.length ∧
      (∀ c, cl = some c → c < g1.cells.length) ∧
      ((g.input.form_place_cells = true ∨ g.cells ≠ []) → cl ≠ none) ∧
      g1.agent_cell = g.agent_cell ∧ g1.reward_cell = g.reward_cell ∧
      g1.replay_cell = g.replay_cell ∧ g1.input = g.input := by
  unfold PlaceGraph.form_cell
  simp only
  by_cases hsf : should_form g (find_closest g.input.x g.input.y g.cells 0 none) = true
  · obtain ⟨snap, hsnap⟩ := capture_total model hm
    rw [if_pos hsf, hsnap]
    refine ⟨_, _, rfl, ?_, ?_, ?_, rfl, rfl, rfl, rfl⟩
    · simp
    · intro c hc
      have := Option.some.inj hc
      simp only [List.length_append, List.length_singleton]
      omega
    · intro _
      simp
  · rw [if_neg hsf]
    refine ⟨_, _, rfl, le_refl _, ?_, ?_, rfl, rfl, rfl, rfl⟩
    · intro c hc
      rcases find_closest_spec g.input.x g.input.y g.cells with
        ⟨_, hnone⟩ | ⟨_, a', A, hfc, hA, _⟩
      · rw [hnone] at hc
        cases hc
      · rw [hfc] at hc
        simp only [Option.map_some', Option.some.injEq] at hc
        subst hc
        exact (List.getElem?_eq_some.mp hA).1
    · intro hor
      rcases find_closest_spec g.input.x g.input.y g.cells with
        ⟨hnil, hnone⟩ | ⟨_, a', A, hfc, _⟩
      · rcases hor with hf | hne
        · exfalso
          apply hsf
          rw [hnone]
          unfold should_form
          simp [hf]
        · exact absurd hnil hne
      · rw [hfc]
        simp

/-- Lines 91-107 never fail when the previous agent cell exists and `closest_cell` is an
existing cell (or null while there is no previous agent cell). -/
theorem connect_total (g : PlaceGraph α) (cl : Option Nat)
    (ha : ∀ a, g.agent_cell = some a → a < g.cells.length)
    (hcl : ∀ c, cl = some c → c < g.cells.length)
    (hne : g.agent_cell ≠ none → cl ≠ none) :
    ∃ g2, g.connect cl = some g2 := by
  unfold PlaceGraph.connect
  rcases Option.eq_none_or_eq_some g.agent_cell with hag | ⟨a, hag⟩
  · rw [hag]
    exact ⟨_, rfl⟩
  · rw [hag]
    simp only
    by_cases hsame : some a = cl
    · rw [if_pos hsame]
      exact ⟨_, rfl⟩
    · rw [if_neg hsame]
      rcases Option.eq_none_or_eq_some cl with hn | ⟨c, hc⟩
      · exact absurd hn (hne (by rw [hag]; simp))
      · subst hc
        have hcl' := hcl c rfl
        have ha' := ha a hag
        simp only [Option.bind_eq_bind, Option.some_bind]
        rw [List.getElem?_eq_getElem hcl']
        simp only [Option.some_bind]
        by_cases hconn : (g.cells[c].neighbors.any (fun p => decide (p.1 = a))) = true
        · rw [if_pos hconn]
          exact ⟨_, rfl⟩
        · rw [if_neg hconn]
          have hlen : a < (g.cells.set c
              { g.cells[c] with neighbors :=
                  g.cells[c].neighbors ++ [(a, PLACE_CONNECTION_STRENGTH)] }).length := by
            simpa using ha'
          rw [List.getElem?_eq_getElem hlen]
          exact ⟨_, rfl⟩

/-- The output phase never fails when the reward cell and the replay cell exist. -/
theorem set_outputs_total (g : PlaceGraph α)
    (hw : ∀ w, g.reward_cell = some w → w < g.cells.length)
    (hr : ∀ r, g.replay_cell = some r → r < g.cells.length) :
    ∃ g', g.set_outputs = some g' := by
  unfold PlaceGraph.set_outputs
  obtain ⟨b1, h1, _⟩ :=
    cell_within_total g.cells g.reward_cell g.input.x g.input.y g.place_cell_radius hw
  obtain ⟨b2, h2, _⟩ :=
    cell_within_total g.cells g.replay_cell g.input.x g.input.y g.place_cell_radius hr
  obtain ⟨b3, h3, hb3⟩ :=
    cell_within_total g.cells g.replay_cell g.input.x g.input.y (3 * g.place_cell_radius) hr
  have h4 : ∃ d, subgoal_direction_of g.cells g.replay_cell b3 g.input.x g.input.y
      = some d := by
    unfold subgoal_direction_of
    cases b3 with
    | false => exact ⟨none, rfl⟩
    | true =>
      rcases Option.eq_none_or_eq_some g.replay_cell with hn | ⟨r, hrr⟩
      · exact absurd hn (hb3 rfl)
      · rw [hrr]
        simp only [if_true]
        rw [List.getElem?_eq_getElem (hr r hrr)]
        exact ⟨_, rfl⟩
  obtain ⟨d, h4⟩ := h4
  simp only [Option.bind_eq_bind]
  rw [h1, Option.some_bind, h2, Option.some_bind, h3, Option.some_bind, h4, Option.some_bind]
  exact ⟨_, rfl⟩

/-- An update without weakening and without replay never fails on a graph built from the
empty graph, when the model has a moving convolved sheet for each module and a request
to save the reward comes with a positive reward id and with formation enabled: no
assertion is violated and no null or dangling pointer is dereferenced. The model is
returned unchanged. -/
theorem update_plain_total (g : PlaceGraph α) (model : Model α) (hreach : Reachable g)
    (hm : model.module_count ≤ model.mec_moving_convolved.length)
    (hweak : g.input.weaken_synapse = false)
    (hreset : g.input.reset_replay_to = ReplayMode.maintain_current_node)
    (hprop : g.input.propagate_replay_towards = ReplayMode.maintain_current_node)
    (hsave : g.input.save_reward = true →
      0 < g.input.reward_id ∧ g.input.form_place_cells = true) :
    ∃ g', g.update model = some (g', model) := by
  obtain ⟨hpa, hpw, hpr⟩ := reachable_ptr g hreach
  obtain ⟨g1, cl, hform, hlen1, hcl, hclne, hag1, hrw1, hrp1, hin1⟩ := form_cell_total g model hm
  have hne : g1.agent_cell ≠ none → cl ≠ none := by
    intro hag
    apply hclne
    right
    rw [hag1] at hag
    obtain ⟨a, ha⟩ := Option.ne_none_iff_exists'.mp hag
    have := hpa a ha
    intro hnil
    rw [hnil] at this
    exact absurd this (by simp)
  obtain ⟨g2, hconn⟩ := connect_total g1 cl
    (fun a ha => lt_of_lt_of_le (hpa a (by rw [← hag1]; exact ha)) hlen1) hcl hne
  obtain ⟨hg2, _, hmap2⟩ := connect_spec g1 cl g2 hconn
  have hlen2 : g2.cells.length = g1.cells.length := by
    have := congrArg List.length (hmap2 (fun _ => ()) (fun _ _ => rfl))
    simpa using this
  have hin2 : g2.input = g.input := by rw [hg2, ← hin1]
  have hag2 : g2.agent_cell = cl := by rw [hg2]
  have hrw2 : g2.reward_cell = g.reward_cell := by rw [hg2, ← hrw1]
  have hrp2 : g2.replay_cell = g.replay_cell := by rw [hg2, ← hrp1]
  have hsave2 : ∃ g3, g2.save_reward = some g3 := by
    unfold PlaceGraph.save_reward
    rw [hin2]
    by_cases hs : g.input.save_reward = true
    · obtain ⟨hid, hf⟩ := hsave hs
      rw [if_pos hs, if_pos hid, hag2]
      obtain ⟨c, hc⟩ := Option.ne_none_iff_exists'.mp (hclne (Or.inl hf))
      rw [hc]
      exact ⟨_, rfl⟩
    · rw [if_neg hs]
      exact ⟨_, rfl⟩
  obtain ⟨g3, hsv⟩ := hsave2
  have hg3 := (save_reward_spec g2 g3 hsv).1
  have hweak3 : g3.weaken = some g3 := by
    unfold PlaceGraph.weaken
    have : g3.input.weaken_synapse = false := by rw [hg3, hin2, hweak]
    rw [this]
    rfl
  have hreplay : g3.replay model
      = some ({ g3 with output := { g3.output with replay_terminated := false } }, model) := by
    unfold PlaceGraph.replay
    have e1 : g3.input.reset_replay_to = ReplayMode.maintain_current_node := by
      rw [hg3, hin2, hreset]
    have e2 : g3.input.propagate_replay_towards = ReplayMode.maintain_current_node := by
      rw [hg3, hin2, hprop]
    simp only [e1, e2, ne_eq, not_true_eq_false, or_self, if_false]
  have hc3 : g3.cells = g2.cells := by rw [hg3]
  obtain ⟨g6, hout⟩ := set_outputs_total
    { g3 with output := { g3.output with replay_terminated := false } }
    (by
      intro w hw
      have hw' : g3.reward_cell = some w := hw
      show w < g3.cells.length
      rw [hc3, hlen2]
      have : g.reward_cell = some w := by rw [← hrw2, ← hw', hg3]
      exact lt_of_lt_of_le (hpw w this) hlen1)
    (by
      intro r hr
      have hr' : g3.replay_cell = some r := hr
      show r < g3.cells.length
      rw [hc3, hlen2]
      have : g.replay_cell = some r := by rw [← hrp2, ← hr', hg3]
      exact lt_of_lt_of_le (hpr r this) hlen1)
  refine ⟨g6, ?_⟩
  unfold PlaceGraph.update PlaceGraph.pre_replay
  simp only [Option.bind_eq_bind]
  rw [hform]
  simp only [Option.some_bind]
  rw [hconn]
  simp only [Option.some_bind]
  rw [hsv]
  simp only [Option.some_bind]
  rw [hweak3]
  simp only [Option.some_bind]
  rw [hreplay]
  simp only [Option.some_bind]
  rw [hout]
  rfl

end UpdateTotal

end GridPlaceNav

namespace GridPlaceNav

section RewardGraph

variable {α : Type} [LinearOrderedCommRing α]

theorem sqrt_le_of_not_gt (a r : α) (h : sqrt_gt a r = false) : sqrt_le a r = true := by
  unfold sqrt_gt at h
  unfold sqrt_le
  simp only [Bool.or_eq_false_iff, decide_eq_false_iff_not, not_lt] at h
  simp only [Bool.and_eq_true, decide_eq_true_eq]
  exact h

theorem map_get_map_set_same (m : List (Int × Nat)) (key : Int) (value : Nat) :
    map_get (map_set m key value) key = some value := by
  unfold map_get map_set
  simp

theorem map_get_map_set_other (m : List (Int × Nat)) (key key' : Int) (value : Nat)
    (h : key' ≠ key) : map_get (map_set m key value) key' = map_get m key' := by
  unfold map_get map_set
  rw [List.find?_cons_of_neg _ (by simpa using fun e => h e.symm)]
  congr 1
  induction m with
  | nil => rfl
  | cons p m ih =>
    by_cases hp : p.1 = key
    · have hp' : ¬ p.1 = key' := fun e => h (e.symm.trans hp)
      rw [List.filter_cons_of_neg (by simpa using hp), List.find?_cons_of_neg _ (by simpa using hp')]
      exact ih
    · rw [List.filter_cons_of_pos (by simpa using hp)]
      by_cases hp' : p.1 = key'
      · rw [List.find?_cons_of_pos _ (by simpa using hp'),
          List.find?_cons_of_pos _ (by simpa using hp')]
      · rw [List.find?_cons_of_neg _ (by simpa using hp'),
          List.find?_cons_of_neg _ (by simpa using hp')]
        exact ih

/-- The effect of an update with `save_reward` and `form_place_cells` set: the new agent
cell exists, lies within `2 * place_cell_radius` of the position, and is stored as the
location of the reward. -/
theorem update_save_reward (g : PlaceGraph α) (model : Model α) (g' : PlaceGraph α)
    (model' : Model α) (hupd : g.update model = some (g', model'))
    (hsave : g.input.save_reward = true) (hform : g.input.form_place_cells = true)
    (hrad : 0 ≤ g.place_cell_radius) :
    ∃ c C, g'.agent_cell = some c ∧ g'.cells[c]? = some C ∧
      g'.reward_locations = map_set g.reward_locations g.input.reward_id c ∧
      sqrt_le (C.distance_sq g.input.x g.input.y) (2 * g.place_cell_radius) = true := by
  obtain ⟨g1, cl, g2, g3, g4, g5, hform1, hconn, hsv, hwk, _, hrep, hout⟩ :=
    update_phases g model g' model' hupd
  obtain ⟨g1', hform1', hid, _, _⟩ := update_frame g model g' model' hupd
  have hg1 := form_cell_fields g model g1 cl hform1
  have hg2 := (connect_spec g1 cl g2 hconn).1
  obtain ⟨hg3, _, hsv3⟩ := save_reward_spec g2 g3 hsv
  have hg4 := (weaken_spec g3 g4 hwk).1
  have hg5 := (replay_frame g4 g5 model model' hrep).1
  have hg6 := (set_outputs_frame g5 g' hout).1
  have hin2 : g2.input = g.input := by rw [hg2, hg1]
  have hrl2 : g2.reward_locations = g.reward_locations := by rw [hg2, hg1]
  have hag : g'.agent_cell = g2.agent_cell := by rw [hg6, hg5, hg4, hg3]
  have hrl : g'.reward_locations = g3.reward_locations := by rw [hg6, hg5, hg4]
  obtain ⟨_, a, ha, hloc⟩ := hsv3 (by rw [hin2]; exact hsave)
  rw [hin2, hrl2] at hloc
  have hcl : g'.agent_cell = some a := by rw [hag, ha]
  have hpos := positions_of_ident _ _ hid
  rw [hcl] at hform1'
  rcases form_cell_cases g model g1' (some a) hform1' with
    ⟨_, snap, _, hg1c, hclc⟩ | ⟨hsf, hg1c, hclc⟩
  · have ha' : a = g.cells.length := Option.some.inj hclc
    have hp : (g'.cells.map (fun c => (c.x, c.y)))[a]? = some (g.input.x, g.input.y) := by
      rw [hpos, hg1c, ha']
      simp
    rw [List.getElem?_map] at hp
    obtain ⟨C, hC, hxy⟩ := Option.map_eq_some'.mp hp
    refine ⟨a, C, hcl, hC, by rw [hrl, hloc], ?_⟩
    have hx : C.x = g.input.x := congrArg Prod.fst hxy
    have hy : C.y = g.input.y := congrArg Prod.snd hxy
    unfold PlaceCell.distance_sq sqrt_le
    rw [hx, hy]
    simp only [sub_self, ne_eq, OfNat.ofNat_ne_zero, not_false_eq_true, zero_pow, add_zero,
      Bool.and_eq_true, decide_eq_true_eq]
    exact ⟨by linarith, sq_nonneg _⟩
  · rcases find_closest_spec g.input.x g.input.y g.cells with
      ⟨_, hnone⟩ | ⟨_, a', A, hfc, hA, _⟩
    · rw [hnone] at hclc
      cases hclc
    · rw [hfc] at hclc hsf
      simp only [Option.map_some', Option.some.injEq] at hclc
      subst hclc
      have hp : (g'.cells.map (fun c => (c.x, c.y)))[a]? = some (A.x, A.y) := by
        rw [hpos, hg1c, List.getElem?_map, hA]
        rfl
      rw [List.getElem?_map] at hp
      obtain ⟨C, hC, hxy⟩ := Option.map_eq_some'.mp hp
      refine ⟨a, C, hcl, hC, by rw [hrl, hloc], ?_⟩
      have hx : C.x = A.x := congrArg Prod.fst hxy
      have hy : C.y = A.y := congrArg Prod.snd hxy
      have hd : C.distance_sq g.input.x g.input.y = A.distance_sq g.input.x g.input.y := by
        unfold PlaceCell.distance_sq
        rw [hx, hy]
      rw [hd]
      apply sqrt_le_of_not_gt
      unfold should_form at hsf
      rw [hform] at hsf
      simpa using hsf

end RewardGraph

section RewardAgent

variable {α : Type} [LinearOrderedField α]

theorem preset_handlers (b : Agent α) (hb : IsPreset b) :
    b.state_impl State.no_state = none ∧
    b.state_impl State.forced_move_state = some StateImplementation.ForcedMoveState ∧
    b.state_impl State.receive_reward_state = some StateImplementation.ReceiveRewardState := by
  cases hb <;> exact ⟨rfl, rfl, rfl⟩

theorem steer_place_graph (L : Libm α) (M : ModelState α) :
    (M.steer L).place_graph = M.place_graph := by
  unfold ModelState.steer
  simp only
  split <;> rfl

theorem decode_place_graph (dc : MotorNetwork α) (M : ModelState α) :
    (ModelState.decode dc M).place_graph = M.place_graph ∧
    (ModelState.decode dc M).input = M.input := by
  unfold ModelState.decode
  split <;> exact ⟨rfl, rfl⟩

/-- C21. For every agent preset (the deflect preset included), every position and every
positive reward id, one `Agent::execute` in the state `receive_reward` returns, that is,
neither the handler assertion nor an assertion or pointer dereference of
`PlaceGraph::update` fails, when the place graph was built from the empty graph, its
radius is not negative and the model has a moving convolved sheet for each module.
Afterwards the agent cell exists and lies within `2 * place_cell_radius` of the position,
`reward_locations[reward_id]` is the agent cell, the entry of every other reward id is
unchanged, the output is halted with speed 0, and the agent is in `no_state`. -/
theorem receive_reward_execute (L : Libm α) (u n : α) (mv : List (Vector α))
    (dc : MotorNetwork α) (a b : Agent α) (hb : IsPreset b)
    (himpl : a.state_impl = b.state_impl)
    (hstate : a.active_state = State.receive_reward_state)
    (hid : 0 < a.input.reward_id)
    (hreach : Reachable a.model.place_graph)
    (hrad : 0 ≤ a.model.place_graph.place_cell_radius)
    (hmv : a.model.sheets.module_count ≤ mv.length) :
    ∃ a', a.execute L u n mv dc = some a' ∧
      (∃ c C, a'.model.place_graph.agent_cell = some c ∧
        a'.model.place_graph.cells[c]? = some C ∧
        map_get a'.model.place_graph.reward_locations a.input.reward_id = some c ∧
        sqrt_le (C.distance_sq a.input.x a.input.y)
          (2 * a.model.place_graph.place_cell_radius) = true) ∧
      (∀ id, id ≠ a.input.reward_id →
        map_get a'.model.place_graph.reward_locations id
          = map_get a.model.place_graph.reward_locations id) ∧
      a'.output.halted = true ∧ a'.output.speed = 0 ∧
      a'.active_state = State.no_state := by
  obtain ⟨hno, _, hrr⟩ := preset_handlers b hb
  rw [← himpl] at hno hrr
  have hreach' : Reachable (ReceiveRewardState.hook a.prepare).model.place_graph :=
    Reachable.write_input a.model.place_graph _ hreach
  obtain ⟨g', hupd⟩ := update_plain_total (ReceiveRewardState.hook a.prepare).model.place_graph
    { a.model.sheets with mec_moving_convolved := mv } hreach' hmv rfl rfl rfl
    (fun _ => ⟨hid, rfl⟩)
  obtain ⟨c, C, hc, hC, hloc, hwithin⟩ := update_save_reward _ _ g' _ hupd rfl rfl hrad
  have hexec : a.execute L u n mv dc = some (Agent.finish
      { ReceiveRewardState.hook a.prepare with
        model := ModelState.steer L (ModelState.decode dc
          { (ReceiveRewardState.hook a.prepare).model with
            place_graph := g',
            sheets := { a.model.sheets with mec_moving_convolved := mv } }) }) := by
    rw [execute_eq, hstate, hrr]
    show Option.map _ (ModelState.simulate_timestep L mv dc
      (ReceiveRewardState.hook a.prepare).model) = _
    unfold ModelState.simulate_timestep
    have hupd' : (ReceiveRewardState.hook a.prepare).model.place_graph.update
        { (ReceiveRewardState.hook a.prepare).model.sheets with mec_moving_convolved := mv }
        = some (g', { a.model.sheets with mec_moving_convolved := mv }) := hupd
    rw [hupd']
    rfl
  refine ⟨_, hexec, ?_, ?_, ?_, ?_, ?_⟩
  · refine ⟨c, C, ?_, ?_, ?_, hwithin⟩
    · show (ModelState.steer L _).place_graph.agent_cell = some c
      rw [steer_place_graph, (decode_place_graph _ _).1]
      exact hc
    · show (ModelState.steer L _).place_graph.cells[c]? = some C
      rw [steer_place_graph, (decode_place_graph _ _).1]
      exact hC
    · show map_get (ModelState.steer L _).place_graph.reward_locations _ = some c
      rw [steer_place_graph, (decode_place_graph _ _).1]
      show map_get g'.reward_locations _ = some c
      rw [hloc]
      exact map_get_map_set_same _ _ _
  · intro id hne
    show map_get (ModelState.steer L _).place_graph.reward_locations _ = _
    rw [steer_place_graph, (decode_place_graph _ _).1]
    show map_get g'.reward_locations _ = _
    rw [hloc]
    exact map_get_map_set_other _ _ _ _ hne
  · show (ModelState.steer L _).output.halted = true
    exact (steer_halt L _ (by rw [(decode_place_graph _ _).2]; rfl)).1
  · exact (steer_halt L (ModelState.decode dc
      { (ReceiveRewardState.hook a.prepare).model with
        place_graph := g',
        sheets := { a.model.sheets with mec_moving_convolved := mv } })
      (by rw [(decode_place_graph _ _).2]; rfl)).2.2.1
  · show (if a.state_impl State.no_state = none then State.no_state else State.no_state) = _
    rw [if_pos hno]

end RewardAgent

end GridPlaceNav

namespace GridPlaceNav

section MotorScalingFacts

variable {α : Type} [LinearOrderedField α]

theorem foldl_add_eq_sum (f : Nat → α) (k : Nat) :
    (List.range k).foldl (fun (d : α) (l : Nat) => d + f l) 0
      = ∑ l in Finset.range k, f l := by
  induction k with
  | zero => rfl
  | succ k ih =>
    rw [List.range_succ, List.foldl_append, ih, Finset.sum_range_succ]
    rfl

/-- C22. For every module `i` below the module count `M`, with `n = M - 1 - i`, the motor
scaling factor of module `i` is `r ^ (-n)` in the default mode and
`r ^ n / (r ^ 0 + r ^ 2 + ... + r ^ (2 n))` in the alternative mode, for every gain ratio
`r`; in both modes the factor of the largest-scaled module `i = M - 1` is exactly 1. The
constructor gives these factors to the rings `mec_motor[i]`. -/
theorem motor_scaling_factor_spec (r : α) (M i : Nat) (hr : 0 < r) (hi : i < M) :
    Model.motor_scaling_factor false r M i = r ^ (-((M : ℤ) - 1 - (i : ℤ))) ∧
    Model.motor_scaling_factor true r M i =
      r ^ (M - 1 - i) / ∑ l in Finset.range (M - 1 - i + 1), r ^ (2 * l) ∧
    0 < Model.motor_scaling_factor false r M i ∧
    0 < Model.motor_scaling_factor true r M i ∧
    Model.motor_scaling_factor false r M (M - 1) = 1 ∧
    Model.motor_scaling_factor true r M (M - 1) = 1 ∧
    (∀ alt : Bool, (Model.motor_scaling_factors alt r M)[i]?
      = some (Model.motor_scaling_factor alt r M i)) := by
  have hsum : 0 < ∑ l in Finset.range (M - 1 - i + 1), r ^ (2 * l) :=
    Finset.sum_pos (fun l _ => pow_pos hr _) ⟨0, by simp⟩
  have halt : Model.motor_scaling_factor true r M i =
      r ^ (M - 1 - i) / ∑ l in Finset.range (M - 1 - i + 1), r ^ (2 * l) := by
    unfold Model.motor_scaling_factor
    simp only [if_true]
    rw [foldl_add_eq_sum (fun l => r ^ (2 * l))]
  have hdef : Model.motor_scaling_factor false r M i = 1 / r ^ (M - 1 - i) := by
    unfold Model.motor_scaling_factor
    simp
  refine ⟨?_, halt, ?_, ?_, ?_, ?_, ?_⟩
  · rw [hdef]
    have e : (M : ℤ) - 1 - (i : ℤ) = ((M - 1 - i : ℕ) : ℤ) := by omega
    rw [e, zpow_neg, zpow_natCast, one_div]
  · rw [hdef]
    exact div_pos one_pos (pow_pos hr _)
  · rw [halt]
    exact div_pos (pow_pos hr _) hsum
  · unfold Model.motor_scaling_factor
    simp
  · unfold Model.motor_scaling_factor
    simp [List.range_succ]
  · intro alt
    unfold Model.motor_scaling_factors
    rw [List.getElem?_map, List.getElem?_range hi]
    rfl

/-- Witness for C22: three modules with gain ratio 2; module 0 has `n = 2`. -/
theorem motor_scaling_factor_spec_witness :
    Model.motor_scaling_factor false (2 : ℚ) 3 0 = 2 ^ (-((3 : ℤ) - 1 - (0 : ℕ))) ∧
    Model.motor_scaling_factor true (2 : ℚ) 3 0 = 4 / 21 ∧
    Model.motor_scaling_factor false (2 : ℚ) 3 2 = 1 :=
  ⟨(motor_scaling_factor_spec (2 : ℚ) 3 0 (by norm_num) (by norm_num)).1,
    by norm_num [Model.motor_scaling_factor, List.range_succ],
    by norm_num [Model.motor_scaling_factor]⟩

end MotorScalingFacts

section RewardIds

/-- A name that the table does not hold is not found in it. -/
theorem reward_ids_find (t : List (String × Int)) (name : String)
    (h : t.any (fun p => decide (p.1 = name)) = false) :
    t.find? (fun p => decide (p.1 = name)) = none := by
  rw [List.find?_eq_none]
  intro p hp
  rw [List.any_eq_false] at h
  exact h p hp

theorem reward_ids_find_append (t : List (String × Int)) (name : String) (v : Int)
    (h : t.any (fun p => decide (p.1 = name)) = false) :
    (t ++ [(name, v)]).find? (fun p => decide (p.1 = name)) = some (name, v) := by
  rw [List.find?_append, reward_ids_find t name h]
  simp

/-- One call of `get_reward_id` on a table with fewer than `2^31 - 1` entries: a new name
is appended with the id `size + 1`, a known name returns its stored id and leaves the
table unchanged. -/
theorem get_reward_id_cases (t : List (String × Int)) (name : String)
    (hsize : (t.length : Int) + 1 < 2147483648) :
    (name ∉ t.map Prod.fst ∧
      Simulation.get_reward_id t name = (t ++ [(name, (t.length : Int) + 1)], (t.length : Int) + 1)) ∨
    (∃ id, (name, id) ∈ t ∧ t.find? (fun p => decide (p.1 = name)) = some (name, id) ∧
      Simulation.get_reward_id t name = (t, id)) := by
  unfold Simulation.get_reward_id reward_ids_count reward_ids_assign reward_ids_read
  by_cases h : t.any (fun p => decide (p.1 = name)) = true
  · right
    obtain ⟨p, hp, hpn⟩ := List.any_eq_true.mp h
    have hfind : ∃ q, t.find? (fun p => decide (p.1 = name)) = some q := by
      rcases Option.eq_none_or_eq_some (t.find? (fun p => decide (p.1 = name))) with e | e
      · rw [List.find?_eq_none] at e
        exact absurd hpn (e p hp)
      · exact e
    obtain ⟨q, hq⟩ := hfind
    have hq1 : q.1 = name := by
      have := List.find?_some hq
      simpa using this
    have hqm : q ∈ t := List.mem_of_find?_eq_some hq
    refine ⟨q.2, ?_, ?_, ?_⟩
    · rw [← hq1]
      exact hqm
    · rw [hq, ← hq1]
    · simp only [h, if_true, one_ne_zero, if_false, hq]
  · left
    have h' : t.any (fun p => decide (p.1 = name)) = false := Bool.eq_false_iff.mpr h
    refine ⟨?_, ?_⟩
    · intro hm
      obtain ⟨p, hp, hpn⟩ := List.mem_map.mp hm
      rw [List.any_eq_false] at h'
      exact h' p hp (by simpa using hpn)
    · have hw : wrap_int32 ((t.length : Int) + 1) = (t.length : Int) + 1 :=
        wrap_int32_of_is_int32 _ ⟨by omega, hsize⟩
      simp only [h', Bool.false_eq_true, if_false, if_true, hw]
      rw [reward_ids_find_append t name _ h']

end RewardIds

end GridPlaceNav

namespace GridPlaceNav

section RewardIdRuns

/-- One call of `get_reward_id` keeps the table sequential (the entry at position `i`
holds the id `i + 1`, keys are distinct), extends the set of keys by the name, and
returns the id stored for the name. -/
theorem get_reward_id_inv (t : List (String × Int)) (name : String)
    (hsize : (t.length : Int) + 1 < 2147483648)
    (hnd : (t.map Prod.fst).Nodup)
    (hseq : ∀ (i : Nat) (p : String × Int), t[i]? = some p → p.2 = (i : Int) + 1) :
    ((Simulation.get_reward_id t name).1.map Prod.fst).Nodup ∧
    (∀ (i : Nat) (p : String × Int), (Simulation.get_reward_id t name).1[i]? = some p →
      p.2 = (i : Int) + 1) ∧
    (∀ s, s ∈ (Simulation.get_reward_id t name).1.map Prod.fst ↔
      s ∈ t.map Prod.fst ∨ s = name) ∧
    (name, (Simulation.get_reward_id t name).2) ∈ (Simulation.get_reward_id t name).1 ∧
    (∃ ext, (Simulation.get_reward_id t name).1 = t ++ ext) ∧
    (Simulation.get_reward_id t name).1.length ≤ t.length + 1 ∧
    (name ∉ t.map Prod.fst →
      (Simulation.get_reward_id t name).2 = (t.length : Int) + 1) := by
  rcases get_reward_id_cases t name hsize with ⟨hnew, heq⟩ | ⟨id, hmem, _, heq⟩
  · rw [heq]
    refine ⟨?_, ?_, ?_, ?_, ⟨_, rfl⟩, ?_, fun _ => rfl⟩
    · simp only [List.map_append, List.map_cons, List.map_nil]
      rw [List.nodup_append]
      refine ⟨hnd, List.nodup_singleton _, ?_⟩
      intro s hs hs'
      rw [List.mem_singleton] at hs'
      exact hnew (hs' ▸ hs)
    · intro i p hp
      by_cases hi : i < t.length
      · rw [List.getElem?_append_left hi] at hp
        exact hseq i p hp
      · rw [List.getElem?_append_right (by omega)] at hp
        have hi0 : i - t.length = 0 := by
          by_contra hne
          rw [List.getElem?_eq_none (by simp; omega)] at hp
          cases hp
        rw [hi0] at hp
        simp only [List.getElem?_cons_zero, Option.some.injEq] at hp
        rw [← hp]
        have : i = t.length := by omega
        rw [this]
    · intro s
      simp only [List.map_append, List.map_cons, List.map_nil, List.mem_append,
        List.mem_singleton]
    · simp
    · simp
  · rw [heq]
    refine ⟨hnd, hseq, ?_, hmem, ⟨[], by simp⟩, Nat.le_succ _, ?_⟩
    · intro s
      constructor
      · exact Or.inl
      · rintro (h | h)
        · exact h
        · rw [h]
          exact List.mem_map.mpr ⟨(name, id), hmem, rfl⟩
    · intro habs
      exact absurd (List.mem_map.mpr ⟨(name, id), hmem, rfl⟩) habs

theorem get_reward_ids_cons (t : List (String × Int)) (name : String) (rest : List String) :
    Simulation.get_reward_ids t (name :: rest) =
      ((Simulation.get_reward_ids (Simulation.get_reward_id t name).1 rest).1,
        (Simulation.get_reward_id t name).2
          :: (Simulation.get_reward_ids (Simulation.get_reward_id t name).1 rest).2) := rfl

theorem get_reward_ids_append (a b : List String) :
    ∀ t : List (String × Int),
      Simulation.get_reward_ids t (a ++ b) =
        ((Simulation.get_reward_ids (Simulation.get_reward_ids t a).1 b).1,
          (Simulation.get_reward_ids t a).2
            ++ (Simulation.get_reward_ids (Simulation.get_reward_ids t a).1 b).2) := by
  induction a with
  | nil =>
    intro t
    rfl
  | cons name a ih =>
    intro t
    rw [List.cons_append, get_reward_ids_cons t name (a ++ b), ih, get_reward_ids_cons t name a]
    rfl

/-- A run of calls from a sequential table: the table stays sequential, it only grows at
the end, its keys are the old keys and the names passed, and every call returns the id
that the final table stores for its name. -/
theorem get_reward_ids_inv :
    ∀ (ns : List String) (t : List (String × Int)),
      (t.length : Int) + ns.length < 2147483648 →
      (t.map Prod.fst).Nodup →
      (∀ (i : Nat) (p : String × Int), t[i]? = some p → p.2 = (i : Int) + 1) →
      ((Simulation.get_reward_ids t ns).1.map Prod.fst).Nodup ∧
      (∀ (i : Nat) (p : String × Int), (Simulation.get_reward_ids t ns).1[i]? = some p →
        p.2 = (i : Int) + 1) ∧
      (∀ s, s ∈ (Simulation.get_reward_ids t ns).1.map Prod.fst ↔
        s ∈ t.map Prod.fst ∨ s ∈ ns) ∧
      (∃ ext, (Simulation.get_reward_ids t ns).1 = t ++ ext) ∧
      (Simulation.get_reward_ids t ns).2.length = ns.length ∧
      (∀ (j : Nat) (name : String), ns[j]? = some name →
        ∃ id, (Simulation.get_reward_ids t ns).2[j]? = some id ∧
          (name, id) ∈ (Simulation.get_reward_ids t ns).1) := by
  intro ns
  induction ns with
  | nil =>
    intro t _ hnd hseq
    refine ⟨hnd, hseq, ?_, ⟨[], by simp [Simulation.get_reward_ids]⟩, rfl, ?_⟩
    · intro s
      simp [Simulation.get_reward_ids]
    · intro j name hj
      simp at hj
  | cons name ns ih =>
    intro t hsize hnd hseq
    simp only [List.length_cons, Nat.cast_add, Nat.cast_one] at hsize
    obtain ⟨h1, h2, h3, h4, ⟨ext, h5⟩, h6, _⟩ :=
      get_reward_id_inv t name (by omega) hnd hseq
    obtain ⟨k1, k2, k3, ⟨ext', k4⟩, k5, k6⟩ :=
      ih (Simulation.get_reward_id t name).1 (by
        have : ((Simulation.get_reward_id t name).1.length : Int) ≤ (t.length : Int) + 1 := by
          exact_mod_cast h6
        omega) h1 h2
    rw [get_reward_ids_cons]
    dsimp only
    refine ⟨k1, k2, ?_, ⟨ext ++ ext', by rw [k4, h5, List.append_assoc]⟩,
      by rw [List.length_cons, List.length_cons, k5], ?_⟩
    · intro s
      rw [k3, h3, List.mem_cons, or_assoc]
    · intro j nm hj
      cases j with
      | zero =>
        simp only [List.getElem?_cons_zero, Option.some.injEq] at hj
        subst hj
        refine ⟨_, List.getElem?_cons_zero, ?_⟩
        rw [k4]
        exact List.mem_append_left _ h4
      | succ j =>
        simp only [List.getElem?_cons_succ] at hj
        rw [List.getElem?_cons_succ]
        exact k6 j nm hj

/-- C23. From the empty table, and for fewer than `2^31 - 1` calls, `get_reward_id`
allocates ids sequentially from 1: the final table has distinct names and its entry at
position `i` holds the id `i + 1`; each call returns the (positive) id that the final
table stores for its name, so the same name always gets the same id and two different
names never share one; the first call with a name that is the `k`-th distinct name (there
are `k - 1` distinct names before it) returns `k`; and a call with a name already in a
table returns the stored id and leaves the table unchanged. -/
theorem reward_ids_sequential (ns : List String)
    (hlen : (ns.length : Int) + 1 < 2147483648) :
    ((Simulation.get_reward_ids [] ns).1.map Prod.fst).Nodup ∧
    (∀ (i : Nat) (p : String × Int), (Simulation.get_reward_ids [] ns).1[i]? = some p →
      p.2 = (i : Int) + 1) ∧
    (∀ (j : Nat) (name : String), ns[j]? = some name →
      ∃ id, (Simulation.get_reward_ids [] ns).2[j]? = some id ∧ 0 < id ∧
        (name, id) ∈ (Simulation.get_reward_ids [] ns).1) ∧
    (∀ (j j' : Nat) (name name' : String) (id : Int), ns[j]? = some name →
      ns[j']? = some name' → (Simulation.get_reward_ids [] ns).2[j]? = some id →
      (Simulation.get_reward_ids [] ns).2[j']? = some id → name = name') ∧
    (∀ (j j' : Nat) (name : String), ns[j]? = some name → ns[j']? = some name →
      (Simulation.get_reward_ids [] ns).2[j]? = (Simulation.get_reward_ids [] ns).2[j']?) ∧
    (∀ (j : Nat) (name : String), ns[j]? = some name → name ∉ ns.take j →
      (Simulation.get_reward_ids [] ns).2[j]?
        = some (((ns.take j).toFinset.card : Int) + 1)) ∧
    (∀ (name : String) (id : Int), (name, id) ∈ (Simulation.get_reward_ids [] ns).1 →
      Simulation.get_reward_id (Simulation.get_reward_ids [] ns).1 name
        = ((Simulation.get_reward_ids [] ns).1, id)) := by
  obtain ⟨k1, k2, k3, _, k5, k6⟩ := get_reward_ids_inv ns []
    (by simp only [List.length_nil, Nat.cast_zero, zero_add]; omega)
    List.nodup_nil (fun i p hp => by simp at hp)
  have hid : ∀ (name : String) (id : Int), (name, id) ∈ (Simulation.get_reward_ids [] ns).1 →
      ∃ i : Nat, (Simulation.get_reward_ids [] ns).1[i]? = some (name, id) ∧
        id = (i : Int) + 1 := by
    intro name id hm
    obtain ⟨i, hi⟩ := List.getElem?_of_mem hm
    exact ⟨i, hi, k2 i _ hi⟩
  have huniq : ∀ (name : String) (id id' : Int),
      (name, id) ∈ (Simulation.get_reward_ids [] ns).1 →
      (name, id') ∈ (Simulation.get_reward_ids [] ns).1 → id = id' := by
    intro name id id' hm hm'
    obtain ⟨i, hi, e⟩ := hid name id hm
    obtain ⟨i', hi', e'⟩ := hid name id' hm'
    have hki : (List.map Prod.fst (Simulation.get_reward_ids [] ns).1)[i]? = some name := by
      rw [List.getElem?_map, hi]
      rfl
    have hki' : (List.map Prod.fst (Simulation.get_reward_ids [] ns).1)[i']? = some name := by
      rw [List.getElem?_map, hi']
      rfl
    have hil := (List.getElem?_eq_some.mp hki).1
    have hil' := (List.getElem?_eq_some.mp hki').1
    have := (@List.Nodup.getElem_inj_iff _ _ k1 i hil i' hil').mp
      ((List.getElem?_eq_some.mp hki).2.trans (List.getElem?_eq_some.mp hki').2.symm)
    rw [e, e', this]
  refine ⟨k1, k2, ?_, ?_, ?_, ?_, ?_⟩
  · intro j name hj
    obtain ⟨id, h1, h2⟩ := k6 j name hj
    obtain ⟨i, _, e⟩ := hid name id h2
    exact ⟨id, h1, by omega, h2⟩
  · intro j j' name name' id hj hj' h1 h1'
    obtain ⟨id1, g1, g2⟩ := k6 j name hj
    obtain ⟨id2, g1', g2'⟩ := k6 j' name' hj'
    rw [h1] at g1
    rw [h1'] at g1'
    have e1 : id1 = id := (Option.some.inj g1).symm
    have e2 : id2 = id := (Option.some.inj g1').symm
    rw [e1] at g2
    rw [e2] at g2'
    obtain ⟨i, hi, e⟩ := hid name id g2
    obtain ⟨i', hi', e'⟩ := hid name' id g2'
    have : i = i' := by omega
    subst this
    rw [hi] at hi'
    exact congrArg Prod.fst (Option.some.inj hi')
  · intro j j' name hj hj'
    obtain ⟨id1, g1, g2⟩ := k6 j name hj
    obtain ⟨id2, g1', g2'⟩ := k6 j' name hj'
    rw [g1, g1', huniq name id1 id2 g2 g2']
  · intro j name hj hfirst
    have hjl : j < ns.length := (List.getElem?_eq_some.mp hj).1
    have hsplit : ns = ns.take j ++ name :: ns.drop (j + 1) := by
      have h1 : ns.drop j = name :: ns.drop (j + 1) := by
        rw [List.drop_eq_getElem_cons hjl, (List.getElem?_eq_some.mp hj).2]
      rw [← h1, List.take_append_drop]
    have htl : (ns.take j).length = j := by
      rw [List.length_take]
      omega
    obtain ⟨a1, a2, a3, _, a5, _⟩ := get_reward_ids_inv (ns.take j) [] (by
        simp only [List.length_nil, Nat.cast_zero, zero_add]
        have : ((ns.take j).length : Int) ≤ ns.length := by
          rw [htl]
          exact_mod_cast hjl.le
        omega)
      List.nodup_nil (fun i p hp => by simp at hp)
    have hcard : (Simulation.get_reward_ids [] (ns.take j)).1.length
        = (ns.take j).toFinset.card := by
      have e1 : ((Simulation.get_reward_ids [] (ns.take j)).1.map Prod.fst).toFinset
          = (ns.take j).toFinset := by
        ext s
        simp only [List.mem_toFinset]
        rw [a3]
        simp
      rw [← e1, List.toFinset_card_of_nodup a1, List.length_map]
    have habs : name ∉ (Simulation.get_reward_ids [] (ns.take j)).1.map Prod.fst := by
      intro hm
      rcases (a3 name).mp hm with h | h
      · simp at h
      · exact hfirst h
    have hstep := (get_reward_id_inv (Simulation.get_reward_ids [] (ns.take j)).1 name (by
        rw [hcard]
        have : ((ns.take j).toFinset.card : Int) ≤ (ns.take j).length := by
          exact_mod_cast List.toFinset_card_le _
        rw [htl] at this
        have hjl' : (j : Int) < ns.length := by exact_mod_cast hjl
        omega) a1 a2).2.2.2.2.2.2 habs
    have hrun := get_reward_ids_append (ns.take j) (name :: ns.drop (j + 1)) []
    rw [← hsplit] at hrun
    rw [hrun]
    dsimp only
    rw [List.getElem?_append_right (by rw [a5, htl]), a5, htl, Nat.sub_self,
      get_reward_ids_cons]
    dsimp only
    rw [List.getElem?_cons_zero, hstep, hcard]
  · intro name id hm
    have hsz : (((Simulation.get_reward_ids [] ns).1.length : Int)) + 1 < 2147483648 := by
      have e1 : (Simulation.get_reward_ids [] ns).1.length
          = ((Simulation.get_reward_ids [] ns).1.map Prod.fst).toFinset.card := by
        rw [List.toFinset_card_of_nodup k1, List.length_map]
      have e2 : ((Simulation.get_reward_ids [] ns).1.map Prod.fst).toFinset = ns.toFinset := by
        ext s
        simp only [List.mem_toFinset]
        rw [k3]
        simp
      have e3 : (ns.toFinset.card : Int) ≤ ns.length := by
        exact_mod_cast List.toFinset_card_le _
      rw [e1, e2]
      omega
    rcases get_reward_id_cases (Simulation.get_reward_ids [] ns).1 name hsz with
      ⟨hnew, _⟩ | ⟨id', hm', _, heq⟩
    · exact absurd (List.mem_map.mpr ⟨(name, id), hm, rfl⟩) hnew
    · rw [heq, huniq name id id' hm hm']

/-- Witness for C23: the names `food`, `water`, `food` get the ids 1, 2, 1. -/
theorem reward_ids_sequential_witness :
    (Simulation.get_reward_ids [] ["food", "water", "food"]).2 = [1, 2, 1] ∧
    (Simulation.get_reward_ids [] ["food", "water", "food"]).2[1]?
      = some (((["food", "water", "food"].take 1).toFinset.card : Int) + 1) :=
  ⟨by decide, (reward_ids_sequential ["food", "water", "food"] (by decide)).2.2.2.2.2.1
    1 "water" rfl (by decide)⟩

end RewardIdRuns

end GridPlaceNav

namespace GridPlaceNav

section TrackerFacts

variable {α : Type} [LinearOrderedField α] [FloorRing α]

theorem foldl_preserves_mem {β γ : Type} (P : β → Prop) (f : β → γ → β) (l : List γ)
    (hf : ∀ b c, c ∈ l → P b → P (f b c)) (init : β) (h : P init) : P (l.foldl f init) := by
  induction l generalizing init with
  | nil => exact h
  | cons c l ih =>
    exact ih (fun b c' hc' hb => hf b c' (List.mem_cons_of_mem c hc') hb) (f init c)
      (hf init c (List.mem_cons_self c l) h)

/-- On 32-bit operands with a positive period, `Periodic::modulo` is the non-negative
remainder. -/
theorem periodic_modulo_eq (v P : Int) (hv : is_int32 v) (hP : is_int32 P) (hpos : 0 < P) :
    Periodic.modulo v P = v % P := by
  have hq := floor_quotient_eq v P hpos
  have hdiv : P * (v / P) + v % P = v := Int.ediv_add_emod v P
  have hm0 : 0 ≤ v % P := Int.emod_nonneg v hpos.ne'
  have hm1 : v % P < P := Int.emod_lt_of_pos v hpos
  unfold is_int32 at hv hP
  have hq0 : -2147483648 ≤ v / P :=
    Int.le_ediv_of_mul_le hpos (show (-2147483648) * P ≤ v by nlinarith)
  have hq1 : v / P < 2147483648 := by
    apply Int.ediv_lt_of_lt_mul hpos
    nlinarith
  have hprod : Periodic.product v P = P * (v / P) := by
    unfold Periodic.product
    rw [hq, wrap_int32_of_is_int32 _ ⟨hq0, hq1⟩]
  unfold Periodic.modulo
  rw [hprod]
  generalize P * (v / P) = m at hdiv
  unfold wrap_int32
  omega

/-- A torus coordinate after a step of at most 2^30 is in range and congruent to the
sum. -/
theorem sheet_modulo (v : Int) (hv : is_int32 v) :
    0 ≤ Periodic.modulo v MEC_SIZE ∧ Periodic.modulo v MEC_SIZE < MEC_SIZE ∧
    Periodic.modulo v MEC_SIZE = v % 40 := by
  have h := periodic_modulo_eq v MEC_SIZE hv (by decide) (by decide)
  have e : ((MEC_SIZE : Nat) : Int) = 40 := rfl
  rw [h, e]
  omega

theorem c_round_bound (v : α) (k : Nat) (h : |v| ≤ (k : α)) :
    -(k : Int) ≤ c_round v ∧ c_round v ≤ (k : Int) := by
  have h1 := (abs_le.mp h).1
  have h2 := (abs_le.mp h).2
  unfold c_round
  by_cases hv : 0 ≤ v
  · rw [if_pos hv]
    constructor
    · have : (0 : Int) ≤ ⌊v + 1 / 2⌋ := Int.floor_nonneg.mpr (by linarith)
      omega
    · have : ⌊v + 1 / 2⌋ < (k : Int) + 1 := by
        rw [Int.floor_lt]
        push_cast
        linarith
      omega
  · rw [if_neg hv]
    have hv' : v < 0 := not_le.mp hv
    constructor
    · have : ⌊-v + 1 / 2⌋ < (k : Int) + 1 := by
        rw [Int.floor_lt]
        push_cast
        linarith
      omega
    · have : (0 : Int) ≤ ⌊-v + 1 / 2⌋ := Int.floor_nonneg.mpr (by linarith)
      omega

/-- The sums of `calculate_disc_mass` over non-negative activities: the mass is not
negative, and the weighted displacements are at most `BUMP_TRACKER_RADIUS` times the
mass in absolute value. -/
theorem disc_sums_bounds (n : NeuralSheetNetwork α) (hnn : ∀ v ∈ n.current, 0 ≤ v)
    (cx cy : Int) :
    0 ≤ (n.disc_sums cx cy).1 ∧
    |(n.disc_sums cx cy).2.1| ≤ 5 * (n.disc_sums cx cy).1 ∧
    |(n.disc_sums cx cy).2.2| ≤ 5 * (n.disc_sums cx cy).1 := by
  unfold NeuralSheetNetwork.disc_sums
  apply foldl_preserves_mem (fun acc : α × α × α =>
    0 ≤ acc.1 ∧ |acc.2.1| ≤ 5 * acc.1 ∧ |acc.2.2| ≤ 5 * acc.1)
  · intro acc j hj hacc
    apply foldl_preserves_mem (fun acc : α × α × α =>
      0 ≤ acc.1 ∧ |acc.2.1| ≤ 5 * acc.1 ∧ |acc.2.2| ≤ 5 * acc.1)
    · intro acc i hi hacc
      dsimp only
      split
      · exact hacc
      · obtain ⟨h0, h1, h2⟩ := hacc
        have ha := getD_nonneg n.current hnn
          (coords_to_neuron_index (Periodic.modulo (cx + ((i : Int) - BUMP_TRACKER_RADIUS))
            MEC_SIZE).toNat (Periodic.modulo (cy + ((j : Int) - BUMP_TRACKER_RADIUS))
            MEC_SIZE).toNat)
        have hi' : i < 11 := List.mem_range.mp hi
        have hj' : j < 11 := List.mem_range.mp hj
        have hdx : |(((i : Int) - (BUMP_TRACKER_RADIUS : Int) : Int) : α)| ≤ 5 := by
          have e : ((BUMP_TRACKER_RADIUS : Nat) : Int) = 5 := rfl
          rw [e, abs_le]
          constructor
          · have : (-5 : Int) ≤ (i : Int) - 5 := by omega
            exact_mod_cast this
          · have : (i : Int) - 5 ≤ 5 := by omega
            exact_mod_cast this
        have hdy : |(((j : Int) - (BUMP_TRACKER_RADIUS : Int) : Int) : α)| ≤ 5 := by
          have e : ((BUMP_TRACKER_RADIUS : Nat) : Int) = 5 := rfl
          rw [e, abs_le]
          constructor
          · have : (-5 : Int) ≤ (j : Int) - 5 := by omega
            exact_mod_cast this
          · have : (j : Int) - 5 ≤ 5 := by omega
            exact_mod_cast this
        refine ⟨add_nonneg h0 ha, ?_, ?_⟩
        · calc |acc.2.1 + _| ≤ |acc.2.1| + |_| := abs_add _ _
            _ ≤ 5 * acc.1 + 5 * _ := by
              apply add_le_add h1
              rw [abs_mul, abs_of_nonneg ha]
              exact mul_le_mul_of_nonneg_right hdx ha
            _ = 5 * (acc.1 + _) := by ring
        · calc |acc.2.2 + _| ≤ |acc.2.2| + |_| := abs_add _ _
            _ ≤ 5 * acc.1 + 5 * _ := by
              apply add_le_add h2
              rw [abs_mul, abs_of_nonneg ha]
              exact mul_le_mul_of_nonneg_right hdy ha
            _ = 5 * (acc.1 + _) := by ring
    · exact hacc
  · simp

/-- The result of `calculate_disc_mass`: the mass is the mass of the disc, and over
non-negative activities the displacement is at most `BUMP_TRACKER_RADIUS` in each
coordinate. -/
theorem calculate_disc_mass_some (n : NeuralSheetNetwork α) (cx cy : Int) (m : α)
    (dx dy : Int) (h : n.calculate_disc_mass cx cy = some (m, dx, dy)) :
    m = n.disc_mass cx cy ∧ m ≠ 0 ∧
    ((∀ v ∈ n.current, 0 ≤ v) → 0 < m ∧ -5 ≤ dx ∧ dx ≤ 5 ∧ -5 ≤ dy ∧ dy ≤ 5) := by
  unfold NeuralSheetNetwork.calculate_disc_mass at h
  simp only at h
  by_cases h0 : (n.disc_sums cx cy).1 = 0
  · rw [if_pos h0] at h
    cases h
  · rw [if_neg h0] at h
    simp only [Option.some.injEq, Prod.mk.injEq] at h
    obtain ⟨hm, hdx, hdy⟩ := h
    refine ⟨hm.symm, by rw [← hm]; exact h0, ?_⟩
    intro hnn
    obtain ⟨b0, b1, b2⟩ := disc_sums_bounds n hnn cx cy
    have hpos : 0 < (n.disc_sums cx cy).1 := lt_of_le_of_ne b0 (Ne.symm h0)
    have q1 : |(n.disc_sums cx cy).2.1 / (n.disc_sums cx cy).1| ≤ ((5 : Nat) : α) := by
      rw [abs_div, abs_of_pos hpos, div_le_iff₀ hpos]
      exact_mod_cast b1
    have q2 : |(n.disc_sums cx cy).2.2 / (n.disc_sums cx cy).1| ≤ ((5 : Nat) : α) := by
      rw [abs_div, abs_of_pos hpos, div_le_iff₀ hpos]
      exact_mod_cast b2
    have r1 := c_round_bound _ 5 q1
    have r2 := c_round_bound _ 5 q2
    rw [hdx] at r1
    rw [hdy] at r2
    rw [← hm]
    exact ⟨hpos, by simpa using r1.1, by simpa using r1.2, by simpa using r2.1,
      by simpa using r2.2⟩

theorem calculate_disc_mass_congr (n n' : NeuralSheetNetwork α) (h : n'.current = n.current)
    (cx cy : Int) : n'.calculate_disc_mass cx cy = n.calculate_disc_mass cx cy := by
  unfold NeuralSheetNetwork.calculate_disc_mass NeuralSheetNetwork.disc_sums
  rw [h]

/-- The loop of `update_bump_tracker`, when it ends: the activities are untouched and the
final position is a local maximum of the disc mass along its own centre-of-mass step. -/
theorem bump_tracker_loop_done :
    ∀ (fuel : Nat) (n n' : NeuralSheetNetwork α),
      n.bump_tracker_loop fuel = LoopResult.done n' →
      n'.toNetwork = n.toNetwork ∧
      ∃ mass dx dy new_mass dx' dy',
        n'.calculate_disc_mass n'.bump_x n'.bump_y = some (mass, dx, dy) ∧
        n'.calculate_disc_mass (Periodic.modulo (n'.bump_x + dx) MEC_SIZE)
          (Periodic.modulo (n'.bump_y + dy) MEC_SIZE) = some (new_mass, dx', dy') ∧
        new_mass ≤ mass := by
  intro fuel
  induction fuel with
  | zero =>
    intro n n' h
    simp [NeuralSheetNetwork.bump_tracker_loop] at h
  | succ fuel ih =>
    intro n n' h
    rw [NeuralSheetNetwork.bump_tracker_loop] at h
    rcases hc : n.calculate_disc_mass n.bump_x n.bump_y with _ | ⟨cur, dx, dy⟩
    · rw [hc] at h
      cases h
    · rw [hc] at h
      simp only at h
      rcases hc2 : n.calculate_disc_mass (Periodic.modulo (n.bump_x + dx) MEC_SIZE)
          (Periodic.modulo (n.bump_y + dy) MEC_SIZE) with _ | ⟨new, dx', dy'⟩
      · rw [hc2] at h
        cases h
      · rw [hc2] at h
        simp only at h
        by_cases hgt : new > cur
        · rw [if_pos hgt] at h
          obtain ⟨e, rest⟩ := ih _ n' h
          exact ⟨e, rest⟩
        · rw [if_neg hgt] at h
          have e : n' = n := by
            injection h with h
            exact h.symm
          subst e
          exact ⟨rfl, cur, dx, dy, new, dx', dy', hc, hc2, not_lt.mp hgt⟩

/-- C26. Whenever `update_bump_tracker` returns on an initialized tracker (with any bound
on the iterations of its loop), the disc mass at the tracked position `(bump_x, bump_y)`
is greater than or equal to the disc mass at the position one centre-of-mass step away,
that is, at `(bump_x + dx, bump_y + dy)` modulo `MEC_SIZE` for the rounded displacement
`(dx, dy)` that `calculate_disc_mass` computes at `(bump_x, bump_y)`; the activities are
untouched. -/
theorem bump_tracker_local_maximum (fuel : Nat) (n n' : NeuralSheetNetwork α)
    (hinit : n.bump_tracker_initialized = true)
    (h : n.update_bump_tracker_with_fuel fuel = LoopResult.done n') :
    n'.current = n.current ∧
    ∃ mass dx dy new_mass dx' dy',
      n'.calculate_disc_mass n'.bump_x n'.bump_y = some (mass, dx, dy) ∧
      n'.calculate_disc_mass (Periodic.modulo (n'.bump_x + dx) MEC_SIZE)
        (Periodic.modulo (n'.bump_y + dy) MEC_SIZE) = some (new_mass, dx', dy') ∧
      mass = n'.disc_mass n'.bump_x n'.bump_y ∧
      new_mass = n'.disc_mass (Periodic.modulo (n'.bump_x + dx) MEC_SIZE)
        (Periodic.modulo (n'.bump_y + dy) MEC_SIZE) ∧
      new_mass ≤ mass := by
  unfold NeuralSheetNetwork.update_bump_tracker_with_fuel at h
  rw [hinit] at h
  simp only [not_true_eq_false, if_false] at h
  obtain ⟨e, mass, dx, dy, new_mass, dx', dy', h1, h2, h3⟩ := bump_tracker_loop_done fuel n n' h
  exact ⟨congrArg Network.current e, mass, dx, dy, new_mass, dx', dy', h1, h2,
    (calculate_disc_mass_some _ _ _ _ _ _ h1).1, (calculate_disc_mass_some _ _ _ _ _ _ h2).1, h3⟩

end TrackerFacts

end GridPlaceNav

namespace GridPlaceNav

section TrackerTermination

variable {α : Type} [LinearOrderedField α] [FloorRing α]

/-- A position of the sheet has fewer than `MEC_SIZE * MEC_SIZE` heavier positions. -/
theorem heavier_positions_lt (n : NeuralSheetNetwork α) (x y : Int) (hx0 : 0 ≤ x)
    (hx1 : x < MEC_SIZE) (hy0 : 0 ≤ y) (hy1 : y < MEC_SIZE) :
    n.heavier_positions x y < MEC_SIZE * MEC_SIZE := by
  unfold NeuralSheetNetwork.heavier_positions
  have hcard : (Finset.range MEC_SIZE ×ˢ Finset.range MEC_SIZE).card = MEC_SIZE * MEC_SIZE := by
    rw [Finset.card_product, Finset.card_range]
  rw [← hcard]
  apply Finset.card_lt_card
  rw [Finset.ssubset_iff_of_subset (Finset.filter_subset _ _)]
  refine ⟨(x.toNat, y.toNat), ?_, ?_⟩
  · rw [Finset.mem_product, Finset.mem_range, Finset.mem_range]
    constructor
    · show x.toNat < MEC_SIZE
      omega
    · show y.toNat < MEC_SIZE
      omega
  · rw [Finset.mem_filter]
    intro h
    have h2 := h.2
    simp only [Int.toNat_of_nonneg hx0, Int.toNat_of_nonneg hy0] at h2
    exact lt_irrefl _ h2

/-- A move to a position of larger disc mass lowers the number of heavier positions. -/
theorem heavier_positions_decrease (n : NeuralSheetNetwork α) (x y cx cy : Int)
    (hx0 : 0 ≤ cx) (hx1 : cx < MEC_SIZE) (hy0 : 0 ≤ cy) (hy1 : cy < MEC_SIZE)
    (h : n.disc_mass x y < n.disc_mass cx cy) :
    n.heavier_positions cx cy < n.heavier_positions x y := by
  unfold NeuralSheetNetwork.heavier_positions
  apply Finset.card_lt_card
  rw [Finset.ssubset_iff_of_subset]
  · refine ⟨(cx.toNat, cy.toNat), ?_, ?_⟩
    · rw [Finset.mem_filter, Finset.mem_product, Finset.mem_range, Finset.mem_range]
      refine ⟨⟨?_, ?_⟩, ?_⟩
      · show cx.toNat < MEC_SIZE
        omega
      · show cy.toNat < MEC_SIZE
        omega
      · simp only [Int.toNat_of_nonneg hx0, Int.toNat_of_nonneg hy0]
        exact h
    · rw [Finset.mem_filter]
      intro h'
      have h2 := h'.2
      simp only [Int.toNat_of_nonneg hx0, Int.toNat_of_nonneg hy0] at h2
      exact lt_irrefl _ h2
  · intro q hq
    rw [Finset.mem_filter] at hq ⊢
    exact ⟨hq.1, lt_trans h hq.2⟩

/-- The loop of `update_bump_tracker` over non-negative activities, from a position of
the sheet and with more fuel than there are heavier positions: it does not run out of
fuel, more fuel gives the same result, and when it ends the position is in the sheet, the
position minus the total displacement is unchanged modulo `MEC_SIZE`, and the disc mass
at the position has not decreased (it has increased if the position has changed). It ends
without fault when no position of the sheet has disc mass zero. -/
theorem bump_tracker_loop_spec :
    ∀ (fuel : Nat) (n : NeuralSheetNetwork α), (∀ v ∈ n.current, 0 ≤ v) →
      0 ≤ n.bump_x → n.bump_x < MEC_SIZE → 0 ≤ n.bump_y → n.bump_y < MEC_SIZE →
      n.heavier_positions n.bump_x n.bump_y < fuel →
      n.bump_tracker_loop fuel ≠ LoopResult.out_of_fuel ∧
      (∀ k, n.bump_tracker_loop (fuel + k) = n.bump_tracker_loop fuel) ∧
      (∀ n', n.bump_tracker_loop fuel = LoopResult.done n' →
        (0 ≤ n'.bump_x ∧ n'.bump_x < MEC_SIZE ∧ 0 ≤ n'.bump_y ∧ n'.bump_y < MEC_SIZE) ∧
        (n'.bump_x - n'.bump_total_dx) % 40 = (n.bump_x - n.bump_total_dx) % 40 ∧
        (n'.bump_y - n'.bump_total_dy) % 40 = (n.bump_y - n.bump_total_dy) % 40 ∧
        n.disc_mass n.bump_x n.bump_y ≤ n.disc_mass n'.bump_x n'.bump_y ∧
        (¬ (n'.bump_x = n.bump_x ∧ n'.bump_y = n.bump_y) →
          n.disc_mass n.bump_x n.bump_y < n.disc_mass n'.bump_x n'.bump_y)) ∧
      ((∀ x y : Int, 0 ≤ x → x < MEC_SIZE → 0 ≤ y → y < MEC_SIZE → n.disc_mass x y ≠ 0) →
        ∃ n', n.bump_tracker_loop fuel = LoopResult.done n') := by
  intro fuel
  induction fuel with
  | zero =>
    intro n _ _ _ _ _ hfuel
    exact absurd hfuel (Nat.not_lt_zero _)
  | succ fuel ih =>
    intro n hnn hx0 hx1 hy0 hy1 hfuel
    have hstep : ∀ k, n.bump_tracker_loop (fuel + 1 + k) =
        (match n.calculate_disc_mass n.bump_x n.bump_y with
         | none => LoopResult.fault
         | some (current_mass, center_of_mass_dx, center_of_mass_dy) =>
           match n.calculate_disc_mass
              (Periodic.modulo (n.bump_x + center_of_mass_dx) MEC_SIZE)
              (Periodic.modulo (n.bump_y + center_of_mass_dy) MEC_SIZE) with
           | none => LoopResult.fault
           | some (new_mass, _, _) =>
             if new_mass > current_mass then
               NeuralSheetNetwork.bump_tracker_loop (fuel + k)
                 { n with
                   bump_x := Periodic.modulo (n.bump_x + center_of_mass_dx) MEC_SIZE,
                   bump_y := Periodic.modulo (n.bump_y + center_of_mass_dy) MEC_SIZE,
                   bump_total_dx := n.bump_total_dx + center_of_mass_dx,
                   bump_total_dy := n.bump_total_dy + center_of_mass_dy }
             else LoopResult.done n) := by
      intro k
      have e : fuel + 1 + k = (fuel + k) + 1 := by omega
      rw [e]
      rfl
    have hstep0 := hstep 0
    simp only [Nat.add_zero] at hstep0
    rcases hc : n.calculate_disc_mass n.bump_x n.bump_y with _ | ⟨cur, dx, dy⟩
    · rw [hc] at hstep hstep0
      simp only at hstep hstep0
      refine ⟨(by rw [hstep0]; intro h; cases h), fun k => by rw [hstep k, hstep0],
        fun n' h => (by rw [hstep0] at h; cases h), ?_⟩
      intro hall
      exfalso
      unfold NeuralSheetNetwork.calculate_disc_mass at hc
      simp only at hc
      by_cases h0 : (n.disc_sums n.bump_x n.bump_y).1 = 0
      · exact hall n.bump_x n.bump_y hx0 hx1 hy0 hy1 h0
      · rw [if_neg h0] at hc
        cases hc
    · rw [hc] at hstep hstep0
      simp only at hstep hstep0
      obtain ⟨hcur, _, hb⟩ := calculate_disc_mass_some n _ _ _ _ _ hc
      obtain ⟨_, hdx0, hdx1, hdy0, hdy1⟩ := hb hnn
      have e40 : ((MEC_SIZE : Nat) : Int) = 40 := rfl
      rw [e40] at hx1 hy1
      obtain ⟨cx0, cx1, cxe⟩ := sheet_modulo (n.bump_x + dx) ⟨by omega, by omega⟩
      obtain ⟨cy0, cy1, cye⟩ := sheet_modulo (n.bump_y + dy) ⟨by omega, by omega⟩
      rcases hc2 : n.calculate_disc_mass (Periodic.modulo (n.bump_x + dx) MEC_SIZE)
          (Periodic.modulo (n.bump_y + dy) MEC_SIZE) with _ | ⟨new, dx', dy'⟩
      · rw [hc2] at hstep hstep0
        simp only at hstep hstep0
        refine ⟨(by rw [hstep0]; intro h; cases h), fun k => by rw [hstep k, hstep0],
          fun n' h => (by rw [hstep0] at h; cases h), ?_⟩
        intro hall
        exfalso
        unfold NeuralSheetNetwork.calculate_disc_mass at hc2
        simp only at hc2
        by_cases h0 : (n.disc_sums (Periodic.modulo (n.bump_x + dx) MEC_SIZE)
            (Periodic.modulo (n.bump_y + dy) MEC_SIZE)).1 = 0
        · exact hall _ _ cx0 cx1 cy0 cy1 h0
        · rw [if_neg h0] at hc2
          cases hc2
      · rw [hc2] at hstep hstep0
        simp only at hstep hstep0
        have hnew := (calculate_disc_mass_some n _ _ _ _ _ hc2).1
        by_cases hgt : new > cur
        · simp only [hgt, if_true] at hstep hstep0
          have hlt : n.disc_mass n.bump_x n.bump_y
              < n.disc_mass (Periodic.modulo (n.bump_x + dx) MEC_SIZE)
                (Periodic.modulo (n.bump_y + dy) MEC_SIZE) := by
            rw [← hcur, ← hnew]
            exact hgt
          have hdec := heavier_positions_decrease n n.bump_x n.bump_y _ _ cx0 cx1 cy0 cy1 hlt
          obtain ⟨i1, i2, i3, i4⟩ := ih
            { n with
              bump_x := Periodic.modulo (n.bump_x + dx) MEC_SIZE,
              bump_y := Periodic.modulo (n.bump_y + dy) MEC_SIZE,
              bump_total_dx := n.bump_total_dx + dx,
              bump_total_dy := n.bump_total_dy + dy }
            hnn cx0 cx1 cy0 cy1
            (lt_of_lt_of_le hdec (Nat.lt_succ_iff.mp hfuel))
          refine ⟨by rw [hstep0]; exact i1, fun k => by rw [hstep k, hstep0]; exact i2 k,
            ?_, ?_⟩
          · intro n' h
            rw [hstep0] at h
            obtain ⟨j1, j2, j3, j4, j5⟩ := i3 n' h
            have j2' : (n'.bump_x - n'.bump_total_dx) % 40
                = (Periodic.modulo (n.bump_x + dx) MEC_SIZE - (n.bump_total_dx + dx)) % 40 := j2
            have j3' : (n'.bump_y - n'.bump_total_dy) % 40
                = (Periodic.modulo (n.bump_y + dy) MEC_SIZE - (n.bump_total_dy + dy)) % 40 := j3
            have j4' : n.disc_mass (Periodic.modulo (n.bump_x + dx) MEC_SIZE)
                (Periodic.modulo (n.bump_y + dy) MEC_SIZE)
                ≤ n.disc_mass n'.bump_x n'.bump_y := j4
            refine ⟨j1, ?_, ?_, le_trans (le_of_lt hlt) j4', fun _ => lt_of_lt_of_le hlt j4'⟩
            · rw [j2', cxe]
              omega
            · rw [j3', cye]
              omega
          · intro hall
            rw [hstep0]
            exact i4 hall
        · simp only [hgt, if_false] at hstep hstep0
          refine ⟨(by rw [hstep0]; intro h; cases h), fun k => by rw [hstep k, hstep0], ?_,
            fun _ => ⟨n, hstep0⟩⟩
          intro n' h
          rw [hstep0] at h
          have e : n' = n := by
            injection h with h
            exact h.symm
          subst e
          rw [e40]
          exact ⟨⟨hx0, hx1, hy0, hy1⟩, rfl, rfl, le_refl _, fun hne => absurd ⟨rfl, rfl⟩ hne⟩

/-- C28. For every sheet with non-negative activities and an initialized tracker at a
position of the sheet, the loop of `update_bump_tracker` terminates: the bound
`MEC_SIZE * MEC_SIZE` on its iterations is never hit, and a larger bound gives the same
result, because each iteration that continues moves the tracker to a position of strictly
larger disc mass. The loop ends without fault when no position has disc mass zero (a
quotient by a zero mass has no defined conversion to `int`). When it has ended, the
tracked position is in `[0, MEC_SIZE)^2`, the values
`(bump_x - bump_total_dx) mod MEC_SIZE` and `(bump_y - bump_total_dy) mod MEC_SIZE` are
the same as before the call, the activities are untouched, and the disc mass at the
tracked position is strictly larger than before if the position has changed. -/
theorem bump_tracker_terminates (n : NeuralSheetNetwork α)
    (hnn : ∀ v ∈ n.current, 0 ≤ v) (hinit : n.bump_tracker_initialized = true)
    (hx0 : 0 ≤ n.bump_x) (hx1 : n.bump_x < MEC_SIZE)
    (hy0 : 0 ≤ n.bump_y) (hy1 : n.bump_y < MEC_SIZE) :
    n.update_bump_tracker ≠ LoopResult.out_of_fuel ∧
    (∀ fuel, MEC_SIZE * MEC_SIZE ≤ fuel →
      n.update_bump_tracker_with_fuel fuel = n.update_bump_tracker) ∧
    ((∀ x y : Int, 0 ≤ x → x < MEC_SIZE → 0 ≤ y → y < MEC_SIZE → n.disc_mass x y ≠ 0) →
      ∃ n', n.update_bump_tracker = LoopResult.done n') ∧
    (∀ n', n.update_bump_tracker = LoopResult.done n' →
      (0 ≤ n'.bump_x ∧ n'.bump_x < MEC_SIZE ∧ 0 ≤ n'.bump_y ∧ n'.bump_y < MEC_SIZE) ∧
      (n'.bump_x - n'.bump_total_dx) % MEC_SIZE = (n.bump_x - n.bump_total_dx) % MEC_SIZE ∧
      (n'.bump_y - n'.bump_total_dy) % MEC_SIZE = (n.bump_y - n.bump_total_dy) % MEC_SIZE ∧
      n'.current = n.current ∧
      (¬ (n'.bump_x = n.bump_x ∧ n'.bump_y = n.bump_y) →
        n.disc_mass n.bump_x n.bump_y < n.disc_mass n'.bump_x n'.bump_y)) := by
  obtain ⟨s1, s2, s3, s4⟩ := bump_tracker_loop_spec (MEC_SIZE * MEC_SIZE) n hnn hx0 hx1 hy0 hy1
    (heavier_positions_lt n _ _ hx0 hx1 hy0 hy1)
  have hu : ∀ fuel, n.update_bump_tracker_with_fuel fuel = n.bump_tracker_loop fuel := by
    intro fuel
    unfold NeuralSheetNetwork.update_bump_tracker_with_fuel
    rw [hinit]
    simp
  have hu0 : n.update_bump_tracker = n.bump_tracker_loop (MEC_SIZE * MEC_SIZE) := hu _
  refine ⟨by rw [hu0]; exact s1, ?_, by rw [hu0]; exact s4, ?_⟩
  · intro fuel hfuel
    obtain ⟨k, hk⟩ := Nat.exists_eq_add_of_le hfuel
    rw [hu, hu0, hk]
    exact s2 k
  · intro n' h
    rw [hu0] at h
    obtain ⟨j1, j2, j3, _, j5⟩ := s3 n' h
    have e40 : ((MEC_SIZE : Nat) : Int) = 40 := rfl
    rw [e40]
    exact ⟨by rw [e40] at j1; exact j1, j2, j3,
      congrArg Network.current (bump_tracker_loop_done _ n n' h).1, j5⟩

end TrackerTermination

end GridPlaceNav

namespace GridPlaceNav

section TrackerPositivity

variable {α : Type} [LinearOrderedField α] [FloorRing α]

/-- The neuron index that `calculate_disc_mass` reads for a centre in the sheet is an
index of the sheet. -/
theorem disc_index_lt (cx cy : Int) (hx0 : 0 ≤ cx) (hx1 : cx < MEC_SIZE) (hy0 : 0 ≤ cy)
    (hy1 : cy < MEC_SIZE) (i j : Nat) (hi : i < 11) (hj : j < 11) :
    coords_to_neuron_index
      (Periodic.modulo (cx + ((i : Int) - BUMP_TRACKER_RADIUS)) MEC_SIZE).toNat
      (Periodic.modulo (cy + ((j : Int) - BUMP_TRACKER_RADIUS)) MEC_SIZE).toNat
      < MEC_SIZE * MEC_SIZE := by
  have e40 : ((MEC_SIZE : Nat) : Int) = 40 := rfl
  have e5 : ((BUMP_TRACKER_RADIUS : Nat) : Int) = 5 := rfl
  rw [e40] at hx1 hy1
  obtain ⟨a0, a1, _⟩ := sheet_modulo (cx + ((i : Int) - BUMP_TRACKER_RADIUS))
    ⟨by rw [e5]; omega, by rw [e5]; omega⟩
  obtain ⟨b0, b1, _⟩ := sheet_modulo (cy + ((j : Int) - BUMP_TRACKER_RADIUS))
    ⟨by rw [e5]; omega, by rw [e5]; omega⟩
  have a1' := lt_of_lt_of_eq a1 e40
  have b1' := lt_of_lt_of_eq b1 e40
  have hX : (Periodic.modulo (cx + ((i : Int) - BUMP_TRACKER_RADIUS)) MEC_SIZE).toNat < 40 := by
    omega
  have hY : (Periodic.modulo (cy + ((j : Int) - BUMP_TRACKER_RADIUS)) MEC_SIZE).toNat < 40 := by
    omega
  unfold coords_to_neuron_index
  generalize (Periodic.modulo (cx + ((i : Int) - BUMP_TRACKER_RADIUS)) MEC_SIZE).toNat = X at hX
  generalize (Periodic.modulo (cy + ((j : Int) - BUMP_TRACKER_RADIUS)) MEC_SIZE).toNat = Y at hY
  have hm : MEC_SIZE = 40 := rfl
  rw [hm]
  omega

/-- Over a sheet whose activities are all positive, the disc mass at every position of
the sheet is positive. -/
theorem disc_mass_pos (n : NeuralSheetNetwork α)
    (hpos : ∀ i, i < MEC_SIZE * MEC_SIZE → 0 < n.current.getD i 0) (cx cy : Int)
    (hx0 : 0 ≤ cx) (hx1 : cx < MEC_SIZE) (hy0 : 0 ≤ cy) (hy1 : cy < MEC_SIZE) :
    0 < n.disc_mass cx cy := by
  unfold NeuralSheetNetwork.disc_mass NeuralSheetNetwork.disc_sums
  have hr : List.range (2 * BUMP_TRACKER_RADIUS + 1) = List.range 5 ++ (5 :: [6, 7, 8, 9, 10]) := by
    decide
  have hmem : ∀ k, k ∈ List.range 5 ++ (5 :: [6, 7, 8, 9, 10]) → k < 11 := by
    intro k hk
    rw [← hr] at hk
    exact List.mem_range.mp hk
  rw [hr]
  -- one step of the inner loop keeps the mass non-negative, and positive once positive
  have hstep0 : ∀ (j : Nat), j < 11 → ∀ (acc : α × α × α) (i : Nat), i < 11 → 0 ≤ acc.1 →
      0 ≤ (if ((i : Int) - BUMP_TRACKER_RADIUS) * ((i : Int) - BUMP_TRACKER_RADIUS)
          + ((j : Int) - BUMP_TRACKER_RADIUS) * ((j : Int) - BUMP_TRACKER_RADIUS)
          > BUMP_TRACKER_RADIUS * BUMP_TRACKER_RADIUS then acc
        else
          (acc.1 + n.current.getD (coords_to_neuron_index
              (Periodic.modulo (cx + ((i : Int) - BUMP_TRACKER_RADIUS)) MEC_SIZE).toNat
              (Periodic.modulo (cy + ((j : Int) - BUMP_TRACKER_RADIUS)) MEC_SIZE).toNat) 0,
            acc.2.1 + (((i : Int) - BUMP_TRACKER_RADIUS : Int) : α)
              * n.current.getD (coords_to_neuron_index
                (Periodic.modulo (cx + ((i : Int) - BUMP_TRACKER_RADIUS)) MEC_SIZE).toNat
                (Periodic.modulo (cy + ((j : Int) - BUMP_TRACKER_RADIUS)) MEC_SIZE).toNat) 0,
            acc.2.2 + (((j : Int) - BUMP_TRACKER_RADIUS : Int) : α)
              * n.current.getD (coords_to_neuron_index
                (Periodic.modulo (cx + ((i : Int) - BUMP_TRACKER_RADIUS)) MEC_SIZE).toNat
                (Periodic.modulo (cy + ((j : Int) - BUMP_TRACKER_RADIUS)) MEC_SIZE).toNat) 0)).1 := by
    intro j hj acc i hi h
    split
    · exact h
    · exact add_nonneg h (le_of_lt (hpos _ (disc_index_lt cx cy hx0 hx1 hy0 hy1 i j hi hj)))
  have hstep1 : ∀ (j : Nat), j < 11 → ∀ (acc : α × α × α) (i : Nat), i < 11 → 0 < acc.1 →
      0 < (if ((i : Int) - BUMP_TRACKER_RADIUS) * ((i : Int) - BUMP_TRACKER_RADIUS)
          + ((j : Int) - BUMP_TRACKER_RADIUS) * ((j : Int) - BUMP_TRACKER_RADIUS)
          > BUMP_TRACKER_RADIUS * BUMP_TRACKER_RADIUS then acc
        else
          (acc.1 + n.current.getD (coords_to_neuron_index
              (Periodic.modulo (cx + ((i : Int) - BUMP_TRACKER_RADIUS)) MEC_SIZE).toNat
              (Periodic.modulo (cy + ((j : Int) - BUMP_TRACKER_RADIUS)) MEC_SIZE).toNat) 0,
            acc.2.1 + (((i : Int) - BUMP_TRACKER_RADIUS : Int) : α)
              * n.current.getD (coords_to_neuron_index
                (Periodic.modulo (cx + ((i : Int) - BUMP_TRACKER_RADIUS)) MEC_SIZE).toNat
                (Periodic.modulo (cy + ((j : Int) - BUMP_TRACKER_RADIUS)) MEC_SIZE).toNat) 0,
            acc.2.2 + (((j : Int) - BUMP_TRACKER_RADIUS : Int) : α)
              * n.current.getD (coords_to_neuron_index
                (Periodic.modulo (cx + ((i : Int) - BUMP_TRACKER_RADIUS)) MEC_SIZE).toNat
                (Periodic.modulo (cy + ((j : Int) - BUMP_TRACKER_RADIUS)) MEC_SIZE).toNat) 0)).1 := by
    intro j hj acc i hi h
    split
    · exact h
    · exact add_pos h (hpos _ (disc_index_lt cx cy hx0 hx1 hy0 hy1 i j hi hj))
  rw [List.foldl_append, List.foldl_cons]
  apply foldl_preserves_mem (fun acc : α × α × α => 0 < acc.1)
  · intro acc j hj hacc
    apply foldl_preserves_mem (fun acc : α × α × α => 0 < acc.1)
    · intro acc i hi hacc
      exact hstep1 j (hmem j (by simp at hj ⊢; omega)) acc i (hmem i hi) hacc
    · exact hacc
  · rw [List.foldl_append, List.foldl_cons]
    apply foldl_preserves_mem (fun acc : α × α × α => 0 < acc.1)
    · intro acc i hi hacc
      exact hstep1 5 (by norm_num) acc i (hmem i (by simp at hi ⊢; omega)) hacc
    · dsimp only
      have hc : ¬ (((5 : Nat) : Int) - BUMP_TRACKER_RADIUS) * (((5 : Nat) : Int) - BUMP_TRACKER_RADIUS)
          + (((5 : Nat) : Int) - BUMP_TRACKER_RADIUS) * (((5 : Nat) : Int) - BUMP_TRACKER_RADIUS)
          > BUMP_TRACKER_RADIUS * BUMP_TRACKER_RADIUS := by decide
      rw [if_neg hc]
      refine add_pos_of_nonneg_of_pos ?_
        (hpos _ (disc_index_lt cx cy hx0 hx1 hy0 hy1 5 5 (by norm_num) (by norm_num)))
      apply foldl_preserves_mem (fun acc : α × α × α => 0 ≤ acc.1)
      · intro acc i hi hacc
        exact hstep0 5 (by norm_num) acc i (hmem i (by simp at hi ⊢; omega)) hacc
      · apply foldl_preserves_mem (fun acc : α × α × α => 0 ≤ acc.1)
        · intro acc j hj hacc
          apply foldl_preserves_mem (fun acc : α × α × α => 0 ≤ acc.1)
          · intro acc i hi hacc
            exact hstep0 j (hmem j (by simp at hj ⊢; omega)) acc i (hmem i hi) hacc
          · exact hacc
        · exact le_refl _

end TrackerPositivity

end GridPlaceNav

namespace GridPlaceNav

section LoopLemmas

/-- An invariant of a loop `for (k = 0; k < n; k++)` whose body may fail: if the body
succeeds and re-establishes the invariant, the loop succeeds. -/
theorem foldlM_range_inv {σ : Type} (P : Nat → σ → Prop) (f : σ → Nat → Option σ) :
    ∀ (n : Nat) (s0 : σ), P 0 s0 →
      (∀ k s, k < n → P k s → ∃ s', f s k = some s' ∧ P (k + 1) s') →
      ∃ s, (List.range n).foldlM f s0 = some s ∧ P n s := by
  intro n
  induction n with
  | zero =>
    intro s0 h0 _
    exact ⟨s0, rfl, h0⟩
  | succ n ih =>
    intro s0 h0 hstep
    obtain ⟨s, hs, hP⟩ := ih s0 h0 (fun k s hk hPk => hstep k s (Nat.lt_succ_of_lt hk) hPk)
    obtain ⟨s', hs', hP'⟩ := hstep n s (Nat.lt_succ_self n) hP
    refine ⟨s', ?_, hP'⟩
    rw [List.range_succ, List.foldlM_append, hs]
    simp only [Option.bind_eq_bind, Option.some_bind, List.foldlM_cons, List.foldlM_nil]
    rw [hs']
    rfl

/-- An invariant of a loop `for (k = 0; k < n; k++)`. -/
theorem foldl_range_inv {σ : Type} (P : Nat → σ → Prop) (f : σ → Nat → σ) :
    ∀ (n : Nat) (s0 : σ), P 0 s0 → (∀ k s, k < n → P k s → P (k + 1) (f s k)) →
      P n ((List.range n).foldl f s0) := by
  intro n
  induction n with
  | zero =>
    intro s0 h0 _
    exact h0
  | succ n ih =>
    intro s0 h0 hstep
    rw [List.range_succ, List.foldl_append]
    exact hstep n _ (Nat.lt_succ_self n)
      (ih s0 h0 (fun k s hk hPk => hstep k s (Nat.lt_succ_of_lt hk) hPk))

end LoopLemmas

section WeightMatrix

variable {α : Type} [LinearOrderedField α]

theorem Matrix.write_some (m : Matrix α) (y x : Nat) (v : α) (hy : y < m.height)
    (hx : x < m.width) :
    m.write y x v = some { m with raw_values := m.raw_values.set (y * m.width + x) v } := by
  unfold Matrix.write
  rw [if_pos ⟨hy, hx⟩]

/-- The four writes of one weight into the doubled matrix. -/
theorem initialize_weights_step (m : Matrix α) (hW : m.width = 80) (hH : m.height = 80)
    (hL : m.raw_values.length = 6400) (x y : Nat) (hx : x < 40) (hy : y < 40) (v : α) :
    ∃ m' : Matrix α,
      (do
        let m ← m.write (y + 0) (x + 0) v
        let m ← m.write (y + 0) (x + MEC_SIZE) v
        let m ← m.write (y + MEC_SIZE) (x + 0) v
        m.write (y + MEC_SIZE) (x + MEC_SIZE) v) = some m' ∧
      m'.width = 80 ∧ m'.height = 80 ∧ m'.raw_values.length = 6400 ∧
      ∀ Y X, Y < 80 → X < 80 →
        m'.raw_values[Y * 80 + X]? =
          if Y % 40 = y ∧ X % 40 = x then some v else m.raw_values[Y * 80 + X]? := by
  have hN : MEC_SIZE = 40 := rfl
  rw [hN]
  simp only [Option.bind_eq_bind]
  rw [Matrix.write_some m _ _ v (by omega) (by omega)]
  simp only [Option.some_bind]
  rw [Matrix.write_some _ _ _ v (by show y + 0 < m.height; omega)
    (by show x + 40 < m.width; omega)]
  simp only [Option.some_bind]
  rw [Matrix.write_some _ _ _ v (by show y + 40 < m.height; omega)
    (by show x + 0 < m.width; omega)]
  simp only [Option.some_bind]
  rw [Matrix.write_some _ _ _ v (by show y + 40 < m.height; omega)
    (by show x + 40 < m.width; omega)]
  refine ⟨_, rfl, hW, hH, by simp [hL], ?_⟩
  intro Y X hY hX
  simp only [hW, List.getElem?_set, List.length_set, hL]
  by_cases hc : Y % 40 = y ∧ X % 40 = x
  · rw [if_pos hc]
    obtain ⟨h1, h2⟩ := hc
    by_cases e4 : (y + 40) * 80 + (x + 40) = Y * 80 + X
    · rw [if_pos e4, if_pos (by omega)]
    · rw [if_neg e4]
      by_cases e3 : (y + 40) * 80 + (x + 0) = Y * 80 + X
      · rw [if_pos e3, if_pos (by omega)]
      · rw [if_neg e3]
        by_cases e2 : (y + 0) * 80 + (x + 40) = Y * 80 + X
        · rw [if_pos e2, if_pos (by omega)]
        · rw [if_neg e2, if_pos (by omega), if_pos (by omega)]
  · rw [if_neg hc]
    have h1 : ¬ ((y + 40) * 80 + (x + 40) = Y * 80 + X) := by omega
    have h2 : ¬ ((y + 40) * 80 + (x + 0) = Y * 80 + X) := by omega
    have h3 : ¬ ((y + 0) * 80 + (x + 40) = Y * 80 + X) := by omega
    have h4 : ¬ ((y + 0) * 80 + (x + 0) = Y * 80 + X) := by omega
    rw [if_neg h1, if_neg h2, if_neg h3, if_neg h4]

/-- The weight matrix built by `initialize` holds `get_weight(X mod N, Y mod N)` at row
`Y` and column `X`, for all `X, Y < 2 N`; no write leaves the matrix. -/
theorem initialize_weights_spec (w : Int → Int → α) :
    ∃ m : Matrix α, MecShiftedMaskInput.initialize_weights w = some m ∧
      m.width = 80 ∧ m.height = 80 ∧ m.raw_values.length = 6400 ∧
      ∀ Y X, Y < 80 → X < 80 →
        m.raw_values[Y * 80 + X]? = some (w ((X % 40 : Nat) : Int) ((Y % 40 : Nat) : Int)) := by
  unfold MecShiftedMaskInput.initialize_weights
  have hN : MEC_SIZE = 40 := rfl
  obtain ⟨m, hm, hW, hH, hL, hE⟩ := foldlM_range_inv
    (fun (k : Nat) (m : Matrix α) => m.width = 80 ∧ m.height = 80 ∧
      m.raw_values.length = 6400 ∧
      ∀ Y X, Y < 80 → X < 80 → Y % 40 < k →
        m.raw_values[Y * 80 + X]? = some (w ((X % 40 : Nat) : Int) ((Y % 40 : Nat) : Int)))
    (fun (m : Matrix α) (y : Nat) =>
      (List.range MEC_SIZE).foldlM (fun (m : Matrix α) (x : Nat) => do
        let weight := w x y
        let m ← m.write (y + 0) (x + 0) weight
        let m ← m.write (y + 0) (x + MEC_SIZE) weight
        let m ← m.write (y + MEC_SIZE) (x + 0) weight
        m.write (y + MEC_SIZE) (x + MEC_SIZE) weight) m)
    MEC_SIZE (Matrix.new (2 * MEC_SIZE) (2 * MEC_SIZE))
    (by
      refine ⟨by rw [hN]; rfl, by rw [hN]; rfl, ?_, ?_⟩
      · show (List.replicate (2 * MEC_SIZE * (2 * MEC_SIZE)) (0 : α)).length = 6400
        rw [List.length_replicate, hN]
      · intro Y X _ _ h
        omega)
    (by
      intro y m hy ⟨hW, hH, hL, hE⟩
      rw [hN] at hy
      obtain ⟨m', hm', hW', hH', hL', hE1, hE2⟩ := foldlM_range_inv
        (fun (j : Nat) (m' : Matrix α) => m'.width = 80 ∧ m'.height = 80 ∧
          m'.raw_values.length = 6400 ∧
          (∀ Y X, Y < 80 → X < 80 → Y % 40 < y →
            m'.raw_values[Y * 80 + X]? = some (w ((X % 40 : Nat) : Int) ((Y % 40 : Nat) : Int))) ∧
          (∀ Y X, Y < 80 → X < 80 → Y % 40 = y → X % 40 < j →
            m'.raw_values[Y * 80 + X]? = some (w ((X % 40 : Nat) : Int) ((Y % 40 : Nat) : Int))))
        (fun (m : Matrix α) (x : Nat) => do
          let weight := w x y
          let m ← m.write (y + 0) (x + 0) weight
          let m ← m.write (y + 0) (x + MEC_SIZE) weight
          let m ← m.write (y + MEC_SIZE) (x + 0) weight
          m.write (y + MEC_SIZE) (x + MEC_SIZE) weight)
        MEC_SIZE m ⟨hW, hH, hL, hE, fun Y X _ _ _ h => by omega⟩
        (by
          intro x m1 hx ⟨hW1, hH1, hL1, hE1, hE2⟩
          rw [hN] at hx
          obtain ⟨m2, hm2, hW2, hH2, hL2, hE3⟩ :=
            initialize_weights_step m1 hW1 hH1 hL1 x y hx hy (w x y)
          refine ⟨m2, hm2, hW2, hH2, hL2, ?_, ?_⟩
          · intro Y X hY hX hlt
            rw [hE3 Y X hY hX, if_neg (by omega)]
            exact hE1 Y X hY hX hlt
          · intro Y X hY hX hYy hXx
            rw [hE3 Y X hY hX]
            by_cases hc : Y % 40 = y ∧ X % 40 = x
            · rw [if_pos hc, hc.1, hc.2]
            · rw [if_neg hc]
              exact hE2 Y X hY hX hYy (by omega))
      refine ⟨m', hm', hW', hH', hL', ?_⟩
      intro Y X hY hX hlt
      by_cases hc : Y % 40 = y
      · exact hE2 Y X hY hX hc (by rw [hN]; omega)
      · exact hE1 Y X hY hX (by omega))
  exact ⟨m, hm, hW, hH, hL, fun Y X hY hX => hE Y X hY hX (by rw [hN]; omega)⟩

end WeightMatrix

end GridPlaceNav

namespace GridPlaceNav

section WeightedSum

variable {α : Type} [LinearOrderedField α]

/-- A loop that adds the term `t k` in step `k` computes the sum of the terms. -/
theorem foldlM_range_sum (t : Nat → α) (f : α → Nat → Option α) (n : Nat)
    (hf : ∀ k s, k < n → f s k = some (s + t k)) (s0 : α) :
    (List.range n).foldlM f s0 = some (s0 + ∑ k in Finset.range n, t k) := by
  obtain ⟨s, hs, hP⟩ := foldlM_range_inv
    (fun (k : Nat) (s : α) => s = s0 + ∑ j in Finset.range k, t j) f n s0 (by simp)
    (by
      intro k s hk hs
      refine ⟨s + t k, hf k s hk, ?_⟩
      show s + t k = s0 + ∑ j in Finset.range (k + 1), t j
      rw [hs, Finset.sum_range_succ, add_assoc])
  rw [hs, hP]

theorem getD_of_lt (l : List α) (i : Nat) (h : i < l.length) :
    l[i]? = some (l.getD i 0) := by
  rw [List.getD_eq_getElem?_getD, List.getElem?_eq_getElem h]
  rfl

/-- The two inner loops of `add_inputs` compute the direct toroidal sum: for a shift
`(sx, sy)` with `0 <= sx, sy < N`, every read of the doubled weight matrix stays in its
row and inside the matrix. -/
theorem weighted_sum_spec (w : Int → Int → α) (m : Matrix α) (hW : m.width = 80)
    (hH : m.height = 80)
    (hE : ∀ Y X, Y < 80 → X < 80 →
      m.raw_values[Y * 80 + X]? = some (w ((X % 40 : Nat) : Int) ((Y % 40 : Nat) : Int)))
    (afferent : Vector α) (hA : afferent.length = 1600) (sx sy : Int)
    (hx0 : 0 ≤ sx) (hx1 : sx < 40) (hy0 : 0 ≤ sy) (hy1 : sy < 40) :
    MecShiftedMaskInput.weighted_sum m afferent ((MEC_SIZE : Int) - sx) ((MEC_SIZE : Int) - sy)
      = some (direct_toroidal_sum w afferent sx sy) := by
  have hN : MEC_SIZE = 40 := rfl
  have hNi : ((MEC_SIZE : Nat) : Int) = 40 := rfl
  unfold MecShiftedMaskInput.weighted_sum direct_toroidal_sum
  rw [if_pos (by rw [hW, hH, hNi]; omega)]
  have hinner : ∀ (y : Nat), y < 40 → ∀ (s : α),
      (List.range MEC_SIZE).foldlM (fun (sum : α) (x : Nat) => do
        let neuron ← afferent[y * MEC_SIZE + x]?
        let weight ← m.raw_values[
          (((MEC_SIZE : Nat) : Int) - sy).toNat * m.width + (((MEC_SIZE : Nat) : Int) - sx).toNat
            + y * (MEC_SIZE * 2) + x]?
        some (sum + neuron * weight)) s
      = some (s + ∑ x in Finset.range MEC_SIZE,
          afferent.getD (coords_to_neuron_index x y) 0
            * w (((x : Int) - sx) % (MEC_SIZE : Int)) (((y : Int) - sy) % (MEC_SIZE : Int))) := by
    intro y hy s
    apply foldlM_range_sum
    intro x s' hx
    rw [hN] at hx
    have h1 : afferent[y * MEC_SIZE + x]? = some (afferent.getD (coords_to_neuron_index x y) 0) := by
      unfold coords_to_neuron_index
      apply getD_of_lt
      rw [hA, hN]
      omega
    have hidx : (((MEC_SIZE : Nat) : Int) - sy).toNat * m.width
        + (((MEC_SIZE : Nat) : Int) - sx).toNat + y * (MEC_SIZE * 2) + x
        = ((40 - sy).toNat + y) * 80 + ((40 - sx).toNat + x) := by
      rw [hW, hNi, hN]
      ring
    have h2 := hE ((40 - sy).toNat + y) ((40 - sx).toNat + x) (by omega) (by omega)
    rw [h1, hidx, h2]
    simp only [Option.bind_eq_bind, Option.some_bind]
    have e1 : ((((40 - sx).toNat + x) % 40 : Nat) : Int) = ((x : Int) - sx) % (MEC_SIZE : Int) := by
      rw [hNi]
      omega
    have e2 : ((((40 - sy).toNat + y) % 40 : Nat) : Int) = ((y : Int) - sy) % (MEC_SIZE : Int) := by
      rw [hNi]
      omega
    rw [e1, e2]
  have houter := foldlM_range_sum
    (fun y => ∑ x in Finset.range MEC_SIZE,
      afferent.getD (coords_to_neuron_index x y) 0
        * w (((x : Int) - sx) % (MEC_SIZE : Int)) (((y : Int) - sy) % (MEC_SIZE : Int)))
    (fun (sum : α) (y : Nat) =>
      (List.range MEC_SIZE).foldlM (fun (sum : α) (x : Nat) => do
        let neuron ← afferent[y * MEC_SIZE + x]?
        let weight ← m.raw_values[
          (((MEC_SIZE : Nat) : Int) - sy).toNat * m.width + (((MEC_SIZE : Nat) : Int) - sx).toNat
            + y * (MEC_SIZE * 2) + x]?
        some (sum + neuron * weight)) sum)
    MEC_SIZE (fun y s hy => hinner y (by rw [hN] at hy; exact hy) s) 0
  rw [houter, zero_add]

end WeightedSum

end GridPlaceNav

namespace GridPlaceNav

section CachedSums

variable {α : Type} [LinearOrderedField α]

/-- The first loop of `add_inputs` clears every validity flag. -/
theorem invalidate_spec (v : List Bool) (hv : v.length = 1600) :
    (MecShiftedMaskInput.invalidate v).length = 1600 ∧
    ∀ c, c < 1600 → (MecShiftedMaskInput.invalidate v)[c]? = some false := by
  unfold MecShiftedMaskInput.invalidate
  have hN : MEC_SIZE = 40 := rfl
  have key := foldl_range_inv
    (fun (k : Nat) (v' : List Bool) => v'.length = 1600 ∧
      ∀ c, c < k * 40 → v'[c]? = some false)
    (fun (valid : List Bool) (y : Nat) =>
      (List.range MEC_SIZE).foldl (fun (valid : List Bool) (x : Nat) =>
        valid.set (y * MEC_SIZE + x) false) valid)
    MEC_SIZE v ⟨hv, fun c hc => by omega⟩
    (by
      intro y v1 hy ⟨hl, hc⟩
      rw [hN] at hy
      have inner := foldl_range_inv
        (fun (j : Nat) (v' : List Bool) => v'.length = 1600 ∧
          ∀ c, c < y * 40 + j → v'[c]? = some false)
        (fun (valid : List Bool) (x : Nat) => valid.set (y * MEC_SIZE + x) false)
        MEC_SIZE v1 ⟨hl, fun c hc' => hc c (by omega)⟩
        (by
          intro x v2 hx ⟨hl2, hc2⟩
          rw [hN] at hx
          refine ⟨by rw [List.length_set, hl2], ?_⟩
          intro c hc'
          rw [List.getElem?_set, hl2, hN]
          by_cases e : y * 40 + x = c
          · rw [if_pos e, if_pos (by omega)]
          · rw [if_neg e]
            exact hc2 c (by omega))
      refine ⟨inner.1, ?_⟩
      intro c hc'
      exact inner.2 c (by rw [hN]; omega))
  exact ⟨key.1, fun c hc => key.2 c (by rw [hN]; omega)⟩

theorem cache_index_some (sx sy : Int) (hx0 : 0 ≤ sx) (hx1 : sx < 40) (hy0 : 0 ≤ sy)
    (hy1 : sy < 40) :
    cache_index sy sx = some (sy.toNat * 40 + sx.toNat) ∧ sy.toNat * 40 + sx.toNat < 1600 ∧
    (((sy.toNat * 40 + sx.toNat) % 40 : Nat) : Int) = sx ∧
    (((sy.toNat * 40 + sx.toNat) / 40 : Nat) : Int) = sy := by
  have hNi : ((MEC_SIZE : Nat) : Int) = 40 := rfl
  have hN : MEC_SIZE = 40 := rfl
  unfold cache_index
  rw [if_pos (by rw [hNi]; omega), hN]
  refine ⟨rfl, by omega, by omega, by omega⟩

/-- The method `MecShiftedMaskInput::add_inputs`, for shifts in `[0, MEC_SIZE)^2` and a
weight matrix as `initialize` builds it: no index leaves its range, an enabled efferent
neuron receives the direct toroidal sum for its shift, whatever was processed before it,
and a disabled neuron receives nothing. -/
theorem add_inputs_spec (w : Int → Int → α) (get_shift : Nat → Int × Int) (size : Nat)
    (inp : MecShiftedMaskInput α) (hW : inp.weights.width = 80) (hH : inp.weights.height = 80)
    (hE : ∀ Y X, Y < 80 → X < 80 → inp.weights.raw_values[Y * 80 + X]?
      = some (w ((X % 40 : Nat) : Int) ((Y % 40 : Nat) : Int)))
    (hS : inp.shifts = (List.range size).map get_shift)
    (hCs : inp.cached_sums.length = 1600) (hCv : inp.cached_sum_valid.length = 1600)
    (hR : ∀ e, e < size → 0 ≤ (get_shift e).1 ∧ (get_shift e).1 < 40 ∧
      0 ≤ (get_shift e).2 ∧ (get_shift e).2 < 40)
    (should : Nat → Bool) (afferent : Vector α) (hA : afferent.length = 1600)
    (inputs : Vector α) (hI : inputs.length = size) :
    ∃ r, inp.add_inputs should afferent size inputs = some r ∧
      r.1.weights = inp.weights ∧ r.1.shifts = inp.shifts ∧
      r.1.cached_sums.length = 1600 ∧ r.1.cached_sum_valid.length = 1600 ∧
      r.2.length = size ∧
      ∀ e, e < size → r.2[e]? = some (inputs.getD e 0 +
        if should e = true then direct_toroidal_sum w afferent (get_shift e).1 (get_shift e).2
        else 0) := by
  unfold MecShiftedMaskInput.add_inputs
  obtain ⟨hinv1, hinv2⟩ := invalidate_spec inp.cached_sum_valid hCv
  obtain ⟨r, hr, h1, h2, h3, h4, _, h6, h7⟩ := foldlM_range_inv
    (fun (k : Nat) (st : MecShiftedMaskInput α × Vector α) =>
      st.1.weights = inp.weights ∧ st.1.shifts = inp.shifts ∧
      st.1.cached_sums.length = 1600 ∧ st.1.cached_sum_valid.length = 1600 ∧
      (∀ c, c < 1600 → st.1.cached_sum_valid[c]? = some true →
        st.1.cached_sums[c]? = some (direct_toroidal_sum w afferent
          ((c % 40 : Nat) : Int) ((c / 40 : Nat) : Int))) ∧
      st.2.length = size ∧
      ∀ e, e < size → st.2[e]? = some (inputs.getD e 0 +
        if e < k ∧ should e = true then
          direct_toroidal_sum w afferent (get_shift e).1 (get_shift e).2
        else 0))
    (MecShiftedMaskInput.add_input should afferent) size
    ({ inp with cached_sum_valid := MecShiftedMaskInput.invalidate inp.cached_sum_valid },
      inputs)
    (by
      dsimp only
      refine ⟨rfl, rfl, hCs, hinv1, ?_, hI, ?_⟩
      · intro c hc hv
        have hv' : (MecShiftedMaskInput.invalidate inp.cached_sum_valid)[c]? = some true := hv
        rw [hinv2 c hc] at hv'
        cases hv'
      · intro e he
        rw [getD_of_lt inputs e (by rw [hI]; exact he),
          if_neg (fun h => absurd h.1 (Nat.not_lt_zero _)), add_zero])
    (by
      intro k st hk ⟨g1, g2, g3, g4, g5, g6, g7⟩
      unfold MecShiftedMaskInput.add_input
      by_cases hsh : should k = true
      · rw [if_neg (by simpa using hsh)]
        obtain ⟨r0, r1, r2, r3⟩ := hR k hk
        obtain ⟨ci, clt, cm, cd⟩ := cache_index_some _ _ r0 r1 r2 r3
        have hshift : st.1.shifts[k]? = some (get_shift k) := by
          rw [g2, hS, List.getElem?_map, List.getElem?_range hk]
          rfl
        have hold := g7 k hk
        rw [if_neg (fun h => absurd h.1 (Nat.lt_irrefl _)), add_zero] at hold
        simp only [Option.bind_eq_bind]
        rw [hshift]
        simp only [Option.some_bind]
        rw [ci]
        simp only [Option.some_bind]
        obtain ⟨b, hb⟩ : ∃ b, st.1.cached_sum_valid[(get_shift k).2.toNat * 40
            + (get_shift k).1.toNat]? = some b :=
          ⟨_, List.getElem?_eq_getElem (by rw [g4]; exact clt)⟩
        rw [hb]
        simp only [Option.some_bind]
        rw [hold]
        simp only [Option.some_bind]
        by_cases hval : b = true
        · rw [if_pos hval]
          have hc := g5 _ clt (by rw [hb, hval])
          rw [cm, cd] at hc
          rw [hc]
          simp only [Option.some_bind]
          refine ⟨_, rfl, g1, g2, g3, g4, g5, by rw [List.length_set]; exact g6, ?_⟩
          intro e he
          show (st.2.set k _)[e]? = _
          rw [List.getElem?_set]
          by_cases e1 : k = e
          · rw [if_pos e1, if_pos (by rw [g6]; exact hk), ← e1,
              if_pos ⟨Nat.lt_succ_self k, hsh⟩]
          · rw [if_neg e1, g7 e he]
            by_cases e2 : e < k ∧ should e = true
            · rw [if_pos e2, if_pos ⟨by omega, e2.2⟩]
            · rw [if_neg e2, if_neg (by
                intro ⟨e3, e4⟩
                exact e2 ⟨by omega, e4⟩)]
        · rw [if_neg hval]
          have hws := weighted_sum_spec w st.1.weights (by rw [g1]; exact hW)
            (by rw [g1]; exact hH) (by rw [g1]; exact hE) afferent hA _ _ r0 r1 r2 r3
          rw [hws]
          simp only [Option.some_bind]
          refine ⟨_, rfl, g1, g2, by rw [List.length_set]; exact g3,
            by rw [List.length_set]; exact g4, ?_, by rw [List.length_set]; exact g6, ?_⟩
          · intro c hc hv
            have hv' : (st.1.cached_sum_valid.set ((get_shift k).2.toNat * 40
                + (get_shift k).1.toNat) true)[c]? = some true := hv
            show (st.1.cached_sums.set ((get_shift k).2.toNat * 40
                + (get_shift k).1.toNat) _)[c]? = _
            rw [List.getElem?_set] at hv' ⊢
            by_cases e1 : (get_shift k).2.toNat * 40 + (get_shift k).1.toNat = c
            · rw [if_pos e1, if_pos (by rw [g3]; exact clt), ← e1, cm, cd]
            · rw [if_neg e1] at hv' ⊢
              exact g5 c hc hv'
          · intro e he
            show (st.2.set k _)[e]? = _
            rw [List.getElem?_set]
            by_cases e1 : k = e
            · rw [if_pos e1, if_pos (by rw [g6]; exact hk), ← e1,
                if_pos ⟨Nat.lt_succ_self k, hsh⟩]
            · rw [if_neg e1, g7 e he]
              by_cases e2 : e < k ∧ should e = true
              · rw [if_pos e2, if_pos ⟨by omega, e2.2⟩]
              · rw [if_neg e2, if_neg (by
                  intro ⟨e3, e4⟩
                  exact e2 ⟨by omega, e4⟩)]
      · rw [if_pos (by simpa using hsh)]
        refine ⟨st, rfl, g1, g2, g3, g4, g5, g6, ?_⟩
        intro e he
        rw [g7 e he]
        by_cases e2 : e < k ∧ should e = true
        · rw [if_pos e2, if_pos ⟨by omega, e2.2⟩]
        · rw [if_neg e2, if_neg (by
            intro ⟨e3, e4⟩
            by_cases e5 : e = k
            · rw [e5] at e4
              exact hsh e4
            · exact e2 ⟨by omega, e4⟩)])
  refine ⟨r, hr, h1, h2, h3, h4, h6, ?_⟩
  intro e he
  rw [h7 e he]
  by_cases e2 : should e = true
  · rw [if_pos e2, if_pos ⟨he, e2⟩]
  · rw [if_neg e2, if_neg (fun h => e2 h.2)]

end CachedSums

end GridPlaceNav

namespace GridPlaceNav

section ShiftedMaskClaim

variable {α : Type} [LinearOrderedField α]

/-- The shifts of the recurrent input are coordinates of the sheet. -/
theorem recurrent_shift_range (e : Nat) (he : e < MEC_SIZE * MEC_SIZE) :
    0 ≤ (MecRecurrentInput.get_shift e).1 ∧ (MecRecurrentInput.get_shift e).1 < 40 ∧
    0 ≤ (MecRecurrentInput.get_shift e).2 ∧ (MecRecurrentInput.get_shift e).2 < 40 := by
  have hN : MEC_SIZE = 40 := rfl
  have hNi : ((MEC_SIZE : Nat) : Int) = 40 := rfl
  rw [hN] at he
  have hx : e % MEC_SIZE < 40 := by rw [hN]; omega
  have hy : e / MEC_SIZE < 40 := by rw [hN]; omega
  unfold MecRecurrentInput.get_shift
  dsimp only
  generalize e % MEC_SIZE = x at hx
  generalize e / MEC_SIZE = y at hy
  cases MecNetwork.directionality x y <;> dsimp only
  · obtain ⟨a0, a1, _⟩ := sheet_modulo ((x : Int) + 1) ⟨by omega, by omega⟩
    obtain ⟨b0, b1, _⟩ := sheet_modulo (y : Int) ⟨by omega, by omega⟩
    rw [hNi] at a1 b1
    exact ⟨a0, a1, b0, b1⟩
  · obtain ⟨a0, a1, _⟩ := sheet_modulo (x : Int) ⟨by omega, by omega⟩
    obtain ⟨b0, b1, _⟩ := sheet_modulo ((y : Int) - 1) ⟨by omega, by omega⟩
    rw [hNi] at a1 b1
    exact ⟨a0, a1, b0, b1⟩
  · obtain ⟨a0, a1, _⟩ := sheet_modulo (x : Int) ⟨by omega, by omega⟩
    obtain ⟨b0, b1, _⟩ := sheet_modulo ((y : Int) + 1) ⟨by omega, by omega⟩
    rw [hNi] at a1 b1
    exact ⟨a0, a1, b0, b1⟩
  · obtain ⟨a0, a1, _⟩ := sheet_modulo ((x : Int) - 1) ⟨by omega, by omega⟩
    obtain ⟨b0, b1, _⟩ := sheet_modulo (y : Int) ⟨by omega, by omega⟩
    rw [hNi] at a1 b1
    exact ⟨a0, a1, b0, b1⟩

/-- The input object that `initialize` builds. -/
theorem initialize_spec (w : Int → Int → α) (get_shift : Nat → Int × Int) (size : Nat)
    (cached_sums : List α) (cached_sum_valid : List Bool) :
    ∃ inp, MecShiftedMaskInput.initialize w get_shift size cached_sums cached_sum_valid
        = some inp ∧
      inp.weights.width = 80 ∧ inp.weights.height = 80 ∧
      (∀ Y X, Y < 80 → X < 80 → inp.weights.raw_values[Y * 80 + X]?
        = some (w ((X % 40 : Nat) : Int) ((Y % 40 : Nat) : Int))) ∧
      inp.shifts = (List.range size).map get_shift ∧
      inp.cached_sums = cached_sums ∧ inp.cached_sum_valid = cached_sum_valid := by
  obtain ⟨m, hm, hW, hH, _, hE⟩ := initialize_weights_spec w
  unfold MecShiftedMaskInput.initialize
  rw [hm]
  exact ⟨_, rfl, hW, hH, hE, rfl, rfl, rfl⟩

/-- C27. For every weight function `w`, every assignment of shifts in `[0, N)^2`, every
afferent sheet state, every set of enabled efferent neurons and every content of the
cache arrays, `initialize` followed by `add_inputs` succeeds, that is, every index into
the weight matrix, the cache, the shifts and the vectors stays in range, and the amount
that `add_inputs` adds to an enabled efferent neuron with shift `(sx, sy)` is the direct
toroidal sum over all `(x, y)` of `afferent[x, y] * w((x - sx) mod N, (y - sy) mod N)`,
whatever was processed before; a disabled neuron receives nothing. The same holds for
every later call on the input object that the call leaves behind, and the shifts of the
recurrent input are in `[0, N)^2`. -/
theorem shifted_mask_refinement (w : Int → Int → α) (get_shift : Nat → Int × Int)
    (size : Nat) (cached_sums : List α) (cached_sum_valid : List Bool)
    (hCs : cached_sums.length = MEC_SIZE * MEC_SIZE)
    (hCv : cached_sum_valid.length = MEC_SIZE * MEC_SIZE)
    (hR : ∀ e, e < size → 0 ≤ (get_shift e).1 ∧ (get_shift e).1 < MEC_SIZE ∧
      0 ≤ (get_shift e).2 ∧ (get_shift e).2 < MEC_SIZE)
    (should : Nat → Bool) (afferent : Vector α) (hA : afferent.length = MEC_SIZE * MEC_SIZE)
    (inputs : Vector α) (hI : inputs.length = size) :
    ∃ inp, MecShiftedMaskInput.initialize w get_shift size cached_sums cached_sum_valid
        = some inp ∧
      ∃ r, inp.add_inputs should afferent size inputs = some r ∧
        r.2.length = size ∧
        (∀ e, e < size → r.2[e]? = some (inputs.getD e 0 +
          if should e = true then
            direct_toroidal_sum w afferent (get_shift e).1 (get_shift e).2
          else 0)) ∧
        (∀ (should' : Nat → Bool) (afferent' inputs' : Vector α),
          afferent'.length = MEC_SIZE * MEC_SIZE → inputs'.length = size →
          ∃ r', r.1.add_inputs should' afferent' size inputs' = some r' ∧
            r'.2.length = size ∧
            ∀ e, e < size → r'.2[e]? = some (inputs'.getD e 0 +
              if should' e = true then
                direct_toroidal_sum w afferent' (get_shift e).1 (get_shift e).2
              else 0)) ∧
        (∀ e, e < MEC_SIZE * MEC_SIZE →
          0 ≤ (MecRecurrentInput.get_shift e).1 ∧
          (MecRecurrentInput.get_shift e).1 < MEC_SIZE ∧
          0 ≤ (MecRecurrentInput.get_shift e).2 ∧
          (MecRecurrentInput.get_shift e).2 < MEC_SIZE) := by
  have hNi : ((MEC_SIZE : Nat) : Int) = 40 := rfl
  have hNN : MEC_SIZE * MEC_SIZE = 1600 := rfl
  rw [hNN] at hCs hCv hA
  rw [hNi] at hR
  obtain ⟨inp, hinp, hW, hH, hE, hS, hc1, hc2⟩ :=
    initialize_spec w get_shift size cached_sums cached_sum_valid
  obtain ⟨r, hr, g1, g2, g3, g4, g5, g6⟩ := add_inputs_spec w get_shift size inp hW hH hE hS
    (by rw [hc1]; exact hCs) (by rw [hc2]; exact hCv) hR should afferent hA inputs hI
  refine ⟨inp, hinp, r, hr, g5, g6, ?_, ?_⟩
  · intro should' afferent' inputs' hA' hI'
    obtain ⟨r', hr', _, _, _, _, k5, k6⟩ := add_inputs_spec w get_shift size r.1
      (by rw [g1]; exact hW) (by rw [g1]; exact hH) (by rw [g1]; exact hE)
      (by rw [g2]; exact hS) g3 g4 hR should' afferent' (by rw [hA', hNN]) inputs' hI'
    exact ⟨r', hr', k5, k6⟩
  · intro e he
    rw [hNi]
    exact recurrent_shift_range e he

/-- Witness for C27: the recurrent shifts with the weight `w(x, y) = x + 2 y`, all
neurons enabled, on a sheet of ones. -/
theorem shifted_mask_refinement_witness :
    ∃ inp, MecShiftedMaskInput.initialize (fun x y => ((x + 2 * y : Int) : ℚ))
        MecRecurrentInput.get_shift (MEC_SIZE * MEC_SIZE)
        (List.replicate (MEC_SIZE * MEC_SIZE) 0) (List.replicate (MEC_SIZE * MEC_SIZE) false)
        = some inp ∧
      ∃ r, inp.add_inputs (fun _ => true) (List.replicate (MEC_SIZE * MEC_SIZE) 1)
          (MEC_SIZE * MEC_SIZE) (List.replicate (MEC_SIZE * MEC_SIZE) 0) = some r ∧
        r.2.length = MEC_SIZE * MEC_SIZE := by
  obtain ⟨inp, h1, r, h2, h3, _⟩ := shifted_mask_refinement
    (fun x y => ((x + 2 * y : Int) : ℚ)) MecRecurrentInput.get_shift (MEC_SIZE * MEC_SIZE)
    (List.replicate (MEC_SIZE * MEC_SIZE) 0) (List.replicate (MEC_SIZE * MEC_SIZE) false)
    (List.length_replicate _ _) (List.length_replicate _ _)
    (fun e he => recurrent_shift_range e he)
    (fun _ => true) (List.replicate (MEC_SIZE * MEC_SIZE) 1) (List.length_replicate _ _)
    (List.replicate (MEC_SIZE * MEC_SIZE) 0) (List.length_replicate _ _)
  exact ⟨inp, h1, r, h2, h3⟩

end ShiftedMaskClaim

end GridPlaceNav

namespace GridPlaceNav

section SittingWitnesses

/-- Witness for C21: the deflect agent of `main` receives the reward 1 at the origin of
the empty graph, over the reals. -/
theorem receive_reward_execute_witness :
    ∃ a' : Agent ℝ,
      (scen_deflect_agent : Agent ℝ).execute
        ⟨Real.cos, Real.sin, fun y x => Complex.arg ⟨x, y⟩, Real.exp, Real.sqrt, Real.pi⟩
        0 0 [[3, 4]] (ring_at_rest 28 false false 1) = some a' ∧
      (∃ c, a'.model.place_graph.agent_cell = some c ∧
        map_get a'.model.place_graph.reward_locations 1 = some c) ∧
      a'.output.halted = true ∧ a'.output.speed = 0 ∧
      a'.active_state = State.no_state := by
  obtain ⟨a', h, ⟨c, _, h1, _, h3, _⟩, _, h5, h6, h7⟩ := receive_reward_execute
    ⟨Real.cos, Real.sin, fun y x => Complex.arg ⟨x, y⟩, Real.exp, Real.sqrt, Real.pi⟩
    0 0 [[3, 4]] (ring_at_rest 28 false false 1) (scen_deflect_agent : Agent ℝ)
    (DeflectAgent scen_main_model (scen_agent_input 1)
      { heading := 0, speed := 0, halted := false })
    (IsPreset.deflect _ _ _) rfl rfl (by decide) (Reachable.init 7)
    (by show (0 : ℝ) ≤ 7; norm_num) (by decide)
  exact ⟨a', h, ⟨c, h1, h3⟩, h5, h6, h7⟩

theorem uniform_sheet_getD {α : Type} [LinearOrderedField α] (c : α) (i : Nat)
    (hi : i < MEC_SIZE * MEC_SIZE) : (scen_uniform_sheet c).current.getD i 0 = c := by
  show (List.replicate (MEC_SIZE * MEC_SIZE) c).getD i 0 = c
  rw [List.getD_eq_getElem?_getD, List.getElem?_replicate, if_pos hi]
  rfl

theorem uniform_sheet_mem {α : Type} [LinearOrderedField α] (c : α) (v : α)
    (hv : v ∈ (scen_uniform_sheet c).current) : v = c :=
  List.eq_of_mem_replicate hv

/-- Witness for C28: a sheet of ones with the tracker at the origin. -/
theorem bump_tracker_terminates_witness :
    (scen_uniform_sheet (1 : ℚ)).update_bump_tracker ≠ LoopResult.out_of_fuel ∧
    ∃ n', (scen_uniform_sheet (1 : ℚ)).update_bump_tracker = LoopResult.done n' := by
  have h := bump_tracker_terminates (scen_uniform_sheet (1 : ℚ))
    (fun v hv => by rw [uniform_sheet_mem 1 v hv]; norm_num) rfl (by decide) (by decide)
    (by decide) (by decide)
  refine ⟨h.1, h.2.2.1 ?_⟩
  intro x y hx0 hx1 hy0 hy1
  exact ne_of_gt (disc_mass_pos _
    (fun i hi => by rw [uniform_sheet_getD 1 i hi]; norm_num) x y hx0 hx1 hy0 hy1)

/-- Witness for C26: a sheet of ones with the tracker at the origin. -/
theorem bump_tracker_local_maximum_witness :
    ∃ n', (scen_uniform_sheet (1 : ℚ)).update_bump_tracker_with_fuel (MEC_SIZE * MEC_SIZE)
        = LoopResult.done n' ∧
      ∃ mass dx dy new_mass dx' dy',
        n'.calculate_disc_mass n'.bump_x n'.bump_y = some (mass, dx, dy) ∧
        n'.calculate_disc_mass (Periodic.modulo (n'.bump_x + dx) MEC_SIZE)
          (Periodic.modulo (n'.bump_y + dy) MEC_SIZE) = some (new_mass, dx', dy') ∧
        new_mass ≤ mass := by
  obtain ⟨n', hn'⟩ := (bump_tracker_loop_spec (MEC_SIZE * MEC_SIZE)
    (scen_uniform_sheet (1 : ℚ))
    (fun v hv => by rw [uniform_sheet_mem 1 v hv]; norm_num) (by decide) (by decide)
    (by decide) (by decide)
    (heavier_positions_lt _ _ _ (by decide) (by decide) (by decide) (by decide))).2.2.2
    (fun x y hx0 hx1 hy0 hy1 => ne_of_gt (disc_mass_pos _
      (fun i hi => by rw [uniform_sheet_getD 1 i hi]; norm_num) x y hx0 hx1 hy0 hy1))
  have hn : (scen_uniform_sheet (1 : ℚ)).update_bump_tracker_with_fuel (MEC_SIZE * MEC_SIZE)
      = LoopResult.done n' := hn'
  obtain ⟨_, mass, dx, dy, new_mass, dx', dy', h1, h2, _, _, h5⟩ :=
    bump_tracker_local_maximum (MEC_SIZE * MEC_SIZE) (scen_uniform_sheet (1 : ℚ)) n' rfl hn
  exact ⟨n', hn, mass, dx, dy, new_mass, dx', dy', h1, h2, h5⟩

end SittingWitnesses

end GridPlaceNav

namespace GridPlaceNav

section SettleLemmas

variable {α : Type} [LinearOrderedField α]

theorem set_getD_self (l : List α) (i : Nat) : l.set i (l.getD i 0) = l := by
  apply List.ext_getElem?
  intro j
  rw [List.getElem?_set]
  by_cases h : i = j
  · subst h
    by_cases hl : i < l.length
    · rw [if_pos rfl, if_pos hl, List.getD_eq_getElem _ _ hl, List.getElem?_eq_getElem hl]
    · rw [if_pos rfl, if_neg hl, List.getElem?_eq_none (not_lt.mp hl)]
  · rw [if_neg h]

theorem vector_mk_getD (n i : Nat) (c : α) (h : i < n) : (Vector.mk n c).getD i 0 = c := by
  unfold Vector.mk
  rw [List.getD_eq_getElem?_getD, List.getElem?_replicate, if_pos h]
  rfl

theorem range_map_getD_self (l : List α) :
    (List.range l.length).map (fun i => l.getD i 0) = l := by
  apply List.ext_getElem?
  intro j
  rw [List.getElem?_map]
  by_cases h : j < l.length
  · rw [List.getElem?_range h, List.getElem?_eq_getElem h]
    show some (l.getD j 0) = _
    rw [List.getD_eq_getElem _ _ h]
  · rw [List.getElem?_eq_none (by simpa using h), List.getElem?_eq_none (by simpa using h)]
    rfl

/-- With velocity zero the method `VelocityInput::add_inputs` adds zero to every input. -/
theorem velocity_add_inputs_zero (gain_mode : MecGainMode) (gain : α) (inputs : Vector α) :
    VelocityInput.add_inputs ({ velocity_x := 0, velocity_y := 0 } : VelocityInput α) gain_mode
        gain inputs
      = inputs := by
  unfold VelocityInput.add_inputs
  refine foldl_preserves (fun (v : Vector α) => v = inputs) _ _ ?_ _ rfl
  intro b y hb
  refine foldl_preserves (fun (v : Vector α) => v = inputs) _ _ ?_ _ hb
  intro b x hb
  dsimp only
  rw [hb]
  have key := set_getD_self inputs (coords_to_neuron_index x y)
  rw [List.getD_eq_getElem?_getD] at key
  cases MecNetwork.directionality x y <;> simp [key]

/-- A sum over one row of the torus does not depend on the shift of its index. -/
theorem sum_range_shift (f : Int → α) (s : Int) :
    ∑ x in Finset.range MEC_SIZE, f (((x : Int) - s) % (MEC_SIZE : Int))
      = ∑ x in Finset.range MEC_SIZE, f (x : Int) := by
  have hNi : ((MEC_SIZE : Nat) : Int) = 40 := rfl
  have hN : MEC_SIZE = 40 := rfl
  rw [hNi, hN]
  refine Finset.sum_nbij' (fun x => (((x : Int) - s) % 40).toNat)
    (fun x => (((x : Int) + s) % 40).toNat) ?_ ?_ ?_ ?_ ?_
  · intro x hx
    simp only [Finset.mem_range] at hx ⊢
    omega
  · intro x hx
    simp only [Finset.mem_range] at hx ⊢
    omega
  · intro x hx
    simp only [Finset.mem_range] at hx
    dsimp only
    omega
  · intro x hx
    simp only [Finset.mem_range] at hx
    dsimp only
    omega
  · intro x hx
    simp only [Finset.mem_range] at hx
    dsimp only
    congr 1
    omega

/-- On a sheet of uniform activity `c` the direct toroidal sum is `c` times the sum of all
weights, whatever the shift. -/
theorem direct_toroidal_sum_uniform (w : Int → Int → α) (c : α) (sx sy : Int) :
    direct_toroidal_sum w (Vector.mk (MEC_SIZE * MEC_SIZE) c) sx sy
      = c * ∑ y in Finset.range MEC_SIZE, ∑ x in Finset.range MEC_SIZE, w x y := by
  unfold direct_toroidal_sum
  rw [Finset.mul_sum,
    ← sum_range_shift (fun y => c * ∑ x in Finset.range MEC_SIZE, w x y) sy]
  apply Finset.sum_congr rfl
  intro y hy
  dsimp only
  rw [Finset.mul_sum,
    ← sum_range_shift (fun x => c * w x (((y : Int) - sy) % (MEC_SIZE : Int))) sx]
  apply Finset.sum_congr rfl
  intro x hx
  dsimp only
  rw [vector_mk_getD]
  have hx' := Finset.mem_range.mp hx
  have hy' := Finset.mem_range.mp hy
  unfold coords_to_neuron_index
  have hN : MEC_SIZE = 40 := rfl
  rw [hN] at hx' hy' ⊢
  omega

end SettleLemmas

end GridPlaceNav

namespace GridPlaceNav

section SheetUpdate

variable {α : Type} [LinearOrderedField α]

/-- One `update` and `commit` of a well-formed grid sheet in the velocity gain mode with
velocity zero: the update returns, the sheet stays well formed, and the new activity of
neuron `i` is `current + (relu(1 + input) - current) / 10`, where `input` is the direct
toroidal sum of the recurrent weights at the shift of the neuron. -/
theorem mec_update_spec (L : Libm α) (u : Nat → α) (n : MecNetwork α)
    (hwf : n.WellFormed L) (hmode : n.gain_mode = MecGainMode.gain_mode_velocity)
    (hvel : n.velocity_input = none ∨
      n.velocity_input = some { velocity_x := 0, velocity_y := 0 }) :
    ∃ n', n.update u = some n' ∧ (MecNetwork.commit n').WellFormed L ∧
      (MecNetwork.commit n').gain_mode = n.gain_mode ∧
      (MecNetwork.commit n').velocity_input = n.velocity_input ∧
      (MecNetwork.commit n').beta = n.beta ∧ (MecNetwork.commit n').gamma = n.gamma ∧
      (MecNetwork.commit n').current = (List.range (MEC_SIZE * MEC_SIZE)).map (fun i =>
        n.current.getD i 0 +
          ((if 1 + direct_toroidal_sum (MecRecurrentInput.get_weight L n.beta n.gamma)
                n.current (MecRecurrentInput.get_shift i).1 (MecRecurrentInput.get_shift i).2 < 0
            then 0
            else 1 + direct_toroidal_sum (MecRecurrentInput.get_weight L n.beta n.gamma)
                n.current (MecRecurrentInput.get_shift i).1 (MecRecurrentInput.get_shift i).2)
            - n.current.getD i 0) * (1 / 10)) := by
  obtain ⟨hsz, hcur, hinp, hW, hH, hE, hS, hCs, hCv⟩ := hwf
  obtain ⟨r, hr, h1, h2, h3, h4, h5, h6⟩ := add_inputs_spec
    (MecRecurrentInput.get_weight L n.beta n.gamma) MecRecurrentInput.get_shift n.size
    n.recurrent_input hW hH hE (by rw [hsz]; exact hS) hCs hCv
    (by rw [hsz]; exact recurrent_shift_range)
    (fun i => ((List.range n.size).map (fun _ => true)).getD i false) n.current hcur
    (Vector.clear n.neuron_inputs) (by rw [clear_length, hsz]; exact hinp)
  have hupd : n.update u = some
      { n with
        toNetwork := MecNetwork.update_neuron_values ((List.range n.size).map (fun _ => true))
          { n.toNetwork with neuron_inputs := r.2 },
        neurons_enabled := (List.range n.size).map (fun _ => true),
        recurrent_input := r.1 } := by
    unfold MecNetwork.update
    simp only [hmode]
    rw [hr]
    simp only [Option.map_some']
    rcases hvel with hv | hv
    · simp only [hv]
    · simp only [hv, velocity_add_inputs_zero]
  refine ⟨_, hupd, ⟨hsz, ?_, ?_, ?_, ?_, ?_, ?_, h3, h4⟩, rfl, rfl, rfl, rfl, ?_⟩
  · show ((List.range n.size).map _).length = _
    rw [List.length_map, List.length_range, hsz]
  · show r.2.length = _
    rw [h5, hsz]
  · show r.1.weights.width = _
    rw [h1]
    exact hW
  · show r.1.weights.height = _
    rw [h1]
    exact hH
  · intro Y X hY hX
    show r.1.weights.raw_values[_]? = _
    rw [h1]
    exact hE Y X hY hX
  · show r.1.shifts = _
    rw [h2]
    exact hS
  · show (List.range n.size).map _ = _
    rw [hsz]
    apply List.map_congr_left
    intro i hi
    have hi' : i < n.size := by
      rw [hsz]
      exact List.mem_range.mp hi
    have hen : ((List.range n.size).map (fun _ => true)).getD i false = true := by
      rw [List.getD_eq_getElem?_getD, List.getElem?_map, List.getElem?_range hi']
      rfl
    have hin : r.2.getD i 0 = direct_toroidal_sum
        (MecRecurrentInput.get_weight L n.beta n.gamma) n.current
        (MecRecurrentInput.get_shift i).1 (MecRecurrentInput.get_shift i).2 := by
      rw [List.getD_eq_getElem?_getD, h6 i hi', hen, if_pos rfl, clear_getD, zero_add]
      rfl
    dsimp only
    rw [hsz] at hen
    rw [hen, if_pos rfl, hin]

end SheetUpdate

end GridPlaceNav

namespace GridPlaceNav

section UniformSheet

variable {α : Type} [LinearOrderedField α]

/-- One `update` and `commit` of a well-formed sheet of uniform activity `c` in the
velocity gain mode with velocity zero: the activity stays uniform and becomes
`uniform_update W c`, where `W` is the sum of the recurrent weights. -/
theorem mec_update_uniform (L : Libm α) (u : Nat → α) (n : MecNetwork α) (c : α)
    (hwf : n.WellFormed L) (hmode : n.gain_mode = MecGainMode.gain_mode_velocity)
    (hvel : n.velocity_input = none ∨
      n.velocity_input = some { velocity_x := 0, velocity_y := 0 })
    (hcur : n.current = Vector.mk (MEC_SIZE * MEC_SIZE) c) :
    ∃ n', n.update u = some n' ∧ (MecNetwork.commit n').WellFormed L ∧
      (MecNetwork.commit n').gain_mode = n.gain_mode ∧
      (MecNetwork.commit n').velocity_input = n.velocity_input ∧
      (MecNetwork.commit n').beta = n.beta ∧ (MecNetwork.commit n').gamma = n.gamma ∧
      (MecNetwork.commit n').current = Vector.mk (MEC_SIZE * MEC_SIZE)
        (uniform_update (MecRecurrentInput.total_weight L n.beta n.gamma) c) := by
  obtain ⟨n', h1, h2, h3, h4, h5, h6, h7⟩ := mec_update_spec L u n hwf hmode hvel
  refine ⟨n', h1, h2, h3, h4, h5, h6, ?_⟩
  rw [h7]
  unfold Vector.mk
  rw [List.eq_replicate_iff]
  refine ⟨by rw [List.length_map, List.length_range], ?_⟩
  intro b hb
  obtain ⟨i, hi, e⟩ := List.mem_map.mp hb
  rw [← e, hcur, direct_toroidal_sum_uniform, vector_mk_getD _ _ _ (List.mem_range.mp hi)]
  rfl

/-- A run of `T` updates of a uniform sheet: the loop of `Model::settle` returns, and the
activity is the `T`-th iterate of `uniform_update`. -/
theorem settle_loop_uniform (L : Libm α) (u : Nat → Nat → α) (T : Nat) :
    ∀ (n : MecNetwork α) (c : α), n.WellFormed L →
      n.gain_mode = MecGainMode.gain_mode_velocity →
      (n.velocity_input = none ∨
        n.velocity_input = some { velocity_x := 0, velocity_y := 0 }) →
      n.current = Vector.mk (MEC_SIZE * MEC_SIZE) c →
      ∃ n', (List.range T).foldlM
          (fun (m : MecNetwork α) (t : Nat) => (m.update (u t)).map MecNetwork.commit) n
          = some n' ∧
        n'.WellFormed L ∧ n'.gain_mode = MecGainMode.gain_mode_velocity ∧
        n'.velocity_input = n.velocity_input ∧ n'.beta = n.beta ∧ n'.gamma = n.gamma ∧
        n'.current = Vector.mk (MEC_SIZE * MEC_SIZE)
          ((uniform_update (MecRecurrentInput.total_weight L n.beta n.gamma))^[T] c) := by
  intro n c hwf hmode hvel hcur
  obtain ⟨n', hn', h1, h2, h3, h4, h5, h6⟩ := foldlM_range_inv
    (fun (k : Nat) (m : MecNetwork α) =>
      m.WellFormed L ∧ m.gain_mode = MecGainMode.gain_mode_velocity ∧
      m.velocity_input = n.velocity_input ∧ m.beta = n.beta ∧ m.gamma = n.gamma ∧
      m.current = Vector.mk (MEC_SIZE * MEC_SIZE)
        ((uniform_update (MecRecurrentInput.total_weight L n.beta n.gamma))^[k] c))
    (fun (m : MecNetwork α) (t : Nat) => (m.update (u t)).map MecNetwork.commit) T n
    ⟨hwf, hmode, rfl, rfl, rfl, hcur⟩
    (by
      intro k m _ hm
      obtain ⟨g1, g2, g3, g4, g5, g6⟩ := hm
      obtain ⟨m', e, f1, f2, f3, f4, f5, f6⟩ := mec_update_uniform L (u k) m _ g1 g2
        (by rw [g3]; exact hvel) g6
      refine ⟨MecNetwork.commit m', by dsimp only; rw [e]; rfl, f1, by rw [f2, g2], by rw [f3, g3],
        by rw [f4, g4], by rw [f5, g5], ?_⟩
      rw [f6, g4, g5, Function.iterate_succ_apply'])
  exact ⟨n', hn', h1, h2, h3, h4, h5, h6⟩

end UniformSheet

end GridPlaceNav

namespace GridPlaceNav

section Convolution

variable {α : Type} [LinearOrderedField α]

/-- The assignment `v[e] += q` of an input loop, for an index in range and `q >= 0`. -/
theorem increment_spec (l : List α) (e : Nat) (q : α) (he : e < l.length) (hq : 0 ≤ q) :
    (l.set e (l.getD e 0 + q)).length = l.length ∧
    (l.set e (l.getD e 0 + q)).sum = l.sum + q ∧
    (∀ i, l.getD i 0 ≤ (l.set e (l.getD e 0 + q)).getD i 0) ∧
    l.getD e 0 + q ≤ (l.set e (l.getD e 0 + q)).getD e 0 := by
  have hget : ∀ i, (l.set e (l.getD e 0 + q)).getD i 0
      = if e = i then l.getD e 0 + q else l.getD i 0 := by
    intro i
    rw [List.getD_eq_getElem?_getD, List.getElem?_set]
    by_cases h : e = i
    · rw [if_pos h, if_pos h, if_pos he]
      rfl
    · rw [if_neg h, if_neg h, List.getD_eq_getElem?_getD]
  refine ⟨List.length_set _ _ _, ?_, ?_, ?_⟩
  · have h1 := List.sum_set l e (l.getD e 0 + q)
    have h2 := List.sum_set l e (l.getD e 0)
    rw [set_getD_self] at h2
    rw [if_pos he] at h1 h2
    rw [h1, h2]
    ring
  · intro i
    rw [hget]
    by_cases h : e = i
    · rw [if_pos h, ← h]
      linarith
    · rw [if_neg h]
  · rw [hget, if_pos rfl]

theorem clear_sum (v : Vector α) : (Vector.clear v).sum = 0 := by
  unfold Vector.clear
  induction v with
  | nil => rfl
  | cons a v ih =>
    rw [List.map_cons, List.sum_cons, ih, add_zero]

theorem clear_congr (v v' : Vector α) (h : v.length = v'.length) :
    Vector.clear v = Vector.clear v' := by
  unfold Vector.clear
  apply List.ext_getElem?
  intro i
  rw [List.getElem?_map, List.getElem?_map]
  by_cases hi : i < v.length
  · rw [List.getElem?_eq_getElem hi, List.getElem?_eq_getElem (h ▸ hi)]
    rfl
  · rw [List.getElem?_eq_none (not_lt.mp hi), List.getElem?_eq_none (h ▸ not_lt.mp hi)]

/-- The four assignments that `MecConvolveInput::add_inputs` makes for the afferent neuron
`(x, y)`. -/
theorem convolve_step (v : Vector α) (x y : Nat) (q : α) (hx : x < MEC_SIZE)
    (hy : y < MEC_SIZE) (hv : v.length = MEC_SIZE * MEC_SIZE) (hq : 0 ≤ q) :
    ((List.range 2).foldl (fun (inputs : Vector α) (dy : Nat) =>
        (List.range 2).foldl (fun (inputs : Vector α) (dx : Nat) =>
          inputs.set (coords_to_neuron_index ((x + dx) % MEC_SIZE) ((y + dy) % MEC_SIZE))
            (inputs.getD
              (coords_to_neuron_index ((x + dx) % MEC_SIZE) ((y + dy) % MEC_SIZE)) 0 + q))
          inputs) v).length = MEC_SIZE * MEC_SIZE ∧
    ((List.range 2).foldl (fun (inputs : Vector α) (dy : Nat) =>
        (List.range 2).foldl (fun (inputs : Vector α) (dx : Nat) =>
          inputs.set (coords_to_neuron_index ((x + dx) % MEC_SIZE) ((y + dy) % MEC_SIZE))
            (inputs.getD
              (coords_to_neuron_index ((x + dx) % MEC_SIZE) ((y + dy) % MEC_SIZE)) 0 + q))
          inputs) v).sum = v.sum + 4 * q ∧
    (∀ i, v.getD i 0 ≤
      ((List.range 2).foldl (fun (inputs : Vector α) (dy : Nat) =>
        (List.range 2).foldl (fun (inputs : Vector α) (dx : Nat) =>
          inputs.set (coords_to_neuron_index ((x + dx) % MEC_SIZE) ((y + dy) % MEC_SIZE))
            (inputs.getD
              (coords_to_neuron_index ((x + dx) % MEC_SIZE) ((y + dy) % MEC_SIZE)) 0 + q))
          inputs) v).getD i 0) ∧
    v.getD (y * MEC_SIZE + x) 0 + q ≤
      ((List.range 2).foldl (fun (inputs : Vector α) (dy : Nat) =>
        (List.range 2).foldl (fun (inputs : Vector α) (dx : Nat) =>
          inputs.set (coords_to_neuron_index ((x + dx) % MEC_SIZE) ((y + dy) % MEC_SIZE))
            (inputs.getD
              (coords_to_neuron_index ((x + dx) % MEC_SIZE) ((y + dy) % MEC_SIZE)) 0 + q))
          inputs) v).getD (y * MEC_SIZE + x) 0 := by
  have hr : List.range 2 = [0, 1] := rfl
  have hN : MEC_SIZE = 40 := rfl
  simp only [hr, List.foldl_cons, List.foldl_nil]
  have hidx : ∀ dx dy, coords_to_neuron_index ((x + dx) % MEC_SIZE) ((y + dy) % MEC_SIZE)
      < MEC_SIZE * MEC_SIZE := by
    intro dx dy
    unfold coords_to_neuron_index
    rw [hN]
    omega
  have h00 : coords_to_neuron_index ((x + 0) % MEC_SIZE) ((y + 0) % MEC_SIZE)
      = y * MEC_SIZE + x := by
    unfold coords_to_neuron_index
    rw [Nat.add_zero, Nat.add_zero, Nat.mod_eq_of_lt hx, Nat.mod_eq_of_lt hy]
  obtain ⟨l1, s1, m1, g1⟩ := increment_spec v _ q (lt_of_lt_of_eq (hidx 0 0) hv.symm) hq
  generalize v.set (coords_to_neuron_index ((x + 0) % MEC_SIZE) ((y + 0) % MEC_SIZE))
    (v.getD (coords_to_neuron_index ((x + 0) % MEC_SIZE) ((y + 0) % MEC_SIZE)) 0 + q) = v1
    at l1 s1 m1 g1 ⊢
  obtain ⟨l2, s2, m2, _⟩ := increment_spec v1 _ q
    (lt_of_lt_of_eq (hidx 1 0) (l1.trans hv).symm) hq
  generalize v1.set (coords_to_neuron_index ((x + 1) % MEC_SIZE) ((y + 0) % MEC_SIZE))
    (v1.getD (coords_to_neuron_index ((x + 1) % MEC_SIZE) ((y + 0) % MEC_SIZE)) 0 + q) = v2
    at l2 s2 m2 ⊢
  obtain ⟨l3, s3, m3, _⟩ := increment_spec v2 _ q
    (lt_of_lt_of_eq (hidx 0 1) ((l2.trans l1).trans hv).symm) hq
  generalize v2.set (coords_to_neuron_index ((x + 0) % MEC_SIZE) ((y + 1) % MEC_SIZE))
    (v2.getD (coords_to_neuron_index ((x + 0) % MEC_SIZE) ((y + 1) % MEC_SIZE)) 0 + q) = v3
    at l3 s3 m3 ⊢
  obtain ⟨l4, s4, m4, _⟩ := increment_spec v3 _ q
    (lt_of_lt_of_eq (hidx 1 1) (((l3.trans l2).trans l1).trans hv).symm) hq
  generalize v3.set (coords_to_neuron_index ((x + 1) % MEC_SIZE) ((y + 1) % MEC_SIZE))
    (v3.getD (coords_to_neuron_index ((x + 1) % MEC_SIZE) ((y + 1) % MEC_SIZE)) 0 + q) = v4
    at l4 s4 m4 ⊢
  rw [h00] at g1
  refine ⟨(((l4.trans l3).trans l2).trans l1).trans hv, ?_, ?_, ?_⟩
  · rw [s4, s3, s2, s1]
    ring
  · intro i
    exact le_trans (le_trans (le_trans (m1 i) (m2 i)) (m3 i)) (m4 i)
  · exact le_trans (le_trans (le_trans g1 (m2 _)) (m3 _)) (m4 _)

end Convolution

end GridPlaceNav

namespace GridPlaceNav

section ConvolvedReadout

variable {α : Type} [LinearOrderedField α]

/-- The loops of `MecConvolveInput::add_inputs` over non-negative afferent activities:
the inputs keep their length, their sum grows by the sum of the afferent activities, no
input decreases, and input `i` grows by at least a quarter of afferent activity `i`. -/
theorem convolve_inputs_spec (efferent afferent : Network α)
    (hlen : efferent.neuron_inputs.length = MEC_SIZE * MEC_SIZE)
    (hnn : ∀ v ∈ afferent.current, 0 ≤ v) :
    (MecConvolveInput.add_inputs efferent afferent).neuron_inputs.length
      = MEC_SIZE * MEC_SIZE ∧
    (MecConvolveInput.add_inputs efferent afferent).neuron_inputs.sum
      = efferent.neuron_inputs.sum + ∑ y in Finset.range MEC_SIZE,
          ∑ x in Finset.range MEC_SIZE, afferent.current.getD (coords_to_neuron_index x y) 0 ∧
    (∀ i, efferent.neuron_inputs.getD i 0
      ≤ (MecConvolveInput.add_inputs efferent afferent).neuron_inputs.getD i 0) ∧
    (∀ i, i < MEC_SIZE * MEC_SIZE →
      efferent.neuron_inputs.getD i 0 + 1 / 4 * afferent.current.getD i 0
        ≤ (MecConvolveInput.add_inputs efferent afferent).neuron_inputs.getD i 0) := by
  unfold MecConvolveInput.add_inputs
  dsimp only
  have hN : MEC_SIZE = 40 := rfl
  have hq : ∀ i, 0 ≤ 1 / 4 * afferent.current.getD i 0 := by
    intro i
    exact mul_nonneg (by norm_num) (getD_nonneg _ hnn i)
  refine foldl_range_inv
    (fun (k : Nat) (v : Vector α) =>
      v.length = MEC_SIZE * MEC_SIZE ∧
      v.sum = efferent.neuron_inputs.sum + ∑ y in Finset.range k,
          ∑ x in Finset.range MEC_SIZE, afferent.current.getD (coords_to_neuron_index x y) 0 ∧
      (∀ i, efferent.neuron_inputs.getD i 0 ≤ v.getD i 0) ∧
      (∀ i, i < k * MEC_SIZE →
        efferent.neuron_inputs.getD i 0 + 1 / 4 * afferent.current.getD i 0 ≤ v.getD i 0))
    _ MEC_SIZE efferent.neuron_inputs ?_ ?_
  · dsimp only
    refine ⟨hlen, by rw [Finset.sum_range_zero, add_zero], fun i => le_refl _, ?_⟩
    intro i hi
    rw [Nat.zero_mul] at hi
    exact absurd hi (Nat.not_lt_zero _)
  · intro y v hy hv
    dsimp only at hv ⊢
    obtain ⟨hv1, hv2, hv3, hv4⟩ := hv
    have hrow := foldl_range_inv
      (fun (j : Nat) (w : Vector α) =>
        w.length = MEC_SIZE * MEC_SIZE ∧
        w.sum = v.sum + ∑ x in Finset.range j,
          afferent.current.getD (coords_to_neuron_index x y) 0 ∧
        (∀ i, v.getD i 0 ≤ w.getD i 0) ∧
        (∀ i, y * MEC_SIZE ≤ i → i < y * MEC_SIZE + j →
          v.getD i 0 + 1 / 4 * afferent.current.getD i 0 ≤ w.getD i 0))
      (fun (inputs : Vector α) (x : Nat) =>
        (List.range 2).foldl (fun (inputs : Vector α) (dy : Nat) =>
          (List.range 2).foldl (fun (inputs : Vector α) (dx : Nat) =>
            inputs.set (coords_to_neuron_index ((x + dx) % MEC_SIZE) ((y + dy) % MEC_SIZE))
              (inputs.getD
                (coords_to_neuron_index ((x + dx) % MEC_SIZE) ((y + dy) % MEC_SIZE)) 0
                + 1 / 4 * afferent.current.getD (coords_to_neuron_index x y) 0))
            inputs) inputs)
      MEC_SIZE v
      (by
        dsimp only
        refine ⟨hv1, by rw [Finset.sum_range_zero, add_zero], fun i => le_refl _, ?_⟩
        intro i h1 h2
        omega)
      (by
        intro x w hx hw
        dsimp only at hw ⊢
        obtain ⟨hw1, hw2, hw3, hw4⟩ := hw
        obtain ⟨c1, c2, c3, c4⟩ := convolve_step w x y
          (1 / 4 * afferent.current.getD (coords_to_neuron_index x y) 0) hx hy hw1 (hq _)
        refine ⟨c1, ?_, fun i => le_trans (hw3 i) (c3 i), ?_⟩
        · rw [c2, hw2, Finset.sum_range_succ]
          ring
        · intro i h1 h2
          by_cases hi : i < y * MEC_SIZE + x
          · exact le_trans (hw4 i h1 hi) (c3 i)
          · have e : i = y * MEC_SIZE + x := by omega
            rw [e]
            have c4' : w.getD (y * MEC_SIZE + x) 0
                + 1 / 4 * afferent.current.getD (y * MEC_SIZE + x) 0 ≤ _ := c4
            exact le_trans (add_le_add_right (hw3 _) _) c4')
    dsimp only at hrow
    obtain ⟨r1, r2, r3, r4⟩ := hrow
    refine ⟨r1, ?_, fun i => le_trans (hv3 i) (r3 i), ?_⟩
    · rw [r2, hv2, Finset.sum_range_succ]
      ring
    · intro i hi
      by_cases h : i < y * MEC_SIZE
      · exact le_trans (hv4 i h) (r3 i)
      · have h2 : i < y * MEC_SIZE + MEC_SIZE := by
          rw [Nat.succ_mul] at hi
          exact hi
        exact le_trans (add_le_add_right (hv3 i) _) (r4 i (not_lt.mp h) h2)

theorem with_inputs_size (e : Network α) (v : Vector α) :
    ({ e with neuron_inputs := v } : Network α).size = e.size := rfl

theorem commit_size (m : Network α) : (Network.commit m).size = m.size := rfl

theorem commit_neuron_inputs (m : Network α) :
    (Network.commit m).neuron_inputs = m.neuron_inputs := rfl

theorem commit_next_current (m : Network α) : (Network.commit m).current = m.next := rfl

theorem convolved_values_size (m : Network α) :
    (ConvolvedMecNetwork.update_neuron_values m).size = m.size := rfl

theorem convolved_values_inputs (m : Network α) :
    (ConvolvedMecNetwork.update_neuron_values m).neuron_inputs = m.neuron_inputs := rfl

theorem convolved_values_next (m : Network α) :
    (ConvolvedMecNetwork.update_neuron_values m).next
      = (List.range m.size).map (fun i => m.neuron_inputs.getD i 0) := rfl

theorem convolve_inputs_size (e a : Network α) :
    (MecConvolveInput.add_inputs e a).size = e.size := by
  unfold MecConvolveInput.add_inputs
  exact with_inputs_size e _

/-- The inputs of a convolved sheet keep their length in `MecConvolveInput::add_inputs`. -/
theorem convolve_inputs_length (efferent afferent : Network α) :
    (MecConvolveInput.add_inputs efferent afferent).neuron_inputs.length
      = efferent.neuron_inputs.length := by
  unfold MecConvolveInput.add_inputs
  dsimp only
  refine foldl_preserves (fun (v : Vector α) => v.length = efferent.neuron_inputs.length)
    _ _ ?_ _ rfl
  intro v y hv
  refine foldl_preserves (fun (v : Vector α) => v.length = efferent.neuron_inputs.length)
    _ _ ?_ _ hv
  intro v x hv
  refine foldl_preserves (fun (v : Vector α) => v.length = efferent.neuron_inputs.length)
    _ _ ?_ _ hv
  intro v dy hv
  refine foldl_preserves (fun (v : Vector α) => v.length = efferent.neuron_inputs.length)
    _ _ ?_ _ hv
  intro v dx hv
  dsimp only
  rw [List.length_set]
  exact hv

/-- The activity of a convolved sheet after `update` and `commit` is determined by the
activity of its afferent sheet, its size and the number of its inputs. -/
theorem convolved_update_congr (n n' a a' : Network α) (hs : n.size = n'.size)
    (hl : n.neuron_inputs.length = n'.neuron_inputs.length) (ha : a.current = a'.current) :
    (ConvolvedMecNetwork.update n a).commit.current
      = (ConvolvedMecNetwork.update n' a').commit.current := by
  unfold ConvolvedMecNetwork.update
  rw [commit_next_current, commit_next_current, convolved_values_next, convolved_values_next,
    convolve_inputs_size, convolve_inputs_size, with_inputs_size, with_inputs_size, hs]
  unfold MecConvolveInput.add_inputs
  dsimp only
  rw [ha, clear_congr _ _ hl]

theorem convolved_update_frame (n a : Network α) :
    (ConvolvedMecNetwork.update n a).commit.size = n.size ∧
    (ConvolvedMecNetwork.update n a).commit.neuron_inputs.length
      = n.neuron_inputs.length := by
  unfold ConvolvedMecNetwork.update
  rw [commit_size, commit_neuron_inputs, convolved_values_size, convolved_values_inputs,
    convolve_inputs_size, convolve_inputs_length]
  exact ⟨with_inputs_size n _, clear_length _⟩

/-- The convolved readout of a sheet of non-negative activities: its activities sum to the
sum of the afferent activities, and activity `i` is at least a quarter of afferent
activity `i`. -/
theorem convolved_update_spec (n a : Network α) (hsz : n.size = MEC_SIZE * MEC_SIZE)
    (hlen : n.neuron_inputs.length = MEC_SIZE * MEC_SIZE) (hnn : ∀ v ∈ a.current, 0 ≤ v) :
    (ConvolvedMecNetwork.update n a).commit.current.length = MEC_SIZE * MEC_SIZE ∧
    (ConvolvedMecNetwork.update n a).commit.current.sum
      = ∑ y in Finset.range MEC_SIZE, ∑ x in Finset.range MEC_SIZE,
          a.current.getD (coords_to_neuron_index x y) 0 ∧
    (∀ i, i < MEC_SIZE * MEC_SIZE →
      1 / 4 * a.current.getD i 0 ≤ (ConvolvedMecNetwork.update n a).commit.current.getD i 0) := by
  obtain ⟨h1, h2, _, h4⟩ := convolve_inputs_spec
    { n with neuron_inputs := Vector.clear n.neuron_inputs } a
    (by show (Vector.clear n.neuron_inputs).length = _; rw [clear_length]; exact hlen) hnn
  have hcur : (ConvolvedMecNetwork.update n a).commit.current
      = (MecConvolveInput.add_inputs { n with neuron_inputs := Vector.clear n.neuron_inputs }
          a).neuron_inputs := by
    have e := range_map_getD_self (MecConvolveInput.add_inputs
      { n with neuron_inputs := Vector.clear n.neuron_inputs } a).neuron_inputs
    rw [h1] at e
    unfold ConvolvedMecNetwork.update
    rw [commit_next_current, convolved_values_next, convolve_inputs_size,
      with_inputs_size, hsz]
    exact e
  rw [hcur]
  refine ⟨h1, ?_, ?_⟩
  · rw [h2]
    show (Vector.clear n.neuron_inputs).sum + _ = _
    rw [clear_sum, zero_add]
  · intro i hi
    have := h4 i hi
    have e : (Vector.clear n.neuron_inputs).getD i 0 = 0 := clear_getD _ _
    have this' : (Vector.clear n.neuron_inputs).getD i 0 + 1 / 4 * a.current.getD i 0 ≤ _ :=
      this
    rw [e, zero_add] at this'
    exact this'

end ConvolvedReadout

end GridPlaceNav

namespace GridPlaceNav

section SettleTracker

variable {α : Type} [LinearOrderedField α] [FloorRing α]

/-- The search of `initialize_bump_tracker` ends at a position of the sheet when it starts
from one. -/
theorem find_max_activation_range (n : NeuralSheetNetwork α)
    (hx0 : 0 ≤ n.bump_x) (hx1 : n.bump_x < MEC_SIZE)
    (hy0 : 0 ≤ n.bump_y) (hy1 : n.bump_y < MEC_SIZE) :
    0 ≤ n.find_max_activation.2.1 ∧ n.find_max_activation.2.1 < MEC_SIZE ∧
    0 ≤ n.find_max_activation.2.2 ∧ n.find_max_activation.2.2 < MEC_SIZE := by
  unfold NeuralSheetNetwork.find_max_activation
  refine foldl_preserves_mem (fun (acc : α × Int × Int) =>
    0 ≤ acc.2.1 ∧ acc.2.1 < MEC_SIZE ∧ 0 ≤ acc.2.2 ∧ acc.2.2 < MEC_SIZE) _ _ ?_ _
    ⟨hx0, hx1, hy0, hy1⟩
  intro acc y hy hacc
  refine foldl_preserves_mem (fun (acc : α × Int × Int) =>
    0 ≤ acc.2.1 ∧ acc.2.1 < MEC_SIZE ∧ 0 ≤ acc.2.2 ∧ acc.2.2 < MEC_SIZE) _ _ ?_ _ hacc
  intro acc x hx hacc
  dsimp only
  have hx' := List.mem_range.mp hx
  have hy' := List.mem_range.mp hy
  split
  · exact ⟨Int.natCast_nonneg x, Int.ofNat_lt.mpr hx', Int.natCast_nonneg y,
      Int.ofNat_lt.mpr hy'⟩
  · exact hacc

/-- When `initialize_bump_tracker` ends, the activities of the sheet are untouched. -/
theorem initialize_bump_tracker_frame (n n' : NeuralSheetNetwork α)
    (h : n.initialize_bump_tracker = LoopResult.done n') : n'.toNetwork = n.toNetwork := by
  unfold NeuralSheetNetwork.initialize_bump_tracker at h
  dsimp only at h
  split at h
  · rename_i n2 hn2
    have hn2' : NeuralSheetNetwork.bump_tracker_loop (MEC_SIZE * MEC_SIZE)
        { n with bump_x := n.find_max_activation.2.1, bump_y := n.find_max_activation.2.2,
                 bump_tracker_initialized := true } = LoopResult.done n2 := hn2
    have hfr := (bump_tracker_loop_done _ _ n2 hn2').1
    cases h
    exact hfr
  · cases h
  · cases h

/-- On a sheet whose activities are all positive, `initialize_bump_tracker` from a
position of the sheet ends without fault, at a position of the sheet. -/
theorem initialize_bump_tracker_done (n : NeuralSheetNetwork α)
    (hnn : ∀ v ∈ n.current, 0 ≤ v)
    (hpos : ∀ i, i < MEC_SIZE * MEC_SIZE → 0 < n.current.getD i 0)
    (hx0 : 0 ≤ n.bump_x) (hx1 : n.bump_x < MEC_SIZE)
    (hy0 : 0 ≤ n.bump_y) (hy1 : n.bump_y < MEC_SIZE) :
    ∃ n', n.initialize_bump_tracker = LoopResult.done n' ∧ n'.toNetwork = n.toNetwork ∧
      0 ≤ n'.bump_x ∧ n'.bump_x < MEC_SIZE ∧ 0 ≤ n'.bump_y ∧ n'.bump_y < MEC_SIZE := by
  obtain ⟨f1, f2, f3, f4⟩ := find_max_activation_range n hx0 hx1 hy0 hy1
  obtain ⟨_, _, s3, s4⟩ := bump_tracker_loop_spec (MEC_SIZE * MEC_SIZE)
    { n with bump_x := n.find_max_activation.2.1, bump_y := n.find_max_activation.2.2,
             bump_tracker_initialized := true }
    hnn f1 f2 f3 f4 (heavier_positions_lt _ _ _ f1 f2 f3 f4)
  obtain ⟨n2, hn2⟩ := s4 (fun x y a1 a2 a3 a4 => ne_of_gt (disc_mass_pos _ hpos x y a1 a2 a3 a4))
  obtain ⟨r, _⟩ := s3 n2 hn2
  have hupd : NeuralSheetNetwork.update_bump_tracker
      { n with bump_x := n.find_max_activation.2.1, bump_y := n.find_max_activation.2.2,
               bump_tracker_initialized := true } = LoopResult.done n2 := hn2
  have hdone : n.initialize_bump_tracker
      = LoopResult.done { n2 with bump_total_dx := 0, bump_total_dy := 0 } := by
    unfold NeuralSheetNetwork.initialize_bump_tracker
    dsimp only
    rw [hupd]
  exact ⟨_, hdone, initialize_bump_tracker_frame n _ hdone, r⟩

end SettleTracker

end GridPlaceNav

namespace GridPlaceNav

section SettleModules

variable {α : Type} [LinearOrderedField α] [FloorRing α]

theorem toOption_some {σ : Type} (r : LoopResult σ) (s : σ) (h : r.toOption = some s) :
    r = LoopResult.done s := by
  cases r with
  | done s' =>
    have e : s' = s := Option.some.inj h
    rw [e]
  | fault => cases h
  | out_of_fuel => cases h

/-- What a returning `settle_sheets` has done: the fixed convolved sheet is untouched, and
the moving convolved sheet has the size and the number of inputs it had and the activity
that `update` and `commit` compute from the settled moving sheet. -/
theorem settle_sheets_spec (u : Nat → Nat → α) (g g1 : GridModule α)
    (h : g.settle_sheets u = some g1) :
    g1.mec_fixed_convolved = g.mec_fixed_convolved ∧
    g1.mec_moving_convolved.toNetwork = Network.commit
      (ConvolvedMecNetwork.update g.mec_moving_convolved.toNetwork g1.mec_moving.toNetwork) := by
  unfold GridModule.settle_sheets at h
  simp only [Option.bind_eq_bind, Option.bind_eq_some] at h
  obtain ⟨m, _, c, hc, e⟩ := h
  have e' := Option.some.inj e
  have hfr := initialize_bump_tracker_frame _ _ (toOption_some _ _ hc)
  rw [← e']
  exact ⟨rfl, hfr⟩

/-- What a returning `settle_copy` has done: the moving sheet and the network of the
moving convolved sheet are untouched. -/
theorem settle_copy_spec (g g1 : GridModule α) (h : g.settle_copy = some g1) :
    g1.mec_moving = g.mec_moving ∧
    g1.mec_moving_convolved.toNetwork = g.mec_moving_convolved.toNetwork := by
  unfold GridModule.settle_copy at h
  simp only [Option.bind_eq_bind, Option.bind_eq_some] at h
  obtain ⟨cur, _, c, hc, e⟩ := h
  have e' := Option.some.inj e
  have hfr := initialize_bump_tracker_frame _ _ (toOption_some _ _ hc)
  rw [← e']
  exact ⟨rfl, hfr⟩

/-- The two loops of `Model::settle`, module by module. -/
theorem settle_modules_spec (u : Nat → Nat → Nat → α) (ms ms1 : List (GridModule α))
    (h : Model.settle_modules u ms = some ms1) :
    ms1.length = ms.length ∧
    ∀ (i : Nat) (g1 : GridModule α), ms1[i]? = some g1 → ∃ g ga : GridModule α,
      ms[i]? = some g ∧ g.settle_sheets (u i) = some ga ∧ ga.settle_copy = some g1 := by
  unfold Model.settle_modules at h
  simp only [Option.bind_eq_bind, Option.bind_eq_some] at h
  obtain ⟨mid, h1, h2⟩ := h
  obtain ⟨l1, k1⟩ := mapM_option_spec _ _ _ h1
  obtain ⟨l2, k2⟩ := mapM_option_spec _ _ _ h2
  rw [List.length_range] at l1
  refine ⟨l2.trans l1, ?_⟩
  intro i g1 hg1
  have hi : i < ms.length := by
    have := (List.getElem?_eq_some.mp hg1).1
    omega
  rcases k2 i with e2 | e2
  · rcases k1 i with e1 | e1
    · rw [List.getElem?_range hi] at e1
      rw [hg1] at e2
      obtain ⟨ga, hga, hcopy⟩ := Option.bind_eq_some.mp e2
      rw [hga, Option.some_bind] at e1
      simp only [Option.bind_eq_bind, Option.bind_eq_some] at e1
      obtain ⟨g, hg, hsheets⟩ := e1
      exact ⟨g, ga, hg, hsheets, hcopy⟩
    · rw [List.length_range] at e1
      omega
  · omega

end SettleModules

end GridPlaceNav

namespace GridPlaceNav

section SettleUniform

variable {α : Type} [LinearOrderedField α] [FloorRing α]

theorem settle_modules_singleton (u : Nat → Nat → Nat → α) (g ga gb : GridModule α)
    (hsheets : g.settle_sheets (u 0) = some ga) (hcopy : ga.settle_copy = some gb) :
    Model.settle_modules u [g] = some [gb] := by
  unfold Model.settle_modules
  have hr : List.range [g].length = [0] := rfl
  rw [hr]
  simp only [Option.bind_eq_bind, List.mapM_cons, List.mapM_nil, List.getElem?_cons_zero,
    Option.some_bind, hsheets, hcopy, Option.pure_def, bind_pure_comp, Option.map_some',
    map_pure]

/-- The settlement of one well-formed module whose moving sheet has the uniform activity
`c`, when the activity `a` that `SETTLE_STEPS` updates lead to is positive: `settle`
returns, the module stays well formed, the moving sheet has the uniform activity `a`, and
the activities of the moving convolved sheet sum to `MEC_SIZE * MEC_SIZE * a`. -/
theorem settle_modules_uniform (L : Libm α) (u : Nat → Nat → Nat → α) (g : GridModule α)
    (c : α) (hg : g.WellFormed L)
    (hcur : g.mec_moving.current = Vector.mk (MEC_SIZE * MEC_SIZE) c)
    (hpos : 0 < (uniform_update (MecRecurrentInput.total_weight L g.mec_moving.beta
      g.mec_moving.gamma))^[SETTLE_STEPS] c) :
    ∃ g1, Model.settle_modules u [g] = some [g1] ∧ g1.WellFormed L ∧
      g1.mec_moving.beta = g.mec_moving.beta ∧ g1.mec_moving.gamma = g.mec_moving.gamma ∧
      g1.mec_moving.current = Vector.mk (MEC_SIZE * MEC_SIZE)
        ((uniform_update (MecRecurrentInput.total_weight L g.mec_moving.beta
          g.mec_moving.gamma))^[SETTLE_STEPS] c) ∧
      g1.mec_moving_convolved.current.sum = (MEC_SIZE : α) * ((MEC_SIZE : α) *
        (uniform_update (MecRecurrentInput.total_weight L g.mec_moving.beta
          g.mec_moving.gamma))^[SETTLE_STEPS] c) := by
  obtain ⟨hwf, hvel, hcs, hcl, hfl, bx0, bx1, by0, by1⟩ := hg
  generalize ha : (uniform_update (MecRecurrentInput.total_weight L g.mec_moving.beta
      g.mec_moving.gamma))^[SETTLE_STEPS] c = a at hpos ⊢
  obtain ⟨m, hm, m1, _, m3, m4, m5, m6⟩ := settle_loop_uniform L (u 0) SETTLE_STEPS
    { g.mec_moving with gain_mode := MecGainMode.gain_mode_velocity } c hwf rfl
    (Or.inr hvel) hcur
  have m6' : m.current = Vector.mk (MEC_SIZE * MEC_SIZE) a := by
    rw [m6]
    exact congrArg _ ha
  have hget : ∀ i, i < MEC_SIZE * MEC_SIZE → m.current.getD i 0 = a := by
    intro i hi
    rw [m6']
    exact vector_mk_getD _ _ _ hi
  have hnn_m : ∀ v ∈ m.toNetwork.current, 0 ≤ v := by
    intro v hv
    have hv' : v ∈ Vector.mk (MEC_SIZE * MEC_SIZE) a := m6' ▸ hv
    rw [List.eq_of_mem_replicate hv']
    exact le_of_lt hpos
  obtain ⟨c1, c2, c3⟩ := convolved_update_spec g.mec_moving_convolved.toNetwork m.toNetwork
    hcs hcl hnn_m
  obtain ⟨f1, f2⟩ := convolved_update_frame g.mec_moving_convolved.toNetwork m.toNetwork
  have hnn1 := convolved_update_nonneg g.mec_moving_convolved.toNetwork m.toNetwork hnn_m
  have hpos1 : ∀ i, i < MEC_SIZE * MEC_SIZE →
      0 < (ConvolvedMecNetwork.update g.mec_moving_convolved.toNetwork
        m.toNetwork).commit.current.getD i 0 := by
    intro i hi
    refine lt_of_lt_of_le ?_ (c3 i hi)
    have e : m.toNetwork.current.getD i 0 = a := hget i hi
    rw [e]
    exact mul_pos (by norm_num) hpos
  generalize hC : (ConvolvedMecNetwork.update g.mec_moving_convolved.toNetwork
    m.toNetwork).commit = C at c1 c2 c3 f1 f2 hnn1 hpos1
  obtain ⟨conv2, hconv2, t1, t2⟩ := initialize_bump_tracker_done
    { g.mec_moving_convolved with toNetwork := C } hnn1 hpos1 bx0 bx1 by0 by1
  have hsheets : g.settle_sheets (u 0) = some
      { g with mec_moving := { m with gain_mode := g.mec_moving.gain_mode },
               mec_moving_convolved := conv2 } := by
    unfold GridModule.settle_sheets
    simp only [Option.bind_eq_bind]
    rw [hm]
    simp only [Option.some_bind]
    rw [hC, hconv2]
    rfl
  have t1c : conv2.current = C.current := congrArg Network.current t1
  have hnn2 : ∀ v ∈ conv2.current, 0 ≤ v := by
    rw [t1c]
    exact hnn1
  have hpos2 : ∀ i, i < MEC_SIZE * MEC_SIZE → 0 < conv2.current.getD i 0 := by
    rw [t1c]
    exact hpos1
  obtain ⟨conv3, hconv3, t3, t4⟩ := initialize_bump_tracker_done conv2 hnn2 hpos2
    t2.1 t2.2.1 t2.2.2.1 t2.2.2.2
  have hlen2 : g.mec_fixed_convolved.current.length = conv2.current.length := by
    rw [t1c, c1]
    exact hfl
  have hcopy : GridModule.settle_copy
      { g with mec_moving := { m with gain_mode := g.mec_moving.gain_mode },
               mec_moving_convolved := conv2 } = some
      { g with mec_moving := { m with gain_mode := g.mec_moving.gain_mode },
               mec_fixed_convolved :=
                { g.mec_fixed_convolved with
                  toNetwork := { g.mec_fixed_convolved.toNetwork with
                    current := conv2.current } },
               mec_moving_convolved := conv3 } := by
    unfold GridModule.settle_copy
    simp only [Option.bind_eq_bind]
    rw [copy_from_eq _ _ hlen2]
    simp only [Option.some_bind]
    rw [hconv3]
    rfl
  have hall := settle_modules_singleton u g _ _ hsheets hcopy
  have t3c : conv3.current = C.current := (congrArg Network.current t3).trans t1c
  refine ⟨_, hall, ⟨m1, by rw [m3]; exact hvel, ?_, ?_, ?_, t4.1, t4.2.1, t4.2.2.1,
    t4.2.2.2⟩, m4, m5, m6', ?_⟩
  · show conv3.toNetwork.size = _
    rw [t3, t1]
    exact f1.trans hcs
  · show conv3.toNetwork.neuron_inputs.length = _
    rw [t3, t1]
    exact f2.trans hcl
  · show conv2.current.length = _
    rw [t1c]
    exact c1
  · show conv3.current.sum = _
    rw [t3c, c2]
    have e : ∀ y, y ∈ Finset.range MEC_SIZE → ∑ x in Finset.range MEC_SIZE,
        m.toNetwork.current.getD (coords_to_neuron_index x y) 0 = (MEC_SIZE : α) * a := by
      intro y hy
      have e1 : ∀ x, x ∈ Finset.range MEC_SIZE →
          m.toNetwork.current.getD (coords_to_neuron_index x y) 0 = a := by
        intro x hx
        apply hget
        have hx' := Finset.mem_range.mp hx
        have hy' := Finset.mem_range.mp hy
        have hN : MEC_SIZE = 40 := rfl
        unfold coords_to_neuron_index
        rw [hN] at hx' hy' ⊢
        omega
      rw [Finset.sum_congr rfl e1, Finset.sum_const, Finset.card_range, nsmul_eq_mul]
    rw [Finset.sum_congr rfl e, Finset.sum_const, Finset.card_range, nsmul_eq_mul]

end SettleUniform

end GridPlaceNav

namespace GridPlaceNav

section SettleScenario

variable {α : Type} [LinearOrderedField α]

/-- The module of the scenario exists and is well formed, with the constants `beta` and
`gamma` of the constructor `NeuralSheetNetwork::NeuralSheetNetwork`. -/
theorem scen_grid_module_spec (L : Libm α) (c : α) :
    ∃ g, scen_grid_module L c = some g ∧ g.WellFormed L ∧
      g.mec_moving.gain_mode = MecGainMode.gain_mode_velocity ∧
      g.mec_moving.current = Vector.mk (MEC_SIZE * MEC_SIZE) c ∧
      g.mec_moving.beta = (NeuralSheetNetwork.new (1 : α) [] 0 0).beta ∧
      g.mec_moving.gamma = (NeuralSheetNetwork.new (1 : α) [] 0 0).gamma := by
  obtain ⟨inp, hinp, hW, hH, hE, hS, hCs, hCv⟩ := initialize_spec
    (MecRecurrentInput.get_weight L (NeuralSheetNetwork.new (1 : α) [] 0 0).beta
      (NeuralSheetNetwork.new (1 : α) [] 0 0).gamma)
    MecRecurrentInput.get_shift (MEC_SIZE * MEC_SIZE)
    (List.replicate (MEC_SIZE * MEC_SIZE) (0 : α)) (List.replicate (MEC_SIZE * MEC_SIZE) false)
  have hnew : MecNetwork.new L 1 MecGainMode.gain_mode_velocity true
      (Vector.mk (MEC_SIZE * MEC_SIZE) c) 0 0 (List.replicate (MEC_SIZE * MEC_SIZE) false)
      (List.replicate (MEC_SIZE * MEC_SIZE) 0) (List.replicate (MEC_SIZE * MEC_SIZE) false)
      = some
        { NeuralSheetNetwork.new 1 (Vector.mk (MEC_SIZE * MEC_SIZE) c) 0 0 with
          gain_mode := MecGainMode.gain_mode_velocity,
          activation_probability := 1 / MAX_MEC_GAIN,
          neurons_enabled := List.replicate (MEC_SIZE * MEC_SIZE) false,
          recurrent_input := inp,
          velocity_input := some { velocity_x := 0, velocity_y := 0 } } := by
    unfold MecNetwork.new
    dsimp only
    have hinp' : MecShiftedMaskInput.initialize
        (MecRecurrentInput.get_weight L
          (NeuralSheetNetwork.new 1 (Vector.mk (MEC_SIZE * MEC_SIZE) c) 0 0).beta
          (NeuralSheetNetwork.new 1 (Vector.mk (MEC_SIZE * MEC_SIZE) c) 0 0).gamma)
        MecRecurrentInput.get_shift
        (NeuralSheetNetwork.new 1 (Vector.mk (MEC_SIZE * MEC_SIZE) c) 0 0).size
        (List.replicate (MEC_SIZE * MEC_SIZE) 0) (List.replicate (MEC_SIZE * MEC_SIZE) false)
        = some inp := hinp
    rw [hinp']
    rfl
  unfold scen_grid_module
  rw [hnew]
  refine ⟨_, rfl, ⟨⟨rfl, ?_, ?_, hW, hH, hE, hS, ?_, ?_⟩, rfl, rfl, ?_, ?_, le_refl _, ?_,
    le_refl _, ?_⟩, rfl, rfl, rfl, rfl⟩
  · exact List.length_replicate _ _
  · exact List.length_replicate _ _
  · rw [hCs]
    exact List.length_replicate _ _
  · rw [hCv]
    exact List.length_replicate _ _
  · exact List.length_replicate _ _
  · exact List.length_replicate _ _
  · show (0 : Int) < (MEC_SIZE : Int)
    decide
  · show (0 : Int) < (MEC_SIZE : Int)
    decide

/-- While the recurrent input of a uniform sheet is at most `-1`, one update multiplies
the activity by `9 / 10`. -/
theorem uniform_update_decay (W c : α) (h : 1 + c * W ≤ 0) :
    uniform_update W c = 9 / 10 * c := by
  unfold uniform_update
  by_cases h' : 1 + c * W < 0
  · rw [if_pos h']
    ring
  · rw [if_neg h', le_antisymm h (not_lt.mp h')]
    ring

/-- With weights that sum to at most `-1 / 2000`, `T` updates lead a uniform sheet from
the activity `(10 / 9) ^ T * b` to the activity `b`, if `b` is at least 2000. -/
theorem uniform_update_iterate_decay (W b : α) (hW : W ≤ -(1 / 2000)) (hb : 2000 ≤ b) :
    ∀ T : Nat, (uniform_update W)^[T] ((10 / 9) ^ T * b) = b := by
  intro T
  induction T with
  | zero => simp
  | succ T ih =>
    rw [Function.iterate_succ_apply]
    have hp : (1 : α) ≤ (10 / 9) ^ (T + 1) := one_le_pow₀ (by norm_num)
    have hc : 2000 ≤ (10 / 9) ^ (T + 1) * b := by nlinarith
    have hstep : uniform_update W ((10 / 9) ^ (T + 1) * b) = (10 / 9) ^ T * b := by
      rw [uniform_update_decay]
      · rw [pow_succ]
        ring
      · nlinarith
    rw [hstep]
    exact ih

/-- The uniform activity `1 / (1 - W)` is a fixed point of the update when the weights sum
to `W <= 0`. -/
theorem uniform_update_fixed (W : α) (hW : W ≤ 0) (T : Nat) :
    (uniform_update W)^[T] (1 / (1 - W)) = 1 / (1 - W) := by
  apply Function.iterate_fixed
  have hpos : 0 < 1 - W := by linarith
  have e : 1 + 1 / (1 - W) * W = 1 / (1 - W) := by
    field_simp
  unfold uniform_update
  rw [e, if_neg (not_lt.mpr (le_of_lt (one_div_pos.mpr hpos)))]
  ring

end SettleScenario

end GridPlaceNav

namespace GridPlaceNav

section SettleReal

/-- Over the reals no recurrent weight is positive when `beta <= gamma`. -/
theorem get_weight_nonpos (L : Libm ℝ) (hL : L.exp = Real.exp) (beta gamma : ℝ)
    (h : beta ≤ gamma) (x y : Int) : MecRecurrentInput.get_weight L beta gamma x y ≤ 0 := by
  unfold MecRecurrentInput.get_weight
  dsimp only
  generalize (if x > (MEC_SIZE : Int) / 2 then (MEC_SIZE : Int) - x else x) = x'
  generalize (if y > (MEC_SIZE : Int) / 2 then (MEC_SIZE : Int) - y else y) = y'
  have hd : (0 : ℝ) ≤ ((x' * x' + y' * y' : Int) : ℝ) := by
    have : (0 : Int) ≤ x' * x' + y' * y' := by nlinarith [mul_self_nonneg x', mul_self_nonneg y']
    exact_mod_cast this
  rw [hL, sub_nonpos, Real.exp_le_exp]
  nlinarith

theorem total_weight_nonpos (L : Libm ℝ) (hL : L.exp = Real.exp) (beta gamma : ℝ)
    (h : beta ≤ gamma) : MecRecurrentInput.total_weight L beta gamma ≤ 0 := by
  unfold MecRecurrentInput.total_weight
  exact Finset.sum_nonpos (fun y _ => Finset.sum_nonpos
    (fun x _ => get_weight_nonpos L hL beta gamma h x y))

theorem total_weight_le (L : Libm ℝ) (hL : L.exp = Real.exp) (beta gamma : ℝ)
    (h : beta ≤ gamma) (x0 y0 : Nat) (hx0 : x0 < MEC_SIZE) (hy0 : y0 < MEC_SIZE) :
    MecRecurrentInput.total_weight L beta gamma
      ≤ MecRecurrentInput.get_weight L beta gamma (x0 : Int) (y0 : Int) := by
  unfold MecRecurrentInput.total_weight
  have hrow : ∀ y, ∑ x in Finset.range MEC_SIZE,
      MecRecurrentInput.get_weight L beta gamma (x : Int) (y : Int) ≤ 0 :=
    fun y => Finset.sum_nonpos (fun x _ => get_weight_nonpos L hL beta gamma h x y)
  have h1 := Finset.single_le_sum
    (f := fun (y : Nat) => - ∑ x in Finset.range MEC_SIZE,
      MecRecurrentInput.get_weight L beta gamma (x : Int) (y : Int))
    (fun y _ => neg_nonneg.mpr (hrow y)) (Finset.mem_range.mpr hy0)
  have h2 := Finset.single_le_sum
    (f := fun (x : Nat) => - MecRecurrentInput.get_weight L beta gamma (x : Int) (y0 : Int))
    (fun x _ => neg_nonneg.mpr (get_weight_nonpos L hL beta gamma h x y0))
    (Finset.mem_range.mpr hx0)
  rw [Finset.sum_neg_distrib] at h1 h2
  dsimp only at h1 h2
  linarith

/-- The constants of the constructor: `beta = 3 / 15 ^ 2` and `gamma = 1.05 * beta`. -/
theorem sheet_constants :
    (NeuralSheetNetwork.new (1 : ℝ) [] 0 0).beta = 1 / 75 ∧
    (NeuralSheetNetwork.new (1 : ℝ) [] 0 0).gamma = 7 / 500 := by
  constructor
  · show (3 : ℝ) / (((MEC_SIZE : Nat) : ℝ) * 15 / 40 * (((MEC_SIZE : Nat) : ℝ) * 15 / 40)) = 1 / 75
    norm_num [MEC_SIZE]
  · show (105 : ℝ) / 100 *
      ((3 : ℝ) / (((MEC_SIZE : Nat) : ℝ) * 15 / 40 * (((MEC_SIZE : Nat) : ℝ) * 15 / 40))) = 7 / 500
    norm_num [MEC_SIZE]

/-- Over the reals the recurrent weights of a sheet sum to at most `-1 / 2000`: the weight
at `(1, 0)` alone is `exp(-7/500) - exp(-1/75)`. -/
theorem total_weight_bound (L : Libm ℝ) (hL : L.exp = Real.exp) :
    MecRecurrentInput.total_weight L (1 / 75) (7 / 500) ≤ -(1 / 2000) := by
  refine le_trans (total_weight_le L hL _ _ (by norm_num) 1 0 (by decide) (by decide)) ?_
  have hw : MecRecurrentInput.get_weight L (1 / 75) (7 / 500) ((1 : Nat) : Int) ((0 : Nat) : Int)
      = Real.exp (-(7 / 500)) - Real.exp (-(1 / 75)) := by
    unfold MecRecurrentInput.get_weight
    rw [hL]
    have e1 : ¬ (((1 : Nat) : Int) > ((MEC_SIZE : Nat) : Int) / 2) := by decide
    have e2 : ¬ (((0 : Nat) : Int) > ((MEC_SIZE : Nat) : Int) / 2) := by decide
    simp only [if_neg e1, if_neg e2]
    norm_num
  rw [hw]
  have h1 : (74 : ℝ) / 75 ≤ Real.exp (-(1 / 75)) := by
    have := Real.add_one_le_exp (-(1 / 75 : ℝ))
    linarith
  have h2 : Real.exp (-(1 / 1500)) ≤ 1500 / 1501 := by
    have h := Real.add_one_le_exp ((1 : ℝ) / 1500)
    have hpos := Real.exp_pos ((1 : ℝ) / 1500)
    rw [Real.exp_neg, inv_eq_one_div, div_le_div_iff₀ hpos (by norm_num)]
    linarith
  have h3 : Real.exp (-(7 / 500)) = Real.exp (-(1 / 75)) * Real.exp (-(1 / 1500)) := by
    rw [← Real.exp_add]
    congr 1
    norm_num
  rw [h3]
  have h4 := mul_le_mul_of_nonneg_left h2 (le_of_lt (Real.exp_pos (-(1 / 75))))
  linarith

end SettleReal

end GridPlaceNav

namespace GridPlaceNav

section ForcedChain

/-- An inhibited ring whose border input is inactive relays the unit bump of its afferent
ring unchanged. -/
theorem relay_update (L : Libm ℝ) (hL : IsReal L) (a b afferent : MotorNetwork ℝ)
    (S : Vector ℝ) (k : ℕ) (hk : 0 < k) (hNa : a.direction_samples = k + k)
    (hNb : b.direction_samples = k + k) (hs : 0 < a.normalization_spread)
    (hnorm : b.normalize = false) (hlen : b.neuron_inputs.length = k + k)
    (hcur : afferent.current = a.bump L 0 1) (hsc : afferent.scaling_factor = 1) :
    (b.update_and_commit_inhibited L afferent false S).current = a.bump L 0 1 ∧
    (b.update_and_commit_inhibited L afferent false S).strength = a.unit_bump_sum L ∧
    (b.update_and_commit_inhibited L afferent false S).direction = 0 ∧
    (b.update_and_commit_inhibited L afferent false S).scaling_factor = b.scaling_factor := by
  obtain ⟨hf1, hf2, hf3, _⟩ := inhibited_inputs_fields b afferent false S
  have hin : b.inhibited_inputs afferent false S
      = MotorMotorInput.add_inputs b.clear_inputs afferent := by
    unfold MotorNetwork.inhibited_inputs
    simp
  have hnext : ((b.inhibited_inputs afferent false S).update_neuron_values L).next
      = a.bump L 0 1 := by
    rw [update_neuron_values_plain L _ (by rw [hf2]; exact hnorm), bump_eq_map]
    unfold MotorNetwork.rectified_inputs
    rw [hf1, hNb, hNa]
    apply List.map_congr_left
    intro i hi
    have hi' := List.mem_range.mp hi
    dsimp only
    rw [hin, motor_inputs_getD b afferent (by rw [hlen, hNb]) i (by rw [hNb]; exact hi'),
      hcur, hsc]
    have hw : (a.bump L 0 1).getD i 0 = a.unit_bump L i := rfl
    rw [hw]
    have := unit_bump_pos L hL a i (by rw [hNa]; exact hi')
    rw [if_neg (by linarith)]
    ring
  unfold MotorNetwork.update_and_commit_inhibited
  obtain ⟨h1, h2, _, h4, h5⟩ := update_commit_fields L (b.inhibited_inputs afferent false S)
  refine ⟨by rw [commit_current, hnext], ?_, ?_, by rw [h2, hf3]⟩
  · rw [h4, hnext, calc_bump L hL _ a k hk (by rw [hf1, hNb]) hNa hs]
  · rw [h5, hnext, calc_bump L hL _ a k hk (by rw [hf1, hNb]) hNa hs]

/-- The second normalized ring, when it reads the unit bump of the first stage: its
direction is 0, so it takes the shape of its own unit bump. -/
theorem second_normalized_relay (L : Libm ℝ) (hL : IsReal L) (a c afferent : MotorNetwork ℝ)
    (k : ℕ) (hk : 0 < k) (hNa : a.direction_samples = k + k)
    (hsa : 0 < a.normalization_spread) (hNc : c.direction_samples = k + k)
    (hnorm : c.normalize = true) (hpeak : c.normalization_peak = 1)
    (hsc : 0 < c.normalization_spread) (hact : c.override_active = false)
    (hlen : c.neuron_inputs.length = k + k)
    (hcur : afferent.current = a.bump L 0 1) (hscale : afferent.scaling_factor = 1) :
    (c.update_and_commit_from L afferent).current = c.bump L 0 1 ∧
    (c.update_and_commit_from L afferent).strength = c.unit_bump_sum L ∧
    (c.update_and_commit_from L afferent).scaling_factor = c.scaling_factor := by
  unfold MotorNetwork.update_and_commit_from
  obtain ⟨f1, f2, f3, f4, f5, f6⟩ := add_inputs_fields c afferent
  have hrect : (MotorMotorInput.add_inputs c.clear_inputs afferent).rectified_inputs
      = a.bump L 0 1 := by
    rw [bump_eq_map]
    unfold MotorNetwork.rectified_inputs
    rw [f1, hNc, hNa]
    apply List.map_congr_left
    intro i hi
    have hi' := List.mem_range.mp hi
    dsimp only
    rw [motor_inputs_getD c afferent (by rw [hlen, hNc]) i (by rw [hNc]; exact hi'),
      hcur, hscale]
    have hw : (a.bump L 0 1).getD i 0 = a.unit_bump L i := rfl
    rw [hw]
    have := unit_bump_pos L hL a i (by rw [hNa]; exact hi')
    rw [if_neg (by linarith)]
    ring
  have hcalc := calc_bump L hL (MotorMotorInput.add_inputs c.clear_inputs afferent)
    a k hk (by rw [f1, hNc]) hNa hsa
  have hd : (MotorMotorInput.add_inputs c.clear_inputs afferent).chosen_direction L = 0 := by
    unfold MotorNetwork.chosen_direction
    rw [f6, hact, hrect, hcalc]
    rfl
  have hc : 0 < (MotorMotorInput.add_inputs c.clear_inputs afferent).chosen_strength L := by
    unfold MotorNetwork.chosen_strength
    rw [f6, hact, hrect, hcalc]
    show 0 < a.unit_bump_sum L
    exact unit_bump_sum_pos L hL a k hk hNa hsa
  obtain ⟨h1, h2, _⟩ := normalized_update L hL
    (MotorMotorInput.add_inputs c.clear_inputs afferent) k hk (by rw [f1, hNc])
    (by rw [f2, hnorm]) (by rw [f4, hpeak]) (by rw [f5]; exact hsc) hd hc
  exact ⟨by rw [h1]; exact bump_congr L _ _ f1 f5 0 1,
    by rw [h2]; exact unit_bump_sum_congr L _ _ f1 f5,
    by rw [(update_commit_fields L _).2.1, f3]⟩

/-- The four rings with inactive border inputs and the first ring overridden with
direction 0: each inhibited ring is as strong as the ring it reads, so the confidence is
1, and the direction of the last ring is 0. -/
theorem forced_motors (L : Libm ℝ) (hL : IsReal L) (c : ModelState ℝ) (k : ℕ)
    (hk : 0 < k) (hshape : c.ChainShape (k + k))
    (hdir : c.first_normalized_motor.override_direction = 0)
    (hstr : 0 < c.first_normalized_motor.override_strength)
    (hs1 : 0 < c.first_normalized_motor.normalization_spread)
    (hs2 : 0 < c.second_normalized_motor.normalization_spread)
    (hb1 : c.first_border_motor_input = false) (hb2 : c.second_border_motor_input = false) :
    (c.update_motors L).compute_confidence L = 1 ∧
    (c.update_motors L).second_inhibited_motor.direction = 0 ∧
    0 < (c.update_motors L).second_inhibited_motor.strength := by
  obtain ⟨⟨a1, _, a3, a4, a5, a6⟩, ⟨b1, b2, b3, b4⟩, ⟨c1, c2, c3, c4, c5, c6⟩,
    ⟨d1, d2, _, d4⟩⟩ := hshape
  obtain ⟨e1, e2, e3⟩ := first_normalized_update L hL c.first_normalized_motor k hk a1 a5 a4
    hs1 a6 hdir hstr
  obtain ⟨f1, f2, _, f4⟩ := relay_update L hL c.first_normalized_motor
    c.first_inhibited_motor (c.first_normalized_motor.update_and_commit L) c.border_sensors
    k hk a1 b1 hs1 b4 b2 e1 (by rw [e3, a3])
  obtain ⟨g1, g2, g3⟩ := second_normalized_relay L hL c.first_normalized_motor
    c.second_normalized_motor
    (c.first_inhibited_motor.update_and_commit_inhibited L
      (c.first_normalized_motor.update_and_commit L) false c.border_sensors)
    k hk a1 hs1 c1 c5 c4 hs2 c6 c2 f1 (by rw [f4, b3])
  obtain ⟨_, i2, i3, _⟩ := relay_update L hL c.second_normalized_motor
    c.second_inhibited_motor
    (c.second_normalized_motor.update_and_commit_from L
      (c.first_inhibited_motor.update_and_commit_inhibited L
        (c.first_normalized_motor.update_and_commit L) false c.border_sensors))
    c.border_sensors k hk c1 d1 hs2 d4 d2 g1 (by rw [g3, c3])
  have x1 := unit_bump_sum_pos L hL c.first_normalized_motor k hk a1 hs1
  have x2 := unit_bump_sum_pos L hL c.second_normalized_motor k hk c1 hs2
  unfold ModelState.compute_confidence ModelState.update_motors
  simp only [hb1, hb2]
  rw [e2, f2, g2, i2, i3, if_pos ⟨x1, x2⟩, hL.2.2.2.2.1]
  refine ⟨?_, rfl, x2⟩
  have e : c.first_normalized_motor.unit_bump_sum L / c.first_normalized_motor.unit_bump_sum L
      * c.second_normalized_motor.unit_bump_sum L / c.second_normalized_motor.unit_bump_sum L
      = 1 := by
    field_simp
  rw [e, Real.sqrt_one]

end ForcedChain

end GridPlaceNav

namespace GridPlaceNav

section ShapeKept

variable {α : Type} [LinearOrderedField α]

theorem motor_add_inputs_length (e a : MotorNetwork α) :
    (MotorMotorInput.add_inputs e a).neuron_inputs.length = e.neuron_inputs.length := by
  unfold MotorMotorInput.add_inputs
  dsimp only
  refine foldl_preserves (fun (v : Vector α) => v.length = e.neuron_inputs.length) _ _ ?_ _ rfl
  intro v d hv
  dsimp only
  rw [List.length_set]
  exact hv

theorem border_add_inputs_length (e : MotorNetwork α) (S : Vector α) :
    (BorderMotorInput.add_inputs e S).neuron_inputs.length = e.neuron_inputs.length := by
  unfold BorderMotorInput.add_inputs
  dsimp only
  refine foldl_preserves (fun (v : Vector α) => v.length = e.neuron_inputs.length) _ _ ?_ _ rfl
  intro v d hv
  dsimp only
  rw [List.length_set]
  exact hv

theorem inhibited_inputs_length (n afferent : MotorNetwork α) (border_active : Bool)
    (S : Vector α) :
    (n.inhibited_inputs afferent border_active S).neuron_inputs.length
      = n.neuron_inputs.length := by
  unfold MotorNetwork.inhibited_inputs
  dsimp only
  cases border_active
  · rw [if_neg (by simp), motor_add_inputs_length]
    exact clear_length _
  · rw [if_pos rfl, border_add_inputs_length, motor_add_inputs_length]
    exact clear_length _

/-- The members of a ring that `update_neuron_values` and `commit` leave alone. -/
theorem update_commit_kept (L : Libm α) (n : MotorNetwork α) :
    ((n.update_neuron_values L).commit L).normalize = n.normalize ∧
    ((n.update_neuron_values L).commit L).normalization_peak = n.normalization_peak ∧
    ((n.update_neuron_values L).commit L).override_active = n.override_active := by
  unfold MotorNetwork.update_neuron_values MotorNetwork.commit
  dsimp only
  split <;> exact ⟨rfl, rfl, rfl⟩

/-- The four `update_and_commit` calls keep the shape of the chain. -/
theorem update_motors_shape (L : Libm α) (c : ModelState α) (n : Nat)
    (h : c.ChainShape n) : (c.update_motors L).ChainShape n := by
  obtain ⟨⟨a1, a2, a3, a4, a5, a6⟩, ⟨b1, b2, b3, b4⟩, ⟨c1, c2, c3, c4, c5, c6⟩,
    ⟨d1, d2, d3, d4⟩⟩ := h
  unfold ModelState.ChainShape ModelState.update_motors
  dsimp only
  refine ⟨⟨?_, ?_, ?_, ?_, ?_, ?_⟩, ⟨?_, ?_, ?_, ?_⟩, ⟨?_, ?_, ?_, ?_, ?_, ?_⟩,
    ⟨?_, ?_, ?_, ?_⟩⟩
  · unfold MotorNetwork.update_and_commit
    rw [(update_commit_fields L _).1]
    exact a1
  · unfold MotorNetwork.update_and_commit
    rw [(update_commit_fields L _).2.2.1]
    exact (clear_length _).trans a2
  · unfold MotorNetwork.update_and_commit
    rw [(update_commit_fields L _).2.1]
    exact a3
  · unfold MotorNetwork.update_and_commit
    rw [(update_commit_kept L _).2.1]
    exact a4
  · unfold MotorNetwork.update_and_commit
    rw [(update_commit_kept L _).1]
    exact a5
  · unfold MotorNetwork.update_and_commit
    rw [(update_commit_kept L _).2.2]
    exact a6
  · unfold MotorNetwork.update_and_commit_inhibited
    rw [(update_commit_fields L _).1, (inhibited_inputs_fields _ _ _ _).1]
    exact b1
  · unfold MotorNetwork.update_and_commit_inhibited
    rw [(update_commit_fields L _).2.2.1, inhibited_inputs_length]
    exact b2
  · unfold MotorNetwork.update_and_commit_inhibited
    rw [(update_commit_fields L _).2.1, (inhibited_inputs_fields _ _ _ _).2.2.1]
    exact b3
  · unfold MotorNetwork.update_and_commit_inhibited
    rw [(update_commit_kept L _).1, (inhibited_inputs_fields _ _ _ _).2.1]
    exact b4
  · unfold MotorNetwork.update_and_commit_from
    rw [(update_commit_fields L _).1, (add_inputs_fields _ _).1]
    exact c1
  · unfold MotorNetwork.update_and_commit_from
    rw [(update_commit_fields L _).2.2.1, motor_add_inputs_length]
    exact (clear_length _).trans c2
  · unfold MotorNetwork.update_and_commit_from
    rw [(update_commit_fields L _).2.1, (add_inputs_fields _ _).2.2.1]
    exact c3
  · unfold MotorNetwork.update_and_commit_from
    rw [(update_commit_kept L _).2.1, (add_inputs_fields _ _).2.2.2.1]
    exact c4
  · unfold MotorNetwork.update_and_commit_from
    rw [(update_commit_kept L _).1, (add_inputs_fields _ _).2.1]
    exact c5
  · unfold MotorNetwork.update_and_commit_from
    rw [(update_commit_kept L _).2.2, (add_inputs_fields _ _).2.2.2.2.2]
    exact c6
  · unfold MotorNetwork.update_and_commit_inhibited
    rw [(update_commit_fields L _).1, (inhibited_inputs_fields _ _ _ _).1]
    exact d1
  · unfold MotorNetwork.update_and_commit_inhibited
    rw [(update_commit_fields L _).2.2.1, inhibited_inputs_length]
    exact d2
  · unfold MotorNetwork.update_and_commit_inhibited
    rw [(update_commit_fields L _).2.1, (inhibited_inputs_fields _ _ _ _).2.2.1]
    exact d3
  · unfold MotorNetwork.update_and_commit_inhibited
    rw [(update_commit_kept L _).1, (inhibited_inputs_fields _ _ _ _).2.1]
    exact d4

/-- The members of the model that the motor decision leaves alone. -/
theorem steer_kept (L : Libm α) (M : ModelState α) :
    (M.steer L).sheets = M.sheets ∧
    (M.steer L).internal_motor_tuning = M.internal_motor_tuning := by
  unfold ModelState.steer
  simp only
  split <;> exact ⟨rfl, rfl⟩

/-- The configuration of the rings in `forced_mode`. -/
theorem configure_forced (L : Libm α) (m : ModelState α)
    (hmode : m.input.motor_mode = MotorMode.forced_mode) :
    (m.configure_motors L).first_normalized_motor =
      { m.first_normalized_motor with
        override_direction := 0 + m.input.motor_offset,
        override_strength := 1,
        normalization_spread := m.input.motor_tuning } ∧
    (m.configure_motors L).second_normalized_motor =
      { m.second_normalized_motor with normalization_spread := m.internal_motor_tuning } ∧
    (m.configure_motors L).first_border_motor_input = false ∧
    (m.configure_motors L).second_border_motor_input = false := by
  unfold ModelState.configure_motors ModelState.override_source
  simp only [hmode]
  repeat' constructor

end ShapeKept

end GridPlaceNav

namespace GridPlaceNav

section ForcedSteer

theorem steer_forced_borders {α : Type} [LinearOrderedField α] (L : Libm α)
    (M : ModelState α) (hmode : M.input.motor_mode = MotorMode.forced_mode) :
    (M.steer L).first_border_motor_input = false ∧
    (M.steer L).second_border_motor_input = false := by
  unfold ModelState.steer ModelState.navigate ModelState.set_halted_and_heading
    ModelState.update_motors ModelState.configure_motors
  simp [hmode]

theorem decode_other_mode {α : Type} [LinearOrderedField α] (dc : MotorNetwork α)
    (M : ModelState α) (hmode : M.input.motor_mode ≠ MotorMode.grid_decoder_mode) :
    ModelState.decode dc M = M := by
  unfold ModelState.decode
  rw [if_neg hmode]

/-- The motor decision in `forced_mode` with motor offset 0: the confidence is 1, the
agent halts only under a confidence threshold above 1, and the heading is 0. -/
theorem forced_steer (L : Libm ℝ) (hL : IsReal L) (M : ModelState ℝ) (k : ℕ) (hk : 0 < k)
    (hmode : M.input.motor_mode = MotorMode.forced_mode)
    (hoff : M.input.motor_offset = 0) (htun : 0 < M.input.motor_tuning)
    (hint : 0 < M.internal_motor_tuning) (hshape : M.ChainShape (k + k)) :
    (M.steer L).confidence = 1 ∧
    (M.steer L).output.halted = decide (1 < M.input.confidence_threshold) ∧
    (M.steer L).output.heading = 0 ∧
    (M.steer L).output.speed
      = (if decide (1 < M.input.confidence_threshold) = true then 0 else FIXED_SPEED) ∧
    (M.steer L).ChainShape (k + k) := by
  obtain ⟨N, hN, _, s2, s3, s4, s5, s6, s7, s8, s9⟩ := steer_spec L M
    (by rw [hmode]; decide)
  obtain ⟨n1, n2, n3, n4, n5, _, n7, n8⟩ := navigate_spec L
    ({ M with output := { M.output with halted := true, heading := M.input.heading } }
      : ModelState ℝ)
  rw [← hN] at n1 n2 n3 n4 n5 n7 n8
  obtain ⟨q1, q2, q3, q4⟩ := configure_forced L
    ({ M with output := { M.output with halted := true, heading := M.input.heading } }
      : ModelState ℝ) hmode
  have hshape1 := configure_shape L
    ({ M with output := { M.output with halted := true, heading := M.input.heading } }
      : ModelState ℝ) (k + k) hshape
  obtain ⟨w1, w2, w3⟩ := forced_motors L hL _ k hk hshape1
    (by rw [q1]; show 0 + M.input.motor_offset = 0; rw [hoff, add_zero])
    (by rw [q1]; exact one_pos) (by rw [q1]; exact htun) (by rw [q2]; exact hint) q3 q4
  have hconf : N.confidence = 1 := n5.trans w1
  have hhalt : N.output.halted = decide (1 < M.input.confidence_threshold) := by
    rw [n7, hconf]
  refine ⟨s2.trans hconf, s7.trans hhalt, ?_, ?_, ?_⟩
  · rw [s8, n8, n4, if_pos w3, w2]
  · rw [s9, hhalt]
  · have hs := update_motors_shape L _ _ hshape1
    unfold ModelState.ChainShape at hs ⊢
    rw [s3, s4, s5, s6, n1, n2, n3, n4]
    exact hs

end ForcedSteer

section ForcedHook

variable {α : Type} [LinearOrderedField α]

/-- What `ForcedMoveState::hook` writes and what it leaves alone. -/
theorem forced_hook_spec (L : Libm α) (a : Agent α) :
    (ForcedMoveState.hook L a).model.input =
      { a.model.input with
        motor_mode := MotorMode.forced_mode, motor_tuning := 1 / 10,
        motor_offset := L.atan2 (a.input.goto_y - a.input.y)
          (a.input.goto_x - a.input.x) } ∧
    (ForcedMoveState.hook L a).model.place_graph = a.model.place_graph ∧
    (ForcedMoveState.hook L a).model.sheets = a.model.sheets ∧
    (ForcedMoveState.hook L a).model.internal_motor_tuning = a.model.internal_motor_tuning ∧
    (ForcedMoveState.hook L a).model.first_normalized_motor = a.model.first_normalized_motor ∧
    (ForcedMoveState.hook L a).model.first_inhibited_motor = a.model.first_inhibited_motor ∧
    (ForcedMoveState.hook L a).model.second_normalized_motor
      = a.model.second_normalized_motor ∧
    (ForcedMoveState.hook L a).model.second_inhibited_motor
      = a.model.second_inhibited_motor ∧
    (ForcedMoveState.hook L a).state_impl = a.state_impl ∧
    (ForcedMoveState.hook L a).approach_confidence_threshold
      = a.approach_confidence_threshold ∧
    (ForcedMoveState.hook L a).input = a.input ∧
    (ForcedMoveState.hook L a).next_state =
      (if L.sqrt ((a.input.goto_x - a.input.x) ^ 2 + (a.input.goto_y - a.input.y) ^ 2)
          < 2 * DISTANCE_PER_TIMESTEP then State.no_state else a.next_state) := by
  unfold ForcedMoveState.hook Agent.set_model_input
  dsimp only
  by_cases h : L.sqrt ((a.input.goto_x - a.input.x) ^ 2 + (a.input.goto_y - a.input.y) ^ 2)
      < 2 * DISTANCE_PER_TIMESTEP
  · rw [if_pos h, if_pos h]
    exact ⟨rfl, rfl, rfl, rfl, rfl, rfl, rfl, rfl, rfl, rfl, rfl, rfl⟩
  · rw [if_neg h, if_neg h]
    exact ⟨rfl, rfl, rfl, rfl, rfl, rfl, rfl, rfl, rfl, rfl, rfl, rfl⟩

end ForcedHook

end GridPlaceNav

namespace GridPlaceNav

section ForcedExecute

/-- One `Agent::execute` in `forced_move_state` towards a goal straight east of the
position: the call returns, the agent is not halted, heads east at `FIXED_SPEED`, and
leaves the state exactly when the goal is closer than `2 * DISTANCE_PER_TIMESTEP`. -/
theorem forced_execute (L : Libm ℝ) (hL : IsReal L) (u n : ℝ) (mv : List (Vector ℝ))
    (dc : MotorNetwork ℝ) (a : Agent ℝ) (k : ℕ) (hk : 0 < k)
    (hfm : a.state_impl State.forced_move_state = some StateImplementation.ForcedMoveState)
    (hno : a.state_impl State.no_state = none)
    (hstate : a.active_state = State.forced_move_state)
    (hy : a.input.goto_y = a.input.y) (hx : a.input.x < a.input.goto_x)
    (hthr : a.approach_confidence_threshold ≤ 1) (hint : 0 < a.model.internal_motor_tuning)
    (hshape : a.model.ChainShape (k + k)) (hreach : Reachable a.model.place_graph)
    (hmv : a.model.sheets.module_count ≤ mv.length) :
    ∃ a', a.execute L u n mv dc = some a' ∧
      a'.output.halted = false ∧ a'.output.heading = 0 ∧ a'.output.speed = FIXED_SPEED ∧
      a'.active_state =
        (if a.input.goto_x - a.input.x < 2 * DISTANCE_PER_TIMESTEP then State.no_state
         else State.forced_move_state) ∧
      a'.model.first_border_motor_input = false ∧
      a'.model.second_border_motor_input = false ∧
      a'.state_impl = a.state_impl ∧
      a'.approach_confidence_threshold = a.approach_confidence_threshold ∧
      a'.model.internal_motor_tuning = a.model.internal_motor_tuning ∧
      a'.model.ChainShape (k + k) ∧ Reachable a'.model.place_graph ∧
      a'.model.sheets.module_count = a.model.sheets.module_count := by
  obtain ⟨h1, h2, h3, h4, h5, h6, h7, h8, h9, h10, _, h12⟩ := forced_hook_spec L a.prepare
  have hreach' : Reachable (ForcedMoveState.hook L a.prepare).model.place_graph := by
    rw [h2]
    exact Reachable.write_input a.model.place_graph _ hreach
  have hsheets : (ForcedMoveState.hook L a.prepare).model.sheets = a.model.sheets := h3
  obtain ⟨g', hupd⟩ := update_plain_total (ForcedMoveState.hook L a.prepare).model.place_graph
    { (ForcedMoveState.hook L a.prepare).model.sheets with mec_moving_convolved := mv }
    hreach' (by rw [hsheets]; exact hmv) (by rw [h2]; rfl) (by rw [h2]; rfl) (by rw [h2]; rfl)
    (by
      rw [h2]
      intro hs
      exact absurd hs (by show ¬ (false = true); decide))
  have hmode : ({ (ForcedMoveState.hook L a.prepare).model with
      place_graph := g',
      sheets := { (ForcedMoveState.hook L a.prepare).model.sheets with
        mec_moving_convolved := mv } } : ModelState ℝ).input.motor_mode
      = MotorMode.forced_mode := by
    show (ForcedMoveState.hook L a.prepare).model.input.motor_mode = _
    rw [h1]
  have hdist : a.input.goto_y - a.input.y = 0 := by rw [hy, sub_self]
  have hpos : 0 < a.input.goto_x - a.input.x := by linarith
  have hoff : ({ (ForcedMoveState.hook L a.prepare).model with
      place_graph := g',
      sheets := { (ForcedMoveState.hook L a.prepare).model.sheets with
        mec_moving_convolved := mv } } : ModelState ℝ).input.motor_offset = 0 := by
    show (ForcedMoveState.hook L a.prepare).model.input.motor_offset = 0
    rw [h1]
    show L.atan2 (a.input.goto_y - a.input.y) (a.input.goto_x - a.input.x) = 0
    rw [hL.2.2.1, hdist]
    exact Complex.arg_ofReal_of_nonneg (le_of_lt hpos)
  have hshape' : ({ (ForcedMoveState.hook L a.prepare).model with
      place_graph := g',
      sheets := { (ForcedMoveState.hook L a.prepare).model.sheets with
        mec_moving_convolved := mv } } : ModelState ℝ).ChainShape (k + k) := by
    unfold ModelState.ChainShape
    show ((ForcedMoveState.hook L a.prepare).model.first_normalized_motor.direction_samples
        = k + k ∧ _) ∧ _
    rw [h5, h6, h7, h8]
    exact hshape
  obtain ⟨t1, t2, t3, t4, t5⟩ := forced_steer L hL _ k hk hmode hoff
    (by
      show 0 < (ForcedMoveState.hook L a.prepare).model.input.motor_tuning
      rw [h1]
      show (0 : ℝ) < 1 / 10
      norm_num)
    (by
      show 0 < (ForcedMoveState.hook L a.prepare).model.internal_motor_tuning
      rw [h4]
      exact hint)
    hshape'
  obtain ⟨t6, t7⟩ := steer_forced_borders L _ hmode
  obtain ⟨t8, t9⟩ := steer_kept L
    ({ (ForcedMoveState.hook L a.prepare).model with
      place_graph := g',
      sheets := { (ForcedMoveState.hook L a.prepare).model.sheets with
        mec_moving_convolved := mv } } : ModelState ℝ)
  have hthr' : ({ (ForcedMoveState.hook L a.prepare).model with
      place_graph := g',
      sheets := { (ForcedMoveState.hook L a.prepare).model.sheets with
        mec_moving_convolved := mv } } : ModelState ℝ).input.confidence_threshold
      = a.approach_confidence_threshold := by
    show (ForcedMoveState.hook L a.prepare).model.input.confidence_threshold = _
    rw [h1]
    rfl
  have hnot : decide (1 < a.approach_confidence_threshold) = false :=
    decide_eq_false (not_lt.mpr hthr)
  rw [hthr', hnot] at t2 t4
  have hexec : a.execute L u n mv dc = some (Agent.finish
      { ForcedMoveState.hook L a.prepare with
        model := ModelState.steer L
          { (ForcedMoveState.hook L a.prepare).model with
            place_graph := g',
            sheets := { (ForcedMoveState.hook L a.prepare).model.sheets with
              mec_moving_convolved := mv } } }) := by
    rw [execute_eq, hstate, hfm]
    show Option.map _ (ModelState.simulate_timestep L mv dc
      (ForcedMoveState.hook L a.prepare).model) = _
    unfold ModelState.simulate_timestep
    rw [hupd]
    show some (Agent.finish { ForcedMoveState.hook L a.prepare with
      model := ModelState.steer L (ModelState.decode dc _) }) = _
    rw [decode_other_mode dc _ (by rw [hmode]; decide)]
  have hsq : L.sqrt ((a.prepare.input.goto_x - a.prepare.input.x) ^ 2
      + (a.prepare.input.goto_y - a.prepare.input.y) ^ 2)
      = a.input.goto_x - a.input.x := by
    show L.sqrt ((a.input.goto_x - a.input.x) ^ 2 + (a.input.goto_y - a.input.y) ^ 2) = _
    rw [hL.2.2.2.2.1, hdist]
    have e : (a.input.goto_x - a.input.x) ^ 2 + (0 : ℝ) ^ 2
        = (a.input.goto_x - a.input.x) ^ 2 := by ring
    rw [e]
    exact Real.sqrt_sq (le_of_lt hpos)
  rw [hsq] at h12
  refine ⟨_, hexec, t2, t3, ?_, ?_, t6, t7, h9, h10, ?_, t5, ?_, ?_⟩
  · show (ModelState.steer L _).output.speed = FIXED_SPEED
    rw [t4]
    rfl
  · show (if (ForcedMoveState.hook L a.prepare).state_impl
        (ForcedMoveState.hook L a.prepare).next_state = none then State.no_state
      else (ForcedMoveState.hook L a.prepare).next_state) = _
    rw [h9, h12]
    have e1 : a.prepare.next_state = State.forced_move_state := hstate
    have e2 : a.prepare.state_impl = a.state_impl := rfl
    rw [e1, e2]
    by_cases hc : a.input.goto_x - a.input.x < 2 * DISTANCE_PER_TIMESTEP
    · rw [if_pos hc, if_pos hno]
    · rw [if_neg hc, hfm, if_neg (by simp)]
  · show (ModelState.steer L _).internal_motor_tuning = _
    rw [t9]
    exact h4
  · show Reachable (ModelState.steer L _).place_graph
    rw [steer_place_graph]
    exact Reachable.update _ _ _ _ hreach' hupd
  · show (ModelState.steer L _).sheets.module_count = _
    rw [t8]
    show (ForcedMoveState.hook L a.prepare).model.sheets.module_count = _
    rw [h3]
    rfl

end ForcedExecute

end GridPlaceNav

namespace GridPlaceNav

section ForcedStep

theorem fences_fold_clear {α : Type} (fences : List (String × Arena α)) (ax ay bx by_ : α)
    (h : ∀ fence ∈ fences, ∀ ax ay bx by_, fence.2.line_intersects ax ay bx by_ = false)
    (c : Bool) :
    fences.foldl (fun (continue_loop : Bool) (fence : String × Arena α) =>
      if fence.2.line_intersects ax ay bx by_ then false else continue_loop) c = c := by
  induction fences with
  | nil => rfl
  | cons f fs ih =>
    rw [List.foldl_cons, h f (List.mem_cons_self f fs)]
    exact ih (fun fence hf => h fence (List.mem_cons_of_mem f hf))

theorem double_modulo_zero (period : ℝ) : Periodic.double_modulo 0 period = 0 := by
  unfold Periodic.double_modulo
  rw [zero_div, Int.floor_zero]
  have e : wrap_int32 0 = 0 := by decide
  rw [e]
  simp

/-- One call of `Simulation::step` in `forced_move_state` towards a goal straight east:
the call returns, the agent is not halted, the border inputs are inactive, the position
moves east by `DISTANCE_PER_TIMESTEP`, and the loop continues unless the goal was closer
than `2 * DISTANCE_PER_TIMESTEP`. -/
theorem forced_step (L : Libm ℝ) (hL : IsReal L) (tick : Tick ℝ) (s : Simulation ℝ) (k : ℕ)
    (hk : 0 < k) (hready : s.ForcedReady k)
    (hstate : s.agent.active_state = State.forced_move_state)
    (hy : s.goto_y = s.y) (hx : s.x < s.goto_x)
    (hmv : s.agent.model.sheets.module_count ≤ tick.moving_convolved.length) :
    ∃ s', s.step L tick
        = some (s', decide (¬ (s.goto_x - s.x < 2 * DISTANCE_PER_TIMESTEP))) ∧
      s'.ForcedReady k ∧
      s'.agent.active_state =
        (if s.goto_x - s.x < 2 * DISTANCE_PER_TIMESTEP then State.no_state
         else State.forced_move_state) ∧
      s'.x = s.x + DISTANCE_PER_TIMESTEP ∧ s'.y = s.y ∧
      s'.goto_x = s.goto_x ∧ s'.goto_y = s.goto_y ∧
      s'.heading = 0 ∧ s'.speed = FIXED_SPEED ∧
      s'.agent.output.halted = false ∧
      s'.agent.model.first_border_motor_input = false ∧
      s'.agent.model.second_border_motor_input = false ∧
      s'.agent.model.sheets.module_count = s.agent.model.sheets.module_count := by
  obtain ⟨r1, r2, r3, r4, r5, r6, r7, r8⟩ := hready
  obtain ⟨a', hexec, e1, e2, e3, e4, e5, e6, e7, e8, e9, e10, e11, e12⟩ := forced_execute L hL
    tick.uniform tick.normal tick.moving_convolved tick.decoded
    { s.agent with
      model := { s.agent.model with
        border_sensors := s.arena.update_sensors L s.x s.y s.sensor_range
          s.agent.model.border_sensors.length },
      input := { x := s.x, y := s.y, heading := s.heading, speed := s.speed,
                 goto_x := s.goto_x, goto_y := s.goto_y, reward_id := s.reward_id } }
    k hk r1 r2 hstate hy hx r3 r4 r5 r6 hmv
  have hhead : Periodic.double_modulo a'.output.heading (2 * L.pi) = 0 := by
    rw [e2]
    exact double_modulo_zero _
  have hcos : L.cos 0 = 1 := by rw [hL.1]; exact Real.cos_zero
  have hsin : L.sin 0 = 0 := by rw [hL.2.1]; exact Real.sin_zero
  have hflag : decide (a'.active_state ≠ State.no_state)
      = decide (¬ (s.goto_x - s.x < 2 * DISTANCE_PER_TIMESTEP)) := by
    rw [e4]
    by_cases hc : s.goto_x - s.x < 2 * DISTANCE_PER_TIMESTEP
    · simp [hc]
    · simp [hc]
  have hstep : s.step L tick = some
      ({ s with
          agent := a',
          heading := Periodic.double_modulo a'.output.heading (2 * L.pi),
          speed := a'.output.speed,
          path_length_in_current_trial_phase :=
            s.path_length_in_current_trial_phase + a'.output.speed / 1000,
          x := s.x + a'.output.speed
            * L.cos (Periodic.double_modulo a'.output.heading (2 * L.pi)) / 1000,
          y := s.y + a'.output.speed
            * L.sin (Periodic.double_modulo a'.output.heading (2 * L.pi)) / 1000,
          global_timestep := wrap_int32 (s.global_timestep + 1) },
        decide (¬ (s.goto_x - s.x < 2 * DISTANCE_PER_TIMESTEP))) := by
    unfold Simulation.step
    dsimp only
    rw [hexec]
    dsimp only
    rw [r7, fences_fold_clear s.fences _ _ _ _ r8, hflag]
    simp
  refine ⟨_, hstep, ⟨?_, ?_, ?_, ?_, e10, e11, r7, r8⟩, e4, ?_, ?_, rfl, rfl, hhead, e3, e1,
    e5, e6, e12⟩
  · show a'.state_impl State.forced_move_state = _
    rw [e7]
    exact r1
  · show a'.state_impl State.no_state = _
    rw [e7]
    exact r2
  · show a'.approach_confidence_threshold ≤ 1
    rw [e8]
    exact r3
  · show 0 < a'.model.internal_motor_tuning
    rw [e9]
    exact r4
  · show s.x + a'.output.speed
      * L.cos (Periodic.double_modulo a'.output.heading (2 * L.pi)) / 1000 = _
    rw [hhead, hcos, e3]
    unfold DISTANCE_PER_TIMESTEP
    ring
  · show s.y + a'.output.speed
      * L.sin (Periodic.double_modulo a'.output.heading (2 * L.pi)) / 1000 = _
    rw [hhead, hsin]
    ring

end ForcedStep

end GridPlaceNav

namespace GridPlaceNav

section ForcedTraceFacts

theorem after_steps_succ {α : Type} [LinearOrderedField α] [FloorRing α] (L : Libm α)
    (ticks : Nat → Tick α) (t : Nat) (s0 sp st : Simulation α) (flag : Bool)
    (hsp : Simulation.after_steps L ticks t s0 = some sp)
    (hstep : sp.step L (ticks t) = some (st, flag)) :
    Simulation.after_steps L ticks (t + 1) s0 = some st := by
  show (Simulation.after_steps L ticks t s0).bind _ = _
  rw [hsp, Option.some_bind, hstep]
  rfl

/-- The loop `while (this->step());` along a trace whose first `n` steps return `true`
and whose step `n` returns `false`: it ends after `n + 1` steps in the state after
`n + 1` steps. -/
theorem run_steps_trace {α : Type} [LinearOrderedField α] [FloorRing α] (L : Libm α)
    (ticks : Nat → Tick α) (s0 : Simulation α) (n : Nat)
    (h : ∀ t, t ≤ n → ∃ sp st, Simulation.after_steps L ticks t s0 = some sp ∧
      sp.step L (ticks t) = some (st, decide (t + 1 ≤ n))) :
    ∀ fuel, n + 1 ≤ fuel → ∃ s', Simulation.after_steps L ticks (n + 1) s0 = some s' ∧
      Simulation.run_steps L ticks fuel 0 s0 = LoopResult.done (s', n + 1) := by
  have key : ∀ d t, t + d = n → ∀ fuel, d + 1 ≤ fuel → ∀ sp,
      Simulation.after_steps L ticks t s0 = some sp →
      ∃ s', Simulation.after_steps L ticks (n + 1) s0 = some s' ∧
        Simulation.run_steps L ticks fuel t sp = LoopResult.done (s', n + 1) := by
    intro d
    induction d with
    | zero =>
      intro t ht fuel hfuel sp hsp
      obtain ⟨sp', st, hsp', hstep⟩ := h t (by omega)
      have e : sp' = sp := Option.some.inj (hsp'.symm.trans hsp)
      rw [e] at hstep
      have hflag : decide (t + 1 ≤ n) = false := decide_eq_false (by omega)
      rw [hflag] at hstep
      obtain ⟨f, hf⟩ := Nat.exists_eq_add_of_le hfuel
      have ht' : t = n := by omega
      refine ⟨st, ?_, ?_⟩
      · rw [← ht']
        exact after_steps_succ L ticks t s0 sp st false hsp hstep
      · rw [hf, Nat.add_comm]
        show (match sp.step L (ticks t) with
          | none => LoopResult.fault
          | some (s', true) => Simulation.run_steps L ticks f (t + 1) s'
          | some (s', false) => LoopResult.done (s', t + 1)) = _
        rw [hstep, ht']
    | succ d ih =>
      intro t ht fuel hfuel sp hsp
      obtain ⟨sp', st, hsp', hstep⟩ := h t (by omega)
      have e : sp' = sp := Option.some.inj (hsp'.symm.trans hsp)
      rw [e] at hstep
      have hflag : decide (t + 1 ≤ n) = true := decide_eq_true (by omega)
      rw [hflag] at hstep
      obtain ⟨f, hf⟩ := Nat.exists_eq_add_of_le hfuel
      obtain ⟨s', h1, h2⟩ := ih (t + 1) (by omega) (d + 1 + f) (by omega) st
        (after_steps_succ L ticks t s0 sp st true hsp hstep)
      refine ⟨s', h1, ?_⟩
      have hf' : fuel = (d + 1 + f) + 1 := by omega
      rw [hf']
      show (match sp.step L (ticks t) with
        | none => LoopResult.fault
        | some (s', true) => Simulation.run_steps L ticks (d + 1 + f) (t + 1) s'
        | some (s', false) => LoopResult.done (s', t + 1)) = _
      rw [hstep]
      exact h2
  intro fuel hfuel
  exact key n 0 (by omega) fuel hfuel s0 rfl

/-- The trace of a forced move towards a goal `n + 1` steps straight east: every step
returns, and after `t` steps the position is `t` steps east of the start. -/
theorem forced_trace (L : Libm ℝ) (hL : IsReal L) (ticks : Nat → Tick ℝ) (s0 : Simulation ℝ)
    (k n : ℕ) (hk : 0 < k) (hready : s0.ForcedReady k)
    (hstate : s0.agent.active_state = State.forced_move_state)
    (hy : s0.goto_y = s0.y)
    (hgoal : s0.goto_x = s0.x + ((n : ℝ) + 1) * DISTANCE_PER_TIMESTEP)
    (hmv : ∀ t, s0.agent.model.sheets.module_count ≤ (ticks t).moving_convolved.length) :
    ∀ t, t ≤ n + 1 → ∃ st, Simulation.after_steps L ticks t s0 = some st ∧
      st.ForcedReady k ∧
      st.agent.active_state
        = (if t ≤ n then State.forced_move_state else State.no_state) ∧
      st.x = s0.x + (t : ℝ) * DISTANCE_PER_TIMESTEP ∧ st.y = s0.y ∧
      st.goto_x = s0.goto_x ∧ st.goto_y = s0.goto_y ∧
      st.agent.model.sheets.module_count = s0.agent.model.sheets.module_count ∧
      (∀ j, j + 1 = t → ∃ sp, Simulation.after_steps L ticks j s0 = some sp ∧
        sp.step L (ticks j) = some (st, decide (t ≤ n)) ∧
        st.x = sp.x + DISTANCE_PER_TIMESTEP ∧ st.y = sp.y ∧
        st.heading = 0 ∧ st.speed = FIXED_SPEED ∧ st.agent.output.halted = false ∧
        st.agent.model.first_border_motor_input = false ∧
        st.agent.model.second_border_motor_input = false) := by
  have hD : (0 : ℝ) < DISTANCE_PER_TIMESTEP := by
    unfold DISTANCE_PER_TIMESTEP FIXED_SPEED
    norm_num
  intro t
  induction t with
  | zero =>
    intro _
    refine ⟨s0, rfl, hready, ?_, ?_, rfl, rfl, rfl, rfl, ?_⟩
    · rw [if_pos (Nat.zero_le n)]
      exact hstate
    · simp
    · intro j hj
      exact absurd hj (Nat.succ_ne_zero j)
  | succ t ih =>
    intro ht
    have htn : t ≤ n := by omega
    obtain ⟨sp, hsp, p1, p2, p3, p4, p5, p6, p7, _⟩ := ih (by omega)
    rw [if_pos htn] at p2
    have htn' : (t : ℝ) ≤ (n : ℝ) := by exact_mod_cast htn
    have hx : sp.x < sp.goto_x := by
      rw [p3, p5, hgoal]
      nlinarith
    obtain ⟨st, hstep, q1, q2, q3, q4, q5, q6, q7, q8, q9, q10, q11, q12⟩ :=
      forced_step L hL (ticks t) sp k hk p1 p2 (by rw [p6, p4]; exact hy) hx
        (by rw [p7]; exact hmv t)
    have hiff : (sp.goto_x - sp.x < 2 * DISTANCE_PER_TIMESTEP) ↔ ¬ (t + 1 ≤ n) := by
      rw [p3, p5, hgoal]
      constructor
      · intro hlt hle
        have hle' : (t : ℝ) + 1 ≤ (n : ℝ) := by exact_mod_cast hle
        nlinarith
      · intro hnot
        have e : t = n := by omega
        rw [e]
        nlinarith
    have hflag : decide (¬ (sp.goto_x - sp.x < 2 * DISTANCE_PER_TIMESTEP))
        = decide (t + 1 ≤ n) := by
      by_cases hc : t + 1 ≤ n
      · have h1 : ¬ (sp.goto_x - sp.x < 2 * DISTANCE_PER_TIMESTEP) := fun hh => hiff.mp hh hc
        simp [hc, h1]
      · have h1 : sp.goto_x - sp.x < 2 * DISTANCE_PER_TIMESTEP := hiff.mpr hc
        simp [hc, h1]
    rw [hflag] at hstep
    refine ⟨st, after_steps_succ L ticks t s0 sp st _ hsp hstep, q1, ?_, ?_,
      by rw [q4, p4], by rw [q5, p5], by rw [q6, p6], by rw [q12, p7], ?_⟩
    · rw [q2]
      by_cases hc : t + 1 ≤ n
      · rw [if_neg (fun hh => hiff.mp hh hc), if_pos hc]
      · rw [if_pos (hiff.mpr hc), if_neg hc]
    · rw [q3, p3]
      push_cast
      ring
    · intro j hj
      have e : j = t := by omega
      rw [e]
      exact ⟨sp, hsp, hstep, q3, q4, q7, q8, q9, q10, q11⟩

end ForcedTraceFacts

end GridPlaceNav

namespace GridPlaceNav

section ForcedMove

/-- C24. From the position `(0, 0)`, in an arena and among fences that no segment meets
(the empty arena that `Simulation` loads), the script command `goto 5 0` runs the loop of
`Simulation::step` for exactly 250 steps, which is at most
`ceil(5 / DISTANCE_PER_TIMESTEP) + 2`, and leaves `forced_move_state` in the position
`(5, 0)`. In each of these steps the call returns, the agent is in `forced_move_state`
before it, the border inputs are inactive, the agent is not halted, and the position
advances by `DISTANCE_PER_TIMESTEP` in the direction 0 of the goal. The simulation is
`ForcedReady`: the agent has the handlers of `Agent::Agent` and an approach confidence
threshold of at most 1 (as in every preset), the model has rings of `2 * k` neurons and
a positive internal motor tuning, and the place graph was built from the empty graph;
the grid modules deliver a moving convolved sheet for every module in every step. -/
theorem goto_forced_move (L : Libm ℝ) (hL : IsReal L) (ticks : ℕ → Tick ℝ)
    (s : Simulation ℝ) (k fuel : ℕ) (hk : 0 < k) (hready : s.ForcedReady k)
    (hx : s.x = 0) (hy : s.y = 0)
    (hmv : ∀ t, s.agent.model.sheets.module_count ≤ (ticks t).moving_convolved.length)
    (hfuel : 250 ≤ fuel) :
    ∃ s', Simulation.goto L ticks fuel 5 0 s = LoopResult.done (s', 250) ∧
      (250 : ℤ) ≤ ⌈(5 : ℝ) / DISTANCE_PER_TIMESTEP⌉ + 2 ∧
      s'.agent.active_state = State.no_state ∧
      s'.x = 5 ∧ s'.y = 0 ∧
      |s'.x - 5| ≤ 2 * DISTANCE_PER_TIMESTEP ∧ |s'.y - 0| ≤ 2 * DISTANCE_PER_TIMESTEP ∧
      ∀ t, t < 250 → ∃ sp st,
        Simulation.after_steps L ticks t
          { s with goto_x := 5, goto_y := 0,
                   agent := { s.agent with active_state := State.forced_move_state } }
          = some sp ∧
        sp.step L (ticks t) = some (st, decide (t + 1 < 250)) ∧
        sp.agent.active_state = State.forced_move_state ∧
        st.agent.model.first_border_motor_input = false ∧
        st.agent.model.second_border_motor_input = false ∧
        st.agent.output.halted = false ∧
        st.heading = 0 ∧ st.speed = FIXED_SPEED ∧
        st.x = sp.x + DISTANCE_PER_TIMESTEP ∧ st.y = sp.y := by
  have hD : (DISTANCE_PER_TIMESTEP : ℝ) = 1 / 50 := by
    unfold DISTANCE_PER_TIMESTEP FIXED_SPEED
    norm_num
  have htrace := forced_trace L hL ticks
    { s with goto_x := 5, goto_y := 0,
             agent := { s.agent with active_state := State.forced_move_state } }
    k 249 hk hready rfl hy.symm
    (by
      show (5 : ℝ) = s.x + ((249 : ℕ) + 1) * DISTANCE_PER_TIMESTEP
      rw [hx, hD]
      norm_num)
    hmv
  obtain ⟨s', hs', hrun⟩ := run_steps_trace L ticks
    { s with goto_x := 5, goto_y := 0,
             agent := { s.agent with active_state := State.forced_move_state } }
    249
    (by
      intro t ht
      obtain ⟨st, _, _, _, _, _, _, _, _, hj⟩ := htrace (t + 1) (by omega)
      obtain ⟨sp, hsp, hstep, _⟩ := hj t rfl
      exact ⟨sp, st, hsp, hstep⟩)
    fuel hfuel
  obtain ⟨s'', hs'', _, f2, f3, f4, _, _, _, _⟩ := htrace 250 (by omega)
  have e : s'' = s' := Option.some.inj (hs''.symm.trans hs')
  rw [e] at f2 f3 f4
  have hgoto : Simulation.goto L ticks fuel 5 0 s = LoopResult.done (s', 250) := by
    unfold Simulation.goto
    dsimp only
    have hd : L.sqrt ((5 - s.x) ^ 2 + (0 - s.y) ^ 2) = 5 := by
      rw [hL.2.2.2.2.1, hx, hy]
      have e5 : ((5 : ℝ) - 0) ^ 2 + (0 - 0) ^ 2 = 5 ^ 2 := by norm_num
      rw [e5]
      exact Real.sqrt_sq (by norm_num)
    rw [hd, if_pos (by rw [hD]; norm_num)]
    exact hrun
  have hx' : s'.x = 5 := by
    rw [f3]
    show s.x + ((250 : ℕ) : ℝ) * DISTANCE_PER_TIMESTEP = 5
    rw [hx, hD]
    norm_num
  have hy' : s'.y = 0 := by
    rw [f4]
    exact hy
  refine ⟨s', hgoto, ?_, ?_, hx', hy', ?_, ?_, ?_⟩
  · have e250 : (5 : ℝ) / DISTANCE_PER_TIMESTEP = ((250 : ℤ) : ℝ) := by
      rw [hD]
      norm_num
    rw [e250, Int.ceil_intCast]
    norm_num
  · rw [f2]
    rfl
  · rw [hx', hD]
    norm_num
  · rw [hy', hD]
    norm_num
  · intro t ht
    obtain ⟨st, _, _, _, _, _, _, _, _, hj⟩ := htrace (t + 1) (by omega)
    obtain ⟨sp, hsp, hstep, j1, j2, j3, j4, j5, j6, j7⟩ := hj t rfl
    obtain ⟨sp', hsp', _, p2, _⟩ := htrace t (by omega)
    have e' : sp' = sp := Option.some.inj (hsp'.symm.trans hsp)
    rw [e', if_pos (by omega)] at p2
    have hdec : decide (t + 1 ≤ 249) = decide (t + 1 < 250) := by
      by_cases hc : t + 1 ≤ 249
      · have hc' : t + 1 < 250 := by omega
        simp [hc, hc']
      · have hc' : ¬ (t + 1 < 250) := by omega
        simp [hc, hc']
    rw [hdec] at hstep
    exact ⟨sp, st, hsp, hstep, p2, j6, j7, j5, j3, j4, j1, j2⟩

theorem scen_main_shape : (scen_main_model : ModelState ℝ).ChainShape (36 + 36) := by
  unfold ModelState.ChainShape scen_main_model model_at_rest ring_at_rest Vector.mk
  simp

/-- Witness for C24: the deflect agent on the model of `main`, in the empty arena without
fences, over the reals. -/
theorem goto_forced_move_witness :
    ∃ s' : Simulation ℝ,
      Simulation.goto
        ⟨Real.cos, Real.sin, fun y x => Complex.arg ⟨x, y⟩, Real.exp, Real.sqrt, Real.pi⟩
        (fun _ => scen_tick) 250 5 0 scen_simulation = LoopResult.done (s', 250) ∧
      s'.agent.active_state = State.no_state ∧ s'.x = 5 ∧ s'.y = 0 := by
  obtain ⟨s', h1, _, h3, h4, h5, _⟩ := goto_forced_move
    ⟨Real.cos, Real.sin, fun y x => Complex.arg ⟨x, y⟩, Real.exp, Real.sqrt, Real.pi⟩
    ⟨rfl, rfl, fun _ _ => rfl, rfl, rfl, rfl⟩ (fun _ => scen_tick) scen_simulation 36 250
    (by decide)
    ⟨rfl, rfl, by show (1 / 20 : ℝ) ≤ 1; norm_num, by show (0 : ℝ) < 1 / 10; norm_num,
      scen_main_shape, Reachable.init 7, fun _ _ _ _ => rfl,
      fun fence hf => absurd hf (List.not_mem_nil fence)⟩
    rfl rfl (fun _ => Nat.le_refl 1) (le_refl 250)
  exact ⟨s', h1, h3, h4, h5⟩

end ForcedMove

end GridPlaceNav

